import Mathlib

/-!
# nuttk collections: Deque, Queue, TreeTable, Array, PQueue and SList

A shallow embedding of `src/src/nutdeque.c`, `src/src/nutqueue.c`,
`src/src/nutarray.c`, `src/src/nutpqueue.c` and `src/src/nutslist.c` (with
`include/nuterror.h`, `include/nutcommon.h`, `src/nutcommon.c`,
`core/nutmem.c`), and of the red-black tree behind
`include/nuttreetable.h`.  C objects are modelled by explicit
state passing: a function that mutates `Deque *deque` returns the new deque
next to its status code, and a function with an out-parameter returns
`Option Ptr`, `none` meaning that `*out` was not written.

`size_t` is a natural number reduced modulo `2 ^ bits`; element references
(`void *`) are natural numbers, `0` being `NULL`.
-/

namespace Nut

set_option maxRecDepth 100000

/-! ## Platform, status codes, machine arithmetic -/

/-- The build configuration: the width of `size_t` in bits and whether the
macro `ARCH_64` is defined (`include/nutcommon.h`). -/
structure Platform where
  bits : Nat
  arch64 : Bool
  deriving DecidableEq

/-- A 32-bit build: `size_t` of 32 bits, `ARCH_64` undefined. -/
def Platform.p32 : Platform := { bits := 32, arch64 := false }

/-- A 64-bit build with `ARCH_64` defined. -/
def Platform.p64 : Platform := { bits := 64, arch64 := true }

/-- A 64-bit build where `ARCH_64` is left undefined. -/
def Platform.p64plain : Platform := { bits := 64, arch64 := false }

/-- The status codes of `enum _NutState`, in declaration order. -/
inductive NutState where
  | NUT_OK
  | NUT_ERR
  | NUT_WARNING
  | NUT_FATAL
  | NUT_ERR_MALLOC
  | NUT_ERR_OUT_RANGE
  | NUT_ERR_INVALID_CAPACITY
  | NUT_ERR_INVALID_RANGE
  | NUT_ERR_MAX_CAPACITY
  | NUT_ERR_KEY_NOT_FOUND
  | NUT_ERR_VALUE_NOT_FOUND
  | NUT_ERR_OUT_OF_RANGE
  | NUT_ERR_NOT_FIND
  | NUT_ITER_END
  deriving DecidableEq

open NutState

/-- An element reference (`void *`). -/
abbrev Ptr := Nat

/-- A block of pointer slots (`void **`), addressed by slot number. -/
abbrev Block := Nat → Ptr

/-- Addition of `size_t` values. -/
def size_add (pf : Platform) (a b : Nat) : Nat := (a + b) % 2 ^ pf.bits

/-- Subtraction of `size_t` values, wrapping below zero. -/
def size_sub (pf : Platform) (a b : Nat) : Nat :=
  (a + (2 ^ pf.bits - b % 2 ^ pf.bits)) % 2 ^ pf.bits

/-- Multiplication of `size_t` values. -/
def size_mul (pf : Platform) (a b : Nat) : Nat := (a * b) % 2 ^ pf.bits

/-- Left shift `a << s` of a `size_t` value. -/
def size_shl (pf : Platform) (a s : Nat) : Nat := (a <<< s) % 2 ^ pf.bits

/-- The macro `MAX_POW_TWO`: `1 << 63` under `ARCH_64`, `1 << 31` otherwise. -/
def MAX_POW_TWO (pf : Platform) : Nat := if pf.arch64 then 1 <<< 63 else 1 <<< 31

/-- The platforms on which `MAX_POW_TWO` fits in a `size_t`. -/
def Platform.ok (pf : Platform) : Prop := MAX_POW_TWO pf < 2 ^ pf.bits

instance (pf : Platform) : Decidable pf.ok := by
  unfold Platform.ok; infer_instance

/-- The value of `sizeof(void*)` in bytes. -/
def PTR_SIZE (pf : Platform) : Nat := pf.bits / 8

/-- The value of `sizeof(Deque)`: four `size_t`, the buffer pointer and three
function pointers. -/
def SIZEOF_DEQUE (pf : Platform) : Nat := 8 * PTR_SIZE pf

/-- The constant `DEFAULT_CAPACITY`. -/
def DEFAULT_CAPACITY : Nat := 8

/-- The effect of `memmove(&buf[dst], &buf[src], n * sizeof(void*))`: the `n`
slots from `src` are copied to the `n` slots from `dst`, overlap allowed. -/
def memmove (buf : Block) (dst src n : Nat) : Block :=
  fun j => if dst ≤ j ∧ j < dst + n then buf (src + (j - dst)) else buf j

/-- The effect of `memcpy(&dest[dst], &source[src], n * sizeof(void*))` on the
destination block. -/
def memcpy (dest : Block) (dst : Nat) (source : Block) (src n : Nat) : Block :=
  fun j => if dst ≤ j ∧ j < dst + n then source (src + (j - dst)) else dest j

/-! ## The deque -/

/-- The record `struct nut_deque_s`.  An allocator is a function from the
request to the block it hands out (`none` for a null result); `mem_free` has
no effect on the state modelled here.  `slots` is a ghost field: the number
of pointer slots of the block `buffer` points to, which C does not store. -/
structure Deque where
  size : Nat
  capacity : Nat
  first : Nat
  last : Nat
  buffer : Block
  slots : Nat
  mem_alloc : Nat → Option Block
  mem_calloc : Nat → Nat → Option Block

/-- The record `DequeConf`. -/
structure DequeConf where
  capacity : Nat
  mem_alloc : Nat → Option Block
  mem_calloc : Nat → Nat → Option Block

/-- The function `upper_pow_two`. -/
def upper_pow_two (pf : Platform) (n : Nat) : Nat :=
  if n ≥ MAX_POW_TWO pf then MAX_POW_TWO pf
  else if n = 0 then 2
  else
    let n := size_sub pf n 1
    let n := n ||| (n >>> 1)
    let n := n ||| (n >>> 2)
    let n := n ||| (n >>> 4)
    let n := n ||| (n >>> 8)
    let n := n ||| (n >>> 16)
    size_add pf n 1

/-- The function `copy_buffer`: the contents of `buff` after the call.  With
`cp = none` (a null `cp`) the elements are moved by `memcpy`; otherwise each
element is passed through `cp`. -/
def copy_buffer (pf : Platform) (deque : Deque) (buff : Block)
    (cp : Option (Ptr → Ptr)) : Block :=
  match cp with
  | none =>
    if deque.last > deque.first then
      memcpy buff 0 deque.buffer deque.first deque.size
    else
      let l := deque.last
      let e := size_sub pf deque.capacity deque.first
      memcpy (memcpy buff 0 deque.buffer deque.first e) e deque.buffer 0 l
  | some f =>
    (List.range deque.size).foldl
      (fun b i =>
        let p := (size_add pf deque.first i) &&& (size_sub pf deque.capacity 1)
        Function.update b i (f (deque.buffer p)))
      buff

/-- The function `expand_capacity`. -/
def expand_capacity (pf : Platform) (deque : Deque) : NutState × Deque :=
  if deque.capacity = MAX_POW_TWO pf then (NUT_ERR_MAX_CAPACITY, deque)
  else
    let new_capacity := size_shl pf deque.capacity 1
    match deque.mem_calloc new_capacity (PTR_SIZE pf) with
    | none => (NUT_ERR_MALLOC, deque)
    | some new_buffer =>
      let new_buffer := copy_buffer pf deque new_buffer none
      (NUT_OK, { deque with
        first := 0
        last := deque.size
        capacity := new_capacity
        buffer := new_buffer
        slots := new_capacity })

/-- The function `nut_deque_new_conf`. -/
def nut_deque_new_conf (pf : Platform) (conf : DequeConf) : NutState × Option Deque :=
  match conf.mem_calloc 1 (SIZEOF_DEQUE pf) with
  | none => (NUT_ERR_MALLOC, none)
  | some _ =>
    match conf.mem_alloc (size_mul pf conf.capacity (PTR_SIZE pf)) with
    | none => (NUT_ERR_MALLOC, none)
    | some buffer =>
      (NUT_OK, some {
        size := 0
        capacity := upper_pow_two pf conf.capacity
        first := 0
        last := 0
        buffer := buffer
        slots := size_mul pf conf.capacity (PTR_SIZE pf) / PTR_SIZE pf
        mem_alloc := conf.mem_alloc
        mem_calloc := conf.mem_calloc })

/-- The functions `nut_mem_malloc` and `nut_mem_calloc` of `core/nutmem.c`
over the port allocator `pvPortMalloc`, as `nut_deque_conf_init` installs
them together with `DEFAULT_CAPACITY`. -/
def nut_deque_conf_init (pf : Platform) (pvPortMalloc : Nat → Option Block) : DequeConf :=
  { capacity := DEFAULT_CAPACITY
    mem_alloc := fun size => pvPortMalloc size
    mem_calloc := fun blocks size => pvPortMalloc (size_mul pf blocks size) }

/-- The function `nut_deque_new`. -/
def nut_deque_new (pf : Platform) (pvPortMalloc : Nat → Option Block) :
    NutState × Option Deque :=
  nut_deque_new_conf pf (nut_deque_conf_init pf pvPortMalloc)

/-- The function `nut_deque_add_first`. -/
def nut_deque_add_first (pf : Platform) (deque : Deque) (element : Ptr) : NutState × Deque :=
  let r := if deque.size ≥ deque.capacity then expand_capacity pf deque else (NUT_OK, deque)
  if r.1 ≠ NUT_OK then (NUT_ERR_MALLOC, r.2)
  else
    let deque := r.2
    let first := (size_sub pf deque.first 1) &&& (size_sub pf deque.capacity 1)
    (NUT_OK, { deque with
      first := first
      buffer := Function.update deque.buffer first element
      size := size_add pf deque.size 1 })

/-- The function `nut_deque_add_last`. -/
def nut_deque_add_last (pf : Platform) (deque : Deque) (element : Ptr) : NutState × Deque :=
  let r := if deque.capacity = deque.size then expand_capacity pf deque else (NUT_OK, deque)
  if r.1 ≠ NUT_OK then (NUT_ERR_MALLOC, r.2)
  else
    let deque := r.2
    (NUT_OK, { deque with
      buffer := Function.update deque.buffer deque.last element
      last := (size_add pf deque.last 1) &&& (size_sub pf deque.capacity 1)
      size := size_add pf deque.size 1 })

/-- The function `nut_deque_remove_first`. -/
def nut_deque_remove_first (pf : Platform) (deque : Deque) : NutState × Deque × Option Ptr :=
  if deque.size = 0 then (NUT_ERR_OUT_OF_RANGE, deque, none)
  else
    let element := deque.buffer deque.first
    (NUT_OK,
      { deque with
        first := (size_add pf deque.first 1) &&& (size_sub pf deque.capacity 1)
        size := size_sub pf deque.size 1 },
      some element)

/-- The function `nut_deque_remove_last`. -/
def nut_deque_remove_last (pf : Platform) (deque : Deque) : NutState × Deque × Option Ptr :=
  if deque.size = 0 then (NUT_ERR_OUT_OF_RANGE, deque, none)
  else
    let last := (size_sub pf deque.last 1) &&& (size_sub pf deque.capacity 1)
    let element := deque.buffer last
    (NUT_OK, { deque with last := last, size := size_sub pf deque.size 1 }, some element)

/-- The function `nut_deque_get_at`. -/
def nut_deque_get_at (pf : Platform) (deque : Deque) (index : Nat) : NutState × Option Ptr :=
  if index > deque.size then (NUT_ERR_OUT_OF_RANGE, none)
  else
    let i := (size_add pf deque.first index) &&& (size_sub pf deque.capacity 1)
    (NUT_OK, some (deque.buffer i))

/-- The function `nut_deque_replace_at`. -/
def nut_deque_replace_at (pf : Platform) (deque : Deque) (element : Ptr) (index : Nat) :
    NutState × Deque × Option Ptr :=
  if index ≥ deque.size then (NUT_ERR_OUT_OF_RANGE, deque, none)
  else
    let i := (size_add pf deque.first index) &&& (size_sub pf deque.capacity 1)
    (NUT_OK, { deque with buffer := Function.update deque.buffer i element },
      some (deque.buffer i))

/-- The function `nut_deque_add_at`. -/
def nut_deque_add_at (pf : Platform) (deque : Deque) (element : Ptr) (index : Nat) :
    NutState × Deque :=
  if index ≥ deque.size then (NUT_ERR_OUT_OF_RANGE, deque)
  else
    let r := if deque.capacity = deque.size then expand_capacity pf deque else (NUT_OK, deque)
    if r.1 ≠ NUT_OK then (NUT_ERR_MALLOC, r.2)
    else
      let deque := r.2
      let c := size_sub pf deque.capacity 1
      let l := deque.last &&& c
      let f := deque.first &&& c
      let p := (size_add pf deque.first index) &&& c
      if index = 0 then nut_deque_add_first pf deque element
      else if index = c then nut_deque_add_last pf deque element
      else
        let deque :=
          if index ≤ size_sub pf (deque.size / 2) 1 then
            let buffer :=
              if p < f ∨ f = 0 then
                let r_move := if f ≠ 0 then size_add pf (size_sub pf c f) 1 else 0
                let l_move := p
                let e_first := deque.buffer 0
                let b := deque.buffer
                let b := if f ≠ 0 then memmove b (size_sub pf f 1) f r_move else b
                let b := if p ≠ 0 then memmove b 0 1 l_move else b
                Function.update b c e_first
              else
                memmove deque.buffer (size_sub pf f 1) f index
            { deque with buffer := buffer, first := (size_sub pf deque.first 1) &&& c }
          else
            let buffer :=
              if p > l ∨ l = c then
                let e_last := deque.buffer c
                let b := deque.buffer
                let b := if p ≠ c then memmove b (size_add pf p 1) p (size_sub pf c p) else b
                let b := if l ≠ c then memmove b 1 0 (size_add pf l 1) else b
                Function.update b 0 e_last
              else
                memmove deque.buffer (size_add pf p 1) p (size_sub pf deque.size index)
            { deque with buffer := buffer, last := (size_add pf deque.last 1) &&& c }
        (NUT_OK, { deque with
          buffer := Function.update deque.buffer p element
          size := size_add pf deque.size 1 })

/-- The function `nut_deque_remove_at`. -/
def nut_deque_remove_at (pf : Platform) (deque : Deque) (index : Nat) :
    NutState × Deque × Option Ptr :=
  if index ≥ deque.size then (NUT_ERR_OUT_OF_RANGE, deque, none)
  else
    let c := size_sub pf deque.capacity 1
    let l := deque.last &&& c
    let f := deque.first &&& c
    let p := (size_add pf deque.first index) &&& c
    let removed := deque.buffer index
    if index = 0 then nut_deque_remove_first pf deque
    else if index = c then nut_deque_remove_last pf deque
    else
      let deque :=
        if index ≤ size_sub pf (deque.size / 2) 1 then
          let buffer :=
            if p < f then
              let e := deque.buffer c
              let b := deque.buffer
              let b := if f ≠ c then memmove b (size_add pf f 1) f (size_sub pf c f) else b
              let b := if p ≠ 0 then memmove b 1 0 p else b
              Function.update b 0 e
            else
              memmove deque.buffer (size_add pf f 1) f index
          { deque with buffer := buffer, first := (size_add pf deque.first 1) &&& c }
        else
          let buffer :=
            if p > l then
              let e := deque.buffer 0
              let b := deque.buffer
              let b := if p ≠ c then memmove b p (size_add pf p 1) (size_sub pf c p) else b
              let b := if p ≠ 0 then memmove b 1 0 l else b
              Function.update b c e
            else
              memmove deque.buffer p (size_add pf p 1) (size_sub pf l p)
          { deque with buffer := buffer, last := (size_sub pf deque.last 1) &&& c }
      (NUT_OK, { deque with size := size_sub pf deque.size 1 }, some removed)

/-- The function `nut_deque_remove_all`. -/
def nut_deque_remove_all (deque : Deque) : Deque :=
  { deque with first := 0, last := 0, size := 0 }

/-- The function `nut_deque_index_of`: the status and the value written
through `index` (`none` when nothing is written). -/
def nut_deque_index_of (pf : Platform) (deque : Deque) (element : Ptr) :
    NutState × Option Nat :=
  match (List.range deque.size).find? (fun i =>
      deque.buffer (size_add pf deque.first i &&& size_sub pf deque.capacity 1) == element) with
  | some i => (NUT_OK, some i)
  | none => (NUT_ERR_OUT_OF_RANGE, none)

/-- The function `nut_deque_remove`.  The last branch is not reached:
`nut_deque_index_of` writes the index whenever it returns `NUT_OK`. -/
def nut_deque_remove (pf : Platform) (deque : Deque) (element : Ptr) :
    NutState × Deque × Option Ptr :=
  let r := nut_deque_index_of pf deque element
  if r.1 ≠ NUT_OK then (r.1, deque, none)
  else
    match r.2 with
    | some index => nut_deque_remove_at pf deque index
    | none => (r.1, deque, none)

/-- The function `nut_deque_trim_capacity`. -/
def nut_deque_trim_capacity (pf : Platform) (deque : Deque) : NutState × Deque :=
  if deque.capacity = deque.size then (NUT_OK, deque)
  else
    let new_size := upper_pow_two pf deque.size
    if new_size = deque.capacity then (NUT_OK, deque)
    else
      match deque.mem_alloc (size_mul pf (PTR_SIZE pf) new_size) with
      | none => (NUT_ERR_MALLOC, deque)
      | some new_buff =>
        let new_buff := copy_buffer pf deque new_buff none
        (NUT_OK, { deque with
          buffer := new_buff
          first := 0
          last := deque.size
          capacity := new_size
          slots := size_mul pf (PTR_SIZE pf) new_size / PTR_SIZE pf })

/-- The loop of `nut_deque_reverse`, `n` iterations from the indices `i`, `j`. -/
def reverse_loop (pf : Platform) (c first : Nat) : Nat → Nat → Nat → Block → Block
  | 0, _, _, buffer => buffer
  | n + 1, i, j, buffer =>
    let f := size_add pf first i &&& c
    let l := size_add pf first j &&& c
    let tmp := buffer f
    let buffer := Function.update buffer f (buffer l)
    let buffer := Function.update buffer l tmp
    reverse_loop pf c first n (size_add pf i 1) (size_sub pf j 1) buffer

/-- The function `nut_deque_reverse`: the loop runs while `i < (s - 1) / 2`,
from `i = 0`, `j = s - 1`. -/
def nut_deque_reverse (pf : Platform) (deque : Deque) : Deque :=
  let s := deque.size
  let c := size_sub pf deque.capacity 1
  let first := deque.first
  { deque with
    buffer := reverse_loop pf c first (size_sub pf s 1 / 2) 0 (size_sub pf s 1) deque.buffer }

/-- The loop of `nut_deque_filter_mut` from the index `i`, with the number of
iterations still allowed. -/
def filter_mut_loop (pf : Platform) (pred : Ptr → Bool) (c : Nat) : Nat → Deque → Nat → Deque
  | 0, deque, _ => deque
  | fuel + 1, deque, i =>
    if i < deque.size then
      let d_index := size_add pf deque.first i &&& c
      if !pred (deque.buffer d_index) then
        filter_mut_loop pf pred c fuel (nut_deque_remove_at pf deque i).2.1 i
      else
        filter_mut_loop pf pred c fuel deque (size_add pf i 1)
    else deque

/-- The function `nut_deque_filter_mut`.  Every iteration of its loop removes
an element or advances the index, so `size` iterations are allowed. -/
def nut_deque_filter_mut (pf : Platform) (deque : Deque) (pred : Ptr → Bool) :
    NutState × Deque :=
  if deque.size = 0 then (NUT_ERR_OUT_OF_RANGE, deque)
  else
    (NUT_OK, filter_mut_loop pf pred (size_sub pf deque.capacity 1) deque.size deque 0)

/-- The record `DequeIter`; the deque it points to is carried along. -/
structure DequeIter where
  deque : Deque
  index : Nat
  last_removed : Bool

/-- The function `nut_deque_iter_init`. -/
def nut_deque_iter_init (deque : Deque) : DequeIter :=
  { deque := deque, index := 0, last_removed := false }

/-- The function `nut_deque_iter_next`. -/
def nut_deque_iter_next (pf : Platform) (iter : DequeIter) : NutState × DequeIter × Option Ptr :=
  let c := size_sub pf iter.deque.capacity 1
  let last := iter.deque.last &&& c
  let first := iter.deque.first &&& c
  if last = first ∨ iter.index ≥ iter.deque.size then (NUT_ITER_END, iter, none)
  else
    let i := size_add pf iter.deque.first iter.index &&& c
    (NUT_OK, { iter with index := size_add pf iter.index 1, last_removed := false },
      some (iter.deque.buffer i))

/-- The function `nut_deque_iter_remove`. -/
def nut_deque_iter_remove (pf : Platform) (iter : DequeIter) :
    NutState × DequeIter × Option Ptr :=
  if iter.last_removed then (NUT_ERR_VALUE_NOT_FOUND, iter, none)
  else
    let r := nut_deque_remove_at pf iter.deque iter.index
    if r.1 = NUT_OK then
      (r.1, { deque := r.2.1, index := size_sub pf iter.index 1, last_removed := true }, r.2.2)
    else (r.1, { iter with deque := r.2.1 }, none)

/-- The function `nut_deque_iter_add`. -/
def nut_deque_iter_add (pf : Platform) (iter : DequeIter) (element : Ptr) :
    NutState × DequeIter :=
  let r := nut_deque_add_at pf iter.deque element iter.index
  if r.1 = NUT_OK then (r.1, { iter with deque := r.2, index := size_add pf iter.index 1 })
  else (r.1, { iter with deque := r.2 })

/-- The function `nut_deque_iter_replace`. -/
def nut_deque_iter_replace (pf : Platform) (iter : DequeIter) (replacement : Ptr) :
    NutState × DequeIter × Option Ptr :=
  let r := nut_deque_replace_at pf iter.deque replacement iter.index
  (r.1, { iter with deque := r.2.1 }, r.2.2)

/-- The logical contents of a deque as `nut_deque_get_at` reports them at the
indices `0 .. size - 1` (`none` where the call writes nothing). -/
def Deque.contents (pf : Platform) (deque : Deque) : List (Option Ptr) :=
  (List.range deque.size).map (fun i => (nut_deque_get_at pf deque i).2)


/-! ## Representation invariant and reference model -/

/-- The representation invariant of a deque: the capacity is a power of two
that fits below `MAX_POW_TWO`, the size does not exceed it, `first` is a slot
of the buffer and `last = (first + size) & (capacity - 1)`. -/
def Deque.WellFormed (pf : Platform) (d : Deque) : Prop :=
  (∃ k < pf.bits, d.capacity = 2 ^ k) ∧ d.capacity ≤ MAX_POW_TWO pf ∧
    d.size ≤ d.capacity ∧ d.first < d.capacity ∧
    d.last = (d.first + d.size) &&& (d.capacity - 1)

instance (pf : Platform) (d : Deque) : Decidable (d.WellFormed pf) := by
  unfold Deque.WellFormed; infer_instance

/-- The deque `d` is well formed and holds the logical sequence `s`: the
element of index `i` sits in slot `(first + i) mod capacity`. -/
def Deque.Models (pf : Platform) (d : Deque) (s : List Ptr) : Prop :=
  d.WellFormed pf ∧ s.length = d.size ∧
    ∀ i, i < d.size → s[i]? = some (d.buffer ((d.first + i) % d.capacity))

/-- The four end operations of the deque. -/
inductive DequeOp where
  | add_last (e : Ptr)
  | add_first (e : Ptr)
  | remove_first
  | remove_last
  deriving DecidableEq

/-- One end operation on the deque: status, new deque, and the value written
through `out` by a remove. -/
def DequeOp.apply (pf : Platform) (d : Deque) : DequeOp → NutState × Deque × Option Ptr
  | .add_last e => ((nut_deque_add_last pf d e).1, (nut_deque_add_last pf d e).2, none)
  | .add_first e => ((nut_deque_add_first pf d e).1, (nut_deque_add_first pf d e).2, none)
  | .remove_first => nut_deque_remove_first pf d
  | .remove_last => nut_deque_remove_last pf d

/-- The same operation on the reference unbounded sequence. -/
def DequeOp.applyRef (s : List Ptr) : DequeOp → NutState × List Ptr × Option Ptr
  | .add_last e => (NUT_OK, s ++ [e], none)
  | .add_first e => (NUT_OK, e :: s, none)
  | .remove_first =>
    match s with
    | [] => (NUT_ERR_OUT_OF_RANGE, [], none)
    | x :: t => (NUT_OK, t, some x)
  | .remove_last =>
    match s.getLast? with
    | none => (NUT_ERR_OUT_OF_RANGE, s, none)
    | some x => (NUT_OK, s.dropLast, some x)

/-- A sequence of end operations run on a deque: the final deque and the
status and out-value of every call, in order. -/
def run (pf : Platform) (d : Deque) : List DequeOp → Deque × List (NutState × Option Ptr)
  | [] => (d, [])
  | op :: ops =>
    ((run pf (op.apply pf d).2.1 ops).1,
      ((op.apply pf d).1, (op.apply pf d).2.2) :: (run pf (op.apply pf d).2.1 ops).2)

/-- The same sequence run on the reference sequence. -/
def runRef (s : List Ptr) : List DequeOp → List Ptr × List (NutState × Option Ptr)
  | [] => (s, [])
  | op :: ops =>
    ((runRef (op.applyRef s).2.1 ops).1,
      ((op.applyRef s).1, (op.applyRef s).2.2) :: (runRef (op.applyRef s).2.1 ops).2)

/-- Whether the capacity is below `MAX_POW_TWO` in every state the run of
`ops` from `d` passes through, the first and the last included. -/
def staysBelowMax (pf : Platform) (d : Deque) : List DequeOp → Bool
  | [] => decide (d.capacity < MAX_POW_TWO pf)
  | op :: ops => decide (d.capacity < MAX_POW_TWO pf) && staysBelowMax pf (op.apply pf d).2.1 ops

/-- The capacity invariant: the capacity is a power of two and the size does
not exceed it. -/
def Deque.CapacityInvariant (d : Deque) : Prop :=
  (∃ k, d.capacity = 2 ^ k) ∧ d.size ≤ d.capacity

/-- The elements of a deque in logical order. -/
def Deque.toList (d : Deque) : List Ptr :=
  (List.range d.size).map (fun i => d.buffer ((d.first + i) % d.capacity))


/-! ## Rounding: the steps of `upper_pow_two` and what the specification promises -/

/-- The five shift-or steps in the body of `upper_pow_two`. -/
def smear (n : Nat) : Nat :=
  let n := n ||| (n >>> 1)
  let n := n ||| (n >>> 2)
  let n := n ||| (n >>> 4)
  let n := n ||| (n >>> 8)
  let n := n ||| (n >>> 16)
  n

/-- The number `c` is the least power of two that is at least `n`. -/
def IsLeastPowTwoGe (n c : Nat) : Prop :=
  (∃ k, c = 2 ^ k) ∧ n ≤ c ∧ ∀ c', (∃ k, c' = 2 ^ k) → n ≤ c' → c ≤ c'

/-- The capacity the specification promises for a requested capacity `n`:
the least power of two that is at least `n` and at least 2, or `MAX_POW_TWO`
for a request of `MAX_POW_TWO` or more. -/
def SpecNewCapacity (pf : Platform) (n c : Nat) : Prop :=
  if MAX_POW_TWO pf ≤ n then c = MAX_POW_TWO pf else IsLeastPowTwoGe (max n 2) c

/-- In `x`, no bit above position `t` is set and the `w` bits from position
`t` downwards are all set. -/
def TopBits (t w x : Nat) : Prop :=
  (∀ i, t < i → x.testBit i = false) ∧ (∀ i, i ≤ t → t < i + w → x.testBit i = true)

/-! ## Concrete states used as test inputs -/

/-- A block of uninitialised memory: slot `j` holds the stray value `1000 + j`. -/
def uninit : Block := fun j => 1000 + j

/-- An allocator that never fails and hands out uninitialised memory. -/
def heap : Nat → Option Block := fun _ => some uninit

/-- The deque `nut_deque_new` returns over the allocator `heap`. -/
def freshDeque : Deque :=
  { size := 0, capacity := 8, first := 0, last := 0, buffer := uninit, slots := 8,
    mem_alloc := fun size => heap size
    mem_calloc := fun blocks size => heap (size_mul Platform.p64 blocks size) }

/-- Twenty-two end operations that grow the deque and wrap its indices. -/
def wrapOps : List DequeOp :=
  [.add_first 1, .add_first 2, .add_last 3, .add_last 4, .add_last 5, .add_last 6,
   .add_last 7, .add_last 8, .add_first 9, .remove_last, .remove_first, .add_last 10,
   .remove_first, .remove_first, .remove_first, .remove_first, .remove_first,
   .remove_first, .remove_first, .remove_first, .remove_last, .add_first 11]

/-- An allocator pair that never fails, for configurations. -/
def heapConf (capacity : Nat) : DequeConf :=
  { capacity := capacity, mem_alloc := heap, mem_calloc := fun _ _ => some uninit }

/-- Scenario A of the specification: `add_last(1)`, `add_last(2)`, `add_first(0)`. -/
def scenarioAOps : List DequeOp := [.add_last 1, .add_last 2, .add_first 0]

/-- Four pushes at the front and three at the back: the sequence 0,…,6 starts
in slot 4 and its tail wraps to the slots 0, 1, 2. -/
def wrappedTailOps : List DequeOp :=
  [.add_first 3, .add_first 2, .add_first 1, .add_first 0, .add_last 4, .add_last 5,
   .add_last 6]

/-- Six pushes at the back: the sequence 1,…,6 in the slots 0,…,5. -/
def sixOps : List DequeOp :=
  [.add_last 1, .add_last 2, .add_last 3, .add_last 4, .add_last 5, .add_last 6]

/-- Six pushes at the back and two pops at the front: the sequence 3,…,6 in
the slots 2,…,5. -/
def shiftedOps : List DequeOp :=
  [.add_last 1, .add_last 2, .add_last 3, .add_last 4, .add_last 5, .add_last 6,
   .remove_first, .remove_first]

/-- A full deque whose capacity is `MAX_POW_TWO` on a 64-bit build without
`ARCH_64`. -/
def maxDeque : Deque :=
  { size := 2 ^ 31, capacity := 2 ^ 31, first := 0, last := 0, buffer := uninit,
    slots := 2 ^ 31, mem_alloc := heap, mem_calloc := fun _ _ => some uninit }

/-- The deque of `wrappedTailOps`. -/
def wrappedTail : Deque := (run Platform.p64 freshDeque wrappedTailOps).1

/-- The deque of scenario A. -/
def scenarioA : Deque := (run Platform.p64 freshDeque scenarioAOps).1

/-- The deque of `sixOps`. -/
def six : Deque := (run Platform.p64 freshDeque sixOps).1

/-- The deque of `shiftedOps`. -/
def shifted : Deque := (run Platform.p64 freshDeque shiftedOps).1

/-- The deque holding 1, 2. -/
def pair : Deque := (run Platform.p64 freshDeque [.add_last 1, .add_last 2]).1

/-! ## Reading the ends, iterator runs -/

/-- The function `nut_deque_get_first`. -/
def nut_deque_get_first (deque : Deque) : NutState × Option Ptr :=
  if deque.size = 0 then (NUT_ERR_OUT_OF_RANGE, none)
  else (NUT_OK, some (deque.buffer deque.first))

/-- The function `nut_deque_get_last`. -/
def nut_deque_get_last (pf : Platform) (deque : Deque) : NutState × Option Ptr :=
  if deque.size = 0 then (NUT_ERR_OUT_OF_RANGE, none)
  else
    let last := size_sub pf deque.last 1 &&& size_sub pf deque.capacity 1
    (NUT_OK, some (deque.buffer last))

/-- The calls a client makes on a deque iterator. -/
inductive IterOp where
  | next
  | remove
  | replace (replacement : Ptr)
  | add (element : Ptr)
  deriving DecidableEq

/-- One iterator call: status, new iterator, and the value written through
`out`. -/
def IterOp.apply (pf : Platform) (iter : DequeIter) : IterOp → NutState × DequeIter × Option Ptr
  | .next => nut_deque_iter_next pf iter
  | .remove => nut_deque_iter_remove pf iter
  | .replace r => nut_deque_iter_replace pf iter r
  | .add e => ((nut_deque_iter_add pf iter e).1, (nut_deque_iter_add pf iter e).2, none)

/-- A sequence of iterator calls: the final iterator and the status and
out-value of every call, in order. -/
def runIter (pf : Platform) (iter : DequeIter) :
    List IterOp → DequeIter × List (NutState × Option Ptr)
  | [] => (iter, [])
  | op :: ops =>
    ((runIter pf (op.apply pf iter).2.1 ops).1,
      ((op.apply pf iter).1, (op.apply pf iter).2.2) :: (runIter pf (op.apply pf iter).2.1 ops).2)

/-- A deque whose doubled buffer the allocator refuses: full, capacity 8,
the sequence 1,…,8 starting in slot 3. -/
def starvedDeque : Deque :=
  { size := 8, capacity := 8, first := 3, last := 3,
    buffer := fun j => (j + 8 - 3) % 8 + 1, slots := 8,
    mem_alloc := fun _ => none, mem_calloc := fun _ _ => none }

/-- The same full deque over the allocator `heap`. -/
def fullDeque : Deque :=
  { starvedDeque with mem_alloc := heap, mem_calloc := fun _ _ => some uninit }

/-- Three pushes at the back and three pops at the front: an empty deque of
capacity 8 with `first = last = 3`. -/
def drainedOps : List DequeOp :=
  [.add_last 1, .add_last 2, .add_last 3, .remove_first, .remove_first, .remove_first]

/-- The deque of `drainedOps`. -/
def drained : Deque := (run Platform.p64 freshDeque drainedOps).1

/-- The deque holding 1, 2, 3, 4. -/
def four : Deque :=
  (run Platform.p64 freshDeque [.add_last 1, .add_last 2, .add_last 3, .add_last 4]).1

/-- The deque holding 1, 2, 3. -/
def three : Deque := (run Platform.p64 freshDeque [.add_last 1, .add_last 2, .add_last 3]).1

/-- Eight pushes at the back: the full deque holding 1,…,8 from slot 0 on. -/
def eight : Deque :=
  (run Platform.p64 freshDeque [.add_last 1, .add_last 2, .add_last 3, .add_last 4,
    .add_last 5, .add_last 6, .add_last 7, .add_last 8]).1

/-! ## The Queue over the deque -/

/-- The record `struct nut_queue_s`. -/
structure Queue where
  d : Deque
  mem_alloc : Nat → Option Block
  mem_calloc : Nat → Nat → Option Block

/-- The value of `sizeof(Queue)`: the deque pointer and three function
pointers. -/
def SIZEOF_QUEUE (pf : Platform) : Nat := 4 * PTR_SIZE pf

/-- The function `nut_queue_conf_init`; `QueueConf` is `DequeConf`. -/
def nut_queue_conf_init (pf : Platform) (pvPortMalloc : Nat → Option Block) : DequeConf :=
  nut_deque_conf_init pf pvPortMalloc

/-- The function `nut_queue_new_conf`.  The local `deque` is not initialised
and `nut_deque_new_conf` writes it only on success: `stale` stands for what
it holds otherwise (`none` for a null pointer). -/
def nut_queue_new_conf (pf : Platform) (conf : DequeConf) (stale : Option Deque) :
    NutState × Option Queue :=
  match conf.mem_calloc 1 (SIZEOF_QUEUE pf) with
  | none => (NUT_ERR_MALLOC, none)
  | some _ =>
    let deque :=
      match (nut_deque_new_conf pf conf).2 with
      | some d => some d
      | none => stale
    match deque with
    | none => (NUT_ERR_MALLOC, none)
    | some deque =>
      (NUT_OK, some { d := deque, mem_alloc := conf.mem_alloc, mem_calloc := conf.mem_calloc })

/-- The function `nut_queue_new`. -/
def nut_queue_new (pf : Platform) (pvPortMalloc : Nat → Option Block)
    (stale : Option Deque) : NutState × Option Queue :=
  nut_queue_new_conf pf (nut_queue_conf_init pf pvPortMalloc) stale

/-- The function `nut_queue_peek`. -/
def nut_queue_peek (pf : Platform) (queue : Queue) : NutState × Option Ptr :=
  nut_deque_get_last pf queue.d

/-- The function `nut_queue_poll`. -/
def nut_queue_poll (pf : Platform) (queue : Queue) : NutState × Queue × Option Ptr :=
  ((nut_deque_remove_last pf queue.d).1,
    { queue with d := (nut_deque_remove_last pf queue.d).2.1 },
    (nut_deque_remove_last pf queue.d).2.2)

/-- The function `nut_queue_enqueue`. -/
def nut_queue_enqueue (pf : Platform) (queue : Queue) (element : Ptr) : NutState × Queue :=
  ((nut_deque_add_first pf queue.d element).1,
    { queue with d := (nut_deque_add_first pf queue.d element).2 })

/-- The function `nut_queue_size`. -/
def nut_queue_size (queue : Queue) : Nat := queue.d.size

/-- The calls a client makes on a queue. -/
inductive QueueOp where
  | enqueue (e : Ptr)
  | poll
  | peek
  deriving DecidableEq

/-- One queue call: status, new queue, and the value written through `out`. -/
def QueueOp.apply (pf : Platform) (q : Queue) : QueueOp → NutState × Queue × Option Ptr
  | .enqueue e => ((nut_queue_enqueue pf q e).1, (nut_queue_enqueue pf q e).2, none)
  | .poll => nut_queue_poll pf q
  | .peek => ((nut_queue_peek pf q).1, q, (nut_queue_peek pf q).2)

/-- A sequence of queue calls: the final queue and the status and out-value
of every call, in order. -/
def runQueue (pf : Platform) (q : Queue) : List QueueOp → Queue × List (NutState × Option Ptr)
  | [] => (q, [])
  | op :: ops =>
    ((runQueue pf (op.apply pf q).2.1 ops).1,
      ((op.apply pf q).1, (op.apply pf q).2.2) :: (runQueue pf (op.apply pf q).2.1 ops).2)

/-- The calls that empty a queue of `n` elements: `n` times a peek and a poll. -/
def drainOps : Nat → List QueueOp
  | 0 => []
  | n + 1 => .peek :: .poll :: drainOps n

/-- What a first-in first-out queue answers to `drainOps` when the elements
`es` were enqueued in that order: each element, first to the peek and then to
the poll. -/
def drainTrace : List Ptr → List (NutState × Option Ptr)
  | [] => []
  | e :: es => (NUT_OK, some e) :: (NUT_OK, some e) :: drainTrace es

/-- The queue `nut_queue_new` returns over the allocator `heap`. -/
def freshQueue : Queue :=
  { d := freshDeque, mem_alloc := fun size => heap size,
    mem_calloc := fun blocks size => heap (size_mul Platform.p64 blocks size) }

/-! ## The red-black TreeTable

The file `nuttreetable.c` is not among the sources; only the header
`include/nuttreetable.h` and the caller `src/nuttreeset.c` are.  The tree
below follows sections 3 and 4.2 of the specification.  The `parent` link of
a node serves only to walk upwards; here the walk upwards is the return from
the recursive descent, so the link is not stored. -/

/-- The two node colours of `RBNode.color`. -/
inductive RBColor where
  | RED
  | BLACK
  deriving DecidableEq

/-- Modelled from the spec: the record `RBNode` of `include/nuttreetable.h`,
whose functions in `nuttreetable.c` are missing: a binary tree node with key,
value, colour and two children; a null child is `nil` (no sentinel nodes). -/
inductive RBNode where
  | nil
  | node (color : RBColor) (left : RBNode) (key value : Ptr) (right : RBNode)
  deriving DecidableEq

open RBColor

/-- Whether a child is a red node; null leaves count as black. -/
def RBNode.isRed : RBNode → Bool
  | .node RED _ _ _ _ => true
  | _ => false

/-- Recolouring of a node. -/
def rb_set_color (c : RBColor) : RBNode → RBNode
  | .node _ l k v r => .node c l k v r
  | .nil => .nil

/-- Left rotation at a node: its right child takes its place. -/
def rb_rotate_left : RBNode → RBNode
  | .node c a k v (.node c' b k' v' d) => .node c' (.node c a k v b) k' v' d
  | t => t

/-- Right rotation at a node: its left child takes its place. -/
def rb_rotate_right : RBNode → RBNode
  | .node c (.node c' a k' v' b) k v d => .node c' a k' v' (.node c b k v d)
  | t => t

/-- Modelled from the spec: one step of the insertion fixup of the missing
`nuttreetable.c`, seen from the grandparent `(c, l, k, v, r)` after an
insertion below its left child `l`.  When `l` is red and has a red child, a
red uncle `r` gives a recolouring (the violation may move up), a black uncle
a rotation followed by a recolouring. -/
def rb_insert_fix_left (c : RBColor) (l : RBNode) (k v : Ptr) (r : RBNode) : RBNode :=
  match l with
  | .node RED ll lk lv lr =>
    if ll.isRed || lr.isRed then
      if r.isRed then
        .node RED (.node BLACK ll lk lv lr) k v (rb_set_color BLACK r)
      else if ll.isRed then
        rb_rotate_right (.node RED (.node BLACK ll lk lv lr) k v r)
      else
        rb_rotate_right
          (.node RED (rb_set_color BLACK (rb_rotate_left (.node RED ll lk lv lr))) k v r)
    else .node c l k v r
  | _ => .node c l k v r

/-- Modelled from the spec: the mirror image of `rb_insert_fix_left` (the
missing `nuttreetable.c`), after an insertion below the right child `r`. -/
def rb_insert_fix_right (c : RBColor) (l : RBNode) (k v : Ptr) (r : RBNode) : RBNode :=
  match r with
  | .node RED rl rk rv rr =>
    if rl.isRed || rr.isRed then
      if l.isRed then
        .node RED (rb_set_color BLACK l) k v (.node BLACK rl rk rv rr)
      else if rr.isRed then
        rb_rotate_left (.node RED l k v (.node BLACK rl rk rv rr))
      else
        rb_rotate_left
          (.node RED l k v (rb_set_color BLACK (rb_rotate_right (.node RED rl rk rv rr))))
    else .node c l k v r
  | _ => .node c l k v r

/-- Modelled from the spec: the descent of `nut_treetable_add` (the missing
`nuttreetable.c`) for a key that is not stored: the comparator leads to a
null child, where a new red node is linked, and the fixup runs at every node
on the way back up. -/
def rb_insert (cmp : Ptr → Ptr → Int) (t : RBNode) (k v : Ptr) : RBNode :=
  match t with
  | .nil => .node RED .nil k v .nil
  | .node c l a b r =>
    if cmp k a < 0 then rb_insert_fix_left c (rb_insert cmp l k v) a b r
    else if cmp k a > 0 then rb_insert_fix_right c l a b (rb_insert cmp r k v)
    else .node c l a v r

/-- Modelled from the spec: the descent of `nut_treetable_add` (the missing
`nuttreetable.c`) for a key that is stored: the value of the node with an
equal key is overwritten in place, and nothing else changes. -/
def rb_set_value (cmp : Ptr → Ptr → Int) (t : RBNode) (k v : Ptr) : RBNode :=
  match t with
  | .nil => .nil
  | .node c l a b r =>
    if cmp k a < 0 then .node c (rb_set_value cmp l k v) a b r
    else if cmp k a > 0 then .node c l a b (rb_set_value cmp r k v)
    else .node c l a v r

/-- Modelled from the spec: the lookup descent of the missing
`nuttreetable.c`, returning the value stored under a key equal to `k`. -/
def rb_get (cmp : Ptr → Ptr → Int) (t : RBNode) (k : Ptr) : Option Ptr :=
  match t with
  | .nil => none
  | .node _ l a b r =>
    if cmp k a < 0 then rb_get cmp l k
    else if cmp k a > 0 then rb_get cmp r k
    else some b

/-- Modelled from the spec: the physical removal (missing `nuttreetable.c`)
of a node of colour `c` that has at most one child.  The child takes its
place; a removed black node leaves a "double-black" defect (`true`) unless
the child is red and absorbs it by turning black. -/
def rb_unlink (c : RBColor) (child : RBNode) : RBNode × Bool :=
  match c with
  | RED => (child, false)
  | BLACK => if child.isRed then (rb_set_color BLACK child, false) else (child, true)

/-- Modelled from the spec: the deletion fixup of the missing
`nuttreetable.c` at the parent `(c, l, k, v, s)` of a double-black left child
`l` whose sibling `s` is black with a red far (right) child: the sibling
takes the colour of the parent, the parent and the far nephew turn black,
and the parent is rotated to the left. -/
def rb_remove_far_left (c : RBColor) (l : RBNode) (k v : Ptr) (s : RBNode) : RBNode :=
  match s with
  | .node _ sl sk sv sr =>
    rb_rotate_left (.node BLACK l k v (.node c sl sk sv (rb_set_color BLACK sr)))
  | .nil => .node c l k v .nil

/-- Modelled from the spec: the mirror image of `rb_remove_far_left` (missing
`nuttreetable.c`). -/
def rb_remove_far_right (c : RBColor) (s : RBNode) (k v : Ptr) (r : RBNode) : RBNode :=
  match s with
  | .node _ sl sk sv sr =>
    rb_rotate_right (.node BLACK (.node c (rb_set_color BLACK sl) sk sv sr) k v r)
  | .nil => .node c .nil k v r

/-- Modelled from the spec: the deletion fixup of the missing
`nuttreetable.c` at the parent `(c, l, k, v, r)` of a double-black left child
`l` whose sibling `r` is black.  A red far nephew gives the rotation at the
parent; a red near nephew is first rotated into the place of the sibling;
with two black nephews the sibling turns red and the defect is absorbed by a
red parent or moves up (`true`). -/
def rb_remove_fix_left_black (c : RBColor) (l : RBNode) (k v : Ptr) (r : RBNode) :
    RBNode × Bool :=
  match r with
  | .nil => (.node c l k v .nil, true)
  | .node _ rl rk rv rr =>
    if rr.isRed then (rb_remove_far_left c l k v r, false)
    else if rl.isRed then
      (rb_remove_far_left c l k v
        (rb_rotate_right (.node RED (rb_set_color BLACK rl) rk rv rr)), false)
    else (.node BLACK l k v (.node RED rl rk rv rr), decide (c = BLACK))

/-- Modelled from the spec: the mirror image of `rb_remove_fix_left_black`
(missing `nuttreetable.c`). -/
def rb_remove_fix_right_black (c : RBColor) (l : RBNode) (k v : Ptr) (r : RBNode) :
    RBNode × Bool :=
  match l with
  | .nil => (.node c .nil k v r, true)
  | .node _ ll lk lv lr =>
    if ll.isRed then (rb_remove_far_right c l k v r, false)
    else if lr.isRed then
      (rb_remove_far_right c
        (rb_rotate_left (.node RED ll lk lv (rb_set_color BLACK lr))) k v r, false)
    else (.node BLACK (.node RED ll lk lv lr) k v r, decide (c = BLACK))

/-- Modelled from the spec: the deletion fixup of the missing
`nuttreetable.c` at the parent of a double-black left child.  A red sibling
turns black and is rotated above the parent, which turns red; the fixup then
continues below it with the black new sibling. -/
def rb_remove_fix_left (c : RBColor) (l : RBNode) (k v : Ptr) (r : RBNode) : RBNode × Bool :=
  match r with
  | .node RED rl rk rv rr =>
    (.node BLACK (rb_remove_fix_left_black RED l k v rl).1 rk rv rr, false)
  | _ => rb_remove_fix_left_black c l k v r

/-- Modelled from the spec: the mirror image of `rb_remove_fix_left` (missing
`nuttreetable.c`). -/
def rb_remove_fix_right (c : RBColor) (l : RBNode) (k v : Ptr) (r : RBNode) : RBNode × Bool :=
  match l with
  | .node RED ll lk lv lr =>
    (.node BLACK ll lk lv (rb_remove_fix_right_black RED lr k v r).1, false)
  | _ => rb_remove_fix_right_black c l k v r

/-- Modelled from the spec: the removal of the in-order predecessor (missing
`nuttreetable.c`): the rightmost node below `(c, l, k, v, r)` is unlinked,
its key and value are returned, and the fixup runs on the way back up. -/
def rb_remove_max (c : RBColor) (l : RBNode) (k v : Ptr) (r : RBNode) :
    (RBNode × Bool) × (Ptr × Ptr) :=
  match r with
  | .nil => (rb_unlink c l, (k, v))
  | .node rc rl rk rv rr =>
    let res := rb_remove_max rc rl rk rv rr
    (if res.1.2 then rb_remove_fix_right c l k v res.1.1 else (.node c l k v res.1.1, false),
      res.2)

/-- Modelled from the spec: the descent of `nut_treetable_remove` (missing
`nuttreetable.c`).  The node with an equal key is located; with two children
it takes the key and value of its in-order predecessor, which is removed in
its place; the result is the new subtree, whether it carries a double-black
defect, and the removed value (`none`: key not found). -/
def rb_remove (cmp : Ptr → Ptr → Int) (t : RBNode) (k : Ptr) : (RBNode × Bool) × Option Ptr :=
  match t with
  | .nil => ((.nil, false), none)
  | .node c l a b r =>
    if cmp k a < 0 then
      let res := rb_remove cmp l k
      (if res.1.2 then rb_remove_fix_left c res.1.1 a b r else (.node c res.1.1 a b r, false),
        res.2)
    else if cmp k a > 0 then
      let res := rb_remove cmp r k
      (if res.1.2 then rb_remove_fix_right c l a b res.1.1 else (.node c l a b res.1.1, false),
        res.2)
    else
      match l with
      | .nil => (rb_unlink c r, some b)
      | .node lc ll lk lv lr =>
        match r with
        | .nil => (rb_unlink c l, some b)
        | .node _ _ _ _ _ =>
          let res := rb_remove_max lc ll lk lv lr
          (if res.1.2 then rb_remove_fix_left c res.1.1 res.2.1 res.2.2 r
            else (.node c res.1.1 res.2.1 res.2.2 r, false), some b)

/-- Modelled from the spec: the descent of `nut_treetable_get_greater_than`
(missing `nuttreetable.c`), tracking the best candidate seen. -/
def rb_greater_than (cmp : Ptr → Ptr → Int) (t : RBNode) (k : Ptr) (best : Option Ptr) :
    Option Ptr :=
  match t with
  | .nil => best
  | .node _ l a _ r =>
    if cmp k a < 0 then rb_greater_than cmp l k (some a) else rb_greater_than cmp r k best

/-- Modelled from the spec: the descent of `nut_treetable_get_lesser_than`
(missing `nuttreetable.c`), tracking the best candidate seen. -/
def rb_lesser_than (cmp : Ptr → Ptr → Int) (t : RBNode) (k : Ptr) (best : Option Ptr) :
    Option Ptr :=
  match t with
  | .nil => best
  | .node _ l a _ r =>
    if cmp k a > 0 then rb_lesser_than cmp r k (some a) else rb_lesser_than cmp l k best

/-- Modelled from the spec: the record `TreeTable`, declared in the missing
`nuttreetable.c`: root, number of entries, comparator and the allocator of
the nodes. -/
structure TreeTable where
  root : RBNode
  size : Nat
  cmp : Ptr → Ptr → Int
  mem_alloc : Nat → Option Block

/-- The record `TreeTableConf` of `include/nuttreetable.h`. -/
structure TreeTableConf where
  cmp : Ptr → Ptr → Int
  mem_alloc : Nat → Option Block
  mem_calloc : Nat → Nat → Option Block

/-- Modelled from the spec: the bytes of a `TreeTable` record (declared in
the missing `nuttreetable.c`): root, size, comparator and three allocator
entries. -/
def SIZEOF_TREETABLE (pf : Platform) : Nat := 6 * PTR_SIZE pf

/-- The bytes of an `RBNode`: six pointer-sized fields. -/
def SIZEOF_RBNODE (pf : Platform) : Nat := 6 * PTR_SIZE pf

/-- Modelled from the spec: `nut_treetable_new_conf` of the missing
`nuttreetable.c`: an empty table, or `NUT_ERR_MALLOC`. -/
def nut_treetable_new_conf (pf : Platform) (conf : TreeTableConf) :
    NutState × Option TreeTable :=
  match conf.mem_calloc 1 (SIZEOF_TREETABLE pf) with
  | none => (NUT_ERR_MALLOC, none)
  | some _ =>
    (NUT_OK, some { root := .nil, size := 0, cmp := conf.cmp, mem_alloc := conf.mem_alloc })

/-- Modelled from the spec: `nut_treetable_add` of the missing
`nuttreetable.c`.  An equal key has its value overwritten and no node is
created; otherwise a node is allocated (`NUT_ERR_MALLOC` when that fails),
linked red and fixed up, and the root is black afterwards. -/
def nut_treetable_add (pf : Platform) (t : TreeTable) (k v : Ptr) : NutState × TreeTable :=
  match rb_get t.cmp t.root k with
  | some _ => (NUT_OK, { t with root := rb_set_value t.cmp t.root k v })
  | none =>
    match t.mem_alloc (SIZEOF_RBNODE pf) with
    | none => (NUT_ERR_MALLOC, t)
    | some _ =>
      (NUT_OK, { t with root := rb_set_color BLACK (rb_insert t.cmp t.root k v),
                        size := size_add pf t.size 1 })

/-- Modelled from the spec: `nut_treetable_remove` of the missing
`nuttreetable.c`: the removed value is written through `out`;
`NUT_ERR_KEY_NOT_FOUND` when no key is equal.  A defect that reaches the root
ends there. -/
def nut_treetable_remove (pf : Platform) (t : TreeTable) (k : Ptr) :
    NutState × TreeTable × Option Ptr :=
  match rb_remove t.cmp t.root k with
  | (_, none) => (NUT_ERR_KEY_NOT_FOUND, t, none)
  | ((root, _), some v) =>
    (NUT_OK, { t with root := rb_set_color BLACK root, size := size_sub pf t.size 1 }, some v)

/-- Modelled from the spec: `nut_treetable_get` of the missing
`nuttreetable.c`. -/
def nut_treetable_get (t : TreeTable) (k : Ptr) : NutState × Option Ptr :=
  match rb_get t.cmp t.root k with
  | some v => (NUT_OK, some v)
  | none => (NUT_ERR_KEY_NOT_FOUND, none)

/-- Modelled from the spec: `nut_treetable_size` of the missing
`nuttreetable.c`. -/
def nut_treetable_size (t : TreeTable) : Nat := t.size

/-- Modelled from the spec: `nut_treetable_get_greater_than` of the missing
`nuttreetable.c`: the strict successor of a key, written through `out`. -/
def nut_treetable_get_greater_than (t : TreeTable) (k : Ptr) : NutState × Option Ptr :=
  match rb_greater_than t.cmp t.root k none with
  | some g => (NUT_OK, some g)
  | none => (NUT_ERR_KEY_NOT_FOUND, none)

/-- Modelled from the spec: `nut_treetable_get_lesser_than` of the missing
`nuttreetable.c`: the strict predecessor of a key, written through `out`. -/
def nut_treetable_get_lesser_than (t : TreeTable) (k : Ptr) : NutState × Option Ptr :=
  match rb_lesser_than t.cmp t.root k none with
  | some g => (NUT_OK, some g)
  | none => (NUT_ERR_KEY_NOT_FOUND, none)

/-- The comparator `nut_common_cmp_ptr` of `nutcommon.c`. -/
def nut_common_cmp_ptr (ptr1 ptr2 : Ptr) : Int :=
  if ptr1 < ptr2 then -1 else if ptr1 > ptr2 then 1 else 0

/-- In-order traversal: the entries from left to right. -/
def RBNode.inorder : RBNode → List (Ptr × Ptr)
  | .nil => []
  | .node _ l k v r => l.inorder ++ (k, v) :: r.inorder

/-- The keys in in-order. -/
def RBNode.keys (t : RBNode) : List Ptr := t.inorder.map Prod.fst

/-- Invariant 2: no red node has a red child. -/
def RBNode.NoRedRed : RBNode → Prop
  | .nil => True
  | .node c l _ _ r =>
    (c = RED → l.isRed = false ∧ r.isRed = false) ∧ l.NoRedRed ∧ r.NoRedRed

/-- The number of black nodes on each path from the root to a null leaf, from
left to right. -/
def RBNode.blackCounts : RBNode → List Nat
  | .nil => [0]
  | .node c l _ _ r =>
    (l.blackCounts ++ r.blackCounts).map (fun n => if c = BLACK then n + 1 else n)

/-- The number of black nodes on the leftmost path. -/
def RBNode.bheight : RBNode → Nat
  | .nil => 0
  | .node c l _ _ _ => if c = BLACK then l.bheight + 1 else l.bheight

/-- Invariant 3: at every node the paths to the null leaves below it pass
through equally many black nodes. -/
def RBNode.BlackBalanced : RBNode → Prop
  | .nil => True
  | .node _ l _ _ r => l.bheight = r.bheight ∧ l.BlackBalanced ∧ r.BlackBalanced

/-- Invariant 4: the keys ascend strictly in in-order. -/
def RBNode.Ascending (cmp : Ptr → Ptr → Int) (t : RBNode) : Prop :=
  t.keys.Pairwise (fun a b => cmp a b < 0)

/-- A comparator of a total order: swapping the arguments swaps the sign, and
"not greater" is transitive. -/
def ConsistentCmp (cmp : Ptr → Ptr → Int) : Prop :=
  (∀ a b, cmp a b < 0 ↔ 0 < cmp b a) ∧ (∀ a b c, cmp a b ≤ 0 → cmp b c ≤ 0 → cmp a c ≤ 0)

/-- The operations of the invariant claim. -/
inductive TreeOp where
  | add (k v : Ptr)
  | remove (k : Ptr)

/-- One operation on a table. -/
def TreeOp.apply (pf : Platform) (t : TreeTable) : TreeOp → TreeTable
  | .add k v => (nut_treetable_add pf t k v).2
  | .remove k => (nut_treetable_remove pf t k).2.1

/-- A sequence of operations on a table. -/
def runTree (pf : Platform) (t : TreeTable) (ops : List TreeOp) : TreeTable :=
  ops.foldl (TreeOp.apply pf) t

/-- The state between two steps of the insertion fixup: no red node below the
root has a red child, and a red root has at most one red child. -/
def RBNode.NoRedRedBelow : RBNode → Prop
  | .nil => True
  | .node c l _ _ r =>
    (c = RED → ¬(l.isRed = true ∧ r.isRed = true)) ∧ l.NoRedRed ∧ r.NoRedRed

/-- What a removal step returns for a subtree that had root colour `c` and
`h` black nodes on its paths: a subtree that again satisfies invariants 2 and
3, whose root is black if it was before, and whose paths either keep their
`h` black nodes or, with a double-black defect, have one less. -/
def RemoveInv (c : RBColor) (h : Nat) (res : RBNode × Bool) : Prop :=
  res.1.NoRedRed ∧ res.1.BlackBalanced ∧ (c = BLACK → res.1.isRed = false) ∧
    (if res.2 = true then res.1.bheight + 1 = h else res.1.bheight = h)

/-- The invariants 1 to 4 of a table: ascending keys, no red node with a red
child, equal black counts, black root. -/
def TreeTable.WellFormed (t : TreeTable) : Prop :=
  t.root.Ascending t.cmp ∧ t.root.NoRedRed ∧ t.root.BlackBalanced ∧ t.root.isRed = false

/-- A table whose allocator never fails, ordered by `nut_common_cmp_ptr`. -/
def freshTree : TreeTable :=
  { root := .nil, size := 0, cmp := nut_common_cmp_ptr, mem_alloc := heap }

/-- The configuration of `freshTree`. -/
def heapTreeConf : TreeTableConf :=
  { cmp := nut_common_cmp_ptr, mem_alloc := heap, mem_calloc := fun _ _ => some uninit }

/-- Scenario B of the specification: (5,"a"), (3,"b"), (8,"c"), (3,"d"), the
values being the addresses 101, 102, 103 and 104. -/
def scenarioB : TreeTable :=
  runTree Platform.p64 freshTree [.add 5 101, .add 3 102, .add 8 103, .add 3 104]

/-- A tree containing the keys 1, 3 and 5. -/
def oneThreeFive : TreeTable :=
  runTree Platform.p64 freshTree [.add 1 0, .add 3 0, .add 5 0]

/-! ## Filtering into a new deque -/

/-- The function `nut_deque_add`. -/
def nut_deque_add (pf : Platform) (deque : Deque) (element : Ptr) : NutState × Deque :=
  nut_deque_add_last pf deque element

/-- The function `nut_deque_filter`: the status and the deque written through
`out`.  The new deque comes from `nut_deque_new`; the status of each
`nut_deque_add` is dropped, as in the source. -/
def nut_deque_filter (pf : Platform) (pvPortMalloc : Nat → Option Block) (deque : Deque)
    (pred : Ptr → Bool) : NutState × Option Deque :=
  if deque.size = 0 then (NUT_ERR_OUT_OF_RANGE, none)
  else
    match (nut_deque_new pf pvPortMalloc).2 with
    | none => (NUT_ERR_MALLOC, none)
    | some filtered =>
      (NUT_OK, some ((List.range deque.size).foldl
        (fun f i =>
          let d_index := size_add pf deque.first i &&& size_sub pf deque.capacity 1
          if pred (deque.buffer d_index) then (nut_deque_add pf f (deque.buffer d_index)).2
          else f)
        filtered))

/-! ## The Array (`src/src/nutarray.c`)

The expansion factor is a `float` in the source.  It is modelled by a natural
number: the model covers integral factors and products `capacity *
exp_factor` that the `float` arithmetic represents exactly.  The C type
`Array` is called `NutArray` here. -/

/-- The macro `NUT_MAX_ELEMENTS`, `((size_t) - 2)`. -/
def NUT_MAX_ELEMENTS (pf : Platform) : Nat := 2 ^ pf.bits - 2

/-- The constant `DEFAULT_EXPANSION_FACTOR`. -/
def DEFAULT_EXPANSION_FACTOR : Nat := 2

/-- The value of `sizeof(Array)`: two `size_t`, the factor and the buffer
pointer. -/
def SIZEOF_ARRAY (pf : Platform) : Nat := 4 * PTR_SIZE pf

/-- The memory functions `nutarray.c` calls.  `nut_mem_calloc` is defined in
`core/nutmem.c` over the port allocator `pvPortMalloc`; `nut_mem_alloc` is
called by `nutarray.c` but declared in no source file (the header `nutconf.h`
is missing), so it is a parameter.  A block is given by its contents. -/
structure NutMem where
  pvPortMalloc : Nat → Option Block
  nut_mem_alloc : Nat → Option Block

/-- The function `nut_mem_calloc` of `core/nutmem.c`: it asks `pvPortMalloc`
for `blocks * size` bytes and does not clear them. -/
def nut_mem_calloc (pf : Platform) (m : NutMem) (blocks size : Nat) : Option Block :=
  m.pvPortMalloc (size_mul pf blocks size)

/-- The record `struct nut_array_s`; `slots` is a ghost field, the number of
pointer slots of the block `buffer` points to. -/
structure NutArray where
  size : Nat
  capacity : Nat
  exp_factor : Nat
  buffer : Block
  slots : Nat

/-- The record `ArrayConf`. -/
structure ArrayConf where
  capacity : Nat
  exp_factor : Nat
  mem_alloc : Nat → Option Block
  mem_calloc : Nat → Nat → Option Block

/-- The function `nut_array_conf_init`. -/
def nut_array_conf_init (pf : Platform) (m : NutMem) : ArrayConf :=
  { exp_factor := DEFAULT_EXPANSION_FACTOR
    capacity := DEFAULT_CAPACITY
    mem_alloc := fun size => m.pvPortMalloc size
    mem_calloc := fun blocks size => nut_mem_calloc pf m blocks size }

/-- The function `nut_array_new_conf`.  The record comes from
`nut_mem_calloc`; the source assigns `buffer` and `exp_factor` only (the
assignment of `capacity` is commented out), so `size` and `capacity` keep
what the first two words of the block hold. -/
def nut_array_new_conf (pf : Platform) (m : NutMem) (conf : ArrayConf) :
    NutState × Option NutArray :=
  let ex := if conf.exp_factor ≤ 1 then DEFAULT_EXPANSION_FACTOR else conf.exp_factor
  if conf.capacity = 0 ∨ ex ≥ NUT_MAX_ELEMENTS pf / conf.capacity then
    (NUT_ERR_INVALID_CAPACITY, none)
  else
    match nut_mem_calloc pf m 1 (SIZEOF_ARRAY pf) with
    | none => (NUT_ERR_MALLOC, none)
    | some ar =>
      match m.nut_mem_alloc (size_mul pf conf.capacity (PTR_SIZE pf)) with
      | none => (NUT_ERR_MALLOC, none)
      | some buff =>
        (NUT_OK, some {
          size := ar 0
          capacity := ar 1
          exp_factor := ex
          buffer := buff
          slots := size_mul pf conf.capacity (PTR_SIZE pf) / PTR_SIZE pf })

/-- The function `nut_array_new`. -/
def nut_array_new (pf : Platform) (m : NutMem) : NutState × Option NutArray :=
  nut_array_new_conf pf m (nut_array_conf_init pf m)

/-- The static function `expand_capacity` of `nutarray.c`.  The new capacity
is stored before the buffer is requested, and the request is made for
`new_capacity` also when the capacity was set to `NUT_MAX_ELEMENTS`. -/
def array_expand_capacity (pf : Platform) (m : NutMem) (ar : NutArray) : NutState × NutArray :=
  if ar.capacity = NUT_MAX_ELEMENTS pf then (NUT_ERR_MAX_CAPACITY, ar)
  else
    let new_capacity := size_mul pf ar.capacity ar.exp_factor
    let ar :=
      if new_capacity ≤ ar.capacity then { ar with capacity := NUT_MAX_ELEMENTS pf }
      else { ar with capacity := new_capacity }
    match m.nut_mem_alloc (size_mul pf new_capacity (PTR_SIZE pf)) with
    | none => (NUT_ERR_MALLOC, ar)
    | some new_buff =>
      (NUT_OK, { ar with
        buffer := memcpy new_buff 0 ar.buffer 0 ar.size
        slots := size_mul pf new_capacity (PTR_SIZE pf) / PTR_SIZE pf })

/-- The function `nut_array_add`. -/
def nut_array_add (pf : Platform) (m : NutMem) (ar : NutArray) (element : Ptr) :
    NutState × NutArray :=
  let r := if ar.size ≥ ar.capacity then array_expand_capacity pf m ar else (NUT_OK, ar)
  if r.1 ≠ NUT_OK then r
  else
    let ar := r.2
    (NUT_OK, { ar with
      buffer := Function.update ar.buffer ar.size element
      size := size_add pf ar.size 1 })

/-- The function `nut_array_add_at`. -/
def nut_array_add_at (pf : Platform) (m : NutMem) (ar : NutArray) (element : Ptr)
    (index : Nat) : NutState × NutArray :=
  if index = ar.size then nut_array_add pf m ar element
  else if (ar.size = 0 ∧ index ≠ 0) ∨ index > size_sub pf ar.size 1 then
    (NUT_ERR_OUT_RANGE, ar)
  else
    let r := if ar.size ≥ ar.capacity then array_expand_capacity pf m ar else (NUT_OK, ar)
    if r.1 ≠ NUT_OK then r
    else
      let ar := r.2
      let buffer := memmove ar.buffer (size_add pf index 1) index (size_sub pf ar.size index)
      (NUT_OK, { ar with
        buffer := Function.update buffer index element
        size := size_add pf ar.size 1 })

/-- The function `nut_array_replace_at`. -/
def nut_array_replace_at (ar : NutArray) (element : Ptr) (index : Nat) :
    NutState × NutArray × Option Ptr :=
  if index ≥ ar.size then (NUT_ERR_OUT_RANGE, ar, none)
  else
    (NUT_OK, { ar with buffer := Function.update ar.buffer index element },
      some (ar.buffer index))

/-- The function `nut_array_remove_at`. -/
def nut_array_remove_at (pf : Platform) (ar : NutArray) (index : Nat) :
    NutState × NutArray × Option Ptr :=
  if index ≥ ar.size then (NUT_ERR_OUT_RANGE, ar, none)
  else
    let out := ar.buffer index
    let buffer :=
      if index ≠ size_sub pf ar.size 1 then
        memmove ar.buffer index (size_add pf index 1) (size_sub pf ar.size index)
      else ar.buffer
    (NUT_OK, { ar with buffer := buffer, size := size_sub pf ar.size 1 }, some out)

/-- The function `nut_array_get_at`. -/
def nut_array_get_at (ar : NutArray) (index : Nat) : NutState × Option Ptr :=
  if index ≥ ar.size then (NUT_ERR_OUT_RANGE, none)
  else (NUT_OK, some (ar.buffer index))

/-- The first loop of `nut_array_filter_mut`, at the index `i - 1` and below:
the array, `rm` and `keep` when the loop ends. -/
def array_filter_mut_loop (pf : Platform) (pred : Ptr → Bool) :
    Nat → NutArray → Nat → Nat → NutArray × Nat × Nat
  | 0, ar, rm, keep => (ar, rm, keep)
  | i + 1, ar, rm, keep =>
    if !pred (ar.buffer i) then array_filter_mut_loop pf pred i ar (size_add pf rm 1) keep
    else if rm > 0 then
      let buffer :=
        if keep > 0 then
          memmove ar.buffer (size_add pf i 1) (size_add pf (size_add pf i 1) rm) keep
        else ar.buffer
      array_filter_mut_loop pf pred i
        { ar with buffer := buffer, size := size_sub pf ar.size rm } 0 (size_add pf keep 1)
    else array_filter_mut_loop pf pred i ar rm (size_add pf keep 1)

/-- The function `nut_array_filter_mut`.  Its loop runs from `i = size - 1`
down to `i = 0`. -/
def nut_array_filter_mut (pf : Platform) (ar : NutArray) (pred : Ptr → Bool) :
    NutState × NutArray :=
  if ar.size = 0 then (NUT_ERR_OUT_RANGE, ar)
  else
    let r := array_filter_mut_loop pf pred ar.size ar 0 0
    let ar := r.1
    let rm := r.2.1
    let keep := r.2.2
    if rm > 0 then
      (NUT_OK, { ar with buffer := memmove ar.buffer 0 rm keep, size := size_sub pf ar.size rm })
    else (NUT_OK, ar)

/-- One iteration of the loop of `nut_array_filter` at the index `i`: the
filtered array and its write index `f`. -/
def array_filter_step (pf : Platform) (pred : Ptr → Bool) (ar : NutArray)
    (st : NutArray × Nat) (i : Nat) : NutArray × Nat :=
  if pred (ar.buffer i) then
    ({ st.1 with
        buffer := Function.update st.1.buffer st.2 (ar.buffer i)
        size := size_add pf st.1.size 1 }, size_add pf st.2 1)
  else st

/-- The function `nut_array_filter`: the status and the array written through
`out`. -/
def nut_array_filter (pf : Platform) (m : NutMem) (ar : NutArray) (pred : Ptr → Bool) :
    NutState × Option NutArray :=
  if ar.size = 0 then (NUT_ERR_OUT_RANGE, none)
  else
    match m.nut_mem_alloc (SIZEOF_ARRAY pf) with
    | none => (NUT_ERR_MALLOC, none)
    | some _ =>
      match nut_mem_calloc pf m ar.capacity (PTR_SIZE pf) with
      | none => (NUT_ERR_MALLOC, none)
      | some buffer =>
        (NUT_OK, some ((List.range ar.size).foldl (array_filter_step pf pred ar)
          ({ exp_factor := ar.exp_factor, size := 0, capacity := ar.capacity, buffer := buffer,
             slots := size_mul pf ar.capacity (PTR_SIZE pf) / PTR_SIZE pf }, 0)).1)

/-- The record `ArrayIter`; the array it points to is carried along. -/
structure ArrayIter where
  ar : NutArray
  index : Nat
  last_removed : Bool

/-- The function `nut_array_iter_init`. -/
def nut_array_iter_init (ar : NutArray) : ArrayIter :=
  { ar := ar, index := 0, last_removed := false }

/-- The function `nut_array_iter_next`. -/
def nut_array_iter_next (pf : Platform) (iter : ArrayIter) :
    NutState × ArrayIter × Option Ptr :=
  if iter.index ≥ iter.ar.size then (NUT_ITER_END, iter, none)
  else
    (NUT_OK, { iter with index := size_add pf iter.index 1, last_removed := false },
      some (iter.ar.buffer iter.index))

/-- The function `nut_array_iter_remove`. -/
def nut_array_iter_remove (pf : Platform) (iter : ArrayIter) :
    NutState × ArrayIter × Option Ptr :=
  if !iter.last_removed then
    let r := nut_array_remove_at pf iter.ar (size_sub pf iter.index 1)
    if r.1 = NUT_OK then (r.1, { iter with ar := r.2.1, last_removed := true }, r.2.2)
    else (r.1, { iter with ar := r.2.1 }, none)
  else (NUT_ERR_NOT_FIND, iter, none)

/-- The function `nut_array_iter_add`. -/
def nut_array_iter_add (pf : Platform) (m : NutMem) (iter : ArrayIter) (element : Ptr) :
    NutState × ArrayIter :=
  let r := nut_array_add_at pf m iter.ar element iter.index
  (r.1, { iter with ar := r.2, index := size_add pf iter.index 1 })

/-- The function `nut_array_iter_replace`. -/
def nut_array_iter_replace (pf : Platform) (iter : ArrayIter) (element : Ptr) :
    NutState × ArrayIter × Option Ptr :=
  let r := nut_array_replace_at iter.ar element (size_sub pf iter.index 1)
  (r.1, { iter with ar := r.2.1 }, r.2.2)

/-- One call on an array iterator: status, new iterator, and the value written
through `out`. -/
def IterOp.applyArray (pf : Platform) (m : NutMem) (iter : ArrayIter) :
    IterOp → NutState × ArrayIter × Option Ptr
  | .next => nut_array_iter_next pf iter
  | .remove => nut_array_iter_remove pf iter
  | .replace r => nut_array_iter_replace pf iter r
  | .add e => ((nut_array_iter_add pf m iter e).1, (nut_array_iter_add pf m iter e).2, none)

/-- A sequence of calls on an array iterator: the final iterator and the
status and out-value of every call, in order. -/
def runArrayIter (pf : Platform) (m : NutMem) (iter : ArrayIter) :
    List IterOp → ArrayIter × List (NutState × Option Ptr)
  | [] => (iter, [])
  | op :: ops =>
    ((runArrayIter pf m (op.applyArray pf m iter).2.1 ops).1,
      ((op.applyArray pf m iter).1, (op.applyArray pf m iter).2.2) ::
        (runArrayIter pf m (op.applyArray pf m iter).2.1 ops).2)

/-- The elements of an array at the indices `0 .. size - 1`. -/
def NutArray.toList (ar : NutArray) : List Ptr := (List.range ar.size).map ar.buffer

/-- The representation invariant the specification states for the Array:
`size ≤ capacity`, a buffer of exactly `capacity` slots, and a capacity of at
most `NUT_MAX_ELEMENTS`. -/
def NutArray.WellFormed (pf : Platform) (ar : NutArray) : Prop :=
  ar.size ≤ ar.capacity ∧ ar.slots = ar.capacity ∧ ar.capacity ≤ NUT_MAX_ELEMENTS pf

instance (pf : Platform) (ar : NutArray) : Decidable (ar.WellFormed pf) := by
  unfold NutArray.WellFormed; infer_instance

/-- A block of cleared memory, as a `calloc` that clears would return. -/
def zeroed : Block := fun _ => 0

/-- A memory port that never fails: cleared records, uninitialised buffers. -/
def clearingMem : NutMem := { pvPortMalloc := fun _ => some zeroed, nut_mem_alloc := heap }

/-- A memory port whose `nut_mem_alloc` always returns null. -/
def starvedMem : NutMem := { pvPortMalloc := fun _ => some zeroed, nut_mem_alloc := fun _ => none }

/-- The array `nut_array_new` returns over `clearingMem`. -/
def freshArray : NutArray :=
  { size := 0, capacity := 0, exp_factor := 2, buffer := uninit, slots := 8 }

/-- A full array: the elements 1,…,8 in a buffer of 8 slots, capacity 8. -/
def fullArray : NutArray :=
  { size := 8, capacity := 8, exp_factor := 2, buffer := fun j => j + 1, slots := 8 }

/-- The array holding 1, 2, 3, 4 in a buffer of 8 slots, capacity 8. -/
def arrayFour : NutArray :=
  { size := 4, capacity := 8, exp_factor := 2, buffer := fun j => j + 1, slots := 8 }

/-! ## The PQueue (`src/src/nutpqueue.c`)

As for the Array, the `float` expansion factor is modelled by a natural
number. -/

/-- The macro `NUT_PARENT`: `(x - 1) / 2`. -/
def NUT_PARENT (pf : Platform) (x : Nat) : Nat := size_sub pf x 1 / 2

/-- The macro `NUT_LEFT`: `2 * x + 1`. -/
def NUT_LEFT (pf : Platform) (x : Nat) : Nat := size_add pf (size_mul pf 2 x) 1

/-- The macro `NUT_RIGHT`: `2 * x + 2`. -/
def NUT_RIGHT (pf : Platform) (x : Nat) : Nat := size_add pf (size_mul pf 2 x) 2

/-- Modelled from the spec: the macro `CC_LEFT`, which `nut_pqueue_heapify`
uses and no source file defines; for the binary array-heap of the
specification it is the index of the left child, as `NUT_LEFT`. -/
def CC_LEFT (pf : Platform) (x : Nat) : Nat := NUT_LEFT pf x

/-- Modelled from the spec: the macro `CC_RIGHT`, which `nut_pqueue_heapify`
uses and no source file defines; for the binary array-heap of the
specification it is the index of the right child, as `NUT_RIGHT`. -/
def CC_RIGHT (pf : Platform) (x : Nat) : Nat := NUT_RIGHT pf x

/-- The record `struct nut_pqueue_s`; `slots` is a ghost field, the number of
pointer slots of the block `buffer` points to. -/
structure PQueue where
  size : Nat
  capacity : Nat
  exp_factor : Nat
  buffer : Block
  slots : Nat
  mem_alloc : Nat → Option Block
  mem_calloc : Nat → Nat → Option Block
  cmp : Ptr → Ptr → Int

/-- The record `PQueueConf`. -/
structure PQueueConf where
  capacity : Nat
  exp_factor : Nat
  cmp : Ptr → Ptr → Int
  mem_alloc : Nat → Option Block
  mem_calloc : Nat → Nat → Option Block

/-- The value of `sizeof(PQueue)`: two `size_t`, the factor, the buffer
pointer and four function pointers. -/
def SIZEOF_PQUEUE (pf : Platform) : Nat := 8 * PTR_SIZE pf

/-- The function `nut_pqueue_conf_init`, over the port allocator. -/
def nut_pqueue_conf_init (pf : Platform) (pvPortMalloc : Nat → Option Block)
    (cmp : Ptr → Ptr → Int) : PQueueConf :=
  { mem_alloc := fun size => pvPortMalloc size
    mem_calloc := fun blocks size => pvPortMalloc (size_mul pf blocks size)
    cmp := cmp
    exp_factor := DEFAULT_EXPANSION_FACTOR
    capacity := DEFAULT_CAPACITY }

/-- The function `nut_pqueue_new_conf`.  The source assigns every field but
`size`, which keeps what the first word of the record from `mem_calloc`
holds. -/
def nut_pqueue_new_conf (pf : Platform) (conf : PQueueConf) : NutState × Option PQueue :=
  let ex := if conf.exp_factor ≤ 1 then DEFAULT_EXPANSION_FACTOR else conf.exp_factor
  if conf.capacity = 0 ∨ ex ≥ NUT_MAX_ELEMENTS pf / conf.capacity then
    (NUT_ERR_INVALID_CAPACITY, none)
  else
    match conf.mem_calloc 1 (SIZEOF_PQUEUE pf) with
    | none => (NUT_ERR_MALLOC, none)
    | some pq =>
      match conf.mem_alloc (size_mul pf conf.capacity (PTR_SIZE pf)) with
      | none => (NUT_ERR_MALLOC, none)
      | some buff =>
        (NUT_OK, some {
          size := pq 0
          mem_alloc := conf.mem_alloc
          mem_calloc := conf.mem_calloc
          cmp := conf.cmp
          buffer := buff
          exp_factor := ex
          capacity := conf.capacity
          slots := size_mul pf conf.capacity (PTR_SIZE pf) / PTR_SIZE pf })

/-- The function `nut_pqueue_new`. -/
def nut_pqueue_new (pf : Platform) (pvPortMalloc : Nat → Option Block)
    (cmp : Ptr → Ptr → Int) : NutState × Option PQueue :=
  nut_pqueue_new_conf pf (nut_pqueue_conf_init pf pvPortMalloc cmp)

/-- The static function `expand_capacity` of `nutpqueue.c`. -/
def pqueue_expand_capacity (pf : Platform) (pq : PQueue) : NutState × PQueue :=
  if pq.capacity = NUT_MAX_ELEMENTS pf then (NUT_ERR_MAX_CAPACITY, pq)
  else
    let new_capacity := size_mul pf pq.capacity pq.exp_factor
    let pq :=
      if new_capacity ≤ pq.capacity then { pq with capacity := NUT_MAX_ELEMENTS pf }
      else { pq with capacity := new_capacity }
    match pq.mem_alloc (size_mul pf new_capacity (PTR_SIZE pf)) with
    | none => (NUT_ERR_MALLOC, pq)
    | some new_buff =>
      (NUT_OK, { pq with
        buffer := memcpy new_buff 0 pq.buffer 0 pq.size
        slots := size_mul pf new_capacity (PTR_SIZE pf) / PTR_SIZE pf })

/-- The `while` loop of `nut_pqueue_push` from the index `i`, with the number
of iterations still allowed (each one moves `i` to its parent). -/
def pqueue_push_loop (pf : Platform) (cmp : Ptr → Ptr → Int) : Nat → Block → Nat → Block
  | 0, buffer, _ => buffer
  | fuel + 1, buffer, i =>
    let child := buffer i
    let parent := buffer (NUT_PARENT pf i)
    if i ≠ 0 ∧ cmp child parent > 0 then
      let tmp := buffer i
      let buffer := Function.update buffer i (buffer (NUT_PARENT pf i))
      let buffer := Function.update buffer (NUT_PARENT pf i) tmp
      pqueue_push_loop pf cmp fuel buffer (NUT_PARENT pf i)
    else buffer

/-- The function `nut_pqueue_push`.  The loop ends after at most `i + 1`
tests. -/
def nut_pqueue_push (pf : Platform) (pq : PQueue) (element : Ptr) : NutState × PQueue :=
  let i := pq.size
  let r := if i ≥ pq.capacity then pqueue_expand_capacity pf pq else (NUT_OK, pq)
  if r.1 ≠ NUT_OK then r
  else
    let pq := r.2
    let pq := { pq with
      buffer := Function.update pq.buffer i element
      size := size_add pf pq.size 1 }
    if i = 0 then (NUT_OK, pq)
    else (NUT_OK, { pq with buffer := pqueue_push_loop pf pq.cmp (i + 1) pq.buffer i })

/-- The function `nut_pqueue_top`. -/
def nut_pqueue_top (pq : PQueue) : NutState × Option Ptr :=
  if pq.size = 0 then (NUT_ERR_OUT_OF_RANGE, none)
  else (NUT_OK, some (pq.buffer 0))

/-- The static function `nut_pqueue_heapify`, with the number of calls still
allowed (each recursive call moves `index` to a child below `size`). -/
def nut_pqueue_heapify (pf : Platform) : Nat → PQueue → Nat → PQueue
  | 0, pq, _ => pq
  | fuel + 1, pq, index =>
    if pq.size ≤ 1 then pq
    else
      let L := CC_LEFT pf index
      let R := CC_RIGHT pf index
      let tmp := index
      let left := pq.buffer L
      let right := pq.buffer R
      let indexPtr := pq.buffer index
      if L ≥ pq.size ∨ R ≥ pq.size then pq
      else
        let s1 := if pq.cmp indexPtr left < 0 then (left, L) else (indexPtr, index)
        let s2 := if pq.cmp s1.1 right < 0 then (right, R) else s1
        let index := s2.2
        if index ≠ tmp then
          let swap_tmp := pq.buffer tmp
          let buffer := Function.update pq.buffer tmp (pq.buffer index)
          let buffer := Function.update buffer index swap_tmp
          nut_pqueue_heapify pf fuel { pq with buffer := buffer } index
        else pq

/-- The function `nut_pqueue_pop`.  `nut_pqueue_heapify` calls itself fewer
than `size` times. -/
def nut_pqueue_pop (pf : Platform) (pq : PQueue) : NutState × PQueue × Option Ptr :=
  if pq.size = 0 then (NUT_ERR_OUT_OF_RANGE, pq, none)
  else
    let tmp := pq.buffer 0
    let buffer := Function.update pq.buffer 0 (pq.buffer (size_sub pf pq.size 1))
    let buffer := Function.update buffer (size_sub pf pq.size 1) tmp
    let tmp := buffer (size_sub pf pq.size 1)
    let pq := { pq with buffer := buffer, size := size_sub pf pq.size 1 }
    (NUT_OK, nut_pqueue_heapify pf (pq.size + 1) pq 0, some tmp)

/-- The calls a client makes on a priority queue. -/
inductive PQueueOp where
  | push (element : Ptr)
  | top
  | pop
  deriving DecidableEq

/-- One call on a priority queue: status, new queue, and the value written
through `out`. -/
def PQueueOp.apply (pf : Platform) (pq : PQueue) : PQueueOp → NutState × PQueue × Option Ptr
  | .push e => ((nut_pqueue_push pf pq e).1, (nut_pqueue_push pf pq e).2, none)
  | .top => ((nut_pqueue_top pq).1, pq, (nut_pqueue_top pq).2)
  | .pop => nut_pqueue_pop pf pq

/-- A sequence of calls on a priority queue: the final queue and the status
and out-value of every call, in order. -/
def runPQueue (pf : Platform) (pq : PQueue) :
    List PQueueOp → PQueue × List (NutState × Option Ptr)
  | [] => (pq, [])
  | op :: ops =>
    ((runPQueue pf (op.apply pf pq).2.1 ops).1,
      ((op.apply pf pq).1, (op.apply pf pq).2.2) :: (runPQueue pf (op.apply pf pq).2.1 ops).2)

/-- The elements of a priority queue in buffer order. -/
def PQueue.toList (pq : PQueue) : List Ptr := (List.range pq.size).map pq.buffer

/-- The priority queue `nut_pqueue_new` returns over an allocator that never
fails and clears the record, ordered by `nut_common_cmp_ptr`. -/
def freshPQueue : PQueue :=
  { size := 0, capacity := 8, exp_factor := 2, buffer := zeroed, slots := 8,
    mem_alloc := fun size => (fun _ => some zeroed) size
    mem_calloc := fun blocks size => (fun _ => some zeroed) (size_mul Platform.p64 blocks size)
    cmp := nut_common_cmp_ptr }

/-! ## The SList (`src/src/nutslist.c`)

Nodes live in a memory that maps an address to the node stored there; the
address 0 is `NULL`.  `mem_calloc` decides whether a request succeeds and what
the block holds; the address of a new block is the next one never used
before, so no two live nodes share an address.  `mem_free` has no effect on
the state modelled here. -/

/-- The record `SNode` of `include/nutslist.h`. -/
structure SNode where
  data : Ptr
  next : Ptr
  deriving DecidableEq

/-- The node memory: the node at every address and the last address handed
out. -/
structure SMem where
  node : Ptr → SNode
  brk : Ptr

/-- A new node block with the contents `blk`: its address and the memory
after the allocation. -/
def SMem.place (mem : SMem) (blk : Block) : Ptr × SMem :=
  (mem.brk + 1,
    { node := Function.update mem.node (mem.brk + 1) { data := blk 0, next := blk 1 }
      brk := mem.brk + 1 })

/-- The assignment `p->data = v`. -/
def SMem.setData (mem : SMem) (p v : Ptr) : SMem :=
  { mem with node := Function.update mem.node p { mem.node p with data := v } }

/-- The assignment `p->next = v`. -/
def SMem.setNext (mem : SMem) (p v : Ptr) : SMem :=
  { mem with node := Function.update mem.node p { mem.node p with next := v } }

/-- The record `struct nut_slist_s`. -/
structure SList where
  size : Nat
  head : Ptr
  tail : Ptr
  mem_alloc : Nat → Option Block
  mem_calloc : Nat → Nat → Option Block

/-- The record `SListConf`. -/
structure SListConf where
  mem_alloc : Nat → Option Block
  mem_calloc : Nat → Nat → Option Block

/-- The value of `sizeof(SNode)`. -/
def SIZEOF_SNODE (pf : Platform) : Nat := 2 * PTR_SIZE pf

/-- The value of `sizeof(SList)`: the size, two node pointers and three
function pointers. -/
def SIZEOF_SLIST (pf : Platform) : Nat := 6 * PTR_SIZE pf

/-- The function `nut_slist_conf_init`, over the port allocator. -/
def nut_slist_conf_init (pf : Platform) (pvPortMalloc : Nat → Option Block) : SListConf :=
  { mem_alloc := fun size => pvPortMalloc size
    mem_calloc := fun blocks size => pvPortMalloc (size_mul pf blocks size) }

/-- The function `nut_slist_new_conf`.  The source assigns the three
allocators; `size`, `head` and `tail` keep what the record from `mem_calloc`
holds. -/
def nut_slist_new_conf (pf : Platform) (conf : SListConf) : NutState × Option SList :=
  match conf.mem_calloc 1 (SIZEOF_SLIST pf) with
  | none => (NUT_ERR_MALLOC, none)
  | some list =>
    (NUT_OK, some {
      size := list 0
      head := list 1
      tail := list 2
      mem_alloc := conf.mem_alloc
      mem_calloc := conf.mem_calloc })

/-- The function `nut_slist_new`. -/
def nut_slist_new (pf : Platform) (pvPortMalloc : Nat → Option Block) :
    NutState × Option SList :=
  nut_slist_new_conf pf (nut_slist_conf_init pf pvPortMalloc)

/-- The function `nut_slist_add_first`. -/
def nut_slist_add_first (pf : Platform) (mem : SMem) (list : SList) (element : Ptr) :
    NutState × SMem × SList :=
  match list.mem_calloc 1 (SIZEOF_SNODE pf) with
  | none => (NUT_ERR_MALLOC, mem, list)
  | some blk =>
    let node := (mem.place blk).1
    let mem := (mem.place blk).2.setData node element
    if list.size = 0 then
      (NUT_OK, mem, { list with head := node, tail := node, size := size_add pf list.size 1 })
    else
      (NUT_OK, mem.setNext node list.head,
        { list with head := node, size := size_add pf list.size 1 })

/-- The function `nut_slist_add_last`. -/
def nut_slist_add_last (pf : Platform) (mem : SMem) (list : SList) (element : Ptr) :
    NutState × SMem × SList :=
  match list.mem_calloc 1 (SIZEOF_SNODE pf) with
  | none => (NUT_ERR_MALLOC, mem, list)
  | some blk =>
    let node := (mem.place blk).1
    let mem := (mem.place blk).2.setData node element
    if list.size = 0 then
      (NUT_OK, mem, { list with head := node, tail := node, size := size_add pf list.size 1 })
    else
      (NUT_OK, mem.setNext list.tail node,
        { list with tail := node, size := size_add pf list.size 1 })

/-- The function `nut_slist_add`. -/
def nut_slist_add (pf : Platform) (mem : SMem) (list : SList) (element : Ptr) :
    NutState × SMem × SList :=
  nut_slist_add_last pf mem list element

/-- The static function `unlink`: the memory, the list and the data of the
unlinked node. -/
def unlink (pf : Platform) (mem : SMem) (list : SList) (node prev : Ptr) :
    SMem × SList × Ptr :=
  let data := (mem.node node).data
  let r : SMem × SList :=
    if prev ≠ 0 then (mem.setNext prev (mem.node node).next, list)
    else (mem, { list with head := (mem.node node).next })
  let list := if (r.1.node node).next = 0 then { r.2 with tail := prev } else r.2
  (r.1, { list with size := size_sub pf list.size 1 }, data)

/-- The record `SListIter`; the list it points to is carried along. -/
structure SListIter where
  index : Nat
  list : SList
  next : Ptr
  current : Ptr
  prev : Ptr

/-- The function `nut_slist_iter_init`. -/
def nut_slist_iter_init (list : SList) : SListIter :=
  { index := 0, list := list, current := 0, prev := 0, next := list.head }

/-- The function `nut_slist_iter_remove`. -/
def nut_slist_iter_remove (pf : Platform) (mem : SMem) (iter : SListIter) :
    NutState × SMem × SListIter × Option Ptr :=
  if iter.current = 0 then (NUT_ERR_VALUE_NOT_FOUND, mem, iter, none)
  else
    let r := unlink pf mem iter.list iter.current iter.prev
    (NUT_OK, r.1, { iter with list := r.2.1, current := 0, index := size_sub pf iter.index 1 },
      some r.2.2)

/-- The function `nut_slist_iter_add`. -/
def nut_slist_iter_add (pf : Platform) (mem : SMem) (iter : SListIter) (element : Ptr) :
    NutState × SMem × SListIter :=
  match iter.list.mem_calloc 1 (SIZEOF_SNODE pf) with
  | none => (NUT_ERR_MALLOC, mem, iter)
  | some blk =>
    let new_node := (mem.place blk).1
    let mem := (mem.place blk).2.setData new_node element
    let mem := mem.setNext new_node iter.next
    let mem := mem.setNext iter.current new_node
    let list := if iter.index = iter.list.size then { iter.list with tail := new_node }
      else iter.list
    (NUT_OK, mem, { iter with
      index := size_add pf iter.index 1
      list := { list with size := size_add pf list.size 1 } })

/-- The function `nut_slist_iter_replace`. -/
def nut_slist_iter_replace (mem : SMem) (iter : SListIter) (element : Ptr) :
    NutState × SMem × SListIter × Option Ptr :=
  if iter.current = 0 then (NUT_ERR_VALUE_NOT_FOUND, mem, iter, none)
  else
    (NUT_OK, mem.setData iter.current element, iter, some (mem.node iter.current).data)

/-- The function `nut_slist_iter_next`. -/
def nut_slist_iter_next (pf : Platform) (mem : SMem) (iter : SListIter) :
    NutState × SMem × SListIter × Option Ptr :=
  if iter.next = 0 then (NUT_ITER_END, mem, iter, none)
  else
    let data := (mem.node iter.next).data
    let prev := if iter.current ≠ 0 then iter.current else iter.prev
    (NUT_OK, mem, { iter with
      prev := prev
      current := iter.next
      next := (mem.node iter.next).next
      index := size_add pf iter.index 1 }, some data)

/-- One call on an SList iterator: status, memory, iterator and the value
written through `out`. -/
def IterOp.applySList (pf : Platform) (mem : SMem) (iter : SListIter) :
    IterOp → NutState × SMem × SListIter × Option Ptr
  | .next => nut_slist_iter_next pf mem iter
  | .remove => nut_slist_iter_remove pf mem iter
  | .replace r => nut_slist_iter_replace mem iter r
  | .add e =>
    ((nut_slist_iter_add pf mem iter e).1, (nut_slist_iter_add pf mem iter e).2.1,
      (nut_slist_iter_add pf mem iter e).2.2, none)

/-- A sequence of calls on an SList iterator: the final memory and iterator
and the status and out-value of every call, in order. -/
def runSListIter (pf : Platform) (mem : SMem) (iter : SListIter) :
    List IterOp → (SMem × SListIter) × List (NutState × Option Ptr)
  | [] => ((mem, iter), [])
  | op :: ops =>
    ((runSListIter pf (op.applySList pf mem iter).2.1 (op.applySList pf mem iter).2.2.1 ops).1,
      ((op.applySList pf mem iter).1, (op.applySList pf mem iter).2.2.2) ::
        (runSListIter pf (op.applySList pf mem iter).2.1
          (op.applySList pf mem iter).2.2.1 ops).2)

/-- The nodes met by following `next` from the address `p`, at most `fuel` of
them. -/
def SMem.walk (mem : SMem) : Nat → Ptr → List Ptr
  | 0, _ => []
  | fuel + 1, p => if p = 0 then [] else p :: mem.walk fuel (mem.node p).next

/-- The nodes of a list: the walk from `head`, which can meet each address
handed out so far at most once unless the list is cyclic. -/
def SList.nodes (mem : SMem) (list : SList) : List Ptr := mem.walk (mem.brk + 1) list.head

/-- The elements of a list in the order of the walk from `head`. -/
def SList.toList (mem : SMem) (list : SList) : List Ptr :=
  (list.nodes mem).map (fun p => (mem.node p).data)

/-- The structural invariant the specification states for the SList: `head`
and `tail` are null exactly when the size is 0, the walk from `head` meets
`size` nodes, the last of them is `tail`, and the `next` of `tail` is null. -/
def SList.WellFormed (mem : SMem) (list : SList) : Prop :=
  (list.size = 0 ↔ list.head = 0) ∧ (list.size = 0 ↔ list.tail = 0) ∧
    (list.nodes mem).length = list.size ∧
    (list.nodes mem).getLast? = (if list.size = 0 then none else some list.tail) ∧
    (list.size ≠ 0 → (mem.node list.tail).next = 0)

instance (mem : SMem) (list : SList) : Decidable (list.WellFormed mem) := by
  unfold SList.WellFormed; infer_instance

/-- The empty node memory. -/
def emptyMem : SMem := { node := fun _ => { data := 0, next := 0 }, brk := 0 }

/-- The list `nut_slist_new` returns over an allocator that never fails and
clears its blocks. -/
def freshSList : SList :=
  { size := 0, head := 0, tail := 0
    mem_alloc := fun size => (fun _ => some zeroed) size
    mem_calloc := fun blocks size => (fun _ => some zeroed) (size_mul Platform.p64 blocks size) }

/-- The memory and the list after `nut_slist_add_last` of 1, 2 and 3 on
`freshSList`: the nodes at the addresses 1, 2, 3. -/
def slistThree : SMem × SList :=
  let r1 := nut_slist_add_last Platform.p64 emptyMem freshSList 1
  let r2 := nut_slist_add_last Platform.p64 r1.2.1 r1.2.2 2
  let r3 := nut_slist_add_last Platform.p64 r2.2.1 r2.2.2 3
  (r3.2.1, r3.2.2)

/-! ## The zip iterator of the deque -/

/-- The record `struct nut_deque_zip_iter_s`; the two deques the iterator
points to are carried in the record. -/
structure DequeZipIter where
  d1 : Deque
  d2 : Deque
  index : Nat
  last_removed : Bool

/-- The function `nut_deque_zip_iter_init`. -/
def nut_deque_zip_iter_init (d1 d2 : Deque) : DequeZipIter :=
  { d1 := d1, d2 := d2, index := 0, last_removed := false }

/-- The function `nut_deque_zip_iter_add`.  The test before the insertions is
`(full1 && expand(d1) != NUT_OK) && (full2 && expand(d2) != NUT_OK)`: the
operator `&&` evaluates its right operand only when the left one holds, so
`d2` is expanded here only after `d1` was full and could not be expanded.  The
statuses of the two `nut_deque_add_at` calls are dropped. -/
def nut_deque_zip_iter_add (pf : Platform) (iter : DequeZipIter) (e1 e2 : Ptr) :
    NutState × DequeZipIter :=
  if iter.index ≥ iter.d1.size ∨ iter.index ≥ iter.d2.size then (NUT_ERR_OUT_OF_RANGE, iter)
  else
    let full1 : Bool := iter.d1.capacity = iter.d1.size
    let r1 := if full1 then expand_capacity pf iter.d1 else (NUT_OK, iter.d1)
    let left : Bool := full1 && r1.1 ≠ NUT_OK
    let full2 : Bool := iter.d2.capacity = iter.d2.size
    let r2 := if left && full2 then expand_capacity pf iter.d2 else (NUT_OK, iter.d2)
    let right : Bool := full2 && r2.1 ≠ NUT_OK
    let iter := { iter with d1 := r1.2, d2 := r2.2 }
    if left && right then (NUT_ERR_MALLOC, iter)
    else
      let a1 := nut_deque_add_at pf iter.d1 e1 iter.index
      let a2 := nut_deque_add_at pf iter.d2 e2 iter.index
      (NUT_OK, { iter with d1 := a1.2, d2 := a2.2, index := size_add pf iter.index 1 })


/-- The max-heap property the specification states for the buffer of a
priority queue: every slot `i` with `0 < i < size` holds an element that its
parent slot `NUT_PARENT(i)` does not compare below. -/
def PQueue.IsHeap (pf : Platform) (pq : PQueue) : Prop :=
  ∀ i < pq.size, 0 < i → pq.cmp (pq.buffer (NUT_PARENT pf i)) (pq.buffer i) ≥ 0

instance (pf : Platform) (pq : PQueue) : Decidable (pq.IsHeap pf) := by
  unfold PQueue.IsHeap; infer_instance

/-- The deque `nut_deque_new_conf` returns for a requested capacity of 5 over
the allocator `heap`: the block has the 5 requested slots. -/
def confFive : Deque :=
  { size := 0, capacity := 8, first := 0, last := 0, buffer := uninit, slots := 5,
    mem_alloc := heap, mem_calloc := fun _ _ => some uninit }

/-- The deque `nut_deque_new_conf` returns for a requested capacity of 0 over
the allocator `heap`: the block has no slot. -/
def confZero : Deque :=
  { size := 0, capacity := 2, first := 0, last := 0, buffer := uninit, slots := 0,
    mem_alloc := heap, mem_calloc := fun _ _ => some uninit }

/-- The deque `confFive` after `nut_deque_add_last` of 1, 2, 3, 4 and 5. -/
def confFiveFilled : Deque :=
  (run Platform.p64 confFive
    [.add_last 1, .add_last 2, .add_last 3, .add_last 4, .add_last 5]).1

/-- The number of slots that the `memmove` calls of `nut_deque_add_at` move for
`deque` and `index`: the sum of the lengths handed to `memmove` on the way the
function takes, 0 where it returns before the shift or hands the element to
`nut_deque_add_first` or `nut_deque_add_last`. -/
def add_at_moved (pf : Platform) (deque : Deque) (index : Nat) : Nat :=
  if index ≥ deque.size then 0
  else
    let r := if deque.capacity = deque.size then expand_capacity pf deque else (NUT_OK, deque)
    if r.1 ≠ NUT_OK then 0
    else
      let deque := r.2
      let c := size_sub pf deque.capacity 1
      let l := deque.last &&& c
      let f := deque.first &&& c
      let p := (size_add pf deque.first index) &&& c
      if index = 0 then 0
      else if index = c then 0
      else if index ≤ size_sub pf (deque.size / 2) 1 then
        if p < f ∨ f = 0 then
          let r_move := if f ≠ 0 then size_add pf (size_sub pf c f) 1 else 0
          let l_move := p
          (if f ≠ 0 then r_move else 0) + (if p ≠ 0 then l_move else 0)
        else index
      else
        if p > l ∨ l = c then
          (if p ≠ c then size_sub pf c p else 0) + (if l ≠ c then size_add pf l 1 else 0)
        else size_sub pf deque.size index

/-- The deque on which `nut_deque_add_at` shifts: the deque itself, or the
deque `expand_capacity` leaves when the call starts on a full deque. -/
def add_at_grown (pf : Platform) (deque : Deque) : Deque :=
  if deque.capacity = deque.size then (expand_capacity pf deque).2 else deque

/-! ## Chains of nodes, the remaining SList operations -/

/-- The `next` fields lead from the address `p` through exactly the nodes `ns`,
none of them null, to the address `q`. -/
def SMem.Chain (mem : SMem) : Ptr → List Ptr → Ptr → Prop
  | p, [], q => p = q
  | p, n :: ns, q => p = n ∧ n ≠ 0 ∧ mem.Chain (mem.node n).next ns q

/-- The elements at the positions 0, 2, 4, … of a sequence. -/
def everySecond : List Ptr → List Ptr
  | a :: _ :: rest => a :: everySecond rest
  | l => l

/-- The iterator calls that walk a list of `2 * k` elements and remove every
second one: `k` times next, next, remove, and a last next. -/
def everySecondOps : Nat → List IterOp
  | 0 => [.next]
  | k + 1 => .next :: .next :: .remove :: everySecondOps k

/-- The statuses and out-values the calls of `everySecondOps` are to give on a
list that holds the sequence `s`. -/
def everySecondTrace : List Ptr → List (NutState × Option Ptr)
  | a :: b :: rest =>
    (NUT_OK, some a) :: (NUT_OK, some b) :: (NUT_OK, some b) :: everySecondTrace rest
  | _ => [(NUT_ITER_END, none)]

/-- The state of an iterator between two rounds of next, next, remove: the
list is the chain of the nodes `K` already passed and kept followed by the
nodes `R` still ahead, `next` is the first node ahead, `prev` the last node
kept, and there is no current node. -/
def SListIter.Between (mem : SMem) (iter : SListIter) (K R : List Ptr) : Prop :=
  mem.Chain iter.list.head (K ++ R) 0 ∧ iter.list.size = (K ++ R).length ∧
    iter.list.tail = (K ++ R).getLast?.getD 0 ∧ iter.next = R.head?.getD 0 ∧
    iter.current = 0 ∧ iter.prev = K.getLast?.getD 0

/-- The memory and the list after `nut_slist_add_last` of 1, 2, 3 and 4 on
`freshSList`: the nodes at the addresses 1, 2, 3, 4. -/
def slistFour : SMem × SList :=
  let r := nut_slist_add_last Platform.p64 slistThree.1 slistThree.2 4
  (r.2.1, r.2.2)

/-- The loop of `get_node_at`: `n` more steps from `node` with the predecessor
`prev`; the value is the pair of `*node` and `*prev` at the end. -/
def get_node_at_loop (mem : SMem) : Nat → Ptr → Ptr → Ptr × Ptr
  | 0, node, prev => (node, prev)
  | n + 1, node, _ => get_node_at_loop mem n (mem.node node).next node

/-- The static function `get_node_at`: the status and, on success, the values
written through `node` and `prev`. -/
def get_node_at (mem : SMem) (list : SList) (index : Nat) : NutState × Option (Ptr × Ptr) :=
  if index ≥ list.size then (NUT_ERR_OUT_OF_RANGE, none)
  else (NUT_OK, some (get_node_at_loop mem index list.head 0))

/-- The function `nut_slist_splice` on two different lists: status, memory,
first and second list. -/
def nut_slist_splice (pf : Platform) (mem : SMem) (list1 list2 : SList) :
    NutState × SMem × SList × SList :=
  if list2.size = 0 then (NUT_OK, mem, list1, list2)
  else
    let r : SMem × SList :=
      if list1.size = 0 then (mem, { list1 with head := list2.head, tail := list2.tail })
      else (mem.setNext list1.tail list2.head, { list1 with tail := list2.tail })
    (NUT_OK, r.1, { r.2 with size := size_add pf r.2.size list2.size },
      { list2 with head := 0, tail := 0, size := 0 })

/-- The static function `splice_between` on two different lists; `end_` is the
parameter `end` of the source. -/
def splice_between (pf : Platform) (mem : SMem) (l1 l2 : SList) (base end_ : Ptr) :
    SMem × SList × SList :=
  let r : SMem × SList :=
    if base = 0 then (mem.setNext l2.tail l1.head, { l1 with head := l2.head })
    else if end_ = 0 then (mem.setNext l1.tail l2.head, { l1 with tail := l2.tail })
    else ((mem.setNext base l2.head).setNext l2.tail end_, l1)
  (r.1, { r.2 with size := size_add pf r.2.size l2.size },
    { l2 with head := 0, tail := 0, size := 0 })

/-- The function `nut_slist_splice_at` on two different lists: status, memory,
first and second list. -/
def nut_slist_splice_at (pf : Platform) (mem : SMem) (list1 list2 : SList) (index : Nat) :
    NutState × SMem × SList × SList :=
  if list2.size = 0 then (NUT_OK, mem, list1, list2)
  else if index ≥ list1.size then (NUT_ERR_OUT_OF_RANGE, mem, list1, list2)
  else
    let g := get_node_at mem list1 index
    if g.1 ≠ NUT_OK then (g.1, mem, list1, list2)
    else
      let node := (g.2.getD (0, 0)).1
      let prev := (g.2.getD (0, 0)).2
      let r := splice_between pf mem list1 list2 prev node
      (NUT_OK, r.1, r.2.1, r.2.2)

/-- The memory after `nut_slist_add_last` of 4 and 5 on a second new list, in
the memory that holds the list 1, 2, 3; and this second list, whose nodes are
at the addresses 4 and 5. -/
def slistPair : SMem × SList :=
  let r1 := nut_slist_add_last Platform.p64 slistThree.1 freshSList 4
  let r2 := nut_slist_add_last Platform.p64 r1.2.1 r1.2.2 5
  (r2.2.1, r2.2.2)

/-- The condition under which an insertion finds room inside the block: the
array is not full, or it is below `NUT_MAX_ELEMENTS`, the product
`capacity * exp_factor` exceeds the capacity and stays within
`NUT_MAX_ELEMENTS`, its byte count fits `size_t`, and `nut_mem_alloc` returns
the block. -/
def NutArray.HasRoom (pf : Platform) (m : NutMem) (ar : NutArray) : Prop :=
  ar.size < ar.capacity ∨ (ar.capacity ≠ NUT_MAX_ELEMENTS pf ∧
    ar.capacity < size_mul pf ar.capacity ar.exp_factor ∧
    size_mul pf ar.capacity ar.exp_factor ≤ NUT_MAX_ELEMENTS pf ∧
    size_mul pf (size_mul pf ar.capacity ar.exp_factor) (PTR_SIZE pf) / PTR_SIZE pf
      = size_mul pf ar.capacity ar.exp_factor ∧
    (m.nut_mem_alloc
      (size_mul pf (size_mul pf ar.capacity ar.exp_factor) (PTR_SIZE pf))).isSome)

/-! # Lemmas -/

/-! ## Machine arithmetic -/

theorem size_add_of_lt (pf : Platform) {a b : Nat} (h : a + b < 2 ^ pf.bits) :
    size_add pf a b = a + b :=
  Nat.mod_eq_of_lt h

theorem size_sub_of_le (pf : Platform) {a b : Nat} (hb : b ≤ a) (ha : a < 2 ^ pf.bits) :
    size_sub pf a b = a - b := by
  unfold size_sub
  generalize 2 ^ pf.bits = M at *
  rw [Nat.mod_eq_of_lt (by omega : b < M)]
  have h1 : a + (M - b) = (a - b) + M := by omega
  rw [h1, Nat.add_mod_right, Nat.mod_eq_of_lt (by omega)]

theorem size_shl_one (pf : Platform) {a : Nat} (h : 2 * a < 2 ^ pf.bits) :
    size_shl pf a 1 = 2 * a := by
  unfold size_shl
  rw [Nat.shiftLeft_eq, Nat.mod_eq_of_lt (by omega)]
  omega

theorem MAX_POW_TWO_pow (pf : Platform) : ∃ m, MAX_POW_TWO pf = 2 ^ m := by
  unfold MAX_POW_TWO
  cases pf.arch64
  · exact ⟨31, by simp [Nat.shiftLeft_eq]⟩
  · exact ⟨63, by simp [Nat.shiftLeft_eq]⟩

theorem add_mod_inj {c a i j : Nat} (hi : i < c) (hj : j < c)
    (h : (a + i) % c = (a + j) % c) : i = j := by
  have h1 : i ≡ j [MOD c] := Nat.ModEq.add_left_cancel' a h
  have h2 : i % c = j % c := h1
  rwa [Nat.mod_eq_of_lt hi, Nat.mod_eq_of_lt hj] at h2

/-- Decrementing a `size_t` and masking with `2 ^ k - 1` steps back by one
modulo `2 ^ k`. -/
theorem size_sub_one_mod (pf : Platform) {k : Nat} (hk : k < pf.bits) (a : Nat) :
    size_sub pf a 1 % 2 ^ k = (a + (2 ^ k - 1)) % 2 ^ k := by
  unfold size_sub
  have hdvd : 2 ^ k ∣ 2 ^ pf.bits := Nat.pow_dvd_pow 2 (Nat.le_of_lt hk)
  have hB : 1 < 2 ^ pf.bits := Nat.one_lt_two_pow (by omega)
  rw [Nat.mod_mod_of_dvd _ hdvd, Nat.mod_eq_of_lt hB]
  obtain ⟨q, hq⟩ := hdvd
  have hkpos : 0 < 2 ^ k := Nat.two_pow_pos k
  have hqpos : 0 < q := by
    rcases Nat.eq_zero_or_pos q with h | h
    · rw [h] at hq; omega
    · exact h
  rw [hq]
  obtain ⟨q', rfl⟩ : ∃ q', q = q' + 1 := ⟨q - 1, by omega⟩
  have : a + (2 ^ k * (q' + 1) - 1) = (a + (2 ^ k - 1)) + 2 ^ k * q' := by
    rw [Nat.mul_add, Nat.mul_one]
    generalize 2 ^ k * q' = X
    omega
  rw [this, Nat.add_mul_mod_self_left]

/-- What well-formedness says about the capacity on a platform where
`MAX_POW_TWO` fits in a `size_t`. -/
theorem Deque.WellFormed.cap (pf : Platform) (hpf : pf.ok) {d : Deque}
    (h : d.WellFormed pf) :
    ∃ k, k < pf.bits ∧ d.capacity = 2 ^ k ∧ 0 < d.capacity ∧ d.capacity < 2 ^ pf.bits := by
  obtain ⟨⟨k, hk, hc⟩, hle, -⟩ := h
  refine ⟨k, hk, hc, ?_, ?_⟩
  · rw [hc]; exact Nat.two_pow_pos k
  · exact Nat.lt_of_le_of_lt hle hpf

/-- The mask `capacity - 1` computes the remainder modulo the capacity. -/
theorem mask_eq_mod (pf : Platform) {cap k : Nat} (hc : cap = 2 ^ k) (hlt : cap < 2 ^ pf.bits)
    (x : Nat) : x &&& size_sub pf cap 1 = x % cap := by
  have hpos : 0 < cap := by rw [hc]; exact Nat.two_pow_pos k
  rw [size_sub_of_le pf (by omega) hlt, hc, Nat.and_pow_two_sub_one_eq_mod]

/-- Doubling a power of two strictly below `MAX_POW_TWO` stays within it. -/
theorem double_le_max (pf : Platform) {cap k : Nat} (hc : cap = 2 ^ k)
    (hlt : cap < MAX_POW_TWO pf) : 2 * cap ≤ MAX_POW_TWO pf := by
  obtain ⟨m, hm⟩ := MAX_POW_TWO_pow pf
  rw [hm] at hlt ⊢
  subst hc
  have hkm : k < m := (Nat.pow_lt_pow_iff_right (by norm_num)).mp hlt
  calc 2 * 2 ^ k = 2 ^ (k + 1) := by rw [Nat.pow_succ]; omega
    _ ≤ 2 ^ m := Nat.pow_le_pow_right (by norm_num) hkm

/-! ## Growth -/

/-- The function `copy_buffer` without a copy callback realigns the buffer:
slot `i` of the destination receives the logical element `i`. -/
theorem copy_buffer_none_get (pf : Platform) (hpf : pf.ok) {d : Deque}
    (hwf : d.WellFormed pf) (blk : Block) {i : Nat} (hi : i < d.size) :
    copy_buffer pf d blk none i = d.buffer ((d.first + i) % d.capacity) := by
  obtain ⟨k, hk, hc, hpos, hlt⟩ := hwf.cap pf hpf
  obtain ⟨-, -, hsz, hfirst, hlast⟩ := hwf
  have hmask : d.capacity - 1 = 2 ^ k - 1 := by rw [hc]
  rw [hmask, Nat.and_pow_two_sub_one_eq_mod, ← hc] at hlast
  have he : size_sub pf d.capacity d.first = d.capacity - d.first :=
    size_sub_of_le pf (Nat.le_of_lt hfirst) hlt
  simp only [copy_buffer, he]
  by_cases hwrap : d.first + d.size < d.capacity
  · rw [Nat.mod_eq_of_lt hwrap] at hlast
    rw [if_pos (by omega), Nat.mod_eq_of_lt (by omega)]
    simp only [memcpy]
    rw [if_pos (by omega)]
    congr 1
  · have hl : d.last = d.first + d.size - d.capacity := by
      rw [hlast, Nat.mod_eq_sub_mod (by omega), Nat.mod_eq_of_lt (by omega)]
    rw [if_neg (by omega)]
    simp only [memcpy]
    by_cases hie : i < d.capacity - d.first
    · rw [if_neg (by omega), if_pos (by omega), Nat.mod_eq_of_lt (by omega)]
      congr 1
    · rw [if_pos (by omega), Nat.mod_eq_sub_mod (by omega), Nat.mod_eq_of_lt (by omega)]
      congr 1
      omega

/-- Growth of a full deque below `MAX_POW_TWO`, the allocation succeeding:
the capacity doubles, the elements are realigned at slot 0 and the logical
sequence is kept. -/
theorem expand_capacity_models (pf : Platform) (hpf : pf.ok) {d : Deque} {s : List Ptr}
    (h : d.Models pf s) (hfull : d.size = d.capacity) (hmax : d.capacity < MAX_POW_TWO pf)
    (halloc : (d.mem_calloc (size_shl pf d.capacity 1) (PTR_SIZE pf)).isSome) :
    ∃ d', expand_capacity pf d = (NUT_OK, d') ∧ d'.Models pf s ∧
      d'.capacity = 2 * d.capacity ∧ d'.size = d.size ∧ d'.first = 0 ∧ d'.last = d.size ∧
      d'.mem_calloc = d.mem_calloc ∧ d'.mem_alloc = d.mem_alloc ∧
      ∀ i, i < d.size → d'.buffer i = d.buffer ((d.first + i) % d.capacity) := by
  obtain ⟨hwf, hlen, hget⟩ := h
  obtain ⟨k, hk, hc, hpos, hlt⟩ := hwf.cap pf hpf
  have h2 : 2 * d.capacity ≤ MAX_POW_TWO pf := double_le_max pf hc hmax
  have h2lt : 2 * d.capacity < 2 ^ pf.bits := Nat.lt_of_le_of_lt h2 hpf
  have hshl : size_shl pf d.capacity 1 = 2 * d.capacity := size_shl_one pf h2lt
  rw [hshl] at halloc
  obtain ⟨blk, hblk⟩ := Option.isSome_iff_exists.mp halloc
  have hk1 : k + 1 < pf.bits := by
    have : 2 ^ (k + 1) < 2 ^ pf.bits := by rw [Nat.pow_succ]; omega
    exact (Nat.pow_lt_pow_iff_right (by norm_num)).mp this
  have hcap2 : 2 * d.capacity = 2 ^ (k + 1) := by rw [Nat.pow_succ]; omega
  refine ⟨{ d with first := 0, last := d.size, capacity := 2 * d.capacity,
                   buffer := copy_buffer pf d blk none, slots := 2 * d.capacity }, ?_, ?_,
    rfl, rfl, rfl, rfl, rfl, rfl, ?_⟩
  · simp only [expand_capacity, if_neg (Nat.ne_of_lt hmax), hshl, hblk]
  · refine ⟨⟨⟨k + 1, hk1, hcap2⟩, h2, ?_, ?_, ?_⟩, hlen, ?_⟩
    · show d.size ≤ 2 * d.capacity
      omega
    · show 0 < 2 * d.capacity
      omega
    · show d.size = (0 + d.size) &&& (2 * d.capacity - 1)
      rw [hcap2, Nat.and_pow_two_sub_one_eq_mod, ← hcap2, Nat.zero_add,
        Nat.mod_eq_of_lt (by omega)]
    · intro i hi
      show s[i]? = some (copy_buffer pf d blk none ((0 + i) % (2 * d.capacity)))
      have hi' : i < d.size := hi
      rw [Nat.zero_add, Nat.mod_eq_of_lt (by omega), copy_buffer_none_get pf hpf hwf blk hi']
      exact hget i hi'
  · intro i hi
    exact copy_buffer_none_get pf hpf hwf blk hi

/-! ## The end operations on a well-formed deque -/

theorem Deque.WellFormed.norm (pf : Platform) (hpf : pf.ok) {d : Deque}
    (h : d.WellFormed pf) :
    ∃ k, k < pf.bits ∧ d.capacity = 2 ^ k ∧ 0 < d.capacity ∧ d.capacity < 2 ^ pf.bits ∧
      d.capacity ≤ MAX_POW_TWO pf ∧ d.size ≤ d.capacity ∧ d.first < d.capacity ∧
      d.last = (d.first + d.size) % d.capacity := by
  obtain ⟨k, hk, hc, hpos, hlt⟩ := h.cap pf hpf
  obtain ⟨-, hle, hsz, hfirst, hlast⟩ := h
  refine ⟨k, hk, hc, hpos, hlt, hle, hsz, hfirst, ?_⟩
  have hmask : d.capacity - 1 = 2 ^ k - 1 := by rw [hc]
  rw [hmask, Nat.and_pow_two_sub_one_eq_mod, ← hc] at hlast
  exact hlast

theorem Deque.WellFormed.of_norm (pf : Platform) {d : Deque} {k : Nat} (hk : k < pf.bits)
    (hc : d.capacity = 2 ^ k) (hle : d.capacity ≤ MAX_POW_TWO pf) (hsz : d.size ≤ d.capacity)
    (hfirst : d.first < d.capacity) (hlast : d.last = (d.first + d.size) % d.capacity) :
    d.WellFormed pf := by
  refine ⟨⟨k, hk, hc⟩, hle, hsz, hfirst, ?_⟩
  have hmask : d.capacity - 1 = 2 ^ k - 1 := by rw [hc]
  rw [hmask, Nat.and_pow_two_sub_one_eq_mod, ← hc]
  exact hlast

/-- The call `nut_deque_add_last` on a deque with a free slot. -/
theorem add_last_models_of_lt (pf : Platform) (hpf : pf.ok) {d : Deque} {s : List Ptr}
    (h : d.Models pf s) (hlt : d.size < d.capacity) (e : Ptr) :
    ∃ d', nut_deque_add_last pf d e = (NUT_OK, d') ∧ d'.Models pf (s ++ [e]) ∧
      d'.capacity = d.capacity ∧ d'.mem_calloc = d.mem_calloc ∧
      d'.mem_alloc = d.mem_alloc := by
  obtain ⟨hwf, hlen, hget⟩ := h
  obtain ⟨k, hk, hc, hpos, hcl, hle, hsz, hfirst, hlast⟩ := hwf.norm pf hpf
  have hlastlt : d.last < d.capacity := by rw [hlast]; exact Nat.mod_lt _ hpos
  refine ⟨{ d with buffer := Function.update d.buffer d.last e,
                   last := (d.last + 1) % d.capacity, size := d.size + 1 }, ?_, ?_,
    rfl, rfl, rfl⟩
  · have hne : ¬ d.capacity = d.size := by omega
    simp only [nut_deque_add_last, if_neg hne, ne_eq, not_true_eq_false, if_false,
      mask_eq_mod pf hc hcl, size_add_of_lt pf (by omega : d.last + 1 < 2 ^ pf.bits),
      size_add_of_lt pf (by omega : d.size + 1 < 2 ^ pf.bits)]
  · refine ⟨Deque.WellFormed.of_norm pf hk hc hle (by show d.size + 1 ≤ d.capacity; omega)
      hfirst ?_, by simp [hlen], ?_⟩
    · show (d.last + 1) % d.capacity = (d.first + (d.size + 1)) % d.capacity
      rw [hlast, Nat.mod_add_mod, Nat.add_assoc]
    · intro i hi
      show (s ++ [e])[i]? = some (Function.update d.buffer d.last e ((d.first + i) % d.capacity))
      have hi' : i < d.size + 1 := hi
      by_cases his : i < d.size
      · have hneq : (d.first + i) % d.capacity ≠ d.last := by
          rw [hlast]
          intro hEq
          have := add_mod_inj (by omega) hlt hEq
          omega
        rw [List.getElem?_append_left (by omega), Function.update_noteq hneq]
        exact hget i his
      · have hie : i = d.size := by omega
        subst hie
        rw [List.getElem?_append_right (by omega), ← hlast, Function.update_same]
        simp [hlen]

/-- The call `nut_deque_add_first` on a deque with a free slot. -/
theorem add_first_models_of_lt (pf : Platform) (hpf : pf.ok) {d : Deque} {s : List Ptr}
    (h : d.Models pf s) (hlt : d.size < d.capacity) (e : Ptr) :
    ∃ d', nut_deque_add_first pf d e = (NUT_OK, d') ∧ d'.Models pf (e :: s) ∧
      d'.capacity = d.capacity ∧ d'.mem_calloc = d.mem_calloc ∧
      d'.mem_alloc = d.mem_alloc := by
  obtain ⟨hwf, hlen, hget⟩ := h
  obtain ⟨k, hk, hc, hpos, hcl, hle, hsz, hfirst, hlast⟩ := hwf.norm pf hpf
  have hstep : size_sub pf d.first 1 &&& size_sub pf d.capacity 1
      = (d.first + (d.capacity - 1)) % d.capacity := by
    rw [mask_eq_mod pf hc hcl, hc, size_sub_one_mod pf hk]
  refine ⟨{ d with first := (d.first + (d.capacity - 1)) % d.capacity,
                   buffer := Function.update d.buffer
                     ((d.first + (d.capacity - 1)) % d.capacity) e,
                   size := d.size + 1 }, ?_, ?_, rfl, rfl, rfl⟩
  · have hne : ¬ d.size ≥ d.capacity := by omega
    simp only [nut_deque_add_first, if_neg hne, ne_eq, not_true_eq_false, if_false,
      hstep, size_add_of_lt pf (by omega : d.size + 1 < 2 ^ pf.bits)]
  · have hshift : ∀ j, ((d.first + (d.capacity - 1)) % d.capacity + (j + 1)) % d.capacity
        = (d.first + j) % d.capacity := by
      intro j
      rw [Nat.mod_add_mod]
      have : d.first + (d.capacity - 1) + (j + 1) = (d.first + j) + d.capacity := by omega
      rw [this, Nat.add_mod_right]
    refine ⟨Deque.WellFormed.of_norm pf hk hc hle (by show d.size + 1 ≤ d.capacity; omega)
      (Nat.mod_lt _ hpos) ?_, by simp [hlen], ?_⟩
    · show d.last = ((d.first + (d.capacity - 1)) % d.capacity + (d.size + 1)) % d.capacity
      rw [hshift, hlast]
    · intro i hi
      show (e :: s)[i]? = some (Function.update d.buffer
        ((d.first + (d.capacity - 1)) % d.capacity) e
        (((d.first + (d.capacity - 1)) % d.capacity + i) % d.capacity))
      have hi' : i < d.size + 1 := hi
      cases i with
      | zero =>
        rw [Nat.add_zero, Nat.mod_mod, Function.update_same]
        exact List.getElem?_cons_zero
      | succ j =>
        have hneq : (d.first + j) % d.capacity ≠ (d.first + (d.capacity - 1)) % d.capacity := by
          intro hEq
          have := add_mod_inj (by omega) (by omega) hEq
          omega
        rw [hshift, Function.update_noteq hneq, List.getElem?_cons_succ]
        exact hget j (by omega)

/-- The call `nut_deque_remove_first` on a non-empty deque. -/
theorem remove_first_models (pf : Platform) (hpf : pf.ok) {d : Deque} {x : Ptr}
    {s : List Ptr} (h : d.Models pf (x :: s)) :
    ∃ d', nut_deque_remove_first pf d = (NUT_OK, d', some x) ∧ d'.Models pf s ∧
      d'.capacity = d.capacity ∧ d'.mem_calloc = d.mem_calloc ∧
      d'.mem_alloc = d.mem_alloc := by
  obtain ⟨hwf, hlen, hget⟩ := h
  obtain ⟨k, hk, hc, hpos, hcl, hle, hsz, hfirst, hlast⟩ := hwf.norm pf hpf
  have hsize : d.size = s.length + 1 := by simpa using hlen.symm
  have hx : d.buffer d.first = x := by
    have := hget 0 (by omega)
    rw [Nat.add_zero, Nat.mod_eq_of_lt hfirst] at this
    simpa using this.symm
  refine ⟨{ d with first := (d.first + 1) % d.capacity, size := d.size - 1 }, ?_, ?_,
    rfl, rfl, rfl⟩
  · have hne : ¬ d.size = 0 := by omega
    simp only [nut_deque_remove_first, if_neg hne, hx, mask_eq_mod pf hc hcl,
      size_add_of_lt pf (by omega : d.first + 1 < 2 ^ pf.bits),
      size_sub_of_le pf (by omega : 1 ≤ d.size) (by omega : d.size < 2 ^ pf.bits)]
  · refine ⟨Deque.WellFormed.of_norm pf hk hc hle (by show d.size - 1 ≤ d.capacity; omega)
      (Nat.mod_lt _ hpos) ?_, by show s.length = d.size - 1; omega, ?_⟩
    · show d.last = ((d.first + 1) % d.capacity + (d.size - 1)) % d.capacity
      rw [hlast, Nat.mod_add_mod]
      congr 1
      omega
    · intro i hi
      show s[i]? = some (d.buffer (((d.first + 1) % d.capacity + i) % d.capacity))
      have hi' : i < d.size - 1 := hi
      have := hget (i + 1) (by omega)
      rw [List.getElem?_cons_succ] at this
      rw [this, Nat.mod_add_mod]
      congr 3
      omega

/-- The call `nut_deque_remove_last` on a non-empty deque. -/
theorem remove_last_models (pf : Platform) (hpf : pf.ok) {d : Deque} {x : Ptr}
    {s : List Ptr} (h : d.Models pf s) (hx : s.getLast? = some x) :
    ∃ d', nut_deque_remove_last pf d = (NUT_OK, d', some x) ∧ d'.Models pf s.dropLast ∧
      d'.capacity = d.capacity ∧ d'.mem_calloc = d.mem_calloc ∧
      d'.mem_alloc = d.mem_alloc := by
  obtain ⟨hwf, hlen, hget⟩ := h
  obtain ⟨k, hk, hc, hpos, hcl, hle, hsz, hfirst, hlast⟩ := hwf.norm pf hpf
  have hspos : 0 < d.size := by
    rw [← hlen]
    cases s with
    | nil => simp at hx
    | cons a t => simp
  have hstep : size_sub pf d.last 1 &&& size_sub pf d.capacity 1
      = (d.first + (d.size - 1)) % d.capacity := by
    rw [mask_eq_mod pf hc hcl, hc, size_sub_one_mod pf hk, ← hc, hlast, Nat.mod_add_mod]
    have : d.first + d.size + (d.capacity - 1) = (d.first + (d.size - 1)) + d.capacity := by
      omega
    rw [this, Nat.add_mod_right]
  have hval : d.buffer ((d.first + (d.size - 1)) % d.capacity) = x := by
    have := hget (d.size - 1) (by omega)
    rw [List.getLast?_eq_getElem?, hlen, this] at hx
    simpa using hx
  refine ⟨{ d with last := (d.first + (d.size - 1)) % d.capacity, size := d.size - 1 },
    ?_, ?_, rfl, rfl, rfl⟩
  · have hne : ¬ d.size = 0 := by omega
    simp only [nut_deque_remove_last, if_neg hne, hstep, hval,
      size_sub_of_le pf (by omega : 1 ≤ d.size) (by omega : d.size < 2 ^ pf.bits)]
  · refine ⟨Deque.WellFormed.of_norm pf hk hc hle (by show d.size - 1 ≤ d.capacity; omega)
      hfirst rfl, by simp [hlen], ?_⟩
    intro i hi
    show s.dropLast[i]? = some (d.buffer ((d.first + i) % d.capacity))
    have hi' : i < d.size - 1 := hi
    rw [List.getElem?_dropLast, if_pos (by omega)]
    exact hget i (by omega)

/-- The call `nut_deque_add_last` on a well-formed deque below `MAX_POW_TWO`
whose allocator does not fail: the element is appended, after growth if the
deque was full. -/
theorem add_last_models (pf : Platform) (hpf : pf.ok) {d : Deque} {s : List Ptr}
    (h : d.Models pf s)
    (halloc : (d.mem_calloc (size_shl pf d.capacity 1) (PTR_SIZE pf)).isSome)
    (hmax : d.capacity < MAX_POW_TWO pf) (e : Ptr) :
    ∃ d', nut_deque_add_last pf d e = (NUT_OK, d') ∧ d'.Models pf (s ++ [e]) ∧
      d'.mem_calloc = d.mem_calloc := by
  by_cases hfull : d.size = d.capacity
  · obtain ⟨d1, hexp, hm1, hcap1, hsz1, -, -, hcal1, -, -⟩ :=
      expand_capacity_models pf hpf h hfull hmax halloc
    have hpos : 0 < d.capacity := by
      obtain ⟨k, -, -, hpos, -⟩ := h.1.norm pf hpf
      exact hpos
    have hlt1 : d1.size < d1.capacity := by omega
    obtain ⟨d', heq, hm', -, hcal', -⟩ := add_last_models_of_lt pf hpf hm1 hlt1 e
    refine ⟨d', ?_, hm', by rw [hcal', hcal1]⟩
    rw [← heq]
    have hne1 : ¬ d1.capacity = d1.size := by omega
    simp only [nut_deque_add_last, if_pos hfull.symm, hexp, if_neg hne1]
  · have hlt : d.size < d.capacity := by
      have := h.1.2.2.1
      omega
    obtain ⟨d', heq, hm', -, hcal', -⟩ := add_last_models_of_lt pf hpf h hlt e
    exact ⟨d', heq, hm', hcal'⟩

/-- The call `nut_deque_add_first` on a well-formed deque below `MAX_POW_TWO`
whose allocator does not fail: the element is prepended, after growth if the
deque was full. -/
theorem add_first_models (pf : Platform) (hpf : pf.ok) {d : Deque} {s : List Ptr}
    (h : d.Models pf s)
    (halloc : (d.mem_calloc (size_shl pf d.capacity 1) (PTR_SIZE pf)).isSome)
    (hmax : d.capacity < MAX_POW_TWO pf) (e : Ptr) :
    ∃ d', nut_deque_add_first pf d e = (NUT_OK, d') ∧ d'.Models pf (e :: s) ∧
      d'.mem_calloc = d.mem_calloc := by
  by_cases hfull : d.size = d.capacity
  · obtain ⟨d1, hexp, hm1, hcap1, hsz1, -, -, hcal1, -, -⟩ :=
      expand_capacity_models pf hpf h hfull hmax halloc
    have hpos : 0 < d.capacity := by
      obtain ⟨k, -, -, hpos, -⟩ := h.1.norm pf hpf
      exact hpos
    have hlt1 : d1.size < d1.capacity := by omega
    obtain ⟨d', heq, hm', -, hcal', -⟩ := add_first_models_of_lt pf hpf hm1 hlt1 e
    refine ⟨d', ?_, hm', by rw [hcal', hcal1]⟩
    rw [← heq]
    have hge : d.size ≥ d.capacity := by omega
    have hne1 : ¬ d1.size ≥ d1.capacity := by omega
    simp only [nut_deque_add_first, if_pos hge, hexp, if_neg hne1]
  · have hlt : d.size < d.capacity := by
      have := h.1.2.2.1
      omega
    obtain ⟨d', heq, hm', -, hcal', -⟩ := add_first_models_of_lt pf hpf h hlt e
    exact ⟨d', heq, hm', hcal'⟩

/-- The removals report an out-of-range error on an empty deque and leave it
as it is. -/
theorem remove_models_nil (pf : Platform) {d : Deque} (h : d.Models pf []) :
    nut_deque_remove_first pf d = (NUT_ERR_OUT_OF_RANGE, d, none) ∧
      nut_deque_remove_last pf d = (NUT_ERR_OUT_OF_RANGE, d, none) := by
  have hsz : d.size = 0 := by simpa using h.2.1.symm
  simp [nut_deque_remove_first, nut_deque_remove_last, hsz]

/-- Reading a well-formed deque through `nut_deque_get_at` yields its
logical sequence. -/
theorem contents_of_models (pf : Platform) (hpf : pf.ok) {d : Deque} {s : List Ptr}
    (h : d.Models pf s) : d.contents pf = s.map some := by
  obtain ⟨hwf, hlen, hget⟩ := h
  obtain ⟨k, hk, hc, hpos, hcl, hle, hsz, hfirst, hlast⟩ := hwf.norm pf hpf
  apply List.ext_getElem?
  intro i
  unfold Deque.contents
  by_cases hi : i < d.size
  · have hidx : size_add pf d.first i &&& size_sub pf d.capacity 1
        = (d.first + i) % d.capacity := by
      rw [mask_eq_mod pf hc hcl]
      unfold size_add
      exact Nat.mod_mod_of_dvd _ (hc ▸ Nat.pow_dvd_pow 2 (Nat.le_of_lt hk))
    have hgt : ¬ i > d.size := by omega
    simp only [List.getElem?_map, List.getElem?_range hi, Option.map_some', nut_deque_get_at,
      if_neg hgt, hidx, hget i hi]
  · have h1 : (List.map (fun i => (nut_deque_get_at pf d i).2) (List.range d.size))[i]? = none := by
      rw [List.getElem?_eq_none]
      simp
      omega
    have h2 : (List.map some s)[i]? = none := by
      rw [List.getElem?_eq_none]
      simp
      omega
    rw [h1, h2]

/-- Simulation: a run of end operations on a well-formed deque holding `s`
ends in a deque holding the sequence the reference reaches from `s`, and the
two runs report the same statuses and out-values. -/
theorem run_models (pf : Platform) (hpf : pf.ok) (ops : List DequeOp) :
    ∀ (d : Deque) (s : List Ptr), d.Models pf s → (∀ n m, (d.mem_calloc n m).isSome) →
      staysBelowMax pf d ops = true →
      (run pf d ops).1.Models pf (runRef s ops).1 ∧ (run pf d ops).2 = (runRef s ops).2 := by
  induction ops with
  | nil =>
    intro d s h _ _
    exact ⟨h, rfl⟩
  | cons op ops ih =>
    intro d s h halloc hstay
    simp only [staysBelowMax, Bool.and_eq_true, decide_eq_true_eq] at hstay
    obtain ⟨hmax, hrest⟩ := hstay
    cases op with
    | add_last e =>
      obtain ⟨d', heq, hm', hcal⟩ := add_last_models pf hpf h (halloc _ _) hmax e
      have happ : (DequeOp.add_last e).apply pf d = (NUT_OK, d', none) := by
        simp only [DequeOp.apply, heq]
      rw [happ] at hrest
      obtain ⟨h1, h2⟩ := ih d' (s ++ [e]) hm' (hcal ▸ halloc) hrest
      simp only [run, runRef, happ, DequeOp.applyRef]
      exact ⟨h1, by rw [h2]⟩
    | add_first e =>
      obtain ⟨d', heq, hm', hcal⟩ := add_first_models pf hpf h (halloc _ _) hmax e
      have happ : (DequeOp.add_first e).apply pf d = (NUT_OK, d', none) := by
        simp only [DequeOp.apply, heq]
      rw [happ] at hrest
      obtain ⟨h1, h2⟩ := ih d' (e :: s) hm' (hcal ▸ halloc) hrest
      simp only [run, runRef, happ, DequeOp.applyRef]
      exact ⟨h1, by rw [h2]⟩
    | remove_first =>
      cases s with
      | nil =>
        have happ : DequeOp.remove_first.apply pf d = (NUT_ERR_OUT_OF_RANGE, d, none) :=
          (remove_models_nil pf h).1
        rw [happ] at hrest
        obtain ⟨h1, h2⟩ := ih d [] h halloc hrest
        simp only [run, runRef, happ, DequeOp.applyRef]
        exact ⟨h1, by rw [h2]⟩
      | cons x t =>
        obtain ⟨d', heq, hm', -, hcal, -⟩ := remove_first_models pf hpf h
        have happ : DequeOp.remove_first.apply pf d = (NUT_OK, d', some x) := heq
        rw [happ] at hrest
        obtain ⟨h1, h2⟩ := ih d' t hm' (hcal ▸ halloc) hrest
        simp only [run, runRef, happ, DequeOp.applyRef]
        exact ⟨h1, by rw [h2]⟩
    | remove_last =>
      cases hx : s.getLast? with
      | none =>
        have hs : s = [] := List.getLast?_eq_none_iff.mp hx
        subst hs
        have happ : DequeOp.remove_last.apply pf d = (NUT_ERR_OUT_OF_RANGE, d, none) :=
          (remove_models_nil pf h).2
        rw [happ] at hrest
        obtain ⟨h1, h2⟩ := ih d [] h halloc hrest
        simp only [run, runRef, happ, DequeOp.applyRef, List.getLast?_nil]
        exact ⟨h1, by rw [h2]⟩
      | some x =>
        obtain ⟨d', heq, hm', -, hcal, -⟩ := remove_last_models pf hpf h hx
        have happ : DequeOp.remove_last.apply pf d = (NUT_OK, d', some x) := heq
        rw [happ] at hrest
        obtain ⟨h1, h2⟩ := ih d' s.dropLast hm' (hcal ▸ halloc) hrest
        simp only [run, runRef, happ, DequeOp.applyRef, hx]
        exact ⟨h1, by rw [h2]⟩

/-! ## Creation -/

theorem MAX_POW_TWO_ge (pf : Platform) : 2 ^ 31 ≤ MAX_POW_TWO pf := by
  unfold MAX_POW_TWO
  cases pf.arch64 <;> simp [Nat.shiftLeft_eq]

theorem Platform.ok.bits_gt (pf : Platform) (hpf : pf.ok) : 31 < pf.bits := by
  have h : 2 ^ 31 < 2 ^ pf.bits := Nat.lt_of_le_of_lt (MAX_POW_TWO_ge pf) hpf
  exact (Nat.pow_lt_pow_iff_right (by norm_num)).mp h

theorem upper_pow_two_default (pf : Platform) (hpf : pf.ok) :
    upper_pow_two pf DEFAULT_CAPACITY = 8 := by
  have hM := MAX_POW_TWO_ge pf
  have hB : (2 : Nat) ^ 31 < 2 ^ pf.bits := Nat.lt_of_le_of_lt hM hpf
  have h1 : ¬ DEFAULT_CAPACITY ≥ MAX_POW_TWO pf := by
    unfold DEFAULT_CAPACITY
    omega
  have h2 : size_sub pf 8 1 = 7 := size_sub_of_le pf (by omega) (by omega)
  have h3 : size_add pf 7 1 = 8 := size_add_of_lt pf (by omega)
  unfold upper_pow_two
  rw [if_neg h1]
  simp [DEFAULT_CAPACITY, h2, h3]

/-- The call `nut_deque_new` with a port allocator that does not fail returns an
empty well-formed deque of capacity 8 whose allocators do not fail. -/
theorem nut_deque_new_models (pf : Platform) (hpf : pf.ok)
    (pvPortMalloc : Nat → Option Block) (halloc : ∀ n, (pvPortMalloc n).isSome) :
    ∃ d0, nut_deque_new pf pvPortMalloc = (NUT_OK, some d0) ∧ d0.Models pf [] ∧
      d0.capacity = 8 ∧ ∀ n m, (d0.mem_calloc n m).isSome := by
  obtain ⟨b1, hb1⟩ := Option.isSome_iff_exists.mp
    (halloc (size_mul pf 1 (SIZEOF_DEQUE pf)))
  obtain ⟨b2, hb2⟩ := Option.isSome_iff_exists.mp
    (halloc (size_mul pf DEFAULT_CAPACITY (PTR_SIZE pf)))
  have hbits := Platform.ok.bits_gt pf hpf
  have hM := MAX_POW_TWO_ge pf
  refine ⟨{ size := 0, capacity := upper_pow_two pf DEFAULT_CAPACITY, first := 0, last := 0,
            buffer := b2,
            slots := size_mul pf DEFAULT_CAPACITY (PTR_SIZE pf) / PTR_SIZE pf,
            mem_alloc := fun size => pvPortMalloc size,
            mem_calloc := fun blocks size => pvPortMalloc (size_mul pf blocks size) },
    ?_, ?_, ?_, ?_⟩
  · simp only [nut_deque_new, nut_deque_new_conf, nut_deque_conf_init, hb1, hb2]
  · refine ⟨Deque.WellFormed.of_norm pf (k := 3) (by omega) ?_ ?_ ?_ ?_ ?_, rfl, ?_⟩
    · show upper_pow_two pf DEFAULT_CAPACITY = 2 ^ 3
      rw [upper_pow_two_default pf hpf]
      norm_num
    · show upper_pow_two pf DEFAULT_CAPACITY ≤ MAX_POW_TWO pf
      rw [upper_pow_two_default pf hpf]
      omega
    · show 0 ≤ upper_pow_two pf DEFAULT_CAPACITY
      omega
    · show 0 < upper_pow_two pf DEFAULT_CAPACITY
      rw [upper_pow_two_default pf hpf]
      omega
    · show 0 = (0 + 0) % upper_pow_two pf DEFAULT_CAPACITY
      simp
    · intro i hi
      exact absurd hi (Nat.not_lt_zero i)
  · exact upper_pow_two_default pf hpf
  · intro n m
    exact halloc _

/-! ## Rounding up to a power of two -/

theorem upper_pow_two_unfold (pf : Platform) (n : Nat) :
    upper_pow_two pf n =
      if n ≥ MAX_POW_TWO pf then MAX_POW_TWO pf
      else if n = 0 then 2
      else size_add pf (smear (size_sub pf n 1)) 1 :=
  rfl

theorem TopBits.step {t w x : Nat} (h : TopBits t w x) : TopBits t (w + w) (x ||| (x >>> w)) := by
  obtain ⟨h1, h2⟩ := h
  constructor
  · intro i hi
    rw [Nat.testBit_or, Nat.testBit_shiftRight, h1 i hi, h1 (w + i) (by omega)]
    rfl
  · intro i hi hw
    rw [Nat.testBit_or, Nat.testBit_shiftRight]
    by_cases hc : t < i + w
    · rw [h2 i hi hc]
      rfl
    · rw [h2 (w + i) (by omega) (by omega)]
      simp

theorem TopBits.of_bounds {t x : Nat} (hlo : 2 ^ t ≤ x) (hhi : x < 2 ^ (t + 1)) :
    TopBits t 1 x := by
  constructor
  · intro i hi
    apply Nat.testBit_lt_two_pow
    exact Nat.lt_of_lt_of_le hhi (Nat.pow_le_pow_right (by norm_num) hi)
  · intro i hi hw
    have hit : i = t := by omega
    subst hit
    by_contra hne
    have hfalse : x.testBit i = false := by simpa using hne
    have : x < 2 ^ i := by
      apply Nat.lt_pow_two_of_testBit
      intro j hj
      rcases Nat.eq_or_lt_of_le hj with h | h
      · rw [← h]; exact hfalse
      · apply Nat.testBit_lt_two_pow
        exact Nat.lt_of_lt_of_le hhi (Nat.pow_le_pow_right (by norm_num) h)
    omega

/-- The shift-or steps fill every bit below the leading one, as long as the
leading bit is among the low 32. -/
theorem smear_eq {t x : Nat} (hlo : 2 ^ t ≤ x) (hhi : x < 2 ^ (t + 1)) (ht : t < 32) :
    smear x = 2 ^ (t + 1) - 1 := by
  have h0 := TopBits.of_bounds hlo hhi
  have h5 := ((((h0.step).step).step).step).step
  obtain ⟨ha, hb⟩ := h5
  apply Nat.eq_of_testBit_eq
  intro i
  rw [Nat.testBit_two_pow_sub_one]
  by_cases hi : i ≤ t
  · have := hb i hi (by omega)
    simp only [smear]
    rw [this]
    simp
    omega
  · have := ha i (by omega)
    simp only [smear]
    rw [this]
    simp
    omega

theorem smear_zero : smear 0 = 0 := by
  simp [smear]

/-- Every positive number lies between two consecutive powers of two. -/
theorem exists_pow_bounds {x : Nat} (hx : 0 < x) : ∃ t, 2 ^ t ≤ x ∧ x < 2 ^ (t + 1) :=
  ⟨Nat.log 2 x, Nat.pow_log_le_self 2 (by omega), Nat.lt_pow_succ_log_self (by norm_num) x⟩

/-- The function `upper_pow_two` on a request between 1 and `2 ^ 32` that is
below `MAX_POW_TWO`: the least power of two at least the request. -/
theorem upper_pow_two_least (pf : Platform) (hpf : pf.ok) {n : Nat} (h1 : 1 ≤ n)
    (hmax : n < MAX_POW_TWO pf) (h32 : n ≤ 2 ^ 32) :
    IsLeastPowTwoGe n (upper_pow_two pf n) := by
  obtain ⟨mm, hmm⟩ := MAX_POW_TWO_pow pf
  have hnB : n < 2 ^ pf.bits := Nat.lt_trans hmax hpf
  rw [upper_pow_two_unfold, if_neg (by omega), if_neg (by omega),
    size_sub_of_le pf h1 hnB]
  rcases Nat.eq_zero_or_pos (n - 1) with hz | hp
  · have hn1 : n = 1 := by omega
    have hB : 1 < 2 ^ pf.bits := by
      have := Nat.lt_of_le_of_lt (MAX_POW_TWO_ge pf) hpf
      omega
    rw [hz, smear_zero, size_add_of_lt pf (by omega)]
    refine ⟨⟨0, by norm_num⟩, by omega, ?_⟩
    intro c' _ hc'
    omega
  · obtain ⟨t, hlo, hhi⟩ := exists_pow_bounds hp
    have ht : t < 32 := by
      have : 2 ^ t < 2 ^ 32 := by omega
      exact (Nat.pow_lt_pow_iff_right (by norm_num)).mp this
    have htm : t < mm := by
      have : 2 ^ t < 2 ^ mm := by rw [← hmm]; omega
      exact (Nat.pow_lt_pow_iff_right (by norm_num)).mp this
    have hle : 2 ^ (t + 1) ≤ 2 ^ mm := Nat.pow_le_pow_right (by norm_num) htm
    have hpos : 0 < 2 ^ (t + 1) := Nat.two_pow_pos _
    have hfit : 2 ^ (t + 1) < 2 ^ pf.bits := by
      have hlt : MAX_POW_TWO pf < 2 ^ pf.bits := hpf
      rw [hmm] at hlt
      omega
    rw [smear_eq hlo hhi ht, size_add_of_lt pf (by omega)]
    have hval : 2 ^ (t + 1) - 1 + 1 = 2 ^ (t + 1) := by omega
    rw [hval]
    refine ⟨⟨t + 1, rfl⟩, by omega, ?_⟩
    rintro c' ⟨j, rfl⟩ hc'
    have hjt : t < j := by
      have : 2 ^ t < 2 ^ j := by omega
      exact (Nat.pow_lt_pow_iff_right (by norm_num)).mp this
    exact Nat.pow_le_pow_right (by norm_num) hjt

/-! ## Status codes of the insertions -/

theorem add_first_status (pf : Platform) (d : Deque) (e : Ptr) :
    (nut_deque_add_first pf d e).1 ≠ NUT_ERR_OUT_OF_RANGE := by
  unfold nut_deque_add_first
  dsimp only
  generalize (if d.size ≥ d.capacity then expand_capacity pf d else (NUT_OK, d)) = r
  by_cases h : r.1 = NUT_OK <;> simp [h]

theorem add_last_status (pf : Platform) (d : Deque) (e : Ptr) :
    (nut_deque_add_last pf d e).1 ≠ NUT_ERR_OUT_OF_RANGE := by
  unfold nut_deque_add_last
  dsimp only
  generalize (if d.capacity = d.size then expand_capacity pf d else (NUT_OK, d)) = r
  by_cases h : r.1 = NUT_OK <;> simp [h]

/-! ## Well-formedness is kept by the operations -/

theorem Deque.WellFormed.capacityInvariant {pf : Platform} {d : Deque}
    (h : d.WellFormed pf) : d.CapacityInvariant := by
  obtain ⟨⟨k, -, hk⟩, -, hsz, -⟩ := h
  exact ⟨⟨k, hk⟩, hsz⟩

theorem models_toList (pf : Platform) {d : Deque} (h : d.WellFormed pf) :
    d.Models pf d.toList := by
  refine ⟨h, by simp [Deque.toList], ?_⟩
  intro i hi
  simp [Deque.toList, List.getElem?_range hi]

/-- A failing `expand_capacity` leaves the deque as it is, and a successful
one was below `MAX_POW_TWO` with its allocation granted. -/
theorem expand_capacity_cases (pf : Platform) (d : Deque) :
    ((expand_capacity pf d).1 ≠ NUT_OK ∧ (expand_capacity pf d).2 = d) ∨
      ((expand_capacity pf d).1 = NUT_OK ∧ d.capacity ≠ MAX_POW_TWO pf ∧
        (d.mem_calloc (size_shl pf d.capacity 1) (PTR_SIZE pf)).isSome) := by
  unfold expand_capacity
  by_cases hmax : d.capacity = MAX_POW_TWO pf
  · left
    simp [hmax]
  · rw [if_neg hmax]
    cases hblk : d.mem_calloc (size_shl pf d.capacity 1) (PTR_SIZE pf) with
    | none => left; simp [hblk]
    | some blk => right; simp [hblk, hmax]

theorem add_last_wellFormed (pf : Platform) (hpf : pf.ok) {d : Deque}
    (h : d.WellFormed pf) (e : Ptr) : (nut_deque_add_last pf d e).2.WellFormed pf := by
  by_cases hfull : d.size = d.capacity
  · rcases expand_capacity_cases pf d with ⟨hne, heq⟩ | ⟨-, hmax, halloc⟩
    · have : nut_deque_add_last pf d e = (NUT_ERR_MALLOC, d) := by
        simp only [nut_deque_add_last, if_pos hfull.symm, if_pos hne, heq]
      rw [this]
      exact h
    · have hlt : d.capacity < MAX_POW_TWO pf := Nat.lt_of_le_of_ne h.2.1 hmax
      obtain ⟨d', heq, hm, -⟩ := add_last_models pf hpf (models_toList pf h) halloc hlt e
      rw [heq]
      exact hm.1
  · have hlt : d.size < d.capacity := Nat.lt_of_le_of_ne h.2.2.1 hfull
    obtain ⟨d', heq, hm, -⟩ := add_last_models_of_lt pf hpf (models_toList pf h) hlt e
    rw [heq]
    exact hm.1

theorem add_first_wellFormed (pf : Platform) (hpf : pf.ok) {d : Deque}
    (h : d.WellFormed pf) (e : Ptr) : (nut_deque_add_first pf d e).2.WellFormed pf := by
  by_cases hfull : d.size = d.capacity
  · rcases expand_capacity_cases pf d with ⟨hne, heq⟩ | ⟨-, hmax, halloc⟩
    · have hge : d.size ≥ d.capacity := by omega
      have : nut_deque_add_first pf d e = (NUT_ERR_MALLOC, d) := by
        simp only [nut_deque_add_first, if_pos hge, if_pos hne, heq]
      rw [this]
      exact h
    · have hlt : d.capacity < MAX_POW_TWO pf := Nat.lt_of_le_of_ne h.2.1 hmax
      obtain ⟨d', heq, hm, -⟩ := add_first_models pf hpf (models_toList pf h) halloc hlt e
      rw [heq]
      exact hm.1
  · have hlt : d.size < d.capacity := Nat.lt_of_le_of_ne h.2.2.1 hfull
    obtain ⟨d', heq, hm, -⟩ := add_first_models_of_lt pf hpf (models_toList pf h) hlt e
    rw [heq]
    exact hm.1

theorem remove_first_wellFormed (pf : Platform) (hpf : pf.ok) {d : Deque}
    (h : d.WellFormed pf) : (nut_deque_remove_first pf d).2.1.WellFormed pf := by
  have hm := models_toList pf h
  cases hs : d.toList with
  | nil =>
    rw [hs] at hm
    rw [(remove_models_nil pf hm).1]
    exact h
  | cons x t =>
    rw [hs] at hm
    obtain ⟨d', heq, hm', -⟩ := remove_first_models pf hpf hm
    rw [heq]
    exact hm'.1

theorem remove_last_wellFormed (pf : Platform) (hpf : pf.ok) {d : Deque}
    (h : d.WellFormed pf) : (nut_deque_remove_last pf d).2.1.WellFormed pf := by
  have hm := models_toList pf h
  cases hx : d.toList.getLast? with
  | none =>
    have hs : d.toList = [] := List.getLast?_eq_none_iff.mp hx
    rw [hs] at hm
    rw [(remove_models_nil pf hm).2]
    exact h
  | some x =>
    obtain ⟨d', heq, hm', -⟩ := remove_last_models pf hpf hm hx
    rw [heq]
    exact hm'.1

theorem remove_at_wellFormed (pf : Platform) (hpf : pf.ok) {d : Deque}
    (h : d.WellFormed pf) (index : Nat) :
    (nut_deque_remove_at pf d index).2.1.WellFormed pf := by
  obtain ⟨k, hk, hc, hpos, hcl, hle, hsz, hfirst, hlast⟩ := h.norm pf hpf
  unfold nut_deque_remove_at
  by_cases hge : index ≥ d.size
  · rw [if_pos hge]
    exact h
  · rw [if_neg hge]
    dsimp only
    by_cases h0 : index = 0
    · rw [if_pos h0]
      exact remove_first_wellFormed pf hpf h
    · rw [if_neg h0]
      by_cases hc' : index = size_sub pf d.capacity 1
      · rw [if_pos hc']
        exact remove_last_wellFormed pf hpf h
      · rw [if_neg hc']
        have hsize : size_sub pf d.size 1 = d.size - 1 :=
          size_sub_of_le pf (by omega) (by omega)
        by_cases hhalf : index ≤ size_sub pf (d.size / 2) 1
        · simp only [if_pos hhalf, hsize, mask_eq_mod pf hc hcl,
            size_add_of_lt pf (by omega : d.first + 1 < 2 ^ pf.bits)]
          refine Deque.WellFormed.of_norm pf hk hc hle ?_ (Nat.mod_lt _ hpos) ?_
          · show d.size - 1 ≤ d.capacity
            omega
          · show d.last = ((d.first + 1) % d.capacity + (d.size - 1)) % d.capacity
            rw [hlast, Nat.mod_add_mod]
            congr 1
            omega
        · simp only [if_neg hhalf, hsize, mask_eq_mod pf hc hcl]
          refine Deque.WellFormed.of_norm pf hk hc hle ?_ hfirst ?_
          · show d.size - 1 ≤ d.capacity
            omega
          · show size_sub pf d.last 1 % d.capacity = (d.first + (d.size - 1)) % d.capacity
            rw [hc, size_sub_one_mod pf hk, ← hc, hlast, Nat.mod_add_mod]
            have : d.first + d.size + (d.capacity - 1)
                = (d.first + (d.size - 1)) + d.capacity := by omega
            rw [this, Nat.add_mod_right]

theorem add_at_wellFormed_of_lt (pf : Platform) (hpf : pf.ok) {d : Deque}
    (h : d.WellFormed pf) (hlt : d.size < d.capacity) (e : Ptr) (index : Nat) :
    (nut_deque_add_at pf d e index).2.WellFormed pf := by
  obtain ⟨k, hk, hc, hpos, hcl, hle, hsz, hfirst, hlast⟩ := h.norm pf hpf
  unfold nut_deque_add_at
  by_cases hge : index ≥ d.size
  · rw [if_pos hge]
    exact h
  · rw [if_neg hge]
    have hne : ¬ d.capacity = d.size := by omega
    simp only [if_neg hne, ne_eq, not_true_eq_false, if_false]
    by_cases h0 : index = 0
    · rw [if_pos h0]
      exact add_first_wellFormed pf hpf h e
    · rw [if_neg h0]
      by_cases hc' : index = size_sub pf d.capacity 1
      · rw [if_pos hc']
        exact add_last_wellFormed pf hpf h e
      · rw [if_neg hc']
        have hsize : size_add pf d.size 1 = d.size + 1 := size_add_of_lt pf (by omega)
        have hlastlt : d.last < d.capacity := by rw [hlast]; exact Nat.mod_lt _ hpos
        by_cases hhalf : index ≤ size_sub pf (d.size / 2) 1
        · simp only [if_pos hhalf, hsize, mask_eq_mod pf hc hcl]
          refine Deque.WellFormed.of_norm pf hk hc hle ?_ (Nat.mod_lt _ hpos) ?_
          · show d.size + 1 ≤ d.capacity
            omega
          · show d.last = (size_sub pf d.first 1 % d.capacity + (d.size + 1)) % d.capacity
            rw [hc, size_sub_one_mod pf hk, ← hc, hlast, Nat.mod_add_mod]
            have : d.first + (d.capacity - 1) + (d.size + 1)
                = (d.first + d.size) + d.capacity := by omega
            rw [this, Nat.add_mod_right]
        · simp only [if_neg hhalf, hsize, mask_eq_mod pf hc hcl,
            size_add_of_lt pf (by omega : d.last + 1 < 2 ^ pf.bits)]
          refine Deque.WellFormed.of_norm pf hk hc hle ?_ hfirst ?_
          · show d.size + 1 ≤ d.capacity
            omega
          · show (d.last + 1) % d.capacity = (d.first + (d.size + 1)) % d.capacity
            rw [hlast, Nat.mod_add_mod, Nat.add_assoc]

theorem add_at_wellFormed (pf : Platform) (hpf : pf.ok) {d : Deque}
    (h : d.WellFormed pf) (e : Ptr) (index : Nat) :
    (nut_deque_add_at pf d e index).2.WellFormed pf := by
  by_cases hfull : d.size = d.capacity
  · by_cases hge : index ≥ d.size
    · unfold nut_deque_add_at
      rw [if_pos hge]
      exact h
    · rcases expand_capacity_cases pf d with ⟨hne, heq⟩ | ⟨hok, hmax, halloc⟩
      · have : nut_deque_add_at pf d e index = (NUT_ERR_MALLOC, d) := by
          unfold nut_deque_add_at
          simp only [if_neg hge, if_pos hfull.symm, if_pos hne, heq]
        rw [this]
        exact h
      · have hlt : d.capacity < MAX_POW_TWO pf := Nat.lt_of_le_of_ne h.2.1 hmax
        obtain ⟨d1, hexp, hm1, hcap1, hsz1, -⟩ :=
          expand_capacity_models pf hpf (models_toList pf h) hfull hlt halloc
        have hpos : 0 < d.capacity := by
          obtain ⟨k, -, -, hpos, -⟩ := h.norm pf hpf
          exact hpos
        have hlt1 : d1.size < d1.capacity := by omega
        have hne1 : ¬ d1.capacity = d1.size := by omega
        have hge1 : ¬ index ≥ d1.size := by omega
        have : nut_deque_add_at pf d e index = nut_deque_add_at pf d1 e index := by
          unfold nut_deque_add_at
          simp only [if_neg hge, if_neg hge1, if_pos hfull.symm, hexp, if_neg hne1]
        rw [this]
        exact add_at_wellFormed_of_lt pf hpf hm1.1 hlt1 e index
  · have hlt : d.size < d.capacity := Nat.lt_of_le_of_ne h.2.2.1 hfull
    exact add_at_wellFormed_of_lt pf hpf h hlt e index

theorem replace_at_wellFormed (pf : Platform) {d : Deque} (h : d.WellFormed pf) (e : Ptr)
    (index : Nat) : (nut_deque_replace_at pf d e index).2.1.WellFormed pf := by
  unfold nut_deque_replace_at
  by_cases hge : index ≥ d.size
  · rw [if_pos hge]
    exact h
  · rw [if_neg hge]
    exact h

theorem remove_wellFormed (pf : Platform) (hpf : pf.ok) {d : Deque} (h : d.WellFormed pf)
    (e : Ptr) : (nut_deque_remove pf d e).2.1.WellFormed pf := by
  unfold nut_deque_remove
  dsimp only
  by_cases hne : (nut_deque_index_of pf d e).1 ≠ NUT_OK
  · rw [if_pos hne]
    exact h
  · rw [if_neg hne]
    cases (nut_deque_index_of pf d e).2 with
    | none => exact h
    | some index => exact remove_at_wellFormed pf hpf h index

theorem remove_all_wellFormed (pf : Platform) (hpf : pf.ok) {d : Deque}
    (h : d.WellFormed pf) : (nut_deque_remove_all d).WellFormed pf := by
  obtain ⟨k, hk, hc, hpos, hcl, hle, hsz, hfirst, hlast⟩ := h.norm pf hpf
  refine Deque.WellFormed.of_norm pf hk hc hle ?_ hpos ?_
  · show 0 ≤ d.capacity
    omega
  · show 0 = (0 + 0) % d.capacity
    simp

theorem reverse_wellFormed (pf : Platform) {d : Deque} (h : d.WellFormed pf) :
    (nut_deque_reverse pf d).WellFormed pf :=
  h

theorem filter_mut_loop_wellFormed (pf : Platform) (hpf : pf.ok) (pred : Ptr → Bool)
    (c fuel : Nat) : ∀ (d : Deque) (i : Nat), d.WellFormed pf →
      (filter_mut_loop pf pred c fuel d i).WellFormed pf := by
  induction fuel with
  | zero =>
    intro d i h
    exact h
  | succ fuel ih =>
    intro d i h
    unfold filter_mut_loop
    by_cases hi : i < d.size
    · rw [if_pos hi]
      dsimp only
      split
      · exact ih _ _ (remove_at_wellFormed pf hpf h i)
      · exact ih _ _ h
    · rw [if_neg hi]
      exact h

theorem filter_mut_wellFormed (pf : Platform) (hpf : pf.ok) {d : Deque}
    (h : d.WellFormed pf) (pred : Ptr → Bool) :
    (nut_deque_filter_mut pf d pred).2.WellFormed pf := by
  unfold nut_deque_filter_mut
  by_cases hz : d.size = 0
  · rw [if_pos hz]
    exact h
  · rw [if_neg hz]
    exact filter_mut_loop_wellFormed pf hpf pred _ _ d 0 h

theorem iter_add_wellFormed (pf : Platform) (hpf : pf.ok) {iter : DequeIter}
    (h : iter.deque.WellFormed pf) (e : Ptr) :
    (nut_deque_iter_add pf iter e).2.deque.WellFormed pf := by
  unfold nut_deque_iter_add
  dsimp only
  split <;> exact add_at_wellFormed pf hpf h e iter.index

theorem iter_remove_wellFormed (pf : Platform) (hpf : pf.ok) {iter : DequeIter}
    (h : iter.deque.WellFormed pf) :
    (nut_deque_iter_remove pf iter).2.1.deque.WellFormed pf := by
  unfold nut_deque_iter_remove
  split
  · exact h
  · dsimp only
    split <;> exact remove_at_wellFormed pf hpf h iter.index

/-- The function `nut_deque_trim_capacity` keeps the capacity invariant when
the size is at most `2 ^ 32`. -/
theorem trim_capacity_capacityInvariant (pf : Platform) (hpf : pf.ok) {d : Deque}
    (h : d.WellFormed pf) (h32 : d.size ≤ 2 ^ 32) :
    (nut_deque_trim_capacity pf d).2.CapacityInvariant := by
  have hinv := h.capacityInvariant
  obtain ⟨-, hle, hsz, -⟩ := h
  unfold nut_deque_trim_capacity
  by_cases hfull : d.capacity = d.size
  · rw [if_pos hfull]
    exact hinv
  · rw [if_neg hfull]
    dsimp only
    by_cases hsame : upper_pow_two pf d.size = d.capacity
    · rw [if_pos hsame]
      exact hinv
    · rw [if_neg hsame]
      cases d.mem_alloc (size_mul pf (PTR_SIZE pf) (upper_pow_two pf d.size)) with
      | none => exact hinv
      | some blk =>
        show (∃ k, upper_pow_two pf d.size = 2 ^ k) ∧ d.size ≤ upper_pow_two pf d.size
        have hlt : d.size < MAX_POW_TWO pf := by omega
        rcases Nat.eq_zero_or_pos d.size with hz | hp
        · have hM := MAX_POW_TWO_ge pf
          rw [hz, upper_pow_two_unfold, if_neg (by omega), if_pos rfl]
          exact ⟨⟨1, rfl⟩, by omega⟩
        · obtain ⟨hk, hge, -⟩ := upper_pow_two_least pf hpf hp hlt h32
          exact ⟨hk, hge⟩

/-- From a well-formed deque every mutating operation leads to a deque whose
capacity is a power of two not below its size; for `nut_deque_trim_capacity`
this needs a size of at most `2 ^ 32`, beyond which `upper_pow_two` does not
round to a power of two. -/
theorem capacityInvariant_of_mutators (pf : Platform) (hpf : pf.ok) {d : Deque}
    (h : d.WellFormed pf) (e : Ptr) (index : Nat) (pred : Ptr → Bool) (iter : DequeIter)
    (hiter : iter.deque = d) :
    (nut_deque_add_first pf d e).2.CapacityInvariant ∧
      (nut_deque_add_last pf d e).2.CapacityInvariant ∧
      (nut_deque_add_at pf d e index).2.CapacityInvariant ∧
      (nut_deque_replace_at pf d e index).2.1.CapacityInvariant ∧
      (nut_deque_remove pf d e).2.1.CapacityInvariant ∧
      (nut_deque_remove_at pf d index).2.1.CapacityInvariant ∧
      (nut_deque_remove_first pf d).2.1.CapacityInvariant ∧
      (nut_deque_remove_last pf d).2.1.CapacityInvariant ∧
      (nut_deque_remove_all d).CapacityInvariant ∧
      (d.size ≤ 2 ^ 32 → (nut_deque_trim_capacity pf d).2.CapacityInvariant) ∧
      (nut_deque_reverse pf d).CapacityInvariant ∧
      (nut_deque_filter_mut pf d pred).2.CapacityInvariant ∧
      (nut_deque_iter_add pf iter e).2.deque.CapacityInvariant ∧
      (nut_deque_iter_remove pf iter).2.1.deque.CapacityInvariant := by
  subst hiter
  exact ⟨(add_first_wellFormed pf hpf h e).capacityInvariant,
    (add_last_wellFormed pf hpf h e).capacityInvariant,
    (add_at_wellFormed pf hpf h e index).capacityInvariant,
    (replace_at_wellFormed pf h e index).capacityInvariant,
    (remove_wellFormed pf hpf h e).capacityInvariant,
    (remove_at_wellFormed pf hpf h index).capacityInvariant,
    (remove_first_wellFormed pf hpf h).capacityInvariant,
    (remove_last_wellFormed pf hpf h).capacityInvariant,
    (remove_all_wellFormed pf hpf h).capacityInvariant,
    trim_capacity_capacityInvariant pf hpf h,
    (reverse_wellFormed pf h).capacityInvariant,
    (filter_mut_wellFormed pf hpf h pred).capacityInvariant,
    (iter_add_wellFormed pf hpf h e).capacityInvariant,
    (iter_remove_wellFormed pf hpf h).capacityInvariant⟩

theorem add_at_ok_of_lt (pf : Platform) (hpf : pf.ok) {d : Deque}
    (h : d.WellFormed pf) (hlt : d.size < d.capacity) (e : Ptr) {index : Nat}
    (hi : index < d.size) : (nut_deque_add_at pf d e index).1 = NUT_OK := by
  unfold nut_deque_add_at
  have hne : ¬ d.capacity = d.size := by omega
  simp only [if_neg (by omega : ¬ index ≥ d.size), if_neg hne, ne_eq, not_true_eq_false,
    if_false]
  by_cases h0 : index = 0
  · rw [if_pos h0]
    obtain ⟨d', heq, -⟩ := add_first_models_of_lt pf hpf (models_toList pf h) hlt e
    rw [heq]
  · rw [if_neg h0]
    by_cases hc' : index = size_sub pf d.capacity 1
    · rw [if_pos hc']
      obtain ⟨d', heq, -⟩ := add_last_models_of_lt pf hpf (models_toList pf h) hlt e
      rw [heq]
    · rw [if_neg hc']

/-- On a well-formed deque with a free slot, or with growth possible, the call
`nut_deque_add_at` with an index below the size returns `NUT_OK`. -/
theorem add_at_ok (pf : Platform) (hpf : pf.ok) {d : Deque} (h : d.WellFormed pf)
    (hroom : d.size < d.capacity ∨ (d.capacity < MAX_POW_TWO pf ∧
      (d.mem_calloc (size_shl pf d.capacity 1) (PTR_SIZE pf)).isSome))
    (e : Ptr) {index : Nat} (hi : index < d.size) :
    (nut_deque_add_at pf d e index).1 = NUT_OK := by
  by_cases hfull : d.size = d.capacity
  · rcases hroom with hlt | ⟨hmax, halloc⟩
    · omega
    · obtain ⟨d1, hexp, hm1, hcap1, hsz1, -⟩ :=
        expand_capacity_models pf hpf (models_toList pf h) hfull hmax halloc
      have hpos : 0 < d.capacity := by
        obtain ⟨k, -, -, hpos, -⟩ := h.norm pf hpf
        exact hpos
      have hlt1 : d1.size < d1.capacity := by omega
      have hne1 : ¬ d1.capacity = d1.size := by omega
      have hge : ¬ index ≥ d.size := by omega
      have hge1 : ¬ index ≥ d1.size := by omega
      have : nut_deque_add_at pf d e index = nut_deque_add_at pf d1 e index := by
        unfold nut_deque_add_at
        simp only [if_neg hge, if_neg hge1, if_pos hfull.symm, hexp, if_neg hne1]
      rw [this]
      exact add_at_ok_of_lt pf hpf hm1.1 hlt1 e (by omega)
  · have hlt : d.size < d.capacity := Nat.lt_of_le_of_ne h.2.2.1 hfull
    exact add_at_ok_of_lt pf hpf h hlt e hi

/-! ## Failing growth -/

/-- When the allocator refuses the doubled buffer, `expand_capacity` fails and
returns the deque as it was. -/
theorem expand_capacity_of_null (pf : Platform) (d : Deque)
    (hnull : d.mem_calloc (size_shl pf d.capacity 1) (PTR_SIZE pf) = none) :
    (expand_capacity pf d).1 ≠ NUT_OK ∧ (expand_capacity pf d).2 = d := by
  rcases expand_capacity_cases pf d with h | ⟨-, -, hsome⟩
  · exact h
  · rw [hnull] at hsome
    simp at hsome

/-! ## The Queue -/

theorem runQueue_append (pf : Platform) (a b : List QueueOp) :
    ∀ q : Queue, runQueue pf q (a ++ b)
      = ((runQueue pf (runQueue pf q a).1 b).1,
          (runQueue pf q a).2 ++ (runQueue pf (runQueue pf q a).1 b).2) := by
  induction a with
  | nil => intro q; rfl
  | cons op ops ih =>
    intro q
    have h := ih (op.apply pf q).2.1
    show runQueue pf q (op :: (ops ++ b)) = _
    simp only [runQueue, h, List.cons_append]

/-- A peek answers what the next poll answers. -/
theorem queue_peek_eq_poll (pf : Platform) (q : Queue) :
    nut_queue_peek pf q = ((nut_queue_poll pf q).1, (nut_queue_poll pf q).2.2) := by
  unfold nut_queue_peek nut_queue_poll nut_deque_get_last nut_deque_remove_last
  by_cases h : q.d.size = 0
  · simp [h]
  · simp [h]

/-- Enqueuing `es` on a queue whose deque holds `s`: every call succeeds and
the deque holds the elements in reverse order of arrival before `s`. -/
theorem enqueue_all_models (pf : Platform) (hpf : pf.ok) (es : List Ptr) :
    ∀ (q : Queue) (s : List Ptr), q.d.Models pf s →
      (∀ n m, (q.d.mem_calloc n m).isSome) → s.length + es.length ≤ MAX_POW_TWO pf →
      (runQueue pf q (es.map QueueOp.enqueue)).2 = es.map (fun _ => (NUT_OK, none)) ∧
        (runQueue pf q (es.map QueueOp.enqueue)).1.d.Models pf (es.reverse ++ s) ∧
        (∀ n m, ((runQueue pf q (es.map QueueOp.enqueue)).1.d.mem_calloc n m).isSome) := by
  induction es with
  | nil =>
    intro q s h halloc _
    exact ⟨rfl, by simpa using h, halloc⟩
  | cons e es ih =>
    intro q s h halloc hlen
    have hstep : ∃ d', nut_deque_add_first pf q.d e = (NUT_OK, d') ∧ d'.Models pf (e :: s) ∧
        d'.mem_calloc = q.d.mem_calloc := by
      by_cases hfull : q.d.size = q.d.capacity
      · have hmax : q.d.capacity < MAX_POW_TWO pf := by
          have := h.2.1
          simp only [List.length_cons] at hlen
          omega
        exact add_first_models pf hpf h (halloc _ _) hmax e
      · have hlt : q.d.size < q.d.capacity := Nat.lt_of_le_of_ne h.1.2.2.1 hfull
        obtain ⟨d', heq, hm', -, hcal, -⟩ := add_first_models_of_lt pf hpf h hlt e
        exact ⟨d', heq, hm', hcal⟩
    obtain ⟨d', heq, hm', hcal⟩ := hstep
    have happ : (QueueOp.enqueue e).apply pf q = (NUT_OK, { q with d := d' }, none) := by
      simp only [QueueOp.apply, nut_queue_enqueue, heq]
    have hlen' : (e :: s).length + es.length ≤ MAX_POW_TWO pf := by
      simp only [List.length_cons] at hlen ⊢
      omega
    obtain ⟨h1, h2, h3⟩ := ih { q with d := d' } (e :: s) hm' (by rw [hcal]; exact halloc) hlen'
    simp only [List.map_cons, runQueue, happ]
    refine ⟨by rw [h1], ?_, h3⟩
    simpa using h2

/-- Emptying a queue whose deque holds the reverse of `fifo`: the peeks and
polls answer the elements of `fifo` in order and the deque ends empty. -/
theorem drain_models (pf : Platform) (hpf : pf.ok) (fifo : List Ptr) :
    ∀ (q : Queue), q.d.Models pf fifo.reverse →
      (runQueue pf q (drainOps fifo.length)).2 = drainTrace fifo ∧
        (runQueue pf q (drainOps fifo.length)).1.d.Models pf [] := by
  induction fifo with
  | nil =>
    intro q h
    exact ⟨rfl, by simpa using h⟩
  | cons e rest ih =>
    intro q h
    have hlast : (e :: rest).reverse.getLast? = some e := by simp
    obtain ⟨d', heq, hm', -⟩ := remove_last_models pf hpf h hlast
    have hdrop : (e :: rest).reverse.dropLast = rest.reverse := by simp
    rw [hdrop] at hm'
    have hpoll : nut_queue_poll pf q = (NUT_OK, { q with d := d' }, some e) := by
      simp only [nut_queue_poll, heq]
    have hpeek : nut_queue_peek pf q = (NUT_OK, some e) := by
      rw [queue_peek_eq_poll, hpoll]
    obtain ⟨h1, h2⟩ := ih { q with d := d' } hm'
    simp only [List.length_cons, drainOps, runQueue, QueueOp.apply, hpeek, hpoll, drainTrace]
    exact ⟨by rw [h1], h2⟩

/-- The call `nut_queue_new` with a port allocator that does not fail returns
a queue over an empty well-formed deque. -/
theorem nut_queue_new_models (pf : Platform) (hpf : pf.ok)
    (pvPortMalloc : Nat → Option Block) (halloc : ∀ n, (pvPortMalloc n).isSome)
    (stale : Option Deque) :
    ∃ q0, nut_queue_new pf pvPortMalloc stale = (NUT_OK, some q0) ∧ q0.d.Models pf [] ∧
      ∀ n m, (q0.d.mem_calloc n m).isSome := by
  obtain ⟨d0, hd0, hm, -, hcal⟩ := nut_deque_new_models pf hpf pvPortMalloc halloc
  obtain ⟨b1, hb1⟩ := Option.isSome_iff_exists.mp
    (halloc (size_mul pf 1 (SIZEOF_QUEUE pf)))
  refine ⟨{ d := d0, mem_alloc := fun size => pvPortMalloc size,
            mem_calloc := fun blocks size => pvPortMalloc (size_mul pf blocks size) },
    ?_, hm, hcal⟩
  have hd0' : nut_deque_new_conf pf (nut_deque_conf_init pf pvPortMalloc)
      = (NUT_OK, some d0) := hd0
  simp only [nut_queue_new, nut_queue_new_conf, nut_queue_conf_init, hd0']
  simp only [nut_deque_conf_init, hb1]

/-! ## The red-black tree: in-order traversal -/

@[simp] theorem inorder_set_color (c : RBColor) (t : RBNode) :
    (rb_set_color c t).inorder = t.inorder := by
  cases t <;> rfl

@[simp] theorem inorder_rotate_left (t : RBNode) : (rb_rotate_left t).inorder = t.inorder := by
  unfold rb_rotate_left
  split <;> simp [RBNode.inorder]

@[simp] theorem inorder_rotate_right (t : RBNode) : (rb_rotate_right t).inorder = t.inorder := by
  unfold rb_rotate_right
  split <;> simp [RBNode.inorder]

@[simp] theorem inorder_insert_fix_left (c : RBColor) (l : RBNode) (k v : Ptr) (r : RBNode) :
    (rb_insert_fix_left c l k v r).inorder = l.inorder ++ (k, v) :: r.inorder := by
  unfold rb_insert_fix_left
  split
  · split_ifs <;> simp [RBNode.inorder]
  · rfl

@[simp] theorem inorder_insert_fix_right (c : RBColor) (l : RBNode) (k v : Ptr) (r : RBNode) :
    (rb_insert_fix_right c l k v r).inorder = l.inorder ++ (k, v) :: r.inorder := by
  unfold rb_insert_fix_right
  split
  · split_ifs <;> simp [RBNode.inorder]
  · rfl

@[simp] theorem inorder_remove_far_left (c : RBColor) (l : RBNode) (k v : Ptr) (s : RBNode) :
    (rb_remove_far_left c l k v s).inorder = l.inorder ++ (k, v) :: s.inorder := by
  cases s <;> simp [rb_remove_far_left, RBNode.inorder]

@[simp] theorem inorder_remove_far_right (c : RBColor) (s : RBNode) (k v : Ptr) (r : RBNode) :
    (rb_remove_far_right c s k v r).inorder = s.inorder ++ (k, v) :: r.inorder := by
  cases s <;> simp [rb_remove_far_right, RBNode.inorder]

@[simp] theorem inorder_remove_fix_left_black (c : RBColor) (l : RBNode) (k v : Ptr)
    (r : RBNode) :
    (rb_remove_fix_left_black c l k v r).1.inorder = l.inorder ++ (k, v) :: r.inorder := by
  unfold rb_remove_fix_left_black
  split
  · rfl
  · split_ifs <;> simp [RBNode.inorder]

@[simp] theorem inorder_remove_fix_right_black (c : RBColor) (l : RBNode) (k v : Ptr)
    (r : RBNode) :
    (rb_remove_fix_right_black c l k v r).1.inorder = l.inorder ++ (k, v) :: r.inorder := by
  unfold rb_remove_fix_right_black
  split
  · rfl
  · split_ifs <;> simp [RBNode.inorder]

@[simp] theorem inorder_remove_fix_left (c : RBColor) (l : RBNode) (k v : Ptr) (r : RBNode) :
    (rb_remove_fix_left c l k v r).1.inorder = l.inorder ++ (k, v) :: r.inorder := by
  unfold rb_remove_fix_left
  split <;> simp [RBNode.inorder]

@[simp] theorem inorder_remove_fix_right (c : RBColor) (l : RBNode) (k v : Ptr) (r : RBNode) :
    (rb_remove_fix_right c l k v r).1.inorder = l.inorder ++ (k, v) :: r.inorder := by
  unfold rb_remove_fix_right
  split <;> simp [RBNode.inorder]

theorem inorder_unlink (c : RBColor) (t : RBNode) : (rb_unlink c t).1.inorder = t.inorder := by
  unfold rb_unlink
  split
  · rfl
  · split_ifs <;> simp

/-- Removing the rightmost node takes the last entry off the traversal. -/
theorem inorder_remove_max (r : RBNode) : ∀ (c : RBColor) (l : RBNode) (k v : Ptr),
    (RBNode.node c l k v r).inorder
      = (rb_remove_max c l k v r).1.1.inorder ++ [(rb_remove_max c l k v r).2] := by
  induction r with
  | nil => intro c l k v; simp [rb_remove_max, inorder_unlink, RBNode.inorder]
  | node rc rl rk rv rr _ ih =>
    intro c l k v
    have h := ih rc rl rk rv
    rw [rb_remove_max]
    simp only []
    split_ifs <;> simp [RBNode.inorder] at h ⊢ <;> rw [h]

/-- The traversal after a removal is the traversal before it with at most one
entry left out. -/
theorem inorder_remove_sublist (cmp : Ptr → Ptr → Int) (k : Ptr) (t : RBNode) :
    ((rb_remove cmp t k).1.1.inorder).Sublist t.inorder := by
  induction t with
  | nil => simp [rb_remove]
  | node c l a b r ihl ihr =>
    unfold rb_remove
    split_ifs with h1 h2
    · simp only []
      split_ifs <;> simp only [inorder_remove_fix_left, RBNode.inorder] <;>
        exact List.Sublist.append ihl (List.Sublist.refl _)
    · simp only []
      split_ifs <;> simp only [inorder_remove_fix_right, RBNode.inorder] <;>
        exact List.Sublist.append (List.Sublist.refl _) (List.Sublist.cons₂ _ ihr)
    · split
      · simp [inorder_unlink, RBNode.inorder]
      · split
        · simp [inorder_unlink, RBNode.inorder]
        · rename_i lc ll lk lv lr _ _ _ _ _ _
          have h := inorder_remove_max lr lc ll lk lv
          simp only []
          have key : ∀ xs : List (Ptr × Ptr), ((rb_remove_max lc ll lk lv lr).1.1.inorder ++
              (rb_remove_max lc ll lk lv lr).2 :: xs).Sublist
              ((RBNode.node lc ll lk lv lr).inorder ++ (a, b) :: xs) := by
            intro xs
            rw [h, List.append_assoc]
            exact List.Sublist.append (List.Sublist.refl _)
              (List.Sublist.cons₂ _ (List.sublist_cons_self _ _))
          split_ifs
          · simpa [RBNode.inorder] using key _
          · simpa [RBNode.inorder] using key _
/-! ## The red-black tree: ascending keys -/

theorem ConsistentCmp.refl {cmp : Ptr → Ptr → Int} (hc : ConsistentCmp cmp) (a : Ptr) :
    cmp a a = 0 := by
  have h := hc.1 a a
  omega

theorem ConsistentCmp.lt_of_lt_of_le {cmp : Ptr → Ptr → Int} (hc : ConsistentCmp cmp)
    {a b c : Ptr} (hab : cmp a b < 0) (hbc : cmp b c ≤ 0) : cmp a c < 0 := by
  have hac := hc.2 a b c (le_of_lt hab) hbc
  by_contra hn
  have hca : cmp c a ≤ 0 := by
    have := hc.1 a c
    have := hc.1 c a
    omega
  have hba := hc.2 b c a hbc hca
  have := hc.1 a b
  omega

theorem ConsistentCmp.lt_of_le_of_lt {cmp : Ptr → Ptr → Int} (hc : ConsistentCmp cmp)
    {a b c : Ptr} (hab : cmp a b ≤ 0) (hbc : cmp b c < 0) : cmp a c < 0 := by
  have hac := hc.2 a b c hab (le_of_lt hbc)
  by_contra hn
  have hca : cmp c a ≤ 0 := by
    have := hc.1 a c
    have := hc.1 c a
    omega
  have hcb := hc.2 c a b hca hab
  have := hc.1 b c
  omega

theorem ConsistentCmp.lt_trans {cmp : Ptr → Ptr → Int} (hc : ConsistentCmp cmp)
    {a b c : Ptr} (hab : cmp a b < 0) (hbc : cmp b c < 0) : cmp a c < 0 :=
  hc.lt_of_lt_of_le hab (le_of_lt hbc)

theorem nut_common_cmp_ptr_cases (a b : Nat) :
    (a < b ∧ nut_common_cmp_ptr a b = -1) ∨ (a = b ∧ nut_common_cmp_ptr a b = 0) ∨
      (b < a ∧ nut_common_cmp_ptr a b = 1) := by
  rcases Nat.lt_trichotomy a b with h | h | h
  · left; exact ⟨h, by simp [nut_common_cmp_ptr, h]⟩
  · right; left; subst h; exact ⟨rfl, by simp [nut_common_cmp_ptr]⟩
  · right; right
    have hn : ¬ a < b := Nat.not_lt.2 (Nat.le_of_lt h)
    exact ⟨h, by simp [nut_common_cmp_ptr, hn, h]⟩

theorem nut_common_cmp_ptr_consistent : ConsistentCmp nut_common_cmp_ptr := by
  constructor
  · intro a b
    have h1 := nut_common_cmp_ptr_cases a b
    have h2 := nut_common_cmp_ptr_cases b a
    omega
  · intro a b c
    have h1 := nut_common_cmp_ptr_cases a b
    have h2 := nut_common_cmp_ptr_cases b c
    have h3 := nut_common_cmp_ptr_cases a c
    omega

@[simp] theorem keys_nil : RBNode.nil.keys = [] := rfl

@[simp] theorem keys_node (c : RBColor) (l : RBNode) (k v : Ptr) (r : RBNode) :
    (RBNode.node c l k v r).keys = l.keys ++ k :: r.keys := by
  simp [RBNode.keys, RBNode.inorder]

@[simp] theorem keys_set_color (c : RBColor) (t : RBNode) : (rb_set_color c t).keys = t.keys := by
  simp [RBNode.keys]

@[simp] theorem keys_insert_fix_left (c : RBColor) (l : RBNode) (k v : Ptr) (r : RBNode) :
    (rb_insert_fix_left c l k v r).keys = l.keys ++ k :: r.keys := by
  simp [RBNode.keys]

@[simp] theorem keys_insert_fix_right (c : RBColor) (l : RBNode) (k v : Ptr) (r : RBNode) :
    (rb_insert_fix_right c l k v r).keys = l.keys ++ k :: r.keys := by
  simp [RBNode.keys]

/-- Ascending keys at a node: both subtrees ascend and the key lies between
them. -/
theorem ascending_node {cmp : Ptr → Ptr → Int} (hc : ConsistentCmp cmp) (c : RBColor)
    (l : RBNode) (k v : Ptr) (r : RBNode) :
    (RBNode.node c l k v r).Ascending cmp ↔
      l.Ascending cmp ∧ r.Ascending cmp ∧ (∀ x ∈ l.keys, cmp x k < 0) ∧
        (∀ y ∈ r.keys, cmp k y < 0) := by
  unfold RBNode.Ascending
  rw [keys_node, List.pairwise_append, List.pairwise_cons]
  constructor
  · rintro ⟨hl, ⟨hk, hr⟩, hlr⟩
    exact ⟨hl, hr, fun x hx => hlr x hx k (List.mem_cons_self _ _), hk⟩
  · rintro ⟨hl, hr, hlk, hkr⟩
    refine ⟨hl, ⟨hkr, hr⟩, ?_⟩
    intro x hx y hy
    rcases List.mem_cons.1 hy with rfl | hy
    · exact hlk x hx
    · exact hc.lt_trans (hlk x hx) (hkr y hy)

theorem keys_insert_subset (cmp : Ptr → Ptr → Int) (k v : Ptr) (t : RBNode) :
    ∀ x ∈ (rb_insert cmp t k v).keys, x = k ∨ x ∈ t.keys := by
  induction t with
  | nil => intro x hx; simpa [rb_insert] using hx
  | node c l a b r ihl ihr =>
    intro x hx
    unfold rb_insert at hx
    split_ifs at hx
    · simp only [keys_insert_fix_left, List.mem_append, List.mem_cons] at hx
      simp only [keys_node, List.mem_append, List.mem_cons]
      rcases hx with h | h | h
      · rcases ihl x h with h | h <;> simp [h]
      · simp [h]
      · simp [h]
    · simp only [keys_insert_fix_right, List.mem_append, List.mem_cons] at hx
      simp only [keys_node, List.mem_append, List.mem_cons]
      rcases hx with h | h | h
      · simp [h]
      · simp [h]
      · rcases ihr x h with h | h <;> simp [h]
    · right; simpa using hx

/-- Insertion keeps the keys ascending. -/
theorem ascending_insert {cmp : Ptr → Ptr → Int} (hc : ConsistentCmp cmp) (k v : Ptr)
    (t : RBNode) (h : t.Ascending cmp) : (rb_insert cmp t k v).Ascending cmp := by
  induction t with
  | nil => simp [rb_insert, RBNode.Ascending]
  | node c l a b r ihl ihr =>
    obtain ⟨hl, hr, hla, har⟩ := (ascending_node hc c l a b r).1 h
    unfold rb_insert
    split_ifs with h1 h2
    · unfold RBNode.Ascending
      rw [keys_insert_fix_left, ← keys_node BLACK _ a b r]
      refine (ascending_node hc BLACK _ a b r).2 ⟨ihl hl, hr, ?_, har⟩
      intro x hx
      rcases keys_insert_subset cmp k v l x hx with rfl | hx
      · exact h1
      · exact hla x hx
    · unfold RBNode.Ascending
      rw [keys_insert_fix_right, ← keys_node BLACK l a b _]
      refine (ascending_node hc BLACK l a b _).2 ⟨hl, ihr hr, hla, ?_⟩
      intro x hx
      rcases keys_insert_subset cmp k v r x hx with rfl | hx
      · exact (hc.1 a x).2 h2
      · exact har x hx
    · exact (ascending_node hc c l a v r).2 ⟨hl, hr, hla, har⟩

theorem ascending_set_color (cmp : Ptr → Ptr → Int) (c : RBColor) (t : RBNode) :
    (rb_set_color c t).Ascending cmp ↔ t.Ascending cmp := by
  simp [RBNode.Ascending]

theorem keys_set_value (cmp : Ptr → Ptr → Int) (k v : Ptr) (t : RBNode) :
    (rb_set_value cmp t k v).keys = t.keys := by
  induction t with
  | nil => rfl
  | node c l a b r ihl ihr =>
    unfold rb_set_value
    split_ifs <;> simp [ihl, ihr]

/-- Removal keeps the keys ascending. -/
theorem ascending_remove (cmp : Ptr → Ptr → Int) (k : Ptr) (t : RBNode)
    (h : t.Ascending cmp) : (rb_remove cmp t k).1.1.Ascending cmp :=
  List.Pairwise.sublist ((inorder_remove_sublist cmp k t).map Prod.fst) h

/-- A stored key is found by the lookup descent. -/
theorem rb_get_isSome {cmp : Ptr → Ptr → Int} (hc : ConsistentCmp cmp) (k : Ptr) (t : RBNode)
    (h : t.Ascending cmp) (hk : ∃ a ∈ t.keys, cmp k a = 0) : (rb_get cmp t k).isSome := by
  induction t with
  | nil => simp at hk
  | node c l a b r ihl ihr =>
    obtain ⟨hl, hr, hla, har⟩ := (ascending_node hc c l a b r).1 h
    obtain ⟨x, hx, hkx⟩ := hk
    simp only [keys_node, List.mem_append, List.mem_cons] at hx
    have hxk : cmp x k ≤ 0 := by
      have := hc.1 k x
      omega
    unfold rb_get
    split_ifs with h1 h2
    · rcases hx with hx | rfl | hx
      · exact ihl hl ⟨x, hx, hkx⟩
      · omega
      · have := hc.lt_trans h1 (har x hx)
        omega
    · have hak : cmp a k < 0 := (hc.1 a k).2 h2
      rcases hx with hx | rfl | hx
      · have := hc.lt_of_lt_of_le (hc.lt_trans (hla x hx) hak) (le_of_eq hkx)
        have := hc.refl x
        omega
      · omega
      · exact ihr hr ⟨x, hx, hkx⟩
    · rfl

theorem rb_get_set_color (cmp : Ptr → Ptr → Int) (c : RBColor) (t : RBNode) (k : Ptr) :
    rb_get cmp (rb_set_color c t) k = rb_get cmp t k := by
  cases t <;> simp [rb_set_color, rb_get]

/-- The node that insertion links or overwrites carries a key equal to `k`. -/
theorem keys_insert_mem {cmp : Ptr → Ptr → Int} (hc : ConsistentCmp cmp) (k v : Ptr)
    (t : RBNode) : ∃ a ∈ (rb_insert cmp t k v).keys, cmp k a = 0 := by
  induction t with
  | nil => exact ⟨k, by simp [rb_insert], hc.refl k⟩
  | node c l a b r ihl ihr =>
    unfold rb_insert
    split_ifs with h1 h2
    · obtain ⟨x, hx, hkx⟩ := ihl
      exact ⟨x, by simp [hx], hkx⟩
    · obtain ⟨x, hx, hkx⟩ := ihr
      exact ⟨x, by simp [hx], hkx⟩
    · exact ⟨a, by simp, by omega⟩

/-- Overwriting the value of a stored key: the lookup then returns it. -/
theorem rb_get_set_value (cmp : Ptr → Ptr → Int) (k v : Ptr) (t : RBNode)
    (h : (rb_get cmp t k).isSome) : rb_get cmp (rb_set_value cmp t k v) k = some v := by
  induction t with
  | nil => simp [rb_get] at h
  | node c l a b r ihl ihr =>
    unfold rb_get at h
    unfold rb_set_value
    split_ifs at h ⊢ with h1 h2
    · rw [rb_get, if_pos h1]; exact ihl h
    · rw [rb_get, if_neg h1, if_pos h2]; exact ihr h
    · rw [rb_get, if_neg h1, if_neg h2]
/-! ## The red-black tree: colours and black height -/

@[simp] theorem isRed_nil : RBNode.nil.isRed = false := rfl

@[simp] theorem isRed_red (l : RBNode) (k v : Ptr) (r : RBNode) :
    (RBNode.node RED l k v r).isRed = true := rfl

@[simp] theorem isRed_black (l : RBNode) (k v : Ptr) (r : RBNode) :
    (RBNode.node BLACK l k v r).isRed = false := rfl

@[simp] theorem bheight_nil : RBNode.nil.bheight = 0 := rfl

@[simp] theorem bheight_red (l : RBNode) (k v : Ptr) (r : RBNode) :
    (RBNode.node RED l k v r).bheight = l.bheight := rfl

@[simp] theorem bheight_black (l : RBNode) (k v : Ptr) (r : RBNode) :
    (RBNode.node BLACK l k v r).bheight = l.bheight + 1 := rfl

@[simp] theorem noRedRed_nil : RBNode.nil.NoRedRed ↔ True := Iff.rfl

@[simp] theorem noRedRed_red (l : RBNode) (k v : Ptr) (r : RBNode) :
    (RBNode.node RED l k v r).NoRedRed ↔
      (l.isRed = false ∧ r.isRed = false) ∧ l.NoRedRed ∧ r.NoRedRed := by
  simp [RBNode.NoRedRed]

@[simp] theorem noRedRed_black (l : RBNode) (k v : Ptr) (r : RBNode) :
    (RBNode.node BLACK l k v r).NoRedRed ↔ l.NoRedRed ∧ r.NoRedRed := by
  simp [RBNode.NoRedRed]

@[simp] theorem noRedRedBelow_nil : RBNode.nil.NoRedRedBelow ↔ True := Iff.rfl

@[simp] theorem noRedRedBelow_red (l : RBNode) (k v : Ptr) (r : RBNode) :
    (RBNode.node RED l k v r).NoRedRedBelow ↔
      ¬(l.isRed = true ∧ r.isRed = true) ∧ l.NoRedRed ∧ r.NoRedRed := by
  simp [RBNode.NoRedRedBelow]

@[simp] theorem noRedRedBelow_black (l : RBNode) (k v : Ptr) (r : RBNode) :
    (RBNode.node BLACK l k v r).NoRedRedBelow ↔ l.NoRedRed ∧ r.NoRedRed := by
  simp [RBNode.NoRedRedBelow]

@[simp] theorem blackBalanced_nil : RBNode.nil.BlackBalanced ↔ True := Iff.rfl

@[simp] theorem blackBalanced_node (c : RBColor) (l : RBNode) (k v : Ptr) (r : RBNode) :
    (RBNode.node c l k v r).BlackBalanced ↔
      l.bheight = r.bheight ∧ l.BlackBalanced ∧ r.BlackBalanced := Iff.rfl

theorem noRedRed_below {t : RBNode} (h : t.NoRedRed) : t.NoRedRedBelow := by
  rcases t with _ | ⟨_ | _, l, k, v, r⟩ <;> simp at h ⊢ <;> tauto

theorem noRedRed_set_black {t : RBNode} (h : t.NoRedRedBelow) :
    (rb_set_color BLACK t).NoRedRed := by
  rcases t with _ | ⟨_ | _, l, k, v, r⟩ <;> simp [rb_set_color] at h ⊢ <;> tauto

theorem blackBalanced_set_color (c : RBColor) {t : RBNode} (h : t.BlackBalanced) :
    (rb_set_color c t).BlackBalanced := by
  cases t with
  | nil => trivial
  | node c l k v r => exact h

/-- The insertion fixup below a black node removes a red-red pair and keeps
the black height. -/
theorem insert_fix_left_black {l r : RBNode} (k v : Ptr) (hl : l.NoRedRedBelow)
    (hr : r.NoRedRed) (bl : l.BlackBalanced) (br : r.BlackBalanced)
    (hh : l.bheight = r.bheight) :
    (rb_insert_fix_left BLACK l k v r).NoRedRed ∧
      (rb_insert_fix_left BLACK l k v r).BlackBalanced ∧
      (rb_insert_fix_left BLACK l k v r).bheight = l.bheight + 1 := by
  rcases l with _ | ⟨_ | _, ll, lk, lv, lr⟩
  · simp [rb_insert_fix_left] at *
    tauto
  · rcases ll with _ | ⟨_ | _, lla, llk, llv, llb⟩ <;>
      rcases lr with _ | ⟨_ | _, lra, lrk, lrv, lrb⟩ <;>
      rcases r with _ | ⟨_ | _, ra, rk, rv, rb⟩ <;>
      simp [rb_insert_fix_left, rb_rotate_left, rb_rotate_right, rb_set_color] at * <;>
      (repeat' constructor) <;> first | omega | tauto
  · simp [rb_insert_fix_left] at *
    tauto

/-- The mirror image of `insert_fix_left_black`. -/
theorem insert_fix_right_black {l r : RBNode} (k v : Ptr) (hl : l.NoRedRed)
    (hr : r.NoRedRedBelow) (bl : l.BlackBalanced) (br : r.BlackBalanced)
    (hh : l.bheight = r.bheight) :
    (rb_insert_fix_right BLACK l k v r).NoRedRed ∧
      (rb_insert_fix_right BLACK l k v r).BlackBalanced ∧
      (rb_insert_fix_right BLACK l k v r).bheight = l.bheight + 1 := by
  rcases r with _ | ⟨_ | _, rl, rk, rv, rr⟩
  · simp [rb_insert_fix_right] at *
    tauto
  · rcases rl with _ | ⟨_ | _, rla, rlk, rlv, rlb⟩ <;>
      rcases rr with _ | ⟨_ | _, rra, rrk, rrv, rrb⟩ <;>
      rcases l with _ | ⟨_ | _, la, lk, lv, lb⟩ <;>
      simp [rb_insert_fix_right, rb_rotate_left, rb_rotate_right, rb_set_color] at * <;>
      (repeat' constructor) <;> first | omega | tauto
  · simp [rb_insert_fix_right] at *
    tauto

/-- Below a red node whose child has no red-red pair the insertion fixup
changes nothing. -/
theorem insert_fix_left_red {l : RBNode} (k v : Ptr) (r : RBNode) (hl : l.NoRedRed) :
    rb_insert_fix_left RED l k v r = .node RED l k v r := by
  rcases l with _ | ⟨_ | _, ll, lk, lv, lr⟩
  · rfl
  · simp at hl
    simp [rb_insert_fix_left, hl.1.1, hl.1.2]
  · rfl

theorem insert_fix_right_red {r : RBNode} (k v : Ptr) (l : RBNode) (hr : r.NoRedRed) :
    rb_insert_fix_right RED l k v r = .node RED l k v r := by
  rcases r with _ | ⟨_ | _, rl, rk, rv, rr⟩
  · rfl
  · simp at hr
    simp [rb_insert_fix_right, hr.1.1, hr.1.2]
  · rfl

/-- Insertion keeps invariants 2 and 3 up to the colour of the root. -/
theorem insert_inv (cmp : Ptr → Ptr → Int) (k v : Ptr) (t : RBNode) (h : t.NoRedRed)
    (b : t.BlackBalanced) :
    (rb_insert cmp t k v).NoRedRedBelow ∧ (t.isRed = false → (rb_insert cmp t k v).NoRedRed) ∧
      (rb_insert cmp t k v).BlackBalanced ∧ (rb_insert cmp t k v).bheight = t.bheight := by
  induction t with
  | nil => simp [rb_insert]
  | node c l a x r ihl ihr =>
    obtain ⟨b1, bl, br⟩ := b
    cases c with
    | RED =>
      obtain ⟨⟨r1, r2⟩, hl, hr⟩ := (noRedRed_red l a x r).1 h
      obtain ⟨il1, il2, il3, il4⟩ := ihl hl bl
      obtain ⟨ir1, ir2, ir3, ir4⟩ := ihr hr br
      unfold rb_insert
      split_ifs with c1 c2
      · rw [insert_fix_left_red a x r (il2 r1)]
        simp
        refine ⟨⟨?_, il2 r1, hr⟩, ⟨by omega, il3, br⟩, il4⟩
        intro _
        exact r2
      · rw [insert_fix_right_red a x l (ir2 r2)]
        simp
        refine ⟨⟨?_, hl, ir2 r2⟩, by omega, bl, ir3⟩
        intro hh
        rw [r1] at hh
        exact Bool.noConfusion hh
      · simp [r1, r2]
        tauto
    | BLACK =>
      obtain ⟨hl, hr⟩ := (noRedRed_black l a x r).1 h
      obtain ⟨il1, il2, il3, il4⟩ := ihl hl bl
      obtain ⟨ir1, ir2, ir3, ir4⟩ := ihr hr br
      unfold rb_insert
      split_ifs with c1 c2
      · obtain ⟨f1, f2, f3⟩ := insert_fix_left_black a x il1 hr il3 br (by omega)
        exact ⟨noRedRed_below f1, fun _ => f1, f2, by simp [f3, il4]⟩
      · obtain ⟨f1, f2, f3⟩ := insert_fix_right_black a x hl ir1 bl ir3 (by omega)
        exact ⟨noRedRed_below f1, fun _ => f1, f2, by simp [f3]⟩
      · simp
        tauto

/-! ## The red-black tree: removal -/

/-- The removal fixup below a red parent with a black sibling absorbs the
defect. -/
theorem remove_fix_left_black_red {l r : RBNode} (k v : Ptr) (hl : l.NoRedRed)
    (bl : l.BlackBalanced) (hr : r.NoRedRed) (br : r.BlackBalanced)
    (rb : r.isRed = false) (hh : l.bheight + 1 = r.bheight) :
    (rb_remove_fix_left_black RED l k v r).2 = false ∧
      (rb_remove_fix_left_black RED l k v r).1.NoRedRed ∧
      (rb_remove_fix_left_black RED l k v r).1.BlackBalanced ∧
      (rb_remove_fix_left_black RED l k v r).1.bheight = r.bheight := by
  rcases r with _ | ⟨_ | _, rl, rk, rv, rr⟩
  · simp at hh
  · simp at rb
  · rcases rl with _ | ⟨_ | _, rla, rlk, rlv, rlb⟩ <;>
      rcases rr with _ | ⟨_ | _, rra, rrk, rrv, rrb⟩ <;>
      simp [rb_remove_fix_left_black, rb_remove_far_left, rb_rotate_left, rb_rotate_right,
        rb_set_color] at * <;>
      (repeat' constructor) <;> first | omega | tauto

/-- The removal fixup below a black parent with a black sibling absorbs the
defect or passes it up. -/
theorem remove_fix_left_black_black {l r : RBNode} (k v : Ptr) (hl : l.NoRedRed)
    (bl : l.BlackBalanced) (hr : r.NoRedRed) (br : r.BlackBalanced)
    (rb : r.isRed = false) (hh : l.bheight + 1 = r.bheight) :
    RemoveInv BLACK (r.bheight + 1) (rb_remove_fix_left_black BLACK l k v r) := by
  unfold RemoveInv
  rcases r with _ | ⟨_ | _, rl, rk, rv, rr⟩
  · simp at hh
  · simp at rb
  · rcases rl with _ | ⟨_ | _, rla, rlk, rlv, rlb⟩ <;>
      rcases rr with _ | ⟨_ | _, rra, rrk, rrv, rrb⟩ <;>
      simp [rb_remove_fix_left_black, rb_remove_far_left, rb_rotate_left, rb_rotate_right,
        rb_set_color] at * <;>
      (repeat' constructor) <;> first | omega | tauto

/-- The removal fixup at the parent of a double-black left child. -/
theorem remove_fix_left_inv (c : RBColor) {l r : RBNode} (k v : Ptr) (hl : l.NoRedRed)
    (bl : l.BlackBalanced) (hr : r.NoRedRed) (br : r.BlackBalanced)
    (hcr : c = RED → r.isRed = false) (hh : l.bheight + 1 = r.bheight) :
    RemoveInv c (RBNode.node c r k v r).bheight (rb_remove_fix_left c l k v r) := by
  rcases r with _ | ⟨_ | _, rl, rk, rv, rr⟩
  · simp at hh
  · cases c with
    | RED => simp at hcr
    | BLACK =>
      simp only [noRedRed_red] at hr
      simp only [blackBalanced_node] at br
      simp only [bheight_red] at hh
      obtain ⟨f1, f2, f3, f4⟩ :=
        remove_fix_left_black_red k v hl bl hr.2.1 br.2.1 hr.1.1 hh
      unfold RemoveInv
      simp [rb_remove_fix_left]
      refine ⟨⟨f2, hr.2.2⟩, ⟨?_, f3, br.2.2⟩, f4⟩
      omega
  · cases c with
    | RED =>
      obtain ⟨f1, f2, f3, f4⟩ :=
        remove_fix_left_black_red k v hl bl hr br rfl hh
      unfold RemoveInv
      simp only [rb_remove_fix_left, f1]
      simp
      exact ⟨f2, f3, by simpa using f4⟩
    | BLACK =>
      simpa [rb_remove_fix_left] using remove_fix_left_black_black k v hl bl hr br rfl hh

/-- The mirror image of `remove_fix_left_black_red`. -/
theorem remove_fix_right_black_red {l r : RBNode} (k v : Ptr) (hl : l.NoRedRed)
    (bl : l.BlackBalanced) (lb : l.isRed = false) (hr : r.NoRedRed) (br : r.BlackBalanced)
    (hh : r.bheight + 1 = l.bheight) :
    (rb_remove_fix_right_black RED l k v r).2 = false ∧
      (rb_remove_fix_right_black RED l k v r).1.NoRedRed ∧
      (rb_remove_fix_right_black RED l k v r).1.BlackBalanced ∧
      (rb_remove_fix_right_black RED l k v r).1.bheight = l.bheight := by
  rcases l with _ | ⟨_ | _, ll, lk, lv, lr⟩
  · simp at hh
  · simp at lb
  · rcases ll with _ | ⟨_ | _, lla, llk, llv, llb⟩ <;>
      rcases lr with _ | ⟨_ | _, lra, lrk, lrv, lrb⟩ <;>
      simp [rb_remove_fix_right_black, rb_remove_far_right, rb_rotate_left, rb_rotate_right,
        rb_set_color] at * <;>
      (repeat' constructor) <;> first | omega | tauto

/-- The mirror image of `remove_fix_left_black_black`. -/
theorem remove_fix_right_black_black {l r : RBNode} (k v : Ptr) (hl : l.NoRedRed)
    (bl : l.BlackBalanced) (lb : l.isRed = false) (hr : r.NoRedRed) (br : r.BlackBalanced)
    (hh : r.bheight + 1 = l.bheight) :
    RemoveInv BLACK (l.bheight + 1) (rb_remove_fix_right_black BLACK l k v r) := by
  unfold RemoveInv
  rcases l with _ | ⟨_ | _, ll, lk, lv, lr⟩
  · simp at hh
  · simp at lb
  · rcases ll with _ | ⟨_ | _, lla, llk, llv, llb⟩ <;>
      rcases lr with _ | ⟨_ | _, lra, lrk, lrv, lrb⟩ <;>
      simp [rb_remove_fix_right_black, rb_remove_far_right, rb_rotate_left, rb_rotate_right,
        rb_set_color] at * <;>
      (repeat' constructor) <;> first | omega | tauto

/-- The removal fixup at the parent of a double-black right child. -/
theorem remove_fix_right_inv (c : RBColor) {l r : RBNode} (k v : Ptr) (hl : l.NoRedRed)
    (bl : l.BlackBalanced) (hr : r.NoRedRed) (br : r.BlackBalanced)
    (hcl : c = RED → l.isRed = false) (hh : r.bheight + 1 = l.bheight) :
    RemoveInv c (RBNode.node c l k v l).bheight (rb_remove_fix_right c l k v r) := by
  rcases l with _ | ⟨_ | _, ll, lk, lv, lr⟩
  · simp at hh
  · cases c with
    | RED => simp at hcl
    | BLACK =>
      simp only [noRedRed_red] at hl
      simp only [blackBalanced_node] at bl
      simp only [bheight_red] at hh
      obtain ⟨f1, f2, f3, f4⟩ :=
        remove_fix_right_black_red k v hl.2.2 bl.2.2 hl.1.2 hr br (by omega)
      unfold RemoveInv
      simp [rb_remove_fix_right]
      refine ⟨⟨hl.2.1, f2⟩, ?_, bl.2.1, f3⟩
      omega
  · cases c with
    | RED =>
      obtain ⟨f1, f2, f3, f4⟩ :=
        remove_fix_right_black_red k v hl bl rfl hr br hh
      unfold RemoveInv
      simp only [rb_remove_fix_right, f1]
      simp
      exact ⟨f2, f3, by simpa using f4⟩
    | BLACK =>
      simpa [rb_remove_fix_right] using remove_fix_right_black_black k v hl bl rfl hr br hh

/-- Unlinking a node with at most one child, which then has black height 0. -/
theorem unlink_inv (c : RBColor) {t : RBNode} (h : t.NoRedRed) (b : t.BlackBalanced)
    (h0 : t.bheight = 0) (hc : c = RED → t.isRed = false) :
    RemoveInv c (RBNode.node c t 0 0 t).bheight (rb_unlink c t) := by
  unfold RemoveInv
  rcases t with _ | ⟨_ | _, l, k, v, r⟩ <;> cases c <;> simp [rb_unlink, rb_set_color] at *
  all_goals first | omega | tauto

theorem bheight_node_congr (c : RBColor) {l l' : RBNode} (k v k' v' : Ptr) (r r' : RBNode)
    (h : l.bheight = l'.bheight) :
    (RBNode.node c l k v r).bheight = (RBNode.node c l' k' v' r').bheight := by
  cases c <;> simp [h]

/-- A subtree returned without a defect can take the place of the original
below its parent. -/
theorem removeInv_node_left (c : RBColor) {l r : RBNode} (k v k' v' : Ptr)
    {res : RBNode × Bool} (h : (RBNode.node c l k v r).NoRedRed)
    (b : (RBNode.node c l k v r).BlackBalanced)
    (hres : res.1.NoRedRed ∧ res.1.BlackBalanced ∧ (l.isRed = false → res.1.isRed = false) ∧
      res.1.bheight = l.bheight) :
    RemoveInv c (RBNode.node c l k v r).bheight (RBNode.node c res.1 k' v' r, false) := by
  obtain ⟨h1, hl, hr⟩ := h
  obtain ⟨b1, bl, br⟩ := b
  obtain ⟨f1, f2, f3, f4⟩ := hres
  unfold RemoveInv
  cases c with
  | RED =>
    have h2 := h1 rfl
    simp
    exact ⟨⟨⟨f3 h2.1, h2.2⟩, f1, hr⟩, ⟨by omega, f2, br⟩, f4⟩
  | BLACK =>
    simp
    exact ⟨⟨f1, hr⟩, ⟨by omega, f2, br⟩, f4⟩

/-- The mirror image of `removeInv_node_left`. -/
theorem removeInv_node_right (c : RBColor) {l r : RBNode} (k v : Ptr)
    {res : RBNode × Bool} (h : (RBNode.node c l k v r).NoRedRed)
    (b : (RBNode.node c l k v r).BlackBalanced)
    (hres : res.1.NoRedRed ∧ res.1.BlackBalanced ∧ (r.isRed = false → res.1.isRed = false) ∧
      res.1.bheight = r.bheight) :
    RemoveInv c (RBNode.node c l k v r).bheight (RBNode.node c l k v res.1, false) := by
  obtain ⟨h1, hl, hr⟩ := h
  obtain ⟨b1, bl, br⟩ := b
  obtain ⟨f1, f2, f3, f4⟩ := hres
  unfold RemoveInv
  cases c with
  | RED =>
    have h2 := h1 rfl
    simp
    exact ⟨⟨⟨h2.1, f3 h2.2⟩, hl, f1⟩, by omega, bl, f2⟩
  | BLACK =>
    simp
    exact ⟨⟨hl, f1⟩, by omega, bl, f2⟩

/-- What `RemoveInv` says about a subtree `t` in the terms of the two lemmas
above. -/
theorem removeInv_unfold {t : RBNode} {c : RBColor} {res : RBNode × Bool}
    (hc : t.isRed = false → c = BLACK) (h : RemoveInv c t.bheight res) (hd : res.2 = false) :
    res.1.NoRedRed ∧ res.1.BlackBalanced ∧ (t.isRed = false → res.1.isRed = false) ∧
      res.1.bheight = t.bheight := by
  obtain ⟨f1, f2, f3, f4⟩ := h
  rw [hd] at f4
  exact ⟨f1, f2, fun ht => f3 (hc ht), by simpa using f4⟩

/-- Removing the rightmost node keeps invariants 2 and 3 up to a defect. -/
theorem remove_max_inv (r : RBNode) : ∀ (c : RBColor) (l : RBNode) (k v : Ptr),
    (RBNode.node c l k v r).NoRedRed → (RBNode.node c l k v r).BlackBalanced →
    RemoveInv c (RBNode.node c l k v r).bheight (rb_remove_max c l k v r).1 := by
  induction r with
  | nil =>
    intro c l k v h b
    obtain ⟨h1, hl, -⟩ := h
    obtain ⟨b1, bl, -⟩ := b
    rw [rb_remove_max, bheight_node_congr c k v 0 0 .nil l rfl]
    exact unlink_inv c hl bl b1 (fun hc => (h1 hc).1)
  | node rc rl rk rv rr _ ih =>
    intro c l k v h b
    have h' := h
    have b' := b
    obtain ⟨h1, hl, hr⟩ := h
    obtain ⟨b1, bl, br⟩ := b
    have hi := ih rc rl rk rv hr br
    rw [rb_remove_max]
    simp only []
    split_ifs with hd
    · obtain ⟨f1, f2, f3, f4⟩ := hi
      rw [if_pos hd] at f4
      rw [bheight_node_congr c k v k v _ l rfl]
      exact remove_fix_right_inv c k v hl bl f1 f2 (fun hc => (h1 hc).1) (by omega)
    · refine removeInv_node_right c k v h' b' (removeInv_unfold ?_ hi (by simpa using hd))
      intro hh
      cases rc with
      | RED => simp at hh
      | BLACK => rfl

/-- Removal keeps invariants 2 and 3 up to a defect. -/
theorem remove_inv (cmp : Ptr → Ptr → Int) (k : Ptr) (t : RBNode) (h : t.NoRedRed)
    (b : t.BlackBalanced) :
    RemoveInv (if t.isRed then RED else BLACK) t.bheight (rb_remove cmp t k).1 := by
  induction t with
  | nil => simp [rb_remove, RemoveInv]
  | node c l a x r ihl ihr =>
    have hcol : (if (RBNode.node c l a x r).isRed then RED else BLACK) = c := by
      cases c <;> rfl
    rw [hcol]
    have h' := h
    have b' := b
    obtain ⟨h1, hl, hr⟩ := h
    obtain ⟨b1, bl, br⟩ := b
    have hil := ihl hl bl
    have hir := ihr hr br
    have hcl : ∀ t : RBNode, t.isRed = false → (if t.isRed then RED else BLACK) = BLACK := by
      intro t ht
      simp [ht]
    unfold rb_remove
    split_ifs with c1 c2
    · simp only []
      split_ifs with hd
      · obtain ⟨f1, f2, f3, f4⟩ := hil
        rw [if_pos hd] at f4
        rw [bheight_node_congr c a x a x r r b1]
        exact remove_fix_left_inv c a x f1 f2 hr br (fun hc => (h1 hc).2) (by omega)
      · exact removeInv_node_left c a x a x h' b'
          (removeInv_unfold (hcl l) hil (by simpa using hd))
    · simp only []
      split_ifs with hd
      · obtain ⟨f1, f2, f3, f4⟩ := hir
        rw [if_pos hd] at f4
        rw [bheight_node_congr c a x a x r l rfl]
        exact remove_fix_right_inv c a x hl bl f1 f2 (fun hc => (h1 hc).1) (by omega)
      · exact removeInv_node_right c a x h' b'
          (removeInv_unfold (hcl r) hir (by simpa using hd))
    · rcases l with _ | ⟨lc, ll, lk, lv, lr⟩
      · simp only []
        rw [bheight_node_congr c a x 0 0 r r b1]
        exact unlink_inv c hr br b1.symm (fun hc => (h1 hc).2)
      · rcases r with _ | ⟨rc, rl, rk, rv, rr⟩
        · simp only []
          rw [bheight_node_congr c a x 0 0 .nil _ rfl]
          exact unlink_inv c hl bl b1 (fun hc => (h1 hc).1)
        · simp only []
          have hmax := remove_max_inv lr lc ll lk lv hl bl
          split_ifs with hd
          · obtain ⟨f1, f2, f3, f4⟩ := hmax
            rw [if_pos hd] at f4
            rw [bheight_node_congr c a x (rb_remove_max lc ll lk lv lr).2.1
              (rb_remove_max lc ll lk lv lr).2.2 _ (.node rc rl rk rv rr) b1]
            exact remove_fix_left_inv c _ _ f1 f2 hr br (fun hc => (h1 hc).2) (by omega)
          · refine removeInv_node_left c a x _ _ h' b'
              (removeInv_unfold ?_ hmax (by simpa using hd))
            intro hh
            cases lc with
            | RED => simp at hh
            | BLACK => rfl

/-! ## The red-black tree: the table operations -/

theorem set_value_inv (cmp : Ptr → Ptr → Int) (k v : Ptr) (t : RBNode) :
    (rb_set_value cmp t k v).isRed = t.isRed ∧
      (rb_set_value cmp t k v).bheight = t.bheight ∧
      (t.NoRedRed → (rb_set_value cmp t k v).NoRedRed) ∧
      (t.BlackBalanced → (rb_set_value cmp t k v).BlackBalanced) := by
  induction t with
  | nil => simp [rb_set_value]
  | node c l a x r ihl ihr =>
    obtain ⟨l1, l2, l3, l4⟩ := ihl
    obtain ⟨r1, r2, r3, r4⟩ := ihr
    unfold rb_set_value
    cases c <;> split_ifs <;> simp [l1, l2, r1, r2] <;> tauto

/-- Under invariant 3 every path from the root to a null leaf has as many
black nodes as the leftmost one. -/
theorem blackCounts_eq_bheight (t : RBNode) (b : t.BlackBalanced) :
    ∀ n ∈ t.blackCounts, n = t.bheight := by
  induction t with
  | nil => simp [RBNode.blackCounts]
  | node c l a x r ihl ihr =>
    obtain ⟨b1, bl, br⟩ := b
    intro n hn
    simp only [RBNode.blackCounts, List.mem_map, List.mem_append] at hn
    obtain ⟨m, hm, rfl⟩ := hn
    have hml : m = l.bheight := by
      rcases hm with hm | hm
      · exact ihl bl m hm
      · rw [b1]; exact ihr br m hm
    cases c <;> simp [hml]

/-- The successor descent: either no key exceeds `k` and the candidate
stands, or the result is the least key that exceeds `k`. -/
theorem rb_greater_than_spec {cmp : Ptr → Ptr → Int} (hc : ConsistentCmp cmp) (k : Ptr)
    (t : RBNode) (h : t.Ascending cmp) : ∀ best : Option Ptr,
    (rb_greater_than cmp t k best = best ∧ ∀ x ∈ t.keys, ¬ cmp k x < 0) ∨
      ∃ g ∈ t.keys, rb_greater_than cmp t k best = some g ∧ cmp k g < 0 ∧
        ∀ x ∈ t.keys, cmp k x < 0 → x = g ∨ cmp g x < 0 := by
  induction t with
  | nil => intro best; left; simp [rb_greater_than]
  | node c l a b r ihl ihr =>
    obtain ⟨hl, hr, hla, har⟩ := (ascending_node hc c l a b r).1 h
    intro best
    unfold rb_greater_than
    split_ifs with h1
    · right
      rcases ihl hl (some a) with ⟨e, hno⟩ | ⟨g, hg, e, hkg, hmin⟩
      · refine ⟨a, by simp, e, h1, ?_⟩
        intro x hx hkx
        simp only [keys_node, List.mem_append, List.mem_cons] at hx
        rcases hx with hx | rfl | hx
        · exact absurd hkx (hno x hx)
        · left; rfl
        · right; exact har x hx
      · refine ⟨g, by simp [hg], e, hkg, ?_⟩
        intro x hx hkx
        simp only [keys_node, List.mem_append, List.mem_cons] at hx
        rcases hx with hx | rfl | hx
        · exact hmin x hx hkx
        · right; exact hla g hg
        · right; exact hc.lt_trans (hla g hg) (har x hx)
    · have hnl : ∀ x ∈ l.keys, ¬ cmp k x < 0 := fun x hx hkx =>
        h1 (hc.lt_trans hkx (hla x hx))
      rcases ihr hr best with ⟨e, hno⟩ | ⟨g, hg, e, hkg, hmin⟩
      · left
        refine ⟨e, ?_⟩
        intro x hx
        simp only [keys_node, List.mem_append, List.mem_cons] at hx
        rcases hx with hx | rfl | hx
        · exact hnl x hx
        · exact h1
        · exact hno x hx
      · right
        refine ⟨g, by simp [hg], e, hkg, ?_⟩
        intro x hx hkx
        simp only [keys_node, List.mem_append, List.mem_cons] at hx
        rcases hx with hx | rfl | hx
        · exact absurd hkx (hnl x hx)
        · exact absurd hkx h1
        · exact hmin x hx hkx

/-- The predecessor descent: either no key is below `k` and the candidate
stands, or the result is the greatest key below `k`. -/
theorem rb_lesser_than_spec {cmp : Ptr → Ptr → Int} (hc : ConsistentCmp cmp) (k : Ptr)
    (t : RBNode) (h : t.Ascending cmp) : ∀ best : Option Ptr,
    (rb_lesser_than cmp t k best = best ∧ ∀ x ∈ t.keys, ¬ cmp x k < 0) ∨
      ∃ g ∈ t.keys, rb_lesser_than cmp t k best = some g ∧ cmp g k < 0 ∧
        ∀ x ∈ t.keys, cmp x k < 0 → x = g ∨ cmp x g < 0 := by
  induction t with
  | nil => intro best; left; simp [rb_lesser_than]
  | node c l a b r ihl ihr =>
    obtain ⟨hl, hr, hla, har⟩ := (ascending_node hc c l a b r).1 h
    intro best
    unfold rb_lesser_than
    split_ifs with h1
    · have hak : cmp a k < 0 := (hc.1 a k).2 h1
      right
      rcases ihr hr (some a) with ⟨e, hno⟩ | ⟨g, hg, e, hkg, hmin⟩
      · refine ⟨a, by simp, e, hak, ?_⟩
        intro x hx hkx
        simp only [keys_node, List.mem_append, List.mem_cons] at hx
        rcases hx with hx | rfl | hx
        · right; exact hla x hx
        · left; rfl
        · exact absurd hkx (hno x hx)
      · refine ⟨g, by simp [hg], e, hkg, ?_⟩
        intro x hx hkx
        simp only [keys_node, List.mem_append, List.mem_cons] at hx
        rcases hx with hx | rfl | hx
        · right; exact hc.lt_trans (hla x hx) (har g hg)
        · right; exact har g hg
        · exact hmin x hx hkx
    · have hna : ¬ cmp a k < 0 := fun hh => h1 ((hc.1 a k).1 hh)
      have hnr : ∀ x ∈ r.keys, ¬ cmp x k < 0 := fun x hx hxk =>
        hna (hc.lt_trans (har x hx) hxk)
      rcases ihl hl best with ⟨e, hno⟩ | ⟨g, hg, e, hkg, hmin⟩
      · left
        refine ⟨e, ?_⟩
        intro x hx
        simp only [keys_node, List.mem_append, List.mem_cons] at hx
        rcases hx with hx | rfl | hx
        · exact hno x hx
        · exact hna
        · exact hnr x hx
      · right
        refine ⟨g, by simp [hg], e, hkg, ?_⟩
        intro x hx hkx
        simp only [keys_node, List.mem_append, List.mem_cons] at hx
        rcases hx with hx | rfl | hx
        · exact hmin x hx hkx
        · exact absurd hkx hna
        · exact absurd hkx (hnr x hx)

theorem isRed_set_black (t : RBNode) : (rb_set_color BLACK t).isRed = false := by
  cases t <;> rfl

/-- Each `nut_treetable_add` keeps the comparator and the invariants. -/
theorem treetable_add_wellFormed (pf : Platform) (t : TreeTable) (hc : ConsistentCmp t.cmp)
    (h : t.WellFormed) (k v : Ptr) :
    (nut_treetable_add pf t k v).2.cmp = t.cmp ∧ (nut_treetable_add pf t k v).2.WellFormed := by
  obtain ⟨h1, h2, h3, h4⟩ := h
  unfold nut_treetable_add
  split
  · refine ⟨rfl, ?_, ?_⟩
    · show (rb_set_value t.cmp t.root k v).keys.Pairwise _
      rw [keys_set_value]
      exact h1
    · obtain ⟨s1, s2, s3, s4⟩ := set_value_inv t.cmp k v t.root
      exact ⟨s3 h2, s4 h3, by rw [s1]; exact h4⟩
  · split
    · exact ⟨rfl, h1, h2, h3, h4⟩
    · obtain ⟨i1, i2, i3, i4⟩ := insert_inv t.cmp k v t.root h2 h3
      exact ⟨rfl, (ascending_set_color t.cmp BLACK _).2 (ascending_insert hc k v t.root h1),
        noRedRed_set_black i1, blackBalanced_set_color BLACK i3, isRed_set_black _⟩

/-- Each `nut_treetable_remove` keeps the comparator and the invariants. -/
theorem treetable_remove_wellFormed (pf : Platform) (t : TreeTable) (h : t.WellFormed) (k : Ptr) :
    (nut_treetable_remove pf t k).2.1.cmp = t.cmp ∧
      (nut_treetable_remove pf t k).2.1.WellFormed := by
  obtain ⟨h1, h2, h3, h4⟩ := h
  have ha := ascending_remove t.cmp k t.root h1
  obtain ⟨r1, r2, -, -⟩ := remove_inv t.cmp k t.root h2 h3
  unfold nut_treetable_remove
  split
  · exact ⟨rfl, h1, h2, h3, h4⟩
  · rename_i root d v heq
    rw [heq] at ha r1 r2
    exact ⟨rfl, (ascending_set_color t.cmp BLACK _).2 ha, noRedRed_set_black (noRedRed_below r1),
      blackBalanced_set_color BLACK r2, isRed_set_black _⟩

/-- Every sequence of operations keeps the comparator and the invariants. -/
theorem runTree_wellFormed (pf : Platform) (ops : List TreeOp) : ∀ (t : TreeTable),
    ConsistentCmp t.cmp → t.WellFormed →
    (runTree pf t ops).cmp = t.cmp ∧ (runTree pf t ops).WellFormed := by
  induction ops with
  | nil => intro t _ h; exact ⟨rfl, h⟩
  | cons op ops ih =>
    intro t hc h
    have hstep : (op.apply pf t).cmp = t.cmp ∧ (op.apply pf t).WellFormed := by
      cases op with
      | add k v => exact treetable_add_wellFormed pf t hc h k v
      | remove k => exact treetable_remove_wellFormed pf t h k
    have := ih (op.apply pf t) (by rw [hstep.1]; exact hc) hstep.2
    exact ⟨by rw [← hstep.1]; exact this.1, this.2⟩

/-- Strictly ascending keys are pairwise different. -/
theorem ascending_nodup {cmp : Ptr → Ptr → Int} (hc : ConsistentCmp cmp) (t : RBNode)
    (h : t.Ascending cmp) : t.keys.Nodup := by
  refine List.Pairwise.imp ?_ h
  intro a b hab e
  rw [e, hc.refl b] at hab
  exact absurd hab (by decide)

theorem freshTable_wellFormed (cmp : Ptr → Ptr → Int) (mem_alloc : Nat → Option Block) :
    TreeTable.WellFormed { root := .nil, size := 0, cmp := cmp, mem_alloc := mem_alloc } :=
  ⟨List.Pairwise.nil, trivial, trivial, rfl⟩

/-- An `add` of a stored key overwrites its value and changes nothing else. -/
theorem treetable_add_found (pf : Platform) (t : TreeTable) (k v : Ptr)
    (h : (rb_get t.cmp t.root k).isSome) :
    nut_treetable_add pf t k v = (NUT_OK, { t with root := rb_set_value t.cmp t.root k v }) := by
  unfold nut_treetable_add
  split
  · rfl
  · rename_i hnone
    rw [hnone] at h
    exact Bool.noConfusion h

/-- After a successful `add` the key is stored. -/
theorem treetable_add_stored (pf : Platform) (t : TreeTable) (hc : ConsistentCmp t.cmp)
    (hasc : t.root.Ascending t.cmp) (k v : Ptr) (hadd : (nut_treetable_add pf t k v).1 = NUT_OK) :
    (nut_treetable_add pf t k v).2.cmp = t.cmp ∧
      (rb_get t.cmp (nut_treetable_add pf t k v).2.root k).isSome := by
  cases hg : rb_get t.cmp t.root k with
  | some w =>
    simp only [nut_treetable_add, hg]
    refine ⟨trivial, ?_⟩
    rw [rb_get_set_value t.cmp k v t.root (by rw [hg]; rfl)]
    rfl
  | none =>
    cases hblk : t.mem_alloc (SIZEOF_RBNODE pf) with
    | none =>
      simp only [nut_treetable_add, hg, hblk] at hadd
      exact absurd hadd (by decide)
    | some blk =>
      simp only [nut_treetable_add, hg, hblk]
      refine ⟨trivial, ?_⟩
      rw [rb_get_set_color]
      exact rb_get_isSome hc k _ (ascending_insert hc k v t.root hasc) (keys_insert_mem hc k v _)

/-! ## Slots of a well-formed deque -/

/-- The slot computed by the source for the logical index `i`. -/
theorem slot_eq_mod (pf : Platform) (hpf : pf.ok) {d : Deque} (hwf : d.WellFormed pf)
    (i : Nat) :
    size_add pf d.first i &&& size_sub pf d.capacity 1 = (d.first + i) % d.capacity := by
  obtain ⟨k, hk, hc, -, hcl, -⟩ := hwf.norm pf hpf
  rw [mask_eq_mod pf hc hcl]
  unfold size_add
  exact Nat.mod_mod_of_dvd _ (hc ▸ Nat.pow_dvd_pow 2 (Nat.le_of_lt hk))

/-- Different logical indices below the size sit in different slots. -/
theorem slot_inj (pf : Platform) (hpf : pf.ok) {d : Deque} (hwf : d.WellFormed pf)
    {i j : Nat} (hi : i < d.size) (hj : j < d.size) (hne : j ≠ i) :
    size_add pf d.first j &&& size_sub pf d.capacity 1
      ≠ size_add pf d.first i &&& size_sub pf d.capacity 1 := by
  obtain ⟨k, hk, hc, -, hcl, -, hsz, -⟩ := hwf.norm pf hpf
  rw [slot_eq_mod pf hpf hwf, slot_eq_mod pf hpf hwf]
  intro h
  exact hne (add_mod_inj (by omega) (by omega) h)

/-! ## The filters of the Array -/

/-- A list read off a block slot by slot. -/
theorem map_range_eq_of_getElem? {K : List Ptr} {b : Block} {k o : Nat} (hlen : K.length = k)
    (h : ∀ t, t < k → K[t]? = some (b (o + t))) :
    (List.range k).map (fun t => b (o + t)) = K := by
  apply List.ext_getElem?
  intro t
  by_cases ht : t < k
  · rw [List.getElem?_map, List.getElem?_range ht, h t ht]
    rfl
  · rw [List.getElem?_eq_none (by simp; omega), List.getElem?_eq_none (by omega)]

/-- The first loop of `nut_array_filter_mut`: when the indices from `n` up
have been handled, `K` are the elements kept so far, stored from the slot
`n + rm` on; at the end the elements kept are those of the whole array. -/
theorem array_filter_mut_loop_spec (pf : Platform) (pred : Ptr → Bool) (b0 : Block) (N : Nat)
    (hN : N < 2 ^ pf.bits) :
    ∀ (n : Nat) (ar : NutArray) (rm keep : Nat) (K : List Ptr),
      K.length = keep → n + rm + keep ≤ N → ar.size = n + rm + keep →
      (∀ j, j < n → ar.buffer j = b0 j) →
      (∀ t, t < keep → K[t]? = some (ar.buffer (n + rm + t))) →
      (((List.range n).map b0).filter pred ++ K).length
          = (array_filter_mut_loop pf pred n ar rm keep).2.2 ∧
        (array_filter_mut_loop pf pred n ar rm keep).1.size
          = (array_filter_mut_loop pf pred n ar rm keep).2.1
            + (array_filter_mut_loop pf pred n ar rm keep).2.2 ∧
        (array_filter_mut_loop pf pred n ar rm keep).1.size ≤ N ∧
        ∀ t, t < (array_filter_mut_loop pf pred n ar rm keep).2.2 →
          (((List.range n).map b0).filter pred ++ K)[t]?
            = some ((array_filter_mut_loop pf pred n ar rm keep).1.buffer
                ((array_filter_mut_loop pf pred n ar rm keep).2.1 + t)) := by
  intro n
  induction n with
  | zero =>
    intro ar rm keep K hlen hle hsize _ hblock
    simp only [array_filter_mut_loop, List.range_zero, List.map_nil, List.filter_nil,
      List.nil_append]
    refine ⟨hlen, by omega, by omega, ?_⟩
    intro t ht
    have := hblock t ht
    rwa [Nat.zero_add] at this
  | succ i ih =>
    intro ar rm keep K hlen hle hsize hprefix hblock
    have hx : ar.buffer i = b0 i := hprefix i (by omega)
    rw [List.range_succ, List.map_append, List.filter_append, List.append_assoc]
    simp only [List.map_cons, List.map_nil]
    unfold array_filter_mut_loop
    by_cases hp : pred (ar.buffer i) = true
    · have hp' : (!pred (ar.buffer i)) = false := by simp [hp]
      have hfx : List.filter pred [b0 i] = [b0 i] := by
        rw [← hx]; simp [hp]
      have hk1 : size_add pf keep 1 = keep + 1 := size_add_of_lt pf (by omega)
      rw [hfx, hk1]
      simp only [hp', Bool.false_eq_true, if_false, List.singleton_append]
      by_cases hrm : rm > 0
      · rw [if_pos hrm]
        have hi1 : size_add pf i 1 = i + 1 := size_add_of_lt pf (by omega)
        have hi2 : size_add pf (i + 1) rm = i + 1 + rm := size_add_of_lt pf (by omega)
        have hs : size_sub pf ar.size rm = ar.size - rm :=
          size_sub_of_le pf (by omega) (by omega)
        rw [hi1, hi2, hs]
        apply ih _ 0 (keep + 1) (b0 i :: K) (by simp [hlen]) (by omega)
        · show ar.size - rm = i + 0 + (keep + 1)
          omega
        · intro j hj
          show (if keep > 0 then memmove ar.buffer (i + 1) (i + 1 + rm) keep else ar.buffer) j
            = b0 j
          have hpj := hprefix j (by omega)
          split_ifs
          · unfold memmove
            rw [if_neg (by omega)]
            exact hpj
          · exact hpj
        · intro t ht
          show (b0 i :: K)[t]?
            = some ((if keep > 0 then memmove ar.buffer (i + 1) (i + 1 + rm) keep
                else ar.buffer) (i + 0 + t))
          cases t with
          | zero =>
            have : (if keep > 0 then memmove ar.buffer (i + 1) (i + 1 + rm) keep
                else ar.buffer) (i + 0 + 0) = ar.buffer i := by
              split_ifs
              · unfold memmove
                rw [if_neg (by omega)]
                rfl
              · rfl
            rw [this, hx]
            simp
          | succ s =>
            have hs' : s < keep := by omega
            have hkpos : keep > 0 := by omega
            rw [List.getElem?_cons_succ, hblock s hs', if_pos hkpos]
            unfold memmove
            rw [if_pos (by omega)]
            congr 2
            omega
      · rw [if_neg hrm]
        have hrm0 : rm = 0 := by omega
        subst hrm0
        apply ih ar 0 (keep + 1) (b0 i :: K) (by simp [hlen]) (by omega) (by omega)
        · intro j hj
          exact hprefix j (by omega)
        · intro t ht
          cases t with
          | zero =>
            rw [← hx]
            simp
          | succ s =>
            rw [List.getElem?_cons_succ, hblock s (by omega)]
            congr 2
            omega
    · have hp' : (!pred (ar.buffer i)) = true := by simp [hp]
      have hfx : List.filter pred [b0 i] = [] := by
        rw [← hx]; simp [hp]
      have hr1 : size_add pf rm 1 = rm + 1 := size_add_of_lt pf (by omega)
      rw [hfx, hr1, if_pos hp', List.nil_append]
      apply ih ar (rm + 1) keep K hlen (by omega) (by omega)
      · intro j hj
        exact hprefix j (by omega)
      · intro t ht
        rw [hblock t ht]
        congr 2
        omega

/-- An array whose slots below the size spell out `K` holds `K`. -/
theorem toList_eq_of_getElem? {ar : NutArray} {K : List Ptr} (hlen : K.length = ar.size)
    (h : ∀ t, t < ar.size → K[t]? = some (ar.buffer t)) : ar.toList = K := by
  apply List.ext_getElem?
  intro t
  unfold NutArray.toList
  by_cases ht : t < ar.size
  · rw [List.getElem?_map, List.getElem?_range ht, h t ht]
    rfl
  · rw [List.getElem?_eq_none (by simp; omega), List.getElem?_eq_none (by omega)]

/-- The in-place filter of a non-empty array keeps the elements that satisfy
the predicate, in their order. -/
theorem nut_array_filter_mut_spec (pf : Platform) (ar : NutArray) (pred : Ptr → Bool)
    (hpos : ar.size ≠ 0) (hlt : ar.size < 2 ^ pf.bits) :
    (nut_array_filter_mut pf ar pred).1 = NUT_OK ∧
      (nut_array_filter_mut pf ar pred).2.toList = ar.toList.filter pred ∧
      (nut_array_filter_mut pf ar pred).2.size = (ar.toList.filter pred).length := by
  obtain ⟨h1, h2, h3, h4⟩ := array_filter_mut_loop_spec pf pred ar.buffer ar.size hlt
    ar.size ar 0 0 [] rfl (by omega) (by omega) (fun _ _ => rfl) (fun t ht => by omega)
  rw [List.append_nil] at h1 h4
  have hL : ar.toList = (List.range ar.size).map ar.buffer := rfl
  rw [← hL] at h1 h4
  unfold nut_array_filter_mut
  rw [if_neg hpos]
  simp only []
  generalize array_filter_mut_loop pf pred ar.size ar 0 0 = r at h1 h2 h3 h4
  by_cases hrm : r.2.1 > 0
  · rw [if_pos hrm]
    have hs : size_sub pf r.1.size r.2.1 = r.2.2 := by
      rw [size_sub_of_le pf (by omega) (by omega)]
      omega
    refine ⟨rfl, ?_, ?_⟩
    · apply toList_eq_of_getElem?
      · show _ = size_sub pf r.1.size r.2.1
        rw [hs, h1]
      · intro t ht
        have ht' : t < r.2.2 := by
          have : t < size_sub pf r.1.size r.2.1 := ht
          rwa [hs] at this
        rw [h4 t ht']
        show _ = some (memmove r.1.buffer 0 r.2.1 r.2.2 t)
        unfold memmove
        rw [if_pos (by omega)]
        rfl
    · show size_sub pf r.1.size r.2.1 = _
      rw [hs, h1]
  · rw [if_neg hrm]
    have hrm0 : r.2.1 = 0 := by omega
    rw [hrm0, Nat.zero_add] at h2
    refine ⟨rfl, ?_, ?_⟩
    · apply toList_eq_of_getElem?
      · rw [h2, h1]
      · intro t ht
        rw [h2] at ht
        have := h4 t ht
        rwa [hrm0, Nat.zero_add] at this
    · show r.1.size = _
      rw [h2, h1]

/-- The loop of `nut_array_filter` over the first `n` indices. -/
theorem array_filter_fold_spec (pf : Platform) (pred : Ptr → Bool) (ar f0 : NutArray)
    (h0 : f0.size = 0) :
    ∀ n, n < 2 ^ pf.bits →
      ((List.range n).foldl (array_filter_step pf pred ar) (f0, 0)).2
          = (((List.range n).map ar.buffer).filter pred).length ∧
        ((List.range n).foldl (array_filter_step pf pred ar) (f0, 0)).1.size
          = (((List.range n).map ar.buffer).filter pred).length ∧
        ((List.range n).foldl (array_filter_step pf pred ar) (f0, 0)).1.capacity
          = f0.capacity ∧
        ∀ t, t < (((List.range n).map ar.buffer).filter pred).length →
          (((List.range n).map ar.buffer).filter pred)[t]?
            = some (((List.range n).foldl (array_filter_step pf pred ar) (f0, 0)).1.buffer t) := by
  intro n
  induction n with
  | zero =>
    intro _
    simp [h0]
  | succ i ih =>
    intro hi
    obtain ⟨i1, i2, i3, i4⟩ := ih (by omega)
    have hlen : (((List.range i).map ar.buffer).filter pred).length ≤ i :=
      le_trans (List.length_filter_le _ _) (by simp)
    rw [List.range_succ, List.foldl_append, List.map_append, List.filter_append]
    simp only [List.foldl_cons, List.foldl_nil, List.map_cons, List.map_nil]
    generalize (List.range i).foldl (array_filter_step pf pred ar) (f0, 0) = st at i1 i2 i3 i4
    unfold array_filter_step
    by_cases hp : pred (ar.buffer i) = true
    · have hfx : List.filter pred [ar.buffer i] = [ar.buffer i] := by simp [hp]
      rw [if_pos hp, hfx]
      have ha : size_add pf st.2 1 = st.2 + 1 := size_add_of_lt pf (by omega)
      have hb : size_add pf st.1.size 1 = st.1.size + 1 := size_add_of_lt pf (by omega)
      simp only [List.length_append, List.length_singleton]
      refine ⟨by rw [ha, i1], by rw [hb, i2], i3, ?_⟩
      intro t ht
      by_cases htl : t < (((List.range i).map ar.buffer).filter pred).length
      · rw [List.getElem?_append_left htl, i4 t htl, Function.update_noteq (by omega)]
      · have hte : t = st.2 := by omega
        rw [List.getElem?_append_right (by omega), hte, Function.update_same, i1]
        simp
    · have hfx : List.filter pred [ar.buffer i] = [] := by simp [hp]
      rw [if_neg hp, hfx, List.append_nil]
      exact ⟨i1, i2, i3, i4⟩

/-- The copying filter of a non-empty array, its two allocations granted,
builds an array of the elements that satisfy the predicate, in their order. -/
theorem nut_array_filter_spec (pf : Platform) (m : NutMem) (ar : NutArray) (pred : Ptr → Bool)
    (hpos : ar.size ≠ 0) (hlt : ar.size < 2 ^ pf.bits)
    (h1 : (m.nut_mem_alloc (SIZEOF_ARRAY pf)).isSome)
    (h2 : (nut_mem_calloc pf m ar.capacity (PTR_SIZE pf)).isSome) :
    ∃ f, nut_array_filter pf m ar pred = (NUT_OK, some f) ∧
      f.toList = ar.toList.filter pred ∧ f.size = (ar.toList.filter pred).length ∧
      f.capacity = ar.capacity := by
  obtain ⟨blk, hblk⟩ := Option.isSome_iff_exists.1 h1
  obtain ⟨buf, hbuf⟩ := Option.isSome_iff_exists.1 h2
  unfold nut_array_filter
  rw [if_neg hpos]
  simp only [hblk, hbuf]
  obtain ⟨f1, f2, f3, f4⟩ := array_filter_fold_spec pf pred ar
    { exp_factor := ar.exp_factor, size := 0, capacity := ar.capacity, buffer := buf,
      slots := size_mul pf ar.capacity (PTR_SIZE pf) / PTR_SIZE pf } rfl ar.size hlt
  refine ⟨_, rfl, ?_, f2, f3⟩
  apply toList_eq_of_getElem?
  · exact f2.symm
  · intro t ht
    rw [f2] at ht
    exact f4 t ht

/-- A number below `2 * c` is reduced modulo `c` by at most one subtraction. -/
theorem mod_two_cases {a c : Nat} (h : a < 2 * c) :
    (a < c ∧ a % c = a) ∨ (c ≤ a ∧ a % c = a - c) := by
  rcases Nat.lt_or_ge a c with hlt | hge
  · exact Or.inl ⟨hlt, Nat.mod_eq_of_lt hlt⟩
  · refine Or.inr ⟨hge, ?_⟩
    rw [Nat.mod_eq_sub_mod hge, Nat.mod_eq_of_lt (by omega)]

/-- The slots moved towards the head when the head segment wraps. -/
theorem shift_head_count {cap first index P : Nat} (hfirst : first < cap)
    (hP : (first + index < cap ∧ P = first + index) ∨
      (cap ≤ first + index ∧ P = first + index - cap)) :
    (if P < first then cap - first + if ¬ P = 0 then P else 0 else index) = index := by
  split_ifs <;> omega

/-- The slots moved towards the tail when the tail segment wraps or ends in
the last slot. -/
theorem shift_tail_count {cap first size last index P : Nat} (hfirst : first < cap)
    (hsize : size < cap) (hi : index < size)
    (hP : (first + index < cap ∧ P = first + index) ∨
      (cap ≤ first + index ∧ P = first + index - cap))
    (hL : (first + size < cap ∧ last = first + size) ∨
      (cap ≤ first + size ∧ last = first + size - cap)) :
    (if P > last ∨ last = cap - 1 then
        (if ¬ P = cap - 1 then cap - 1 - P else 0) + if ¬ last = cap - 1 then last + 1 else 0
      else size - index) = size - index := by
  split_ifs <;> omega

/-- On a well-formed deque that is not full, `nut_deque_add_at` at an inner
index shifts the elements before the index towards the head when
`index ≤ size / 2 - 1` and the elements from the index on towards the tail
otherwise; the `memmove` calls move `index` slots in the first case and
`size - index` slots in the second. -/
theorem add_at_shift_of_lt (pf : Platform) (hpf : pf.ok) {d : Deque}
    (h : d.WellFormed pf) (hlt : d.size < d.capacity) (e : Ptr) {index : Nat}
    (h0 : 0 < index) (hi : index < d.size) :
    (index + 1 ≤ d.size / 2 →
        (nut_deque_add_at pf d e index).2.first = (d.first + (d.capacity - 1)) % d.capacity ∧
        (nut_deque_add_at pf d e index).2.last = d.last ∧
        add_at_moved pf d index = index) ∧
      (d.size / 2 < index + 1 →
        (nut_deque_add_at pf d e index).2.last = (d.last + 1) % d.capacity ∧
        (nut_deque_add_at pf d e index).2.first = d.first ∧
        add_at_moved pf d index = d.size - index) := by
  obtain ⟨k, hk, hc, hpos, hcl, hle, hsz, hfirst, hlast⟩ := h.norm pf hpf
  have hne : ¬ d.capacity = d.size := by omega
  have hge : ¬ index ≥ d.size := by omega
  have hi0 : ¬ index = 0 := by omega
  have hcm : size_sub pf d.capacity 1 = d.capacity - 1 := size_sub_of_le pf (by omega) hcl
  have hic : ¬ index = size_sub pf d.capacity 1 := by rw [hcm]; omega
  have hhalf : size_sub pf (d.size / 2) 1 = d.size / 2 - 1 :=
    size_sub_of_le pf (by omega) (by omega)
  have hp : size_add pf d.first index &&& size_sub pf d.capacity 1
      = (d.first + index) % d.capacity := slot_eq_mod pf hpf h index
  have hf : d.first &&& size_sub pf d.capacity 1 = d.first := by
    rw [mask_eq_mod pf hc hcl, Nat.mod_eq_of_lt hfirst]
  have hlastlt : d.last < d.capacity := by rw [hlast]; exact Nat.mod_lt _ hpos
  have hl : d.last &&& size_sub pf d.capacity 1 = d.last := by
    rw [mask_eq_mod pf hc hcl, Nat.mod_eq_of_lt hlastlt]
  have hPlt : (d.first + index) % d.capacity < d.capacity := Nat.mod_lt _ hpos
  have h3 : size_sub pf d.size index = d.size - index :=
    size_sub_of_le pf (by omega) (by omega)
  have h4 : size_add pf d.last 1 = d.last + 1 := size_add_of_lt pf (by omega)
  have h5 : size_sub pf (d.capacity - 1) ((d.first + index) % d.capacity)
      = d.capacity - 1 - (d.first + index) % d.capacity :=
    size_sub_of_le pf (by omega) (by omega)
  have h1 : size_sub pf (d.capacity - 1) d.first = d.capacity - 1 - d.first :=
    size_sub_of_le pf (by omega) (by omega)
  have h2 : d.first ≠ 0 → size_add pf (d.capacity - 1 - d.first) 1 = d.capacity - d.first := by
    intro hz
    rw [size_add_of_lt pf (by omega)]; omega
  have hcondh : index + 1 ≤ d.size / 2 → index ≤ size_sub pf (d.size / 2) 1 := by
    rw [hhalf]; omega
  have hcondt : d.size / 2 < index + 1 → ¬ index ≤ size_sub pf (d.size / 2) 1 := by
    rw [hhalf]; omega
  have hP0 : d.first = 0 → (d.first + index) % d.capacity = index := by
    intro hz
    rw [hz, Nat.zero_add, Nat.mod_eq_of_lt (by omega)]
  have hP := mod_two_cases (by omega : d.first + index < 2 * d.capacity)
  have hL := mod_two_cases (by omega : d.first + d.size < 2 * d.capacity)
  rw [← hlast] at hL
  constructor
  · intro hh
    have hcond : index ≤ size_sub pf (d.size / 2) 1 := hcondh hh
    have hfl : (nut_deque_add_at pf d e index).2.first
          = size_sub pf d.first 1 &&& size_sub pf d.capacity 1 ∧
        (nut_deque_add_at pf d e index).2.last = d.last := by
      unfold nut_deque_add_at
      simp only [if_neg hge, if_neg hne, ne_eq, not_true_eq_false, if_false, if_neg hi0,
        if_neg hic, if_pos hcond]
      refine ⟨?_, ?_⟩ <;> first | rfl | trivial
    refine ⟨?_, hfl.2, ?_⟩
    · rw [hfl.1, mask_eq_mod pf hc hcl, hc, size_sub_one_mod pf hk]
    · have hm : add_at_moved pf d index
          = if size_add pf d.first index &&& size_sub pf d.capacity 1
                < d.first &&& size_sub pf d.capacity 1 ∨
              d.first &&& size_sub pf d.capacity 1 = 0 then
              (if d.first &&& size_sub pf d.capacity 1 ≠ 0 then
                (if d.first &&& size_sub pf d.capacity 1 ≠ 0 then
                  size_add pf (size_sub pf (size_sub pf d.capacity 1)
                    (d.first &&& size_sub pf d.capacity 1)) 1 else 0) else 0)
                + (if size_add pf d.first index &&& size_sub pf d.capacity 1 ≠ 0 then
                    size_add pf d.first index &&& size_sub pf d.capacity 1 else 0)
            else index := by
        unfold add_at_moved
        simp only [if_neg hge, if_neg hne, ne_eq, not_true_eq_false, if_false, if_neg hi0,
          if_neg hic, if_pos hcond]
      rw [hm, hp, hf, hcm]
      by_cases hz : d.first = 0
      · rw [if_pos (Or.inr hz), if_neg (not_not.mpr hz), hP0 hz, if_pos hi0, Nat.zero_add]
      · simp only [h1, h2 hz, hz, ne_eq, not_false_eq_true, if_true, or_false]
        exact shift_head_count hfirst hP
  · intro hh
    have hcond : ¬ index ≤ size_sub pf (d.size / 2) 1 := hcondt hh
    have hfl : (nut_deque_add_at pf d e index).2.last
          = size_add pf d.last 1 &&& size_sub pf d.capacity 1 ∧
        (nut_deque_add_at pf d e index).2.first = d.first := by
      unfold nut_deque_add_at
      simp only [if_neg hge, if_neg hne, ne_eq, not_true_eq_false, if_false, if_neg hi0,
        if_neg hic, if_neg hcond]
      refine ⟨?_, ?_⟩ <;> first | rfl | trivial
    refine ⟨?_, hfl.2, ?_⟩
    · rw [hfl.1, mask_eq_mod pf hc hcl, h4]
    · have hm : add_at_moved pf d index
          = if size_add pf d.first index &&& size_sub pf d.capacity 1
                > d.last &&& size_sub pf d.capacity 1 ∨
              d.last &&& size_sub pf d.capacity 1 = size_sub pf d.capacity 1 then
              (if size_add pf d.first index &&& size_sub pf d.capacity 1
                  ≠ size_sub pf d.capacity 1 then
                size_sub pf (size_sub pf d.capacity 1)
                  (size_add pf d.first index &&& size_sub pf d.capacity 1) else 0)
                + (if d.last &&& size_sub pf d.capacity 1 ≠ size_sub pf d.capacity 1 then
                    size_add pf (d.last &&& size_sub pf d.capacity 1) 1 else 0)
            else size_sub pf d.size index := by
        unfold add_at_moved
        simp only [if_neg hge, if_neg hne, ne_eq, not_true_eq_false, if_false, if_neg hi0,
          if_neg hic, if_neg hcond]
      rw [hm, hp, hl, hcm]
      simp only [h3, h4, h5, ne_eq]
      exact shift_tail_count hfirst hlt hi hP hL

/-! ## Insertion into and removal from the Array -/

/-- Growth of an array below `NUT_MAX_ELEMENTS`, the allocation succeeding:
the size and the elements below it are kept. -/
theorem array_expand_capacity_ok (pf : Platform) (m : NutMem) (ar : NutArray)
    (hmax : ar.capacity ≠ NUT_MAX_ELEMENTS pf)
    (halloc : (m.nut_mem_alloc
      (size_mul pf (size_mul pf ar.capacity ar.exp_factor) (PTR_SIZE pf))).isSome) :
    ∃ a, array_expand_capacity pf m ar = (NUT_OK, a) ∧ a.size = ar.size ∧
      a.capacity = (if size_mul pf ar.capacity ar.exp_factor ≤ ar.capacity then
        NUT_MAX_ELEMENTS pf else size_mul pf ar.capacity ar.exp_factor) ∧
      a.slots = size_mul pf (size_mul pf ar.capacity ar.exp_factor) (PTR_SIZE pf)
        / PTR_SIZE pf ∧
      ∀ t, t < ar.size → a.buffer t = ar.buffer t := by
  obtain ⟨blk, hblk⟩ := Option.isSome_iff_exists.mp halloc
  unfold array_expand_capacity
  rw [if_neg hmax]
  simp only [hblk]
  have hsz : (if size_mul pf ar.capacity ar.exp_factor ≤ ar.capacity then
      { ar with capacity := NUT_MAX_ELEMENTS pf }
      else { ar with capacity := size_mul pf ar.capacity ar.exp_factor }).size = ar.size := by
    split <;> rfl
  have hbuf : (if size_mul pf ar.capacity ar.exp_factor ≤ ar.capacity then
      { ar with capacity := NUT_MAX_ELEMENTS pf }
      else { ar with capacity := size_mul pf ar.capacity ar.exp_factor }).buffer
        = ar.buffer := by
    split <;> rfl
  refine ⟨_, rfl, hsz, ?_, rfl, ?_⟩
  · show (if size_mul pf ar.capacity ar.exp_factor ≤ ar.capacity then
      { ar with capacity := NUT_MAX_ELEMENTS pf }
      else { ar with capacity := size_mul pf ar.capacity ar.exp_factor }).capacity = _
    split <;> rfl
  · intro t ht
    show memcpy blk 0 _ 0 _ t = ar.buffer t
    rw [hsz, hbuf]
    unfold memcpy
    rw [if_pos (by omega)]
    simp

/-- The growth step of an insertion on an array that has room: the array
after it has the same size and elements, a free slot, a block of `capacity`
slots and a capacity within `NUT_MAX_ELEMENTS`. -/
theorem array_step (pf : Platform) (m : NutMem) (ar : NutArray) (hwf : ar.WellFormed pf)
    (hroom : ar.HasRoom pf m) :
    ∃ a, (if ar.size ≥ ar.capacity then array_expand_capacity pf m ar else (NUT_OK, ar))
        = (NUT_OK, a) ∧ a.size = ar.size ∧ a.size < a.capacity ∧ a.slots = a.capacity ∧
      a.capacity ≤ NUT_MAX_ELEMENTS pf ∧ ∀ t, t < ar.size → a.buffer t = ar.buffer t := by
  obtain ⟨hle, hslots, hcap⟩ := hwf
  by_cases hfull : ar.size ≥ ar.capacity
  · rw [if_pos hfull]
    rcases hroom with hlt | ⟨hmax, hgrow, hfit, hbytes, halloc⟩
    · omega
    · obtain ⟨a, ha, hasz, hacap, haslots, habuf⟩ :=
        array_expand_capacity_ok pf m ar hmax halloc
      rw [if_neg (by omega)] at hacap
      refine ⟨a, ha, hasz, ?_, ?_, ?_, habuf⟩
      · rw [hasz, hacap]; omega
      · rw [haslots, hacap, hbytes]
      · rw [hacap]; exact hfit
  · rw [if_neg hfull]
    exact ⟨ar, rfl, rfl, by omega, hslots, hcap, fun _ _ => rfl⟩

/-- The function `nut_array_add_at` at an index up to the size on a well-formed
array that has room: the array stays well formed, the slots below the index
are kept, the slot of the index holds the element and the slots behind it
hold the former neighbours to the left. -/
theorem nut_array_add_at_spec (pf : Platform) (m : NutMem) (ar : NutArray) (e : Ptr)
    {i : Nat} (hsz : ar.size + 1 < 2 ^ pf.bits) (hi : i ≤ ar.size) (hwf : ar.WellFormed pf)
    (hroom : ar.HasRoom pf m) :
    ∃ r, nut_array_add_at pf m ar e i = (NUT_OK, r) ∧ r.WellFormed pf ∧
      r.size = ar.size + 1 ∧
      (∀ t, t < i → r.buffer t = ar.buffer t) ∧ r.buffer i = e ∧
      ∀ t, i < t → t ≤ ar.size → r.buffer t = ar.buffer (t - 1) := by
  obtain ⟨a, ha, hasz, hfree, haslots, hacap, habuf⟩ := array_step pf m ar hwf hroom
  have hadd : size_add pf ar.size 1 = ar.size + 1 := size_add_of_lt pf hsz
  have hwf' : ∀ b : Block, NutArray.WellFormed pf { a with buffer := b, size := ar.size + 1 } :=
    fun _ => ⟨by show ar.size + 1 ≤ a.capacity; omega, haslots, hacap⟩
  unfold nut_array_add_at
  by_cases heq : i = ar.size
  · rw [if_pos heq]
    unfold nut_array_add
    simp only [ha, ne_eq, not_true_eq_false, if_false, hasz, hadd]
    refine ⟨_, rfl, hwf' _, rfl, ?_, ?_, ?_⟩
    · intro t ht
      show Function.update a.buffer ar.size e t = _
      rw [Function.update_noteq (by omega), habuf t (by omega)]
    · show Function.update a.buffer ar.size e i = _
      rw [heq, Function.update_same]
    · intro t h1 h2
      omega
  · have hlt : i < ar.size := by omega
    have hsub : size_sub pf ar.size 1 = ar.size - 1 := size_sub_of_le pf (by omega) (by omega)
    have hrange : ¬ ((ar.size = 0 ∧ i ≠ 0) ∨ i > size_sub pf ar.size 1) := by
      rw [hsub]; omega
    rw [if_neg heq, if_neg hrange]
    simp only [ha, ne_eq, not_true_eq_false, if_false, hasz, hadd]
    have h1 : size_add pf i 1 = i + 1 := size_add_of_lt pf (by omega)
    have h2 : size_sub pf ar.size i = ar.size - i := size_sub_of_le pf (by omega) (by omega)
    refine ⟨_, rfl, hwf' _, rfl, ?_, ?_, ?_⟩
    · intro t ht
      show Function.update (memmove a.buffer _ i _) i e t = _
      rw [Function.update_noteq (by omega), h1, h2]
      unfold memmove
      rw [if_neg (by omega), habuf t (by omega)]
    · show Function.update (memmove a.buffer _ i _) i e i = _
      rw [Function.update_same]
    · intro t ht1 ht2
      show Function.update (memmove a.buffer _ i _) i e t = _
      rw [Function.update_noteq (by omega), h1, h2]
      unfold memmove
      rw [if_pos (by omega), habuf _ (by omega)]
      congr 1
      omega

/-- The function `nut_array_remove_at` at an index below the size: the value
written through `out` is the element of the index, capacity and block are
kept, the slots below the index are kept and the slots from the index to
`size - 2` hold the former neighbours to the right. -/
theorem nut_array_remove_at_spec (pf : Platform) (ar : NutArray) {i : Nat}
    (hsz : ar.size < 2 ^ pf.bits) (hi : i < ar.size) :
    ∃ r, nut_array_remove_at pf ar i = (NUT_OK, r, some (ar.buffer i)) ∧
      r.size = ar.size - 1 ∧ r.capacity = ar.capacity ∧ r.slots = ar.slots ∧
      (∀ t, t < i → r.buffer t = ar.buffer t) ∧
      ∀ t, i ≤ t → t + 1 < ar.size → r.buffer t = ar.buffer (t + 1) := by
  have hsub : size_sub pf ar.size 1 = ar.size - 1 := size_sub_of_le pf (by omega) hsz
  have h1 : size_add pf i 1 = i + 1 := size_add_of_lt pf (by omega)
  have h2 : size_sub pf ar.size i = ar.size - i := size_sub_of_le pf (by omega) hsz
  unfold nut_array_remove_at
  rw [if_neg (by omega)]
  simp only [hsub, h1, h2]
  refine ⟨_, rfl, rfl, rfl, rfl, ?_, ?_⟩
  · intro t ht
    show (if i ≠ ar.size - 1 then memmove ar.buffer i (i + 1) (ar.size - i) else ar.buffer) t = _
    split
    · unfold memmove
      rw [if_neg (by omega)]
    · rfl
  · intro t ht1 ht2
    show (if i ≠ ar.size - 1 then memmove ar.buffer i (i + 1) (ar.size - i) else ar.buffer) t = _
    rw [if_pos (by omega)]
    unfold memmove
    rw [if_pos (by omega)]
    congr 1
    omega

/-- The element of index `t` of an array is the slot `t` of its buffer. -/
theorem toList_getElem? (ar : NutArray) {t : Nat} (ht : t < ar.size) :
    ar.toList[t]? = some (ar.buffer t) := by
  unfold NutArray.toList
  rw [List.getElem?_map, List.getElem?_range ht]
  rfl

theorem toList_length (ar : NutArray) : ar.toList.length = ar.size := by
  simp [NutArray.toList]

/-- A buffer that agrees with `ar` below `i`, holds `e` at `i` and the former
left neighbours behind it spells out the contents of `ar` with `e` inserted at
the index `i`. -/
theorem toList_inserted (ar r : NutArray) (e : Ptr) {i : Nat} (hi : i ≤ ar.size)
    (hsize : r.size = ar.size + 1) (hlo : ∀ t, t < i → r.buffer t = ar.buffer t)
    (hat : r.buffer i = e) (hhi : ∀ t, i < t → t ≤ ar.size → r.buffer t = ar.buffer (t - 1)) :
    r.toList = ar.toList.take i ++ e :: ar.toList.drop i := by
  have hlen := toList_length ar
  apply toList_eq_of_getElem?
  · simp only [List.length_append, List.length_take, List.length_cons, List.length_drop, hlen,
      hsize]
    omega
  · intro t ht
    have htake : (ar.toList.take i).length = i := by
      rw [List.length_take, hlen]; omega
    rcases Nat.lt_trichotomy t i with h | h | h
    · rw [List.getElem?_append_left (by omega), List.getElem?_take_of_lt h,
        toList_getElem? ar (by omega), hlo t h]
    · subst h
      rw [List.getElem?_append_right (by omega), htake, Nat.sub_self]
      simp [hat]
    · rw [List.getElem?_append_right (by omega), htake]
      obtain ⟨u, hu⟩ : ∃ u, t - i = u + 1 := ⟨t - i - 1, by omega⟩
      rw [hu, List.getElem?_cons_succ, List.getElem?_drop,
        toList_getElem? ar (by omega), hhi t h (by omega)]
      congr 2
      omega

/-- The round trip of `nut_array_add_at` and `nut_array_remove_at` on a
well-formed array that has room for the insertion (`NutArray.HasRoom`): the
insertion returns `NUT_OK`, keeps the array well formed (so every written slot
lies inside the block) and gives the contents `s[0..i) ++ [e] ++ s[i..size)`;
the removal at the same index returns `NUT_OK` with the element and restores
contents and size in a well-formed array. -/
theorem array_round_trip_of_room (pf : Platform) (hpf : pf.ok) (m : NutMem) (ar : NutArray)
    (hwf : ar.WellFormed pf) (e : Ptr) {i : Nat} (hi : i ≤ ar.size) (hroom : ar.HasRoom pf m) :
    ∃ r, nut_array_add_at pf m ar e i = (NUT_OK, r) ∧ r.WellFormed pf ∧
      r.toList = ar.toList.take i ++ e :: ar.toList.drop i ∧ r.size = ar.size + 1 ∧
      ∃ q, nut_array_remove_at pf r i = (NUT_OK, q, some e) ∧ q.WellFormed pf ∧
        q.toList = ar.toList ∧ q.size = ar.size := by
  have hB : 2 ^ 31 < 2 ^ pf.bits := Nat.lt_of_le_of_lt (MAX_POW_TWO_ge pf) hpf
  have hsz : ar.size + 1 < 2 ^ pf.bits := by
    have h1 := hwf.1
    have h2 := hwf.2.2
    unfold NUT_MAX_ELEMENTS at h2
    omega
  obtain ⟨r, hr, hrwf, hrsz, hlo, hat, hhi⟩ := nut_array_add_at_spec pf m ar e hsz hi hwf hroom
  obtain ⟨q, hq, hqsz, hqcap, hqslots, hqlo, hqhi⟩ :=
    nut_array_remove_at_spec pf r (by omega : r.size < 2 ^ pf.bits) (by omega : i < r.size)
  rw [hat] at hq
  refine ⟨r, hr, hrwf, toList_inserted ar r e hi hrsz hlo hat hhi, hrsz, q, hq, ?_, ?_,
    by omega⟩
  · obtain ⟨k1, k2, k3⟩ := hrwf
    exact ⟨by rw [hqsz, hqcap]; omega, by rw [hqslots, hqcap]; exact k2,
      by rw [hqcap]; exact k3⟩
  · apply toList_eq_of_getElem?
    · rw [toList_length]; omega
    · intro t ht
      rw [toList_getElem? ar (by omega)]
      rcases Nat.lt_or_ge t i with h | h
      · rw [hqlo t h, hlo t h]
      · rw [hqhi t h (by omega), hhi (t + 1) (by omega) (by omega)]
        rfl

/-- Outside the range `nut_array_add_at` (index above the size) and
`nut_array_remove_at` (index from the size on) return `NUT_ERR_OUT_RANGE` and
leave the array as it was. -/
theorem array_out_of_range (pf : Platform) (m : NutMem) (ar : NutArray) (e : Ptr)
    (hsz : ar.size < 2 ^ pf.bits) :
    (∀ j, ar.size < j → nut_array_add_at pf m ar e j = (NUT_ERR_OUT_RANGE, ar)) ∧
      (∀ j, ar.size ≤ j → nut_array_remove_at pf ar j = (NUT_ERR_OUT_RANGE, ar, none)) := by
  refine ⟨?_, ?_⟩
  · intro j hj
    unfold nut_array_add_at
    rw [if_neg (by omega)]
    by_cases h0 : ar.size = 0
    · rw [if_pos (Or.inl ⟨h0, by omega⟩)]
    · rw [if_pos (Or.inr (by rw [size_sub_of_le pf (by omega) (by omega)]; omega))]
  · intro j hj
    unfold nut_array_remove_at
    rw [if_pos hj]

/-! ## Chains of nodes -/

theorem chain_nil (mem : SMem) (p q : Ptr) : mem.Chain p [] q ↔ p = q := Iff.rfl

theorem chain_cons (mem : SMem) (p n q : Ptr) (ns : List Ptr) :
    mem.Chain p (n :: ns) q ↔ p = n ∧ n ≠ 0 ∧ mem.Chain (mem.node n).next ns q := Iff.rfl

theorem chain_append (mem : SMem) (xs ys : List Ptr) (p q : Ptr) :
    mem.Chain p (xs ++ ys) q ↔ ∃ r, mem.Chain p xs r ∧ mem.Chain r ys q := by
  induction xs generalizing p with
  | nil =>
    constructor
    · intro h
      exact ⟨p, rfl, h⟩
    · rintro ⟨r, hr, h⟩
      rw [chain_nil] at hr
      subst hr
      exact h
  | cons n xs ih =>
    simp only [List.cons_append, chain_cons, ih]
    constructor
    · rintro ⟨h1, h2, r, h3, h4⟩
      exact ⟨r, ⟨h1, h2, h3⟩, h4⟩
    · rintro ⟨r, ⟨h1, h2, h3⟩, h4⟩
      exact ⟨h1, h2, r, h3, h4⟩

/-- Every node of a chain is non-null. -/
theorem chain_ne_zero {mem : SMem} {ns : List Ptr} {p q : Ptr} (h : mem.Chain p ns q) :
    ∀ n ∈ ns, n ≠ 0 := by
  induction ns generalizing p with
  | nil => simp
  | cons m ns ih =>
    obtain ⟨-, hm, hrest⟩ := h
    intro n hn
    rcases List.mem_cons.mp hn with rfl | hn
    · exact hm
    · exact ih hrest n hn

/-- A chain starts at its first node, or at its end when it has no node. -/
theorem chain_head {mem : SMem} {ns : List Ptr} {p q : Ptr} (h : mem.Chain p ns q) :
    p = ns.head?.getD q := by
  cases ns with
  | nil => exact h
  | cons n ns => exact h.1

/-- The `next` field of the last node of a chain is the end of the chain. -/
theorem chain_last {mem : SMem} {ns : List Ptr} {p q l : Ptr}
    (h : mem.Chain p (ns ++ [l]) q) : (mem.node l).next = q := by
  obtain ⟨r, -, hr⟩ := (chain_append mem ns [l] p q).mp h
  exact hr.2.2

/-- A chain depends on the `next` fields of its nodes only. -/
theorem chain_congr {mem mem' : SMem} {ns : List Ptr} {p q : Ptr}
    (hsame : ∀ n ∈ ns, (mem'.node n).next = (mem.node n).next) (h : mem.Chain p ns q) :
    mem'.Chain p ns q := by
  induction ns generalizing p with
  | nil => exact h
  | cons n ns ih =>
    obtain ⟨h1, h2, h3⟩ := h
    refine ⟨h1, h2, ?_⟩
    rw [hsame n (List.mem_cons_self _ _)]
    exact ih (fun m hm => hsame m (List.mem_cons_of_mem _ hm)) h3

theorem setNext_next_of_ne (mem : SMem) {a n : Ptr} (v : Ptr) (h : n ≠ a) :
    ((mem.setNext a v).node n).next = (mem.node n).next := by
  unfold SMem.setNext
  simp only [Function.update_noteq h]

theorem setNext_next_same (mem : SMem) (a v : Ptr) : ((mem.setNext a v).node a).next = v := by
  unfold SMem.setNext
  simp only [Function.update_same]

theorem setNext_data (mem : SMem) (a v n : Ptr) :
    ((mem.setNext a v).node n).data = (mem.node n).data := by
  unfold SMem.setNext
  by_cases h : n = a
  · subst h
    simp only [Function.update_same]
  · simp only [Function.update_noteq h]

theorem setNext_brk (mem : SMem) (a v : Ptr) : (mem.setNext a v).brk = mem.brk := rfl

/-- Writing the `next` field of a node outside a chain keeps the chain. -/
theorem chain_setNext {mem : SMem} {ns : List Ptr} {p q : Ptr} (a v : Ptr) (ha : a ∉ ns)
    (h : mem.Chain p ns q) : (mem.setNext a v).Chain p ns q :=
  chain_congr (fun _ hn => setNext_next_of_ne mem v (fun hna => ha (hna ▸ hn))) h

/-- From one address at most one chain leads to null. -/
theorem chain_unique {mem : SMem} {xs ys : List Ptr} {p : Ptr} (hx : mem.Chain p xs 0)
    (hy : mem.Chain p ys 0) : xs = ys := by
  induction xs generalizing p ys with
  | nil =>
    cases ys with
    | nil => rfl
    | cons m ys =>
      rw [chain_nil] at hx
      exact absurd (hx ▸ hy.1).symm hy.2.1
  | cons n xs ih =>
    cases ys with
    | nil =>
      rw [chain_nil] at hy
      exact absurd (hy ▸ hx.1).symm hx.2.1
    | cons m ys =>
      obtain ⟨h1, -, h3⟩ := hx
      obtain ⟨k1, -, k3⟩ := hy
      have hnm : n = m := h1.symm.trans k1
      subst hnm
      rw [ih h3 k3]

/-- A chain that leads to null visits no node twice. -/
theorem chain_nodup {mem : SMem} {ns : List Ptr} {p : Ptr} (h : mem.Chain p ns 0) :
    ns.Nodup := by
  induction ns generalizing p with
  | nil => exact List.nodup_nil
  | cons n ns ih =>
    obtain ⟨-, -, hrest⟩ := h
    refine List.nodup_cons.mpr ⟨?_, ih hrest⟩
    intro hmem
    obtain ⟨l1, l2, hl⟩ := List.append_of_mem hmem
    have hrest' := hrest
    rw [hl] at hrest'
    obtain ⟨r, -, hr⟩ := (chain_append mem l1 (n :: l2) _ 0).mp hrest'
    have heq : ns = l2 := chain_unique hrest hr.2.2
    have hlen : ns.length = l1.length + (l2.length + 1) := by
      rw [hl, List.length_append, List.length_cons]
    rw [heq] at hlen
    omega

/-- The walk along a chain that leads to null returns the chain when the fuel
covers it. -/
theorem walk_of_chain {mem : SMem} {ns : List Ptr} {p : Ptr} (h : mem.Chain p ns 0)
    {fuel : Nat} (hfuel : ns.length ≤ fuel) : mem.walk fuel p = ns := by
  induction ns generalizing p fuel with
  | nil =>
    rw [chain_nil] at h
    subst h
    cases fuel <;> simp [SMem.walk]
  | cons n ns ih =>
    obtain ⟨h1, h2, h3⟩ := h
    subst h1
    cases fuel with
    | zero => simp at hfuel
    | succ f =>
      simp only [SMem.walk, if_neg h2]
      rw [ih h3 (by simpa using hfuel)]

/-- A walk that returns nodes follows a chain to the `next` field of its last
node. -/
theorem chain_of_walk (mem : SMem) (fuel : Nat) (p : Ptr) (ns : List Ptr) (l : Ptr)
    (h : mem.walk fuel p = ns ++ [l]) : mem.Chain p (ns ++ [l]) (mem.node l).next := by
  induction fuel generalizing p ns with
  | zero => simp [SMem.walk] at h
  | succ f ih =>
    by_cases hp : p = 0
    · simp [SMem.walk, hp] at h
    · simp only [SMem.walk, if_neg hp] at h
      cases ns with
      | nil =>
        simp only [List.nil_append, List.cons.injEq] at h
        obtain ⟨h1, -⟩ := h
        subst h1
        exact ⟨rfl, hp, rfl⟩
      | cons n ns =>
        simp only [List.cons_append, List.cons.injEq] at h
        obtain ⟨h1, h2⟩ := h
        subst h1
        exact ⟨rfl, hp, ih _ ns h2⟩

theorem walk_length_le (mem : SMem) (fuel : Nat) (p : Ptr) : (mem.walk fuel p).length ≤ fuel := by
  induction fuel generalizing p with
  | zero => simp [SMem.walk]
  | succ f ih =>
    by_cases hp : p = 0
    · simp [SMem.walk, hp]
    · simp only [SMem.walk, if_neg hp, List.length_cons]
      have := ih (mem.node p).next
      omega

/-! ## The SList iterator that removes every second element -/

theorem getLast?_getD_append_singleton (K : List Ptr) (a : Ptr) :
    (K ++ [a]).getLast?.getD 0 = a := by
  simp

/-- One round of next, next, remove on an iterator between rounds with the
nodes `a`, `b` ahead: the calls return the elements of `a`, of `b` and of `b`,
the node `b` is unlinked and the iterator is between rounds again, with `a`
kept. -/
theorem iter_round (pf : Platform) (mem : SMem) (iter : SListIter) (K R : List Ptr)
    (a b : Ptr) (hinv : iter.Between mem K (a :: b :: R))
    (hsz : iter.list.size < 2 ^ pf.bits) :
    (runSListIter pf mem iter [.next, .next, .remove]).2
        = [(NUT_OK, some (mem.node a).data), (NUT_OK, some (mem.node b).data),
            (NUT_OK, some (mem.node b).data)] ∧
      (runSListIter pf mem iter [.next, .next, .remove]).1.2.Between
        (runSListIter pf mem iter [.next, .next, .remove]).1.1 (K ++ [a]) R ∧
      (∀ p, ((runSListIter pf mem iter [.next, .next, .remove]).1.1.node p).data
        = (mem.node p).data) ∧
      (runSListIter pf mem iter [.next, .next, .remove]).1.1.brk = mem.brk ∧
      (runSListIter pf mem iter [.next, .next, .remove]).1.2.list.size + 1
        = iter.list.size := by
  obtain ⟨hchain, hsize, htail, hnext, hcur, hprev⟩ := hinv
  have hnd := chain_nodup hchain
  obtain ⟨r, hK, hab⟩ := (chain_append mem K (a :: b :: R) _ 0).mp hchain
  obtain ⟨hra, ha0, hb⟩ := hab
  obtain ⟨hanext, hb0, hR⟩ := hb
  subst hra
  have hnext' : iter.next = r := by simpa using hnext
  have h1 : nut_slist_iter_next pf mem iter
      = (NUT_OK, mem, { iter with
          prev := iter.prev
          current := r
          next := b
          index := size_add pf iter.index 1 }, some (mem.node r).data) := by
    unfold nut_slist_iter_next
    rw [if_neg (by rw [hnext']; exact ha0)]
    simp only [hnext', hcur, ne_eq, not_true_eq_false, if_false, hanext]
  have h2 : nut_slist_iter_next pf mem { iter with
          prev := iter.prev
          current := r
          next := b
          index := size_add pf iter.index 1 }
      = (NUT_OK, mem, { iter with
          prev := r
          current := b
          next := (mem.node b).next
          index := size_add pf (size_add pf iter.index 1) 1 }, some (mem.node b).data) := by
    unfold nut_slist_iter_next
    simp only [if_neg hb0, ne_eq, ha0, not_false_eq_true, if_true]
  have hba : b ≠ r := by
    intro h
    have := hnd
    simp [List.nodup_append, h] at this
  have hbnext : ((mem.setNext r (mem.node b).next).node b).next = (mem.node b).next :=
    setNext_next_of_ne mem _ hba
  have hrK : r ∉ K := by
    intro h
    have := hnd
    rw [List.nodup_append] at this
    exact this.2.2 h (List.mem_cons_self _ _)
  have hrR : r ∉ R := by
    intro h
    have := hnd
    rw [List.nodup_append] at this
    have h2 := this.2.1
    rw [List.nodup_cons] at h2
    exact h2.1 (List.mem_cons_of_mem _ h)
  simp only [runSListIter, IterOp.applySList, h1, h2, nut_slist_iter_remove, if_neg hb0, unlink,
    ne_eq, ha0, not_false_eq_true, if_true, hbnext]
  have hsz1 : size_sub pf iter.list.size 1 = iter.list.size - 1 :=
    size_sub_of_le pf (by rw [hsize]; simp; omega) hsz
  have hlen : iter.list.size = K.length + R.length + 2 := by
    rw [hsize]
    simp only [List.length_append, List.length_cons]
    omega
  have hchain' : (mem.setNext r (mem.node b).next).Chain iter.list.head ((K ++ [r]) ++ R) 0 := by
    rw [chain_append]
    refine ⟨(mem.node b).next, ?_, chain_setNext r _ hrR hR⟩
    rw [chain_append]
    exact ⟨r, chain_setNext r _ hrK hK, rfl, ha0, setNext_next_same mem r _⟩
  have hlen' : ((K ++ [r]) ++ R).length = K.length + R.length + 1 := by
    simp only [List.length_append, List.length_cons, List.length_nil]
    omega
  have hnextR : (mem.node b).next = R.head?.getD 0 := chain_head hR
  by_cases hbn : (mem.node b).next = 0
  · have hRnil : R = [] := by
      cases R with
      | nil => rfl
      | cons n R => exact absurd (hR.1.symm.trans hbn) hR.2.1
    subst hRnil
    rw [hbn] at hchain'
    simp only [hbn, if_true, hsz1, true_and]
    refine ⟨⟨?_, ?_, ?_, ?_, rfl, ?_⟩, fun p => setNext_data mem _ _ p, rfl, by omega⟩
    · exact hchain'
    · show iter.list.size - 1 = _
      rw [hlen']; omega
    · show r = _
      simp
    · rfl
    · show r = _
      simp
  · have hRne : R ≠ [] := by
      intro h
      subst h
      exact hbn hR
    simp only [hbn, if_false, hsz1, true_and]
    refine ⟨⟨hchain', ?_, ?_, hnextR, rfl, ?_⟩, fun p => setNext_data mem _ _ p, rfl, by omega⟩
    · show iter.list.size - 1 = _
      rw [hlen']; omega
    · show iter.list.tail = _
      rw [htail]
      have e1 : K ++ r :: b :: R = (K ++ [r, b]) ++ R := by simp
      rw [e1, List.getLast?_append_of_ne_nil _ hRne, List.getLast?_append_of_ne_nil _ hRne]
    · show r = _
      simp

theorem everySecond_cons_cons (a b : Ptr) (rest : List Ptr) :
    everySecond (a :: b :: rest) = a :: everySecond rest := by
  simp [everySecond]

theorem everySecond_map (f : Ptr → Ptr) (ns : List Ptr) :
    everySecond (ns.map f) = (everySecond ns).map f := by
  induction ns using everySecond.induct with
  | case1 a b rest ih => simp [everySecond, ih]
  | case2 l h =>
    cases l with
    | nil => simp [everySecond]
    | cons a l =>
      cases l with
      | nil => simp [everySecond]
      | cons b l => exact absurd rfl (h a b l)

theorem everySecond_length (ns : List Ptr) (k : Nat) (h : ns.length = 2 * k) :
    (everySecond ns).length = k := by
  induction k generalizing ns with
  | zero =>
    have : ns = [] := List.length_eq_zero.mp (by omega)
    subst this
    simp [everySecond]
  | succ k ih =>
    match ns, h with
    | a :: b :: rest, h =>
      rw [everySecond_cons_cons, List.length_cons, ih rest (by simp at h; omega)]

/-- Running two sequences of iterator calls one after the other. -/
theorem runSListIter_append (pf : Platform) (mem : SMem) (iter : SListIter)
    (xs ys : List IterOp) :
    runSListIter pf mem iter (xs ++ ys)
      = ((runSListIter pf (runSListIter pf mem iter xs).1.1
            (runSListIter pf mem iter xs).1.2 ys).1,
          (runSListIter pf mem iter xs).2 ++
            (runSListIter pf (runSListIter pf mem iter xs).1.1
              (runSListIter pf mem iter xs).1.2 ys).2) := by
  induction xs generalizing mem iter with
  | nil => rfl
  | cons op xs ih =>
    show runSListIter pf mem iter (op :: (xs ++ ys)) = _
    simp only [runSListIter]
    rw [ih]
    rfl

/-- The rounds of next, next, remove over the `2 * k` nodes ahead of an
iterator between rounds, and the last next: the calls return what
`everySecondTrace` lists, and the list is left with the nodes kept before and
every second node of those ahead. -/
theorem iter_every_second (pf : Platform) (k : Nat) : ∀ (R K : List Ptr) (mem : SMem)
    (iter : SListIter), R.length = 2 * k → iter.Between mem K R →
    iter.list.size < 2 ^ pf.bits →
    (runSListIter pf mem iter (everySecondOps k)).2
        = everySecondTrace (R.map fun p => (mem.node p).data) ∧
      (runSListIter pf mem iter (everySecondOps k)).1.2.Between
        (runSListIter pf mem iter (everySecondOps k)).1.1 (K ++ everySecond R) [] ∧
      (∀ p, ((runSListIter pf mem iter (everySecondOps k)).1.1.node p).data
        = (mem.node p).data) ∧
      (runSListIter pf mem iter (everySecondOps k)).1.1.brk = mem.brk ∧
      (runSListIter pf mem iter (everySecondOps k)).1.2.list.size + k = iter.list.size := by
  induction k with
  | zero =>
    intro R K mem iter hlen hinv hsz
    have hR : R = [] := List.length_eq_zero.mp (by omega)
    subst hR
    obtain ⟨hchain, hsize, htail, hnext, hcur, hprev⟩ := hinv
    have hn : iter.next = 0 := by simpa using hnext
    have h1 : nut_slist_iter_next pf mem iter = (NUT_ITER_END, mem, iter, none) := by
      unfold nut_slist_iter_next
      rw [if_pos hn]
    have hrun : runSListIter pf mem iter (everySecondOps 0)
        = ((mem, iter), [(NUT_ITER_END, none)]) := by
      simp only [everySecondOps, runSListIter, IterOp.applySList, h1]
    rw [hrun]
    refine ⟨rfl, ?_, fun _ => rfl, rfl, rfl⟩
    show iter.Between mem (K ++ []) []
    unfold SListIter.Between
    simp only [List.append_nil] at hchain hsize htail ⊢
    exact ⟨hchain, hsize, htail, hnext, hcur, hprev⟩
  | succ k ih =>
    intro R K mem iter hlen hinv hsz
    match R, hlen, hinv with
    | a :: b :: R, hlen, hinv =>
      obtain ⟨ht, hb, hd, hbrk, hs⟩ := iter_round pf mem iter K R a b hinv hsz
      have hops : everySecondOps (k + 1) = [.next, .next, .remove] ++ everySecondOps k := rfl
      obtain ⟨it, hb', hd', hbrk', hs'⟩ :=
        ih R (K ++ [a]) _ _ (by simp at hlen; omega) hb (by omega)
      rw [hops, runSListIter_append]
      refine ⟨?_, ?_, ?_, ?_, ?_⟩
      · show _ ++ _ = _
        rw [ht, it]
        simp only [List.map_cons, everySecondTrace, List.cons_append, List.nil_append]
        congr 4
        apply List.map_congr_left
        intro p _
        exact hd p
      · rw [everySecond_cons_cons]
        have e : K ++ a :: everySecond R = (K ++ [a]) ++ everySecond R := by simp
        rw [e]
        exact hb'
      · intro p
        exact (hd' p).trans (hd p)
      · exact hbrk'.trans hbrk
      · show (runSListIter pf _ _ (everySecondOps k)).1.2.list.size + (k + 1) = iter.list.size
        omega

/-- The nodes of a well-formed list form a chain from `head` to null. -/
theorem wellFormed_chain {mem : SMem} {list : SList} (h : list.WellFormed mem) :
    mem.Chain list.head (list.nodes mem) 0 := by
  obtain ⟨hhead, htail, hlen, hlast, hnext⟩ := h
  rcases List.eq_nil_or_concat (list.nodes mem) with hnil | ⟨ns, l, hl⟩
  · rw [hnil]
    rw [hnil] at hlen
    exact hhead.mp hlen.symm
  · rw [List.concat_eq_append] at hl
    have hsize : list.size ≠ 0 := by
      rw [← hlen, hl]
      simp
    rw [hl, if_neg hsize] at hlast
    have hlt : l = list.tail := by simpa using hlast
    have hc := chain_of_walk mem (mem.brk + 1) list.head ns l hl
    rw [hlt, hnext hsize] at hc
    rw [hl, hlt]
    exact hc

/-- A list whose `head` starts a chain of `size` nodes to null, with `tail`
the last of them, is well formed and has these nodes. -/
theorem wellFormed_of_chain {mem : SMem} {list : SList} {ns : List Ptr}
    (hchain : mem.Chain list.head ns 0) (hsize : list.size = ns.length)
    (htail : list.tail = ns.getLast?.getD 0) (hfuel : ns.length ≤ mem.brk + 1) :
    list.nodes mem = ns ∧ list.WellFormed mem := by
  have hnodes : list.nodes mem = ns := walk_of_chain hchain hfuel
  refine ⟨hnodes, ?_⟩
  unfold SList.WellFormed
  rw [hnodes]
  rcases List.eq_nil_or_concat ns with hnil | ⟨ms, l, hl⟩
  · subst hnil
    have hh : list.head = 0 := hchain
    have hs : list.size = 0 := hsize
    have ht : list.tail = 0 := htail
    simp [hh, hs, ht]
  · rw [List.concat_eq_append] at hl
    subst hl
    have hs : list.size ≠ 0 := by rw [hsize]; simp
    have ht : list.tail = l := by rw [htail]; simp
    have hl0 : l ≠ 0 := chain_ne_zero hchain l (by simp)
    have hh : list.head ≠ 0 := by
      rw [chain_head hchain]
      cases ms with
      | nil => simpa using hl0
      | cons m ms => exact hchain.2.1
    have hnext : (mem.node l).next = 0 := chain_last hchain
    refine ⟨⟨fun h => absurd h hs, fun h => absurd h hh⟩,
      ⟨fun h => absurd h hs, fun h => absurd (ht ▸ h) hl0⟩, hsize.symm, ?_, ?_⟩
    · rw [if_neg hs, ht]
      simp
    · intro _
      rw [ht]
      exact hnext

/-- The iterator `nut_slist_iter_init` sets up on a well-formed list is between
rounds, with no node kept and all nodes ahead. -/
theorem between_init {mem : SMem} {list : SList} (h : list.WellFormed mem) :
    (nut_slist_iter_init list).Between mem [] (list.nodes mem) := by
  have hchain := wellFormed_chain h
  obtain ⟨hhead, htail, hlen, hlast, hnext⟩ := h
  refine ⟨hchain, hlen.symm, ?_, chain_head hchain, rfl, rfl⟩
  show list.tail = (list.nodes mem).getLast?.getD 0
  rw [hlast]
  by_cases hs : list.size = 0
  · rw [if_pos hs]
    exact htail.mp hs
  · rw [if_neg hs]
    rfl

/-! ## Splicing two lists -/

/-- Redirecting the last node of a chain redirects the chain. -/
theorem chain_redirect {mem : SMem} {xs : List Ptr} {p q t : Ptr} (v : Ptr)
    (h : mem.Chain p (xs ++ [t]) q) (ht : t ∉ xs) :
    (mem.setNext t v).Chain p (xs ++ [t]) v := by
  obtain ⟨r, hr, hlast⟩ := (chain_append mem xs [t] p q).mp h
  rw [chain_append]
  exact ⟨r, chain_setNext t v ht hr, hlast.1, hlast.2.1, setNext_next_same mem t v⟩

/-- A list of distinct addresses up to `n` has at most `n + 1` members. -/
theorem length_le_of_nodup_le {l : List Ptr} {n : Nat} (hnd : l.Nodup)
    (hle : ∀ p ∈ l, p ≤ n) : l.length ≤ n + 1 := by
  have hsub : l ⊆ List.range (n + 1) := by
    intro p hp
    rw [List.mem_range]
    exact Nat.lt_succ_of_le (hle p hp)
  have := (List.Nodup.subperm hnd hsub).length_le
  simpa using this

/-- The loop of `get_node_at` along a chain: after as many steps as the first
part has nodes, `node` is the first node of the second part and `prev` the
last node of the first part. -/
theorem get_node_at_loop_chain {mem : SMem} (xs ys : List Ptr) {p q : Ptr} (prev : Ptr)
    (h : mem.Chain p (xs ++ ys) q) :
    get_node_at_loop mem xs.length p prev = (ys.head?.getD q, xs.getLast?.getD prev) := by
  induction xs generalizing p prev with
  | nil =>
    have hp := chain_head h
    rw [List.nil_append] at hp
    simp only [List.length_nil, get_node_at_loop, List.getLast?_nil, Option.getD_none]
    rw [← hp]
  | cons n xs ih =>
    obtain ⟨h1, -, h3⟩ := h
    subst h1
    simp only [List.length_cons, get_node_at_loop]
    rw [ih p h3]
    congr 1
    cases xs with
    | nil => simp
    | cons m xs =>
      rw [List.getLast?_eq_getLast _ (List.cons_ne_nil m xs)]
      rfl

/-- The facts about a well-formed list that the proofs about chains use: the
chain of its nodes, their number and the last of them. -/
theorem wellFormed_repr {mem : SMem} {list : SList} (h : list.WellFormed mem) :
    mem.Chain list.head (list.nodes mem) 0 ∧ list.size = (list.nodes mem).length ∧
      list.tail = (list.nodes mem).getLast?.getD 0 := by
  have hb := between_init h
  exact ⟨hb.1, hb.2.1, hb.2.2.1⟩

/-- A chain in a memory that differs only in `next` fields spells out the same
elements. -/
theorem map_data_setNext (mem : SMem) (a v : Ptr) (ns : List Ptr) :
    ns.map (fun p => ((mem.setNext a v).node p).data) = ns.map (fun p => (mem.node p).data) :=
  List.map_congr_left (fun p _ => setNext_data mem a v p)

/-- The effect of `splice_between` on two disjoint chains: the nodes `B` of
the second list come to stand between the nodes `A1` before the insertion
point and the nodes `A2` from it on, where `base` is the last node of `A1`
(null when there is none) and `end` the first node of `A2`. -/
theorem splice_between_spec (pf : Platform) (mem : SMem) (l1 l2 : SList)
    (A1 A2 B : List Ptr) (hA : mem.Chain l1.head (A1 ++ A2) 0)
    (hs1 : l1.size = (A1 ++ A2).length) (ht1 : l1.tail = (A1 ++ A2).getLast?.getD 0)
    (hB : mem.Chain l2.head B 0) (hs2 : l2.size = B.length)
    (ht2 : l2.tail = B.getLast?.getD 0) (hBne : B ≠ []) (hA2 : A2 ≠ [])
    (hdisj : ∀ p ∈ A1 ++ A2, p ∉ B) (hsz : (A1 ++ A2).length + B.length < 2 ^ pf.bits) :
    (splice_between pf mem l1 l2 (A1.getLast?.getD 0) (A2.head?.getD 0)).1.Chain
        (splice_between pf mem l1 l2 (A1.getLast?.getD 0) (A2.head?.getD 0)).2.1.head
        (A1 ++ B ++ A2) 0 ∧
      (splice_between pf mem l1 l2 (A1.getLast?.getD 0) (A2.head?.getD 0)).2.1.size
        = (A1 ++ B ++ A2).length ∧
      (splice_between pf mem l1 l2 (A1.getLast?.getD 0) (A2.head?.getD 0)).2.1.tail
        = (A1 ++ B ++ A2).getLast?.getD 0 ∧
      (∀ p, ((splice_between pf mem l1 l2 (A1.getLast?.getD 0) (A2.head?.getD 0)).1.node p).data
        = (mem.node p).data) ∧
      (splice_between pf mem l1 l2 (A1.getLast?.getD 0) (A2.head?.getD 0)).1.brk = mem.brk ∧
      (splice_between pf mem l1 l2 (A1.getLast?.getD 0) (A2.head?.getD 0)).2.2.size = 0 ∧
      (splice_between pf mem l1 l2 (A1.getLast?.getD 0) (A2.head?.getD 0)).2.2.head = 0 ∧
      (splice_between pf mem l1 l2 (A1.getLast?.getD 0) (A2.head?.getD 0)).2.2.tail = 0 := by
  have hndA := chain_nodup hA
  have hndB := chain_nodup hB
  obtain ⟨B0, tb, hBeq⟩ : ∃ B0 tb, B = B0 ++ [tb] := by
    rcases List.eq_nil_or_concat B with h | ⟨B0, tb, h⟩
    · exact absurd h hBne
    · exact ⟨B0, tb, by rw [h, List.concat_eq_append]⟩
  obtain ⟨node, A2', hA2eq⟩ : ∃ node A2', A2 = node :: A2' := by
    cases A2 with
    | nil => exact absurd rfl hA2
    | cons node A2' => exact ⟨node, A2', rfl⟩
  have htb : l2.tail = tb := by rw [ht2, hBeq]; simp
  have htbB0 : tb ∉ B0 := by
    intro h
    rw [hBeq, List.nodup_append] at hndB
    exact hndB.2.2 h (List.mem_singleton_self _)
  have htbB : tb ∈ B := by rw [hBeq]; simp
  have htbA : tb ∉ A1 ++ A2 := fun h => hdisj tb h htbB
  have hsize : size_add pf l1.size l2.size = (A1 ++ B ++ A2).length := by
    rw [size_add_of_lt pf (by rw [hs1, hs2]; exact hsz), hs1, hs2]
    simp only [List.length_append]
    omega
  have htail : l1.tail = (A1 ++ B ++ A2).getLast?.getD 0 := by
    rw [ht1, List.getLast?_append_of_ne_nil _ hA2, List.getLast?_append_of_ne_nil _ hA2]
  have hend : A2.head?.getD 0 = node := by rw [hA2eq]; rfl
  obtain ⟨r, hA1c, hA2c⟩ := (chain_append mem A1 A2 _ 0).mp hA
  have hrnode : r = node := by
    rw [hA2eq] at hA2c
    exact hA2c.1
  have hnode0 : node ≠ 0 := by
    rw [hA2eq] at hA2c
    exact hA2c.2.1
  subst hrnode
  have hB' : mem.Chain l2.head (B0 ++ [tb]) 0 := hBeq ▸ hB
  rw [hend]
  rcases List.eq_nil_or_concat A1 with hnil | ⟨A10, base, hA1eq⟩
  · -- the insertion at the head
    subst hnil
    have hh : l1.head = r := hA1c
    have hbase : ([] : List Ptr).getLast?.getD 0 = 0 := rfl
    rw [hbase]
    have hsp : splice_between pf mem l1 l2 0 r
        = (mem.setNext l2.tail l1.head,
            { l1 with head := l2.head, size := size_add pf l1.size l2.size },
            { l2 with head := 0, tail := 0, size := 0 }) := by
      unfold splice_between
      rw [if_pos rfl]
    rw [hsp]
    refine ⟨?_, hsize, htail, fun p => setNext_data mem _ _ p, rfl, rfl, rfl, rfl⟩
    show (mem.setNext l2.tail l1.head).Chain l2.head ([] ++ B ++ A2) 0
    rw [List.nil_append, chain_append, htb, hBeq]
    refine ⟨l1.head, chain_redirect _ hB' htbB0, ?_⟩
    rw [hh]
    exact chain_setNext tb _ (fun h => htbA (by simpa using h)) hA2c
  · -- the insertion behind the node `base`
    rw [List.concat_eq_append] at hA1eq
    subst hA1eq
    have hbase0 : base ≠ 0 := chain_ne_zero hA base (by simp)
    have hbase : (A10 ++ [base]).getLast?.getD 0 = base := by simp
    have hbaseA10 : base ∉ A10 := by
      intro h
      rw [List.nodup_append, List.nodup_append] at hndA
      exact hndA.1.2.2 h (List.mem_singleton_self _)
    have hbaseA2 : base ∉ A2 := by
      intro h
      rw [List.nodup_append] at hndA
      exact hndA.2.2 (by simp) h
    have hbaseB : base ∉ B := hdisj base (by simp)
    have htbA1 : tb ∉ A10 ++ [base] := fun h => htbA (List.mem_append_left _ h)
    have htbA2 : tb ∉ A2 := fun h => htbA (List.mem_append_right _ h)
    rw [hbase]
    have hsp : splice_between pf mem l1 l2 base r
        = ((mem.setNext base l2.head).setNext l2.tail r,
            { l1 with size := size_add pf l1.size l2.size },
            { l2 with head := 0, tail := 0, size := 0 }) := by
      unfold splice_between
      rw [if_neg hbase0, if_neg hnode0]
    rw [hsp]
    refine ⟨?_, hsize, htail, ?_, rfl, rfl, rfl, rfl⟩
    · show ((mem.setNext base l2.head).setNext l2.tail r).Chain l1.head
        ((A10 ++ [base]) ++ B ++ A2) 0
      rw [htb]
      refine (chain_append _ _ _ _ _).mpr ⟨r, (chain_append _ _ _ _ _).mpr ⟨l2.head, ?_, ?_⟩, ?_⟩
      · exact chain_setNext tb r htbA1 (chain_redirect l2.head hA1c hbaseA10)
      · rw [hBeq]
        exact chain_redirect r (chain_setNext base _ (fun h => hbaseB (hBeq ▸ h)) hB') htbB0
      · exact chain_setNext tb r htbA2 (chain_setNext base _ hbaseA2 hA2c)
    · intro p
      show (((mem.setNext base l2.head).setNext l2.tail r).node p).data = _
      rw [setNext_data, setNext_data]

/-- The effect of `nut_slist_splice` on two disjoint chains when the second
list has nodes: they come to stand behind the nodes of the first list. -/
theorem splice_spec (pf : Platform) (mem : SMem) (l1 l2 : SList) (A B : List Ptr)
    (hA : mem.Chain l1.head A 0) (hs1 : l1.size = A.length)
    (ht1 : l1.tail = A.getLast?.getD 0) (hB : mem.Chain l2.head B 0)
    (hs2 : l2.size = B.length) (ht2 : l2.tail = B.getLast?.getD 0) (hBne : B ≠ [])
    (hdisj : ∀ p ∈ A, p ∉ B) (hsz : A.length + B.length < 2 ^ pf.bits) :
    (nut_slist_splice pf mem l1 l2).1 = NUT_OK ∧
      (nut_slist_splice pf mem l1 l2).2.1.Chain (nut_slist_splice pf mem l1 l2).2.2.1.head
        (A ++ B) 0 ∧
      (nut_slist_splice pf mem l1 l2).2.2.1.size = (A ++ B).length ∧
      (nut_slist_splice pf mem l1 l2).2.2.1.tail = (A ++ B).getLast?.getD 0 ∧
      (∀ p, ((nut_slist_splice pf mem l1 l2).2.1.node p).data = (mem.node p).data) ∧
      (nut_slist_splice pf mem l1 l2).2.1.brk = mem.brk ∧
      (nut_slist_splice pf mem l1 l2).2.2.2.size = 0 ∧
      (nut_slist_splice pf mem l1 l2).2.2.2.head = 0 ∧
      (nut_slist_splice pf mem l1 l2).2.2.2.tail = 0 := by
  have hndA := chain_nodup hA
  have hB0 : l2.size ≠ 0 := by
    rw [hs2]
    exact fun h => hBne (List.length_eq_zero.mp h)
  have hsize : size_add pf l1.size l2.size = (A ++ B).length := by
    rw [size_add_of_lt pf (by rw [hs1, hs2]; exact hsz), hs1, hs2, List.length_append]
  have htail : l2.tail = (A ++ B).getLast?.getD 0 := by
    rw [ht2, List.getLast?_append_of_ne_nil _ hBne]
  rcases List.eq_nil_or_concat A with hnil | ⟨A0, ta, hAeq⟩
  · subst hnil
    have hz : l1.size = 0 := hs1
    have hsp : nut_slist_splice pf mem l1 l2
        = (NUT_OK, mem,
            { l1 with head := l2.head, tail := l2.tail, size := size_add pf l1.size l2.size },
            { l2 with head := 0, tail := 0, size := 0 }) := by
      unfold nut_slist_splice
      rw [if_neg hB0, if_pos hz]
    rw [hsp]
    exact ⟨rfl, hB, hsize, htail, fun _ => rfl, rfl, rfl, rfl, rfl⟩
  · rw [List.concat_eq_append] at hAeq
    subst hAeq
    have hnz : l1.size ≠ 0 := by rw [hs1]; simp
    have hta : l1.tail = ta := by rw [ht1]; simp
    have htaA0 : ta ∉ A0 := by
      intro h
      rw [List.nodup_append] at hndA
      exact hndA.2.2 h (List.mem_singleton_self _)
    have htaB : ta ∉ B := hdisj ta (by simp)
    have hsp : nut_slist_splice pf mem l1 l2
        = (NUT_OK, mem.setNext l1.tail l2.head,
            { l1 with tail := l2.tail, size := size_add pf l1.size l2.size },
            { l2 with head := 0, tail := 0, size := 0 }) := by
      unfold nut_slist_splice
      rw [if_neg hB0, if_neg hnz]
    rw [hsp]
    refine ⟨rfl, ?_, hsize, htail, fun p => setNext_data mem _ _ p, rfl, rfl, rfl, rfl⟩
    show (mem.setNext l1.tail l2.head).Chain l1.head ((A0 ++ [ta]) ++ B) 0
    rw [hta]
    exact (chain_append _ _ _ _ _).mpr
      ⟨l2.head, chain_redirect l2.head hA htaA0, chain_setNext ta _ htaB hB⟩

/-- The nodes of two disjoint well-formed lists whose addresses were handed
out by the allocator are covered by the fuel of a walk. -/
theorem disjoint_nodes_fuel {mem : SMem} {A B : List Ptr} (hA : A.Nodup) (hB : B.Nodup)
    (hdisj : ∀ p ∈ A, p ∉ B) (halloc : ∀ p ∈ A ++ B, p ≤ mem.brk) :
    (A ++ B).length ≤ mem.brk + 1 :=
  length_le_of_nodup_le (List.nodup_append.mpr ⟨hA, hB, fun _ ha hb => hdisj _ ha hb⟩) halloc

/-- At an index below the size and with a second list that has elements,
`nut_slist_splice_at` is `splice_between` at the node of the index and its
predecessor. -/
theorem splice_at_eq (pf : Platform) (mem : SMem) (list1 list2 : SList) {i : Nat}
    (h1 : list1.WellFormed mem) (hi : i < list1.size) (h2 : list2.size ≠ 0) :
    nut_slist_splice_at pf mem list1 list2 i
      = (NUT_OK,
          (splice_between pf mem list1 list2 (((list1.nodes mem).take i).getLast?.getD 0)
            (((list1.nodes mem).drop i).head?.getD 0)).1,
          (splice_between pf mem list1 list2 (((list1.nodes mem).take i).getLast?.getD 0)
            (((list1.nodes mem).drop i).head?.getD 0)).2.1,
          (splice_between pf mem list1 list2 (((list1.nodes mem).take i).getLast?.getD 0)
            (((list1.nodes mem).drop i).head?.getD 0)).2.2) := by
  obtain ⟨hA, hs1, -⟩ := wellFormed_repr h1
  have hlen : ((list1.nodes mem).take i).length = i := by
    rw [List.length_take, ← hs1]
    omega
  have hA' : mem.Chain list1.head ((list1.nodes mem).take i ++ (list1.nodes mem).drop i) 0 := by
    rw [List.take_append_drop]
    exact hA
  have hloop := get_node_at_loop_chain ((list1.nodes mem).take i) ((list1.nodes mem).drop i) 0 hA'
  rw [hlen] at hloop
  have hg : get_node_at mem list1 i
      = (NUT_OK, some (((list1.nodes mem).drop i).head?.getD 0,
          ((list1.nodes mem).take i).getLast?.getD 0)) := by
    unfold get_node_at
    rw [if_neg (by omega), hloop]
  unfold nut_slist_splice_at
  rw [if_neg h2, if_neg (by omega)]
  simp only [hg, ne_eq, not_true_eq_false, if_false, Option.getD_some]

/-! # The claims -/

/-- C1: on the well-formed deque holding 0,…,6 from slot 4 on,
`nut_deque_remove_at(deque, 3, out)` returns `NUT_OK` and takes the size to 6,
but it writes the stray content of the unused slot 3 where
`nut_deque_get_at(deque, 3)` reported the element 3, and the contents become
0, 1, 2, 4, 4, 4 instead of 0, 1, 2, 4, 5, 6. -/
theorem remove_at_wrapped_tail_diverges :
    nut_deque_new Platform.p64 heap = (NUT_OK, some freshDeque) ∧
      wrappedTail.WellFormed Platform.p64 ∧ wrappedTail.first = 4 ∧
      wrappedTail.contents Platform.p64
        = [some 0, some 1, some 2, some 3, some 4, some 5, some 6] ∧
      nut_deque_get_at Platform.p64 wrappedTail 3 = (NUT_OK, some 3) ∧
      (nut_deque_remove_at Platform.p64 wrappedTail 3).1 = NUT_OK ∧
      (nut_deque_remove_at Platform.p64 wrappedTail 3).2.2 = some 1003 ∧
      (nut_deque_remove_at Platform.p64 wrappedTail 3).2.1.size = 6 ∧
      (nut_deque_remove_at Platform.p64 wrappedTail 3).2.1.contents Platform.p64
        = [some 0, some 1, some 2, some 4, some 4, some 4] :=
  ⟨rfl, by decide, by decide, by decide, by decide, by decide, by decide, by decide,
    by decide⟩

/-- C2: in scenario A the contents after the three insertions are 0, 1, 2 and
`nut_deque_remove_at(deque, 1, out)` returns `NUT_OK` and leaves 0, 2 with
size 2, but it writes 2 through `out`, not the removed element 1. -/
theorem scenario_A_remove_at_writes_two :
    nut_deque_new Platform.p64 heap = (NUT_OK, some freshDeque) ∧
      (run Platform.p64 freshDeque scenarioAOps).2
        = [(NUT_OK, none), (NUT_OK, none), (NUT_OK, none)] ∧
      scenarioA.contents Platform.p64 = [some 0, some 1, some 2] ∧
      (nut_deque_remove_at Platform.p64 scenarioA 1).1 = NUT_OK ∧
      (nut_deque_remove_at Platform.p64 scenarioA 1).2.2 = some 2 ∧
      (nut_deque_remove_at Platform.p64 scenarioA 1).2.1.contents Platform.p64
        = [some 0, some 2] ∧
      (nut_deque_remove_at Platform.p64 scenarioA 1).2.1.size = 2 :=
  ⟨rfl, by decide, by decide, by decide, by decide, by decide, by decide⟩

/-- C3: on the well-formed deque holding 3, 4, 5, 6 from slot 2 on,
`nut_deque_add_at(deque, 7, 1)` returns `NUT_OK` and takes the size to 5, but
the contents become 3, 3, 7, 5, 6 and not 3, 7, 4, 5, 6: the element 4 is
lost and the element 3 is duplicated. -/
theorem add_at_head_shift_loses_element :
    nut_deque_new Platform.p64 heap = (NUT_OK, some freshDeque) ∧
      shifted.WellFormed Platform.p64 ∧ shifted.first = 2 ∧
      shifted.contents Platform.p64 = [some 3, some 4, some 5, some 6] ∧
      (nut_deque_add_at Platform.p64 shifted 7 1).1 = NUT_OK ∧
      (nut_deque_add_at Platform.p64 shifted 7 1).2.size = 5 ∧
      (nut_deque_add_at Platform.p64 shifted 7 1).2.contents Platform.p64
        = [some 3, some 3, some 7, some 5, some 6] :=
  ⟨rfl, by decide, by decide, by decide, by decide, by decide, by decide⟩

/-- C4: on the deque holding 1,…,6, `nut_deque_add_at(deque, 7, 1)` succeeds
but `nut_deque_get_at(deque, 1)` then returns 2, the contents being
1, 2, 7, 3, 4, 5, 6; the following `nut_deque_remove_at(deque, 1, out)`
restores the size 6 but leaves 1, 7, 3, 4, 5, 6, not the prior contents. -/
theorem add_at_round_trip_diverges :
    nut_deque_new Platform.p64 heap = (NUT_OK, some freshDeque) ∧
      six.WellFormed Platform.p64 ∧
      six.contents Platform.p64 = [some 1, some 2, some 3, some 4, some 5, some 6] ∧
      (nut_deque_add_at Platform.p64 six 7 1).1 = NUT_OK ∧
      (nut_deque_add_at Platform.p64 six 7 1).2.contents Platform.p64
        = [some 1, some 2, some 7, some 3, some 4, some 5, some 6] ∧
      nut_deque_get_at Platform.p64 (nut_deque_add_at Platform.p64 six 7 1).2 1
        = (NUT_OK, some 2) ∧
      (nut_deque_remove_at Platform.p64 (nut_deque_add_at Platform.p64 six 7 1).2 1).1
        = NUT_OK ∧
      (nut_deque_remove_at Platform.p64 (nut_deque_add_at Platform.p64 six 7 1).2 1).2.2
        = some 7 ∧
      (nut_deque_remove_at Platform.p64
          (nut_deque_add_at Platform.p64 six 7 1).2 1).2.1.contents Platform.p64
        = [some 1, some 7, some 3, some 4, some 5, some 6] :=
  ⟨rfl, by decide, by decide, by decide, by decide, by decide, by decide, by decide,
    by decide⟩

/-- C5, counterexample: on the deque holding 1, 2 the call
`nut_deque_add_at(deque, 9, 2)` with index = size returns
`NUT_ERR_OUT_OF_RANGE` and changes nothing, where `nut_deque_add_last(deque, 9)`
returns `NUT_OK` and leaves 1, 2, 9; on the empty deque index 0 is rejected
too. -/
theorem add_at_rejects_index_size :
    nut_deque_new Platform.p64 heap = (NUT_OK, some freshDeque) ∧
      pair.WellFormed Platform.p64 ∧ pair.size = 2 ∧
      (nut_deque_add_at Platform.p64 pair 9 2).1 = NUT_ERR_OUT_OF_RANGE ∧
      (nut_deque_add_at Platform.p64 pair 9 2).2.contents Platform.p64 = [some 1, some 2] ∧
      (nut_deque_add_last Platform.p64 pair 9).1 = NUT_OK ∧
      (nut_deque_add_last Platform.p64 pair 9).2.contents Platform.p64
        = [some 1, some 2, some 9] ∧
      freshDeque.size = 0 ∧
      (nut_deque_add_at Platform.p64 freshDeque 9 0).1 = NUT_ERR_OUT_OF_RANGE :=
  ⟨rfl, by decide, by decide, by decide, by decide, by decide, by decide, by decide,
    by decide⟩

/-- C5, amended: `nut_deque_add_at` accepts the indices below the size only.
It returns `NUT_ERR_OUT_OF_RANGE` exactly when index >= size, and then it
leaves the deque unchanged; for an index below the size of a well-formed
deque that has a free slot, or can grow, it returns `NUT_OK`. -/
theorem add_at_out_of_range_iff (pf : Platform) (d : Deque) (e : Ptr) (index : Nat) :
    ((nut_deque_add_at pf d e index).1 = NUT_ERR_OUT_OF_RANGE ↔ index ≥ d.size) ∧
      (index ≥ d.size → (nut_deque_add_at pf d e index).2 = d) ∧
      (pf.ok → d.WellFormed pf →
        (d.size < d.capacity ∨ (d.capacity < MAX_POW_TWO pf ∧
          (d.mem_calloc (size_shl pf d.capacity 1) (PTR_SIZE pf)).isSome)) →
        index < d.size → (nut_deque_add_at pf d e index).1 = NUT_OK) := by
  refine ⟨⟨?_, ?_⟩, ?_, ?_⟩
  · intro h
    by_contra hlt
    apply absurd h
    unfold nut_deque_add_at
    rw [if_neg hlt]
    dsimp only
    generalize (if d.capacity = d.size then expand_capacity pf d else (NUT_OK, d)) = r
    by_cases h : r.1 = NUT_OK
    · rw [if_neg (by simp [h])]
      by_cases h0 : index = 0
      · rw [if_pos h0]
        exact add_first_status pf _ e
      · rw [if_neg h0]
        by_cases hc : index = size_sub pf r.2.capacity 1
        · rw [if_pos hc]
          exact add_last_status pf _ e
        · rw [if_neg hc]
          simp
    · rw [if_pos h]
      simp
  · intro hge
    unfold nut_deque_add_at
    rw [if_pos hge]
  · intro hge
    unfold nut_deque_add_at
    rw [if_pos hge]
  · intro hpf hwf hroom hi
    exact add_at_ok pf hpf hwf hroom e hi

/-- The amended C5 at the deque holding 1,…,6: index 4 is accepted, index 6 is
rejected and leaves the deque as it is. -/
theorem add_at_out_of_range_iff_witness :
    six.WellFormed Platform.p64 ∧ six.size = 6 ∧
      (nut_deque_add_at Platform.p64 six 7 4).1 = NUT_OK ∧
      (nut_deque_add_at Platform.p64 six 7 6).2 = six :=
  ⟨by decide, by decide,
    (add_at_out_of_range_iff Platform.p64 six 7 4).2.2 (by decide) (by decide)
      (Or.inl (by decide)) (by decide),
    (add_at_out_of_range_iff Platform.p64 six 7 6).2.1 (by decide)⟩

/-- C6: for every deque, `nut_deque_get_at` with index = size returns `NUT_OK`
and writes the content of the slot `(first + size) & (capacity - 1)`, which
holds no element of the sequence; the out-of-range error is returned only for
index > size. -/
theorem get_at_accepts_index_size (pf : Platform) (d : Deque) (index : Nat) :
    nut_deque_get_at pf d d.size
        = (NUT_OK, some (d.buffer (size_add pf d.first d.size &&& size_sub pf d.capacity 1))) ∧
      ((nut_deque_get_at pf d index).1 = NUT_ERR_OUT_OF_RANGE ↔ index > d.size) := by
  constructor
  · simp [nut_deque_get_at]
  · unfold nut_deque_get_at
    by_cases h : index > d.size
    · simp [h]
    · simp [h]

/-- C7: for every finite sequence of `nut_deque_add_last`, `nut_deque_add_first`,
`nut_deque_remove_first` and `nut_deque_remove_last` calls on the deque created
by `nut_deque_new`, the allocator never failing and the capacity staying below
`MAX_POW_TWO`, the contents read through `nut_deque_get_at` at the indices
`0 .. size - 1` are those of the reference sequence, the size is its length,
and every call reports the status and the removed element the reference
reports (`NUT_ERR_OUT_OF_RANGE` exactly when the reference is empty). -/
theorem deque_wraparound_simulation (pf : Platform) (hpf : pf.ok)
    (pvPortMalloc : Nat → Option Block) (halloc : ∀ n, (pvPortMalloc n).isSome)
    (d0 : Deque) (hnew : nut_deque_new pf pvPortMalloc = (NUT_OK, some d0))
    (ops : List DequeOp) (hstay : staysBelowMax pf d0 ops = true) :
    (run pf d0 ops).1.contents pf = (runRef [] ops).1.map some ∧
      (run pf d0 ops).1.size = (runRef [] ops).1.length ∧
      (run pf d0 ops).2 = (runRef [] ops).2 := by
  obtain ⟨d1, hd1, hm, -, hcal⟩ := nut_deque_new_models pf hpf pvPortMalloc halloc
  rw [hd1] at hnew
  have hd : d1 = d0 := by
    injection hnew with _ h2
    injection h2
  subst hd
  obtain ⟨h1, h2⟩ := run_models pf hpf ops d1 [] hm hcal hstay
  exact ⟨contents_of_models pf hpf h1, h1.2.1.symm, h2⟩

/-- C7 at a run of twenty-two operations that grows the deque and wraps its
indices. -/
theorem deque_wraparound_simulation_witness :
    (run Platform.p64 freshDeque wrapOps).1.contents Platform.p64
        = (runRef [] wrapOps).1.map some ∧
      (run Platform.p64 freshDeque wrapOps).1.size = (runRef [] wrapOps).1.length ∧
      (run Platform.p64 freshDeque wrapOps).2 = (runRef [] wrapOps).2 :=
  deque_wraparound_simulation Platform.p64 (by decide) heap (fun _ => rfl) freshDeque rfl
    wrapOps (by decide)

/-- C8: under `ARCH_64` a requested capacity of `2 ^ 32 + 1` gives a deque
whose capacity `2 ^ 33 - 1` is not a power of two, so the new deque does not
satisfy the capacity invariant. -/
theorem new_conf_capacity_not_pow_two :
    ∃ d, nut_deque_new_conf Platform.p64 (heapConf (2 ^ 32 + 1)) = (NUT_OK, some d) ∧
      d.capacity = 2 ^ 33 - 1 ∧ ¬ d.CapacityInvariant := by
  have hcap : upper_pow_two Platform.p64 (2 ^ 32 + 1) = 2 ^ 33 - 1 := by decide
  refine ⟨_, rfl, hcap, ?_⟩
  rintro ⟨⟨k, hk⟩, -⟩
  change upper_pow_two Platform.p64 (2 ^ 32 + 1) = 2 ^ k at hk
  rw [hcap] at hk
  have hk34 : k < 34 := by
    by_contra hge
    have : 2 ^ 34 ≤ 2 ^ k := Nat.pow_le_pow_right (by norm_num) (by omega)
    omega
  interval_cases k <;> omega

/-- C9, counterexample: a requested capacity of 1 gives a deque of capacity 1,
not the least power of two that is at least 2. -/
theorem new_conf_capacity_one :
    ∃ d, nut_deque_new_conf Platform.p32 (heapConf 1) = (NUT_OK, some d) ∧ d.capacity = 1 ∧
      ¬ SpecNewCapacity Platform.p32 1 d.capacity := by
  refine ⟨_, rfl, by decide, ?_⟩
  intro h
  have hcap : (upper_pow_two Platform.p32 1) = 1 := by decide
  have hmax : ¬ MAX_POW_TWO Platform.p32 ≤ 1 := by decide
  simp only [SpecNewCapacity, if_neg hmax] at h
  obtain ⟨-, h2, -⟩ := h
  change max 1 2 ≤ upper_pow_two Platform.p32 1 at h2
  rw [hcap] at h2
  omega

/-- C9, amended: when both allocations succeed, `nut_deque_new_conf` returns an
empty deque whose capacity is `MAX_POW_TWO` for a request of `MAX_POW_TWO` or
more, 2 for a request of 0, and the least power of two at least the request
for a request from 1 up to `2 ^ 32` (so 1 for a request of 1). -/
theorem new_conf_capacity (pf : Platform) (hpf : pf.ok) (conf : DequeConf)
    (h1 : (conf.mem_calloc 1 (SIZEOF_DEQUE pf)).isSome)
    (h2 : (conf.mem_alloc (size_mul pf conf.capacity (PTR_SIZE pf))).isSome) :
    ∃ d, nut_deque_new_conf pf conf = (NUT_OK, some d) ∧ d.size = 0 ∧
      (MAX_POW_TWO pf ≤ conf.capacity → d.capacity = MAX_POW_TWO pf) ∧
      (conf.capacity = 0 → d.capacity = 2) ∧
      (1 ≤ conf.capacity → conf.capacity < MAX_POW_TWO pf → conf.capacity ≤ 2 ^ 32 →
        IsLeastPowTwoGe conf.capacity d.capacity) := by
  obtain ⟨b1, hb1⟩ := Option.isSome_iff_exists.mp h1
  obtain ⟨b2, hb2⟩ := Option.isSome_iff_exists.mp h2
  refine ⟨{ size := 0, capacity := upper_pow_two pf conf.capacity, first := 0, last := 0,
            buffer := b2,
            slots := size_mul pf conf.capacity (PTR_SIZE pf) / PTR_SIZE pf,
            mem_alloc := conf.mem_alloc, mem_calloc := conf.mem_calloc }, ?_, rfl, ?_, ?_, ?_⟩
  · simp only [nut_deque_new_conf, hb1, hb2]
  · intro hge
    show upper_pow_two pf conf.capacity = MAX_POW_TWO pf
    rw [upper_pow_two_unfold, if_pos hge]
  · intro hz
    show upper_pow_two pf conf.capacity = 2
    have hM := MAX_POW_TWO_ge pf
    rw [upper_pow_two_unfold, if_neg (by omega), if_pos hz]
  · intro hge hlt h32
    exact upper_pow_two_least pf hpf hge hlt h32

/-- The amended C9 at a requested capacity of 5 on a 64-bit build. -/
theorem new_conf_capacity_witness :
    ∃ d, nut_deque_new_conf Platform.p64 (heapConf 5) = (NUT_OK, some d) ∧ d.size = 0 ∧
      (MAX_POW_TWO Platform.p64 ≤ (heapConf 5).capacity → d.capacity = MAX_POW_TWO Platform.p64) ∧
      ((heapConf 5).capacity = 0 → d.capacity = 2) ∧
      (1 ≤ (heapConf 5).capacity → (heapConf 5).capacity < MAX_POW_TWO Platform.p64 →
        (heapConf 5).capacity ≤ 2 ^ 32 → IsLeastPowTwoGe (heapConf 5).capacity d.capacity) :=
  new_conf_capacity Platform.p64 (by decide) (heapConf 5) rfl rfl

/-- C10: on a full deque whose capacity is `MAX_POW_TWO`, `expand_capacity`
reports `NUT_ERR_MAX_CAPACITY`, and `nut_deque_add_first` and
`nut_deque_add_last` leave the deque unchanged but return `NUT_ERR_MALLOC`,
the code of an allocation failure. -/
theorem add_ends_max_capacity_return_malloc (pf : Platform) (d : Deque) (e : Ptr)
    (hfull : d.size = d.capacity) (hmax : d.capacity = MAX_POW_TWO pf) :
    expand_capacity pf d = (NUT_ERR_MAX_CAPACITY, d) ∧
      nut_deque_add_first pf d e = (NUT_ERR_MALLOC, d) ∧
      nut_deque_add_last pf d e = (NUT_ERR_MALLOC, d) := by
  have hexp : expand_capacity pf d = (NUT_ERR_MAX_CAPACITY, d) := by
    unfold expand_capacity
    rw [if_pos hmax]
  refine ⟨hexp, ?_, ?_⟩
  · unfold nut_deque_add_first
    simp [hfull, hexp]
  · unfold nut_deque_add_last
    simp [hfull, hexp]

/-- C10 at a full deque of capacity `2 ^ 31` on a 64-bit build without
`ARCH_64`. -/
theorem add_ends_max_capacity_return_malloc_witness :
    maxDeque.WellFormed Platform.p64plain ∧
      expand_capacity Platform.p64plain maxDeque = (NUT_ERR_MAX_CAPACITY, maxDeque) ∧
      nut_deque_add_first Platform.p64plain maxDeque 5 = (NUT_ERR_MALLOC, maxDeque) ∧
      nut_deque_add_last Platform.p64plain maxDeque 5 = (NUT_ERR_MALLOC, maxDeque) :=
  ⟨by decide, add_ends_max_capacity_return_malloc Platform.p64plain maxDeque 5 rfl rfl⟩

/-- C11: on a full deque whose allocator returns null for the doubled buffer,
`nut_deque_add_first`, `nut_deque_add_last` and `nut_deque_add_at` (with an
index below the size) return `NUT_ERR_MALLOC` and the deque, every field and
every buffer slot, is the deque before the call. -/
theorem growth_failure_leaves_deque (pf : Platform) (d : Deque) (e : Ptr) (index : Nat)
    (hfull : d.size = d.capacity)
    (hnull : d.mem_calloc (size_shl pf d.capacity 1) (PTR_SIZE pf) = none)
    (hindex : index < d.size) :
    nut_deque_add_first pf d e = (NUT_ERR_MALLOC, d) ∧
      nut_deque_add_last pf d e = (NUT_ERR_MALLOC, d) ∧
      nut_deque_add_at pf d e index = (NUT_ERR_MALLOC, d) := by
  obtain ⟨hne, heq⟩ := expand_capacity_of_null pf d hnull
  refine ⟨?_, ?_, ?_⟩
  · have hge : d.size ≥ d.capacity := by omega
    simp only [nut_deque_add_first, if_pos hge, if_pos hne, heq]
  · simp only [nut_deque_add_last, if_pos hfull.symm, if_pos hne, heq]
  · have hlt : ¬ index ≥ d.size := by omega
    unfold nut_deque_add_at
    simp only [if_neg hlt, if_pos hfull.symm, if_pos hne, heq]

/-- C11 at the full deque 1,…,8 whose allocator always returns null. -/
theorem growth_failure_leaves_deque_witness :
    starvedDeque.WellFormed Platform.p64 ∧
      nut_deque_add_first Platform.p64 starvedDeque 9 = (NUT_ERR_MALLOC, starvedDeque) ∧
      nut_deque_add_last Platform.p64 starvedDeque 9 = (NUT_ERR_MALLOC, starvedDeque) ∧
      nut_deque_add_at Platform.p64 starvedDeque 9 4 = (NUT_ERR_MALLOC, starvedDeque) :=
  ⟨by decide, growth_failure_leaves_deque Platform.p64 starvedDeque 9 4 rfl rfl (by decide)⟩

/-- C12: on a full well-formed deque below `MAX_POW_TWO` whose allocation
succeeds, `expand_capacity` doubles the capacity, sets `first = 0` and
`last` to the size, and puts the logical element `i` into slot `i`, so the
contents read through `nut_deque_get_at` are unchanged; `nut_deque_add_last`
and `nut_deque_add_first` then proceed on the expanded deque. -/
theorem growth_unrotates (pf : Platform) (hpf : pf.ok) (d : Deque) (e : Ptr)
    (hwf : d.WellFormed pf) (hfull : d.size = d.capacity)
    (hmax : d.capacity < MAX_POW_TWO pf)
    (halloc : (d.mem_calloc (size_shl pf d.capacity 1) (PTR_SIZE pf)).isSome) :
    ∃ d', expand_capacity pf d = (NUT_OK, d') ∧ d'.capacity = 2 * d.capacity ∧
      d'.first = 0 ∧ d'.last = d.size ∧ d'.size = d.size ∧
      (∀ i, i < d.size → nut_deque_get_at pf d i = (NUT_OK, some (d'.buffer i))) ∧
      d'.contents pf = d.contents pf ∧
      nut_deque_add_last pf d e = nut_deque_add_last pf d' e ∧
      nut_deque_add_first pf d e = nut_deque_add_first pf d' e := by
  have hm := models_toList pf hwf
  obtain ⟨d', hexp, hm', hcap, hsz, hfirst, hlast, -, -, hslot⟩ :=
    expand_capacity_models pf hpf hm hfull hmax halloc
  obtain ⟨k, hk, hc, hpos, hcl, -⟩ := hwf.norm pf hpf
  refine ⟨d', hexp, hcap, hfirst, hlast, hsz, ?_, ?_, ?_, ?_⟩
  · intro i hi
    have hidx : size_add pf d.first i &&& size_sub pf d.capacity 1
        = (d.first + i) % d.capacity := by
      rw [mask_eq_mod pf hc hcl]
      unfold size_add
      exact Nat.mod_mod_of_dvd _ (hc ▸ Nat.pow_dvd_pow 2 (Nat.le_of_lt hk))
    have hgt : ¬ i > d.size := by omega
    simp only [nut_deque_get_at, if_neg hgt, hidx, hslot i hi]
  · rw [contents_of_models pf hpf hm', contents_of_models pf hpf hm]
  · have hne1 : ¬ d'.capacity = d'.size := by omega
    simp only [nut_deque_add_last, if_pos hfull.symm, hexp, if_neg hne1]
  · have hge : d.size ≥ d.capacity := by omega
    have hne1 : ¬ d'.size ≥ d'.capacity := by omega
    simp only [nut_deque_add_first, if_pos hge, hexp, if_neg hne1]

/-- C12 at the full deque 1,…,8 whose head sits in slot 3. -/
theorem growth_unrotates_witness :
    ∃ d', expand_capacity Platform.p64 fullDeque = (NUT_OK, d') ∧
      d'.capacity = 2 * fullDeque.capacity ∧
      d'.first = 0 ∧ d'.last = fullDeque.size ∧ d'.size = fullDeque.size ∧
      (∀ i, i < fullDeque.size →
        nut_deque_get_at Platform.p64 fullDeque i = (NUT_OK, some (d'.buffer i))) ∧
      d'.contents Platform.p64 = fullDeque.contents Platform.p64 ∧
      nut_deque_add_last Platform.p64 fullDeque 9 = nut_deque_add_last Platform.p64 d' 9 ∧
      nut_deque_add_first Platform.p64 fullDeque 9 = nut_deque_add_first Platform.p64 d' 9 :=
  growth_unrotates Platform.p64 (by decide) fullDeque 9 (by decide) rfl (by decide) rfl

/-- C13: on the empty well-formed deque with capacity 8 and `first = last = 3`,
`nut_deque_trim_capacity` returns `NUT_OK` and sets the capacity to 2 over a
block of 2 slots, but `copy_buffer` copies `capacity - first = 5` slots and
then `last = 3` more: the slots 2,…,7 behind the new block are overwritten
(slot 5 receives the old content 1 of slot 0 where the block held 1005). -/
theorem trim_capacity_empty_overruns :
    nut_deque_new Platform.p64 heap = (NUT_OK, some freshDeque) ∧
      drained.WellFormed Platform.p64 ∧ drained.size = 0 ∧ drained.capacity = 8 ∧
      drained.first = 3 ∧ drained.buffer 0 = 1 ∧
      drained.mem_alloc (size_mul Platform.p64 (PTR_SIZE Platform.p64) 2) = some uninit ∧
      (nut_deque_trim_capacity Platform.p64 drained).1 = NUT_OK ∧
      (nut_deque_trim_capacity Platform.p64 drained).2.capacity = 2 ∧
      (nut_deque_trim_capacity Platform.p64 drained).2.slots = 2 ∧
      (List.range 8).map uninit = [1000, 1001, 1002, 1003, 1004, 1005, 1006, 1007] ∧
      (List.range 8).map (nut_deque_trim_capacity Platform.p64 drained).2.buffer
        = [1003, 1004, 1005, 1006, 1007, 1, 2, 3] :=
  ⟨rfl, by decide, by decide, by decide, by decide, by decide, rfl, by decide, by decide,
    by decide, by decide, by decide⟩

/-- C14: on the full well-formed deque holding 1,…,8 (size = capacity = 8,
`first = last = 0`) the first `nut_deque_iter_next` after
`nut_deque_iter_init` returns `NUT_ITER_END` and yields nothing, where eight
calls should return the eight elements. -/
theorem iter_next_full_deque_ends_at_once :
    nut_deque_new Platform.p64 heap = (NUT_OK, some freshDeque) ∧
      eight.WellFormed Platform.p64 ∧ eight.size = 8 ∧ eight.capacity = 8 ∧
      eight.contents Platform.p64
        = [some 1, some 2, some 3, some 4, some 5, some 6, some 7, some 8] ∧
      (runIter Platform.p64 (nut_deque_iter_init eight) [.next]).2
        = [(NUT_ITER_END, none)] :=
  ⟨rfl, by decide, by decide, by decide, by decide, by decide⟩

/-- C15: on the deque holding 1, 2, 3, 4 the first `nut_deque_iter_remove`,
called after the second `nut_deque_iter_next` returned 2, removes and outputs
3; the next two calls of `nut_deque_iter_next` return 2 again and 4; the second
`nut_deque_iter_remove` returns `NUT_ERR_OUT_OF_RANGE`; the deque is left
with 1, 2, 4 and size 3, not with 1, 3 and size 2. -/
theorem iter_remove_every_second_diverges :
    nut_deque_new Platform.p64 heap = (NUT_OK, some freshDeque) ∧
      four.WellFormed Platform.p64 ∧
      four.contents Platform.p64 = [some 1, some 2, some 3, some 4] ∧
      (runIter Platform.p64 (nut_deque_iter_init four)
          [.next, .next, .remove, .next, .next, .remove, .next]).2
        = [(NUT_OK, some 1), (NUT_OK, some 2), (NUT_OK, some 3), (NUT_OK, some 2),
            (NUT_OK, some 4), (NUT_ERR_OUT_OF_RANGE, none), (NUT_ITER_END, none)] ∧
      (runIter Platform.p64 (nut_deque_iter_init four)
          [.next, .next, .remove, .next, .next, .remove, .next]).1.deque.contents
          Platform.p64
        = [some 1, some 2, some 4] ∧
      (runIter Platform.p64 (nut_deque_iter_init four)
          [.next, .next, .remove, .next, .next, .remove, .next]).1.deque.size = 3 :=
  ⟨rfl, by decide, by decide, by decide, by decide, by decide⟩

/-- C16: on the deque holding 1, 2, 3, after `nut_deque_iter_next` returned the
element 1 of index 0, `nut_deque_iter_replace(iter, 9, out)` writes 2 through
`out` and replaces the element of index 1, leaving 1, 9, 3; after the third
`nut_deque_iter_next` returned the last element it returns
`NUT_ERR_OUT_OF_RANGE` and replaces nothing. -/
theorem iter_replace_hits_next_element :
    nut_deque_new Platform.p64 heap = (NUT_OK, some freshDeque) ∧
      three.WellFormed Platform.p64 ∧
      three.contents Platform.p64 = [some 1, some 2, some 3] ∧
      (runIter Platform.p64 (nut_deque_iter_init three) [.next, .replace 9]).2
        = [(NUT_OK, some 1), (NUT_OK, some 2)] ∧
      (runIter Platform.p64 (nut_deque_iter_init three)
          [.next, .replace 9]).1.deque.contents Platform.p64
        = [some 1, some 9, some 3] ∧
      (runIter Platform.p64 (nut_deque_iter_init three) [.next, .next, .next, .replace 9]).2
        = [(NUT_OK, some 1), (NUT_OK, some 2), (NUT_OK, some 3),
            (NUT_ERR_OUT_OF_RANGE, none)] ∧
      (runIter Platform.p64 (nut_deque_iter_init three)
          [.next, .next, .next, .replace 9]).1.deque.contents Platform.p64
        = [some 1, some 2, some 3] :=
  ⟨rfl, by decide, by decide, by decide, by decide, by decide, by decide⟩

/-- C17: on the queue created by `nut_queue_new`, the allocator never failing,
enqueuing the elements `es` (no more of them than `MAX_POW_TWO`) succeeds
every time; then as many rounds of `nut_queue_peek` and `nut_queue_poll` as
there are elements answer `NUT_OK` with the elements in the order of their
insertion, the peek giving what the poll after it gives, and a further peek
and poll answer `NUT_ERR_OUT_OF_RANGE`; in every state of a queue the peek
answers what the next poll answers. -/
theorem queue_is_fifo (pf : Platform) (hpf : pf.ok) (pvPortMalloc : Nat → Option Block)
    (halloc : ∀ n, (pvPortMalloc n).isSome) (stale : Option Deque) (q0 : Queue)
    (hnew : nut_queue_new pf pvPortMalloc stale = (NUT_OK, some q0)) (es : List Ptr)
    (hlen : es.length ≤ MAX_POW_TWO pf) :
    (runQueue pf q0
        (es.map QueueOp.enqueue ++ (drainOps es.length ++ [QueueOp.peek, QueueOp.poll]))).2
      = es.map (fun _ => (NUT_OK, none)) ++
          (drainTrace es ++ [(NUT_ERR_OUT_OF_RANGE, none), (NUT_ERR_OUT_OF_RANGE, none)]) ∧
      ∀ q, nut_queue_peek pf q = ((nut_queue_poll pf q).1, (nut_queue_poll pf q).2.2) := by
  refine ⟨?_, queue_peek_eq_poll pf⟩
  obtain ⟨q1, hq1, hm, hcal⟩ := nut_queue_new_models pf hpf pvPortMalloc halloc stale
  rw [hq1] at hnew
  have hq : q1 = q0 := by
    injection hnew with _ h2
    injection h2
  subst hq
  obtain ⟨h1, h2, -⟩ := enqueue_all_models pf hpf es q1 [] hm hcal (by simpa using hlen)
  rw [List.append_nil] at h2
  obtain ⟨h3, h4⟩ := drain_models pf hpf es _ h2
  have hend := remove_models_nil pf h4
  rw [runQueue_append, runQueue_append]
  simp only [h1, h3]
  congr 2
  have hpoll : nut_queue_poll pf (runQueue pf (runQueue pf q1 (List.map QueueOp.enqueue es)).1
      (drainOps es.length)).1
      = (NUT_ERR_OUT_OF_RANGE, (runQueue pf (runQueue pf q1 (List.map QueueOp.enqueue es)).1
          (drainOps es.length)).1, none) := by
    simp only [nut_queue_poll, hend.2]
  simp only [runQueue, QueueOp.apply, queue_peek_eq_poll, hpoll]

/-- C17 at the elements 1,…,10 on a 64-bit build: the ninth enqueue grows the
deque. -/
theorem queue_is_fifo_witness :
    (runQueue Platform.p64 freshQueue
        ([1, 2, 3, 4, 5, 6, 7, 8, 9, 10].map QueueOp.enqueue ++
          (drainOps [1, 2, 3, 4, 5, 6, 7, 8, 9, 10].length ++
            [QueueOp.peek, QueueOp.poll]))).2
      = [1, 2, 3, 4, 5, 6, 7, 8, 9, 10].map (fun _ => (NUT_OK, none)) ++
          (drainTrace [1, 2, 3, 4, 5, 6, 7, 8, 9, 10] ++
            [(NUT_ERR_OUT_OF_RANGE, none), (NUT_ERR_OUT_OF_RANGE, none)]) ∧
      ∀ q, nut_queue_peek Platform.p64 q
        = ((nut_queue_poll Platform.p64 q).1, (nut_queue_poll Platform.p64 q).2.2) :=
  queue_is_fifo Platform.p64 (by decide) heap (fun _ => rfl) none freshQueue rfl
    [1, 2, 3, 4, 5, 6, 7, 8, 9, 10] (by decide)

/-- C18, on the tree modelled from the spec: a table created by
`nut_treetable_new_conf` with a consistent total-order comparator, after any
sequence of `nut_treetable_add` and `nut_treetable_remove` (whatever the
allocator answers), has strictly ascending keys in in-order, no key twice, no
red node with a red child, the same number of black nodes on every path from
the root to a null leaf, and the same at every node below the root. -/
theorem treetable_red_black_invariants (pf : Platform) (conf : TreeTableConf)
    (hc : ConsistentCmp conf.cmp) (t0 : TreeTable)
    (hnew : nut_treetable_new_conf pf conf = (NUT_OK, some t0)) (ops : List TreeOp) :
    (runTree pf t0 ops).root.keys.Pairwise (fun a b => conf.cmp a b < 0) ∧
      (runTree pf t0 ops).root.keys.Nodup ∧
      (runTree pf t0 ops).root.NoRedRed ∧
      (∀ m ∈ (runTree pf t0 ops).root.blackCounts,
        ∀ n ∈ (runTree pf t0 ops).root.blackCounts, m = n) ∧
      (runTree pf t0 ops).root.BlackBalanced := by
  unfold nut_treetable_new_conf at hnew
  split at hnew
  · simp at hnew
  · have h0 : some _ = some t0 := congrArg Prod.snd hnew
    injection h0 with h0
    subst h0
    obtain ⟨hcmp, h1, h2, h3, -⟩ :=
      runTree_wellFormed pf ops _ hc (freshTable_wellFormed conf.cmp conf.mem_alloc)
    have hcmp' : (runTree pf
        { root := .nil, size := 0, cmp := conf.cmp, mem_alloc := conf.mem_alloc } ops).cmp
        = conf.cmp := hcmp
    have hasc : (runTree pf
        { root := .nil, size := 0, cmp := conf.cmp, mem_alloc := conf.mem_alloc }
        ops).root.Ascending conf.cmp := by
      have h1' := h1
      rwa [hcmp'] at h1'
    refine ⟨hasc, ascending_nodup hc _ hasc, h2, ?_, h3⟩
    intro m hm n hn
    rw [blackCounts_eq_bheight _ h3 m hm, blackCounts_eq_bheight _ h3 n hn]

/-- C18 at twelve additions and five removals under `nut_common_cmp_ptr`. -/
theorem treetable_red_black_invariants_witness :
    (runTree Platform.p64 freshTree
        [.add 5 1, .add 3 2, .add 8 3, .add 1 4, .add 4 5, .add 7 6, .add 9 7, .add 2 8,
          .add 6 9, .remove 5, .add 10 10, .remove 1, .add 11 11, .remove 8, .remove 12,
          .add 12 12, .remove 3]).root.keys.Pairwise
        (fun a b => heapTreeConf.cmp a b < 0) ∧
      (runTree Platform.p64 freshTree
        [.add 5 1, .add 3 2, .add 8 3, .add 1 4, .add 4 5, .add 7 6, .add 9 7, .add 2 8,
          .add 6 9, .remove 5, .add 10 10, .remove 1, .add 11 11, .remove 8, .remove 12,
          .add 12 12, .remove 3]).root.keys.Nodup ∧
      (runTree Platform.p64 freshTree
        [.add 5 1, .add 3 2, .add 8 3, .add 1 4, .add 4 5, .add 7 6, .add 9 7, .add 2 8,
          .add 6 9, .remove 5, .add 10 10, .remove 1, .add 11 11, .remove 8, .remove 12,
          .add 12 12, .remove 3]).root.NoRedRed ∧
      (∀ m ∈ (runTree Platform.p64 freshTree
          [.add 5 1, .add 3 2, .add 8 3, .add 1 4, .add 4 5, .add 7 6, .add 9 7, .add 2 8,
            .add 6 9, .remove 5, .add 10 10, .remove 1, .add 11 11, .remove 8, .remove 12,
            .add 12 12, .remove 3]).root.blackCounts,
        ∀ n ∈ (runTree Platform.p64 freshTree
          [.add 5 1, .add 3 2, .add 8 3, .add 1 4, .add 4 5, .add 7 6, .add 9 7, .add 2 8,
            .add 6 9, .remove 5, .add 10 10, .remove 1, .add 11 11, .remove 8, .remove 12,
            .add 12 12, .remove 3]).root.blackCounts, m = n) ∧
      (runTree Platform.p64 freshTree
        [.add 5 1, .add 3 2, .add 8 3, .add 1 4, .add 4 5, .add 7 6, .add 9 7, .add 2 8,
          .add 6 9, .remove 5, .add 10 10, .remove 1, .add 11 11, .remove 8, .remove 12,
          .add 12 12, .remove 3]).root.BlackBalanced :=
  treetable_red_black_invariants Platform.p64 heapTreeConf nut_common_cmp_ptr_consistent
    freshTree rfl _

/-- C19, on the tree modelled from the spec: for a table with ascending keys
and a consistent comparator, when `nut_treetable_add(k, v1)` succeeds, a
following `nut_treetable_add(k, v2)` succeeds, leaves `nut_treetable_size`
and the in-order keys as they were after the first add, and
`nut_treetable_get(k)` then returns `v2`; scenario B gives size 3,
`get(3) = "d"` and the in-order keys `[3, 5, 8]`. -/
theorem treetable_add_replaces (pf : Platform) (t : TreeTable) (hc : ConsistentCmp t.cmp)
    (hasc : t.root.Ascending t.cmp) (k v1 v2 : Ptr)
    (hadd : (nut_treetable_add pf t k v1).1 = NUT_OK) :
    ((nut_treetable_add pf (nut_treetable_add pf t k v1).2 k v2).1 = NUT_OK ∧
      nut_treetable_size (nut_treetable_add pf (nut_treetable_add pf t k v1).2 k v2).2
        = nut_treetable_size (nut_treetable_add pf t k v1).2 ∧
      (nut_treetable_add pf (nut_treetable_add pf t k v1).2 k v2).2.root.keys
        = (nut_treetable_add pf t k v1).2.root.keys ∧
      nut_treetable_get (nut_treetable_add pf (nut_treetable_add pf t k v1).2 k v2).2 k
        = (NUT_OK, some v2)) ∧
      (nut_treetable_size scenarioB = 3 ∧ nut_treetable_get scenarioB 3 = (NUT_OK, some 104) ∧
        scenarioB.root.keys = [3, 5, 8]) := by
  refine ⟨?_, by decide, by decide, by decide⟩
  obtain ⟨hcmp, hget⟩ := treetable_add_stored pf t hc hasc k v1 hadd
  rw [← hcmp] at hget
  rw [treetable_add_found pf _ k v2 hget]
  refine ⟨rfl, rfl, keys_set_value _ k v2 _, ?_⟩
  simp only [nut_treetable_get]
  rw [rb_get_set_value _ k v2 _ hget]

/-- C19 at the table holding (5,"a"): adding (3,"b") and then (3,"d"). -/
theorem treetable_add_replaces_witness :
    ((nut_treetable_add Platform.p64
          (nut_treetable_add Platform.p64 (runTree Platform.p64 freshTree [.add 5 101])
            3 102).2 3 104).1 = NUT_OK ∧
      nut_treetable_size (nut_treetable_add Platform.p64
          (nut_treetable_add Platform.p64 (runTree Platform.p64 freshTree [.add 5 101])
            3 102).2 3 104).2
        = nut_treetable_size
          (nut_treetable_add Platform.p64 (runTree Platform.p64 freshTree [.add 5 101])
            3 102).2 ∧
      (nut_treetable_add Platform.p64
          (nut_treetable_add Platform.p64 (runTree Platform.p64 freshTree [.add 5 101])
            3 102).2 3 104).2.root.keys
        = (nut_treetable_add Platform.p64 (runTree Platform.p64 freshTree [.add 5 101])
            3 102).2.root.keys ∧
      nut_treetable_get (nut_treetable_add Platform.p64
          (nut_treetable_add Platform.p64 (runTree Platform.p64 freshTree [.add 5 101])
            3 102).2 3 104).2 3
        = (NUT_OK, some 104)) ∧
      (nut_treetable_size scenarioB = 3 ∧ nut_treetable_get scenarioB 3 = (NUT_OK, some 104) ∧
        scenarioB.root.keys = [3, 5, 8]) :=
  treetable_add_replaces Platform.p64 (runTree Platform.p64 freshTree [.add 5 101])
    nut_common_cmp_ptr_consistent
    (runTree_wellFormed Platform.p64 [.add 5 101] freshTree nut_common_cmp_ptr_consistent
      (freshTable_wellFormed _ _)).2.1 3 102 104 (by decide)

/-- C20, on the tree modelled from the spec: for a table with ascending keys
and a consistent comparator and any key `k`, stored or not,
`nut_treetable_get_greater_than` answers `NUT_OK` with `g` exactly when `g` is
the smallest stored key strictly greater than `k`, and
`NUT_ERR_KEY_NOT_FOUND` exactly when no stored key is strictly greater;
`nut_treetable_get_lesser_than` likewise with the largest stored key strictly
less than `k`; neither answers anything else.  On the tree with the keys
1, 3, 5: `get_greater_than(3) = 5`, `get_greater_than(5)` and
`get_lesser_than(1)` fail not-found, `get_lesser_than(5) = 3`. -/
theorem treetable_strict_bounds (t : TreeTable) (hc : ConsistentCmp t.cmp)
    (hasc : t.root.Ascending t.cmp) (k : Ptr) :
    ((∀ g, nut_treetable_get_greater_than t k = (NUT_OK, some g) ↔
        (g ∈ t.root.keys ∧ t.cmp k g < 0 ∧ ∀ x ∈ t.root.keys, t.cmp k x < 0 → t.cmp g x ≤ 0)) ∧
      (nut_treetable_get_greater_than t k = (NUT_ERR_KEY_NOT_FOUND, none) ↔
        ∀ x ∈ t.root.keys, ¬ t.cmp k x < 0) ∧
      ((∃ g, nut_treetable_get_greater_than t k = (NUT_OK, some g)) ∨
        nut_treetable_get_greater_than t k = (NUT_ERR_KEY_NOT_FOUND, none)) ∧
      (∀ g, nut_treetable_get_lesser_than t k = (NUT_OK, some g) ↔
        (g ∈ t.root.keys ∧ t.cmp g k < 0 ∧ ∀ x ∈ t.root.keys, t.cmp x k < 0 → t.cmp x g ≤ 0)) ∧
      (nut_treetable_get_lesser_than t k = (NUT_ERR_KEY_NOT_FOUND, none) ↔
        ∀ x ∈ t.root.keys, ¬ t.cmp x k < 0) ∧
      ((∃ g, nut_treetable_get_lesser_than t k = (NUT_OK, some g)) ∨
        nut_treetable_get_lesser_than t k = (NUT_ERR_KEY_NOT_FOUND, none))) ∧
      (oneThreeFive.root.keys = [1, 3, 5] ∧
        nut_treetable_get_greater_than oneThreeFive 3 = (NUT_OK, some 5) ∧
        nut_treetable_get_greater_than oneThreeFive 5 = (NUT_ERR_KEY_NOT_FOUND, none) ∧
        nut_treetable_get_lesser_than oneThreeFive 1 = (NUT_ERR_KEY_NOT_FOUND, none) ∧
        nut_treetable_get_lesser_than oneThreeFive 5 = (NUT_OK, some 3)) := by
  refine ⟨?_, by decide, by decide, by decide, by decide, by decide⟩
  have hle : ∀ {a b : Ptr}, t.cmp a b < 0 → ¬ t.cmp b a ≤ 0 := by
    intro a b hab hba
    have := (hc.1 a b).1 hab
    omega
  have hG := rb_greater_than_spec hc k t.root hasc none
  have hL := rb_lesser_than_spec hc k t.root hasc none
  refine ⟨?_, ?_, ?_, ?_, ?_, ?_⟩
  · intro g
    unfold nut_treetable_get_greater_than
    rcases hG with ⟨e, hno⟩ | ⟨g', hg', e, hkg, hmin⟩
    · rw [e]
      simp only [Prod.mk.injEq, reduceCtorEq, false_and, false_iff]
      rintro ⟨hg, hkg, -⟩
      exact hno g hg hkg
    · rw [e]
      simp only [Prod.mk.injEq, true_and, Option.some.injEq]
      constructor
      · rintro rfl
        refine ⟨hg', hkg, ?_⟩
        intro x hx hkx
        rcases hmin x hx hkx with rfl | h
        · exact le_of_eq (hc.refl _)
        · exact le_of_lt h
      · rintro ⟨hg, hkg2, hmin2⟩
        rcases hmin g hg hkg2 with h | h
        · exact h.symm
        · exact absurd (hmin2 g' hg' hkg) (hle h)
  · unfold nut_treetable_get_greater_than
    rcases hG with ⟨e, hno⟩ | ⟨g', hg', e, hkg, hmin⟩
    · rw [e]
      simpa using hno
    · rw [e]
      simp only [Prod.mk.injEq, reduceCtorEq, false_and, false_iff]
      intro hno
      exact hno g' hg' hkg
  · unfold nut_treetable_get_greater_than
    rcases hG with ⟨e, hno⟩ | ⟨g', hg', e, hkg, hmin⟩
    · right; rw [e]
    · left; exact ⟨g', by rw [e]⟩
  · intro g
    unfold nut_treetable_get_lesser_than
    rcases hL with ⟨e, hno⟩ | ⟨g', hg', e, hkg, hmin⟩
    · rw [e]
      simp only [Prod.mk.injEq, reduceCtorEq, false_and, false_iff]
      rintro ⟨hg, hkg, -⟩
      exact hno g hg hkg
    · rw [e]
      simp only [Prod.mk.injEq, true_and, Option.some.injEq]
      constructor
      · rintro rfl
        refine ⟨hg', hkg, ?_⟩
        intro x hx hkx
        rcases hmin x hx hkx with rfl | h
        · exact le_of_eq (hc.refl _)
        · exact le_of_lt h
      · rintro ⟨hg, hkg2, hmin2⟩
        rcases hmin g hg hkg2 with h | h
        · exact h.symm
        · exact absurd (hmin2 g' hg' hkg) (hle h)
  · unfold nut_treetable_get_lesser_than
    rcases hL with ⟨e, hno⟩ | ⟨g', hg', e, hkg, hmin⟩
    · rw [e]
      simpa using hno
    · rw [e]
      simp only [Prod.mk.injEq, reduceCtorEq, false_and, false_iff]
      intro hno
      exact hno g' hg' hkg
  · unfold nut_treetable_get_lesser_than
    rcases hL with ⟨e, hno⟩ | ⟨g', hg', e, hkg, hmin⟩
    · right; rw [e]
    · left; exact ⟨g', by rw [e]⟩

/-- C20 at the tree with the keys 1, 3, 5 and the absent key 4. -/
theorem treetable_strict_bounds_witness :
    ((∀ g, nut_treetable_get_greater_than oneThreeFive 4 = (NUT_OK, some g) ↔
        (g ∈ oneThreeFive.root.keys ∧ oneThreeFive.cmp 4 g < 0 ∧
          ∀ x ∈ oneThreeFive.root.keys, oneThreeFive.cmp 4 x < 0 → oneThreeFive.cmp g x ≤ 0)) ∧
      (nut_treetable_get_greater_than oneThreeFive 4 = (NUT_ERR_KEY_NOT_FOUND, none) ↔
        ∀ x ∈ oneThreeFive.root.keys, ¬ oneThreeFive.cmp 4 x < 0) ∧
      ((∃ g, nut_treetable_get_greater_than oneThreeFive 4 = (NUT_OK, some g)) ∨
        nut_treetable_get_greater_than oneThreeFive 4 = (NUT_ERR_KEY_NOT_FOUND, none)) ∧
      (∀ g, nut_treetable_get_lesser_than oneThreeFive 4 = (NUT_OK, some g) ↔
        (g ∈ oneThreeFive.root.keys ∧ oneThreeFive.cmp g 4 < 0 ∧
          ∀ x ∈ oneThreeFive.root.keys, oneThreeFive.cmp x 4 < 0 → oneThreeFive.cmp x g ≤ 0)) ∧
      (nut_treetable_get_lesser_than oneThreeFive 4 = (NUT_ERR_KEY_NOT_FOUND, none) ↔
        ∀ x ∈ oneThreeFive.root.keys, ¬ oneThreeFive.cmp x 4 < 0) ∧
      ((∃ g, nut_treetable_get_lesser_than oneThreeFive 4 = (NUT_OK, some g)) ∨
        nut_treetable_get_lesser_than oneThreeFive 4 = (NUT_ERR_KEY_NOT_FOUND, none))) ∧
      (oneThreeFive.root.keys = [1, 3, 5] ∧
        nut_treetable_get_greater_than oneThreeFive 3 = (NUT_OK, some 5) ∧
        nut_treetable_get_greater_than oneThreeFive 5 = (NUT_ERR_KEY_NOT_FOUND, none) ∧
        nut_treetable_get_lesser_than oneThreeFive 1 = (NUT_ERR_KEY_NOT_FOUND, none) ∧
        nut_treetable_get_lesser_than oneThreeFive 5 = (NUT_OK, some 3)) :=
  treetable_strict_bounds oneThreeFive nut_common_cmp_ptr_consistent
    (runTree_wellFormed Platform.p64 [.add 1 0, .add 3 0, .add 5 0] freshTree
      nut_common_cmp_ptr_consistent (freshTable_wellFormed _ _)).2.1 4

/-- C26: on the deque holding 1, 2 `nut_deque_reverse` swaps nothing and
leaves 1, 2; on the deque holding 1, 2, 3, 4 it swaps the two ends only and
leaves 4, 2, 3, 1; on 1,…,6 it leaves 6, 5, 3, 4, 2, 1.  Size, capacity,
`first` and `last` stay as they were. -/
theorem reverse_even_size_keeps_middle :
    nut_deque_new Platform.p64 heap = (NUT_OK, some freshDeque) ∧
      pair.WellFormed Platform.p64 ∧ pair.contents Platform.p64 = [some 1, some 2] ∧
      (nut_deque_reverse Platform.p64 pair).contents Platform.p64 = [some 1, some 2] ∧
      four.contents Platform.p64 = [some 1, some 2, some 3, some 4] ∧
      (nut_deque_reverse Platform.p64 four).contents Platform.p64
        = [some 4, some 2, some 3, some 1] ∧
      (nut_deque_reverse Platform.p64 six).contents Platform.p64
        = [some 6, some 5, some 3, some 4, some 2, some 1] ∧
      (nut_deque_reverse Platform.p64 three).contents Platform.p64
        = [some 3, some 2, some 1] :=
  ⟨rfl, by decide, by decide, by decide, by decide, by decide, by decide, by decide⟩

/-- C27: on the deque holding 1, 2, 3, `nut_deque_remove` of the absent
element 7 returns `NUT_ERR_OUT_OF_RANGE`, the code of `nut_deque_index_of`,
and not `NUT_ERR_VALUE_NOT_FOUND`; the deque is unchanged.  In scenario A
(0, 1, 2 with the head in slot 7) the removal of the element 1 returns
`NUT_OK` and leaves 0, 2, but writes 2 through `out`. -/
theorem remove_absent_returns_out_of_range :
    nut_deque_new Platform.p64 heap = (NUT_OK, some freshDeque) ∧
      three.WellFormed Platform.p64 ∧
      three.contents Platform.p64 = [some 1, some 2, some 3] ∧
      (nut_deque_remove Platform.p64 three 7).1 = NUT_ERR_OUT_OF_RANGE ∧
      (nut_deque_remove Platform.p64 three 7).1 ≠ NUT_ERR_VALUE_NOT_FOUND ∧
      (nut_deque_remove Platform.p64 three 7).2.2 = none ∧
      (nut_deque_remove Platform.p64 three 7).2.1.contents Platform.p64
        = [some 1, some 2, some 3] ∧
      scenarioA.contents Platform.p64 = [some 0, some 1, some 2] ∧
      (nut_deque_remove Platform.p64 scenarioA 1).1 = NUT_OK ∧
      (nut_deque_remove Platform.p64 scenarioA 1).2.2 = some 2 ∧
      (nut_deque_remove Platform.p64 scenarioA 1).2.1.contents Platform.p64
        = [some 0, some 2] :=
  ⟨rfl, by decide, by decide, by decide, by decide, by decide, by decide, by decide,
    by decide, by decide, by decide⟩

/-- C28: on a well-formed deque, `nut_deque_replace_at(deque, e, i, out)` with
`i < size` returns `NUT_OK`, writes through `out` the element that
`nut_deque_get_at` reported at `i`, leaves size, capacity, `first`, `last`
and the allocators as they were, makes `nut_deque_get_at(deque, i)` return
`e` and leaves the element of every other index below the size unchanged;
with `i ≥ size` it returns `NUT_ERR_OUT_OF_RANGE`, writes nothing and leaves
the deque as it was. -/
theorem replace_at_frame (pf : Platform) (hpf : pf.ok) (d : Deque) (hwf : d.WellFormed pf)
    (e : Ptr) (i : Nat) :
    (i < d.size →
      (nut_deque_replace_at pf d e i).1 = NUT_OK ∧
        (NUT_OK, (nut_deque_replace_at pf d e i).2.2) = nut_deque_get_at pf d i ∧
        (nut_deque_replace_at pf d e i).2.1.size = d.size ∧
        (nut_deque_replace_at pf d e i).2.1.capacity = d.capacity ∧
        (nut_deque_replace_at pf d e i).2.1.first = d.first ∧
        (nut_deque_replace_at pf d e i).2.1.last = d.last ∧
        nut_deque_get_at pf (nut_deque_replace_at pf d e i).2.1 i = (NUT_OK, some e) ∧
        ∀ j, j < d.size → j ≠ i →
          nut_deque_get_at pf (nut_deque_replace_at pf d e i).2.1 j
            = nut_deque_get_at pf d j) ∧
      (d.size ≤ i → nut_deque_replace_at pf d e i = (NUT_ERR_OUT_OF_RANGE, d, none)) := by
  constructor
  · intro hi
    have hge : ¬ i ≥ d.size := by omega
    have hgt : ¬ i > d.size := by omega
    simp only [nut_deque_replace_at, if_neg hge, nut_deque_get_at, if_neg hgt,
      Function.update_same, true_and]
    intro j hj hne
    have hjgt : ¬ j > d.size := by omega
    rw [if_neg hjgt, if_neg hjgt, Function.update_noteq (slot_inj pf hpf hwf hi hj hne)]
  · intro hi
    simp only [nut_deque_replace_at, if_pos hi]

/-- C28 at the deque of scenario A (0, 1, 2 with the head in slot 7), where
the element of index 1 is replaced by 9. -/
theorem replace_at_frame_witness :
    scenarioA.WellFormed Platform.p64 ∧
      ((1 < scenarioA.size →
        (nut_deque_replace_at Platform.p64 scenarioA 9 1).1 = NUT_OK ∧
          (NUT_OK, (nut_deque_replace_at Platform.p64 scenarioA 9 1).2.2)
            = nut_deque_get_at Platform.p64 scenarioA 1 ∧
          (nut_deque_replace_at Platform.p64 scenarioA 9 1).2.1.size = scenarioA.size ∧
          (nut_deque_replace_at Platform.p64 scenarioA 9 1).2.1.capacity
            = scenarioA.capacity ∧
          (nut_deque_replace_at Platform.p64 scenarioA 9 1).2.1.first = scenarioA.first ∧
          (nut_deque_replace_at Platform.p64 scenarioA 9 1).2.1.last = scenarioA.last ∧
          nut_deque_get_at Platform.p64 (nut_deque_replace_at Platform.p64 scenarioA 9 1).2.1 1
            = (NUT_OK, some 9) ∧
          ∀ j, j < scenarioA.size → j ≠ 1 →
            nut_deque_get_at Platform.p64 (nut_deque_replace_at Platform.p64 scenarioA 9 1).2.1 j
              = nut_deque_get_at Platform.p64 scenarioA j) ∧
        (scenarioA.size ≤ 1 →
          nut_deque_replace_at Platform.p64 scenarioA 9 1
            = (NUT_ERR_OUT_OF_RANGE, scenarioA, none))) :=
  ⟨by decide, replace_at_frame Platform.p64 (by decide) scenarioA (by decide) 9 1⟩

/-- C29: on the well-formed deque holding 0,…,6 from slot 4 on, with the
predicate "is not 3", `nut_deque_filter_mut` returns `NUT_OK` and leaves
0, 1, 2, 4, 4, 4 (the elements 5 and 6 are lost and 4 is tripled), where
`nut_deque_filter` puts 0, 1, 2, 4, 5, 6 into its new deque.  On an empty
deque both return `NUT_ERR_OUT_OF_RANGE`. -/
theorem filter_mut_wrapped_tail_diverges :
    nut_deque_new Platform.p64 heap = (NUT_OK, some freshDeque) ∧
      wrappedTail.WellFormed Platform.p64 ∧
      wrappedTail.contents Platform.p64
        = [some 0, some 1, some 2, some 3, some 4, some 5, some 6] ∧
      (nut_deque_filter_mut Platform.p64 wrappedTail (fun x => x != 3)).1 = NUT_OK ∧
      (nut_deque_filter_mut Platform.p64 wrappedTail (fun x => x != 3)).2.contents Platform.p64
        = [some 0, some 1, some 2, some 4, some 4, some 4] ∧
      (nut_deque_filter Platform.p64 heap wrappedTail (fun x => x != 3)).1 = NUT_OK ∧
      ((nut_deque_filter Platform.p64 heap wrappedTail (fun x => x != 3)).2.map
          (fun f => f.contents Platform.p64))
        = some [some 0, some 1, some 2, some 4, some 5, some 6] ∧
      (nut_deque_filter_mut Platform.p64 freshDeque (fun x => x != 3)).1
        = NUT_ERR_OUT_OF_RANGE ∧
      (nut_deque_filter Platform.p64 heap freshDeque (fun x => x != 3)).1
        = NUT_ERR_OUT_OF_RANGE :=
  ⟨rfl, by decide, by decide, by decide, by decide, by decide, by decide, by decide,
    by decide⟩

/-- C21: with the default configuration (capacity 8) and a memory port that
clears the record, `nut_array_new` returns an array of size 0 whose capacity
is 0, not 8, over a buffer of 8 slots.  The first `nut_array_add` then finds
`size >= capacity`, and `expand_capacity` computes the new capacity
`0 * 2 = 0`, sets the capacity to `NUT_MAX_ELEMENTS` and asks for a buffer of
0 bytes: the element is written to slot 0 of a buffer of 0 slots. -/
theorem new_conf_leaves_capacity_unset :
    (nut_array_conf_init Platform.p64 clearingMem).capacity = 8 ∧
      nut_array_new_conf Platform.p64 clearingMem (nut_array_conf_init Platform.p64 clearingMem)
        = nut_array_new Platform.p64 clearingMem ∧
      (nut_array_new Platform.p64 clearingMem).1 = NUT_OK ∧
      (nut_array_new Platform.p64 clearingMem).2.map (fun ar => ar.size) = some 0 ∧
      (nut_array_new Platform.p64 clearingMem).2.map (fun ar => ar.capacity) = some 0 ∧
      (nut_array_new Platform.p64 clearingMem).2.map (fun ar => ar.slots) = some 8 ∧
      (nut_array_new Platform.p64 clearingMem).2.map (fun ar => ar.buffer 0) = some 1000 ∧
      freshArray.size = 0 ∧ freshArray.capacity = 0 ∧ freshArray.slots = 8 ∧
      ¬ freshArray.WellFormed Platform.p64 ∧
      (nut_array_add Platform.p64 clearingMem freshArray 1).1 = NUT_OK ∧
      (nut_array_add Platform.p64 clearingMem freshArray 1).2.size = 1 ∧
      (nut_array_add Platform.p64 clearingMem freshArray 1).2.capacity
        = NUT_MAX_ELEMENTS Platform.p64 ∧
      (nut_array_add Platform.p64 clearingMem freshArray 1).2.slots = 0 ∧
      (nut_array_add Platform.p64 clearingMem freshArray 1).2.buffer 0 = 1 :=
  ⟨rfl, rfl, by decide, by decide, by decide, by decide, by decide, rfl, rfl, rfl, by decide,
    by decide, by decide, by decide, by decide, by decide⟩

/-- C22: on the full array holding 1,…,8 (size = capacity = 8 over 8 slots),
when `nut_mem_alloc` returns null for the grown buffer, `nut_array_add` and
`nut_array_add_at` return `NUT_ERR_MALLOC` and leave size and elements as they
were, but the capacity is 16 afterwards over the same buffer of 8 slots; the
next `nut_array_add` then sees `size < capacity`, returns `NUT_OK` and writes
slot 8.  On the array of `nut_array_new` a refused first growth changes the
capacity from 0 to `NUT_MAX_ELEMENTS`. -/
theorem add_failure_changes_capacity :
    fullArray.WellFormed Platform.p64 ∧ fullArray.size = 8 ∧ fullArray.capacity = 8 ∧
      starvedMem.nut_mem_alloc (size_mul Platform.p64 16 (PTR_SIZE Platform.p64)) = none ∧
      (nut_array_add Platform.p64 starvedMem fullArray 9).1 = NUT_ERR_MALLOC ∧
      (nut_array_add Platform.p64 starvedMem fullArray 9).2.size = 8 ∧
      (nut_array_add Platform.p64 starvedMem fullArray 9).2.toList = fullArray.toList ∧
      (nut_array_add Platform.p64 starvedMem fullArray 9).2.capacity = 16 ∧
      (nut_array_add Platform.p64 starvedMem fullArray 9).2.slots = 8 ∧
      (nut_array_add_at Platform.p64 starvedMem fullArray 9 3).1 = NUT_ERR_MALLOC ∧
      (nut_array_add_at Platform.p64 starvedMem fullArray 9 3).2.toList = fullArray.toList ∧
      (nut_array_add_at Platform.p64 starvedMem fullArray 9 3).2.capacity = 16 ∧
      (nut_array_add_at Platform.p64 starvedMem fullArray 9 3).2.slots = 8 ∧
      (nut_array_add Platform.p64 starvedMem
          (nut_array_add Platform.p64 starvedMem fullArray 9).2 9).1 = NUT_OK ∧
      (nut_array_add Platform.p64 starvedMem
          (nut_array_add Platform.p64 starvedMem fullArray 9).2 9).2.size = 9 ∧
      (nut_array_add Platform.p64 starvedMem
          (nut_array_add Platform.p64 starvedMem fullArray 9).2 9).2.slots = 8 ∧
      (nut_array_add Platform.p64 starvedMem freshArray 1).1 = NUT_ERR_MALLOC ∧
      (nut_array_add Platform.p64 starvedMem freshArray 1).2.capacity
        = NUT_MAX_ELEMENTS Platform.p64 :=
  ⟨by decide, rfl, rfl, rfl, by decide, by decide, by decide, by decide, by decide, by decide,
    by decide, by decide, by decide, by decide, by decide, by decide, by decide, by decide⟩

/-- C23: on the array holding 1, 2, 3, 4 the calls next, next, remove, next,
next answer 1, 2, the removed 2, then 4 and `NUT_ITER_END`: the element 3 is
never returned, and the array is left with 1, 3, 4 and size 3, not with 1, 3
and size 2. -/
theorem array_iter_remove_skips_element :
    arrayFour.WellFormed Platform.p64 ∧ arrayFour.toList = [1, 2, 3, 4] ∧
      (runArrayIter Platform.p64 clearingMem (nut_array_iter_init arrayFour)
          [.next, .next, .remove, .next, .next]).2
        = [(NUT_OK, some 1), (NUT_OK, some 2), (NUT_OK, some 2), (NUT_OK, some 4),
            (NUT_ITER_END, none)] ∧
      (runArrayIter Platform.p64 clearingMem (nut_array_iter_init arrayFour)
          [.next, .next, .remove, .next, .next]).1.ar.toList = [1, 3, 4] ∧
      (runArrayIter Platform.p64 clearingMem (nut_array_iter_init arrayFour)
          [.next, .next, .remove, .next, .next]).1.ar.size = 3 :=
  ⟨by decide, by decide, by decide, by decide, by decide⟩

/-- C30: for every non-empty array (its size a `size_t` value) and every
predicate, `nut_array_filter_mut` returns `NUT_OK` and leaves the elements
that satisfy the predicate, in their original order, with the size equal to
their number; `nut_array_filter`, its two allocations granted, returns
`NUT_OK` with a new array of the same contents and size (and the capacity of
the original), the original array being an argument that it does not
change. -/
theorem array_filters_agree (pf : Platform) (m : NutMem) (ar : NutArray) (pred : Ptr → Bool)
    (hpos : ar.size ≠ 0) (hlt : ar.size < 2 ^ pf.bits)
    (h1 : (m.nut_mem_alloc (SIZEOF_ARRAY pf)).isSome)
    (h2 : (nut_mem_calloc pf m ar.capacity (PTR_SIZE pf)).isSome) :
    (nut_array_filter_mut pf ar pred).1 = NUT_OK ∧
      (nut_array_filter_mut pf ar pred).2.toList = ar.toList.filter pred ∧
      (nut_array_filter_mut pf ar pred).2.size = (ar.toList.filter pred).length ∧
      ∃ f, nut_array_filter pf m ar pred = (NUT_OK, some f) ∧
        f.toList = (nut_array_filter_mut pf ar pred).2.toList ∧
        f.size = (nut_array_filter_mut pf ar pred).2.size ∧
        f.toList = ar.toList.filter pred := by
  obtain ⟨a1, a2, a3⟩ := nut_array_filter_mut_spec pf ar pred hpos hlt
  obtain ⟨f, b1, b2, b3, -⟩ := nut_array_filter_spec pf m ar pred hpos hlt h1 h2
  exact ⟨a1, a2, a3, f, b1, by rw [b2, a2], by rw [b3, a3], b2⟩

/-- C30 at the array 1,…,8 and the predicate "is even or is 1". -/
theorem array_filters_agree_witness :
    fullArray.toList = [1, 2, 3, 4, 5, 6, 7, 8] ∧
      fullArray.toList.filter (fun x => x % 2 == 0 || x == 1) = [1, 2, 4, 6, 8] ∧
      (nut_array_filter_mut Platform.p64 fullArray (fun x => x % 2 == 0 || x == 1)).1 = NUT_OK ∧
      (nut_array_filter_mut Platform.p64 fullArray (fun x => x % 2 == 0 || x == 1)).2.toList
        = fullArray.toList.filter (fun x => x % 2 == 0 || x == 1) ∧
      (nut_array_filter_mut Platform.p64 fullArray (fun x => x % 2 == 0 || x == 1)).2.size
        = (fullArray.toList.filter (fun x => x % 2 == 0 || x == 1)).length ∧
      ∃ f, nut_array_filter Platform.p64 clearingMem fullArray (fun x => x % 2 == 0 || x == 1)
          = (NUT_OK, some f) ∧
        f.toList
          = (nut_array_filter_mut Platform.p64 fullArray
              (fun x => x % 2 == 0 || x == 1)).2.toList ∧
        f.size
          = (nut_array_filter_mut Platform.p64 fullArray (fun x => x % 2 == 0 || x == 1)).2.size ∧
        f.toList = fullArray.toList.filter (fun x => x % 2 == 0 || x == 1) :=
  ⟨by decide, by decide,
    array_filters_agree Platform.p64 clearingMem fullArray (fun x => x % 2 == 0 || x == 1)
      (by decide) (by decide) rfl rfl⟩

/-- C24: on the list holding 1, 2, 3 the iterator calls next (returns 1),
iter_add(9) (the list is 1, 9, 2, 3 and well formed), next (returns 2) and
iter_remove (returns 2) leave a list whose size is 3 while the walk from
`head` meets two nodes only, those of 1 and 3: `nut_slist_iter_add` left
`current` as the predecessor that `nut_slist_iter_next` hands to `unlink`, so
the node of 9 is cut out together with the node of 2. -/
theorem slist_iter_add_then_remove_breaks_size :
    nut_slist_new Platform.p64 (fun _ => some zeroed) = (NUT_OK, some freshSList) ∧
      freshSList.WellFormed emptyMem ∧
      slistThree.2.WellFormed slistThree.1 ∧
      slistThree.2.toList slistThree.1 = [1, 2, 3] ∧
      (runSListIter Platform.p64 slistThree.1 (nut_slist_iter_init slistThree.2)
          [.next, .add 9]).1.2.list.WellFormed
        (runSListIter Platform.p64 slistThree.1 (nut_slist_iter_init slistThree.2)
          [.next, .add 9]).1.1 ∧
      (runSListIter Platform.p64 slistThree.1 (nut_slist_iter_init slistThree.2)
          [.next, .add 9]).1.2.list.toList
        (runSListIter Platform.p64 slistThree.1 (nut_slist_iter_init slistThree.2)
          [.next, .add 9]).1.1 = [1, 9, 2, 3] ∧
      (runSListIter Platform.p64 slistThree.1 (nut_slist_iter_init slistThree.2)
          [.next, .add 9, .next, .remove]).2
        = [(NUT_OK, some 1), (NUT_OK, none), (NUT_OK, some 2), (NUT_OK, some 2)] ∧
      (runSListIter Platform.p64 slistThree.1 (nut_slist_iter_init slistThree.2)
          [.next, .add 9, .next, .remove]).1.2.list.size = 3 ∧
      (runSListIter Platform.p64 slistThree.1 (nut_slist_iter_init slistThree.2)
          [.next, .add 9, .next, .remove]).1.2.list.nodes
        (runSListIter Platform.p64 slistThree.1 (nut_slist_iter_init slistThree.2)
          [.next, .add 9, .next, .remove]).1.1 = [1, 3] ∧
      (runSListIter Platform.p64 slistThree.1 (nut_slist_iter_init slistThree.2)
          [.next, .add 9, .next, .remove]).1.2.list.toList
        (runSListIter Platform.p64 slistThree.1 (nut_slist_iter_init slistThree.2)
          [.next, .add 9, .next, .remove]).1.1 = [1, 3] ∧
      ¬ (runSListIter Platform.p64 slistThree.1 (nut_slist_iter_init slistThree.2)
          [.next, .add 9, .next, .remove]).1.2.list.WellFormed
        (runSListIter Platform.p64 slistThree.1 (nut_slist_iter_init slistThree.2)
          [.next, .add 9, .next, .remove]).1.1 :=
  ⟨rfl, by decide, by decide, by decide, by decide, by decide, by decide, by decide,
    by decide, by decide, by decide⟩

/-- C25: on the queue of `nut_pqueue_new` ordered by `nut_common_cmp_ptr`,
after the pushes of 3, 2 and 1 the first `nut_pqueue_pop` returns 3 and leaves
1, 2 in the buffer; `nut_pqueue_top` then returns 1 although 2 is in the queue
and `cmp(1, 2) < 0`, and the following pops return 1 and then 2.  A further
pop and top return `NUT_ERR_OUT_OF_RANGE`. -/
theorem pqueue_pop_leaves_smaller_on_top :
    nut_pqueue_new Platform.p64 (fun _ => some zeroed) nut_common_cmp_ptr
        = (NUT_OK, some freshPQueue) ∧
      (runPQueue Platform.p64 freshPQueue [.push 3, .push 2, .push 1]).1.toList = [3, 2, 1] ∧
      (runPQueue Platform.p64 freshPQueue [.push 3, .push 2, .push 1, .pop]).1.toList = [1, 2] ∧
      nut_common_cmp_ptr 1 2 < 0 ∧
      (runPQueue Platform.p64 freshPQueue
          [.push 3, .push 2, .push 1, .pop, .top, .pop, .pop, .pop, .top]).2
        = [(NUT_OK, none), (NUT_OK, none), (NUT_OK, none), (NUT_OK, some 3), (NUT_OK, some 1),
            (NUT_OK, some 1), (NUT_OK, some 2), (NUT_ERR_OUT_OF_RANGE, none),
            (NUT_ERR_OUT_OF_RANGE, none)] :=
  ⟨rfl, by decide, by decide, by decide, by decide⟩

/-- C32: for every well-formed list of even size (a size that fits `size_t`),
the calls next, next, remove repeated `size / 2` times from
`nut_slist_iter_init` and a last next return `NUT_OK` with the elements in
order (each remove returning the element of the next before it) and
`NUT_ITER_END` at the end; the list is then well formed with `size / 2` nodes,
namely every second of the original nodes from the first on, and holds the
elements originally at the positions 0, 2, 4, … in their order, `head` and
`tail` being the first and last of these nodes (null when none is left).  A
`nut_slist_iter_remove` that directly follows a `nut_slist_iter_remove`
returns `NUT_ERR_VALUE_NOT_FOUND`. -/
theorem slist_iter_remove_every_second (pf : Platform) (mem : SMem) (list : SList)
    (hwf : list.WellFormed mem) (heven : list.size % 2 = 0) (hsz : list.size < 2 ^ pf.bits) :
    (runSListIter pf mem (nut_slist_iter_init list) (everySecondOps (list.size / 2))).2
        = everySecondTrace (list.toList mem) ∧
      (runSListIter pf mem (nut_slist_iter_init list)
          (everySecondOps (list.size / 2))).1.2.list.size = list.size / 2 ∧
      (runSListIter pf mem (nut_slist_iter_init list)
          (everySecondOps (list.size / 2))).1.2.list.toList
        (runSListIter pf mem (nut_slist_iter_init list) (everySecondOps (list.size / 2))).1.1
        = everySecond (list.toList mem) ∧
      (runSListIter pf mem (nut_slist_iter_init list)
          (everySecondOps (list.size / 2))).1.2.list.nodes
        (runSListIter pf mem (nut_slist_iter_init list) (everySecondOps (list.size / 2))).1.1
        = everySecond (list.nodes mem) ∧
      (runSListIter pf mem (nut_slist_iter_init list)
          (everySecondOps (list.size / 2))).1.2.list.head
        = (everySecond (list.nodes mem)).head?.getD 0 ∧
      (runSListIter pf mem (nut_slist_iter_init list)
          (everySecondOps (list.size / 2))).1.2.list.tail
        = (everySecond (list.nodes mem)).getLast?.getD 0 ∧
      (runSListIter pf mem (nut_slist_iter_init list)
          (everySecondOps (list.size / 2))).1.2.list.WellFormed
        (runSListIter pf mem (nut_slist_iter_init list) (everySecondOps (list.size / 2))).1.1 ∧
      ∀ m it, (nut_slist_iter_remove pf (nut_slist_iter_remove pf m it).2.1
        (nut_slist_iter_remove pf m it).2.2.1).1 = NUT_ERR_VALUE_NOT_FOUND := by
  have hlen : (list.nodes mem).length = 2 * (list.size / 2) := by
    rw [hwf.2.2.1]
    omega
  obtain ⟨ht, hb, hd, hbrk, hs⟩ := iter_every_second pf (list.size / 2) (list.nodes mem) [] mem
    (nut_slist_iter_init list) hlen (between_init hwf) hsz
  rw [List.nil_append] at hb
  obtain ⟨hchain, hsize, htail, -, -, -⟩ := hb
  rw [List.append_nil] at hchain hsize htail
  have hklen := everySecond_length (list.nodes mem) (list.size / 2) hlen
  have hfuel : (everySecond (list.nodes mem)).length
      ≤ (runSListIter pf mem (nut_slist_iter_init list)
          (everySecondOps (list.size / 2))).1.1.brk + 1 := by
    rw [hbrk, hklen]
    have h1 := walk_length_le mem (mem.brk + 1) list.head
    have h2 : (list.nodes mem).length = list.size := hwf.2.2.1
    unfold SList.nodes at h2
    omega
  obtain ⟨hnodes, hwf'⟩ := wellFormed_of_chain hchain hsize htail hfuel
  refine ⟨ht, ?_, ?_, hnodes, chain_head hchain, htail, hwf', ?_⟩
  · rw [hsize, hklen]
  · unfold SList.toList
    rw [hnodes, everySecond_map]
    apply List.map_congr_left
    intro p _
    exact hd p
  · intro m it
    unfold nut_slist_iter_remove
    by_cases hc : it.current = 0
    · simp only [if_pos hc]
    · simp only [if_neg hc, if_true]

/-- C32 at the list holding 1, 2, 3, 4: the calls return 1, 2, 2, 3, 4, 4 and
the end, and the list is left with 1, 3. -/
theorem slist_iter_remove_every_second_witness :
    slistFour.2.toList slistFour.1 = [1, 2, 3, 4] ∧
      (runSListIter Platform.p64 slistFour.1 (nut_slist_iter_init slistFour.2)
          (everySecondOps (slistFour.2.size / 2))).2
        = everySecondTrace (slistFour.2.toList slistFour.1) ∧
      (runSListIter Platform.p64 slistFour.1 (nut_slist_iter_init slistFour.2)
          (everySecondOps (slistFour.2.size / 2))).1.2.list.toList
        (runSListIter Platform.p64 slistFour.1 (nut_slist_iter_init slistFour.2)
          (everySecondOps (slistFour.2.size / 2))).1.1
        = everySecond (slistFour.2.toList slistFour.1) ∧
      (runSListIter Platform.p64 slistFour.1 (nut_slist_iter_init slistFour.2)
          (everySecondOps (slistFour.2.size / 2))).1.2.list.WellFormed
        (runSListIter Platform.p64 slistFour.1 (nut_slist_iter_init slistFour.2)
          (everySecondOps (slistFour.2.size / 2))).1.1 :=
  have h := slist_iter_remove_every_second Platform.p64 slistFour.1 slistFour.2 (by decide)
    (by decide) (by decide)
  ⟨by decide, h.1, h.2.2.1, h.2.2.2.2.2.2.1⟩

/-- C33, counterexample: with the list 1, 2, 3 as first list and an empty
second list, `nut_slist_splice_at(list1, list2, 3)`, whose index is not below
the size 3 of the first list, returns `NUT_OK`, not `NUT_ERR_OUT_OF_RANGE`:
the test for an empty second list comes first. -/
theorem splice_at_empty_source_returns_ok :
    slistThree.2.WellFormed slistThree.1 ∧ freshSList.WellFormed slistThree.1 ∧
      slistThree.2.toList slistThree.1 = [1, 2, 3] ∧ freshSList.toList slistThree.1 = [] ∧
      slistThree.2.size = 3 ∧
      (nut_slist_splice_at Platform.p64 slistThree.1 slistThree.2 freshSList 3).1 = NUT_OK ∧
      (nut_slist_splice_at Platform.p64 slistThree.1 slistThree.2 freshSList 3).1
        ≠ NUT_ERR_OUT_OF_RANGE :=
  ⟨by decide, by decide, by decide, by decide, by decide, by decide, by decide⟩

/-- C33, amended: for two well-formed lists in one memory that share no node,
their nodes at addresses handed out by the allocator and their sizes adding up
within `size_t`: `nut_slist_splice` returns `NUT_OK`, leaves the first list
well formed with the sequence `a ++ b` and the size `|a| + |b|` and the second
list with size 0 and null `head` and `tail`; `nut_slist_splice_at` at an index
`i < |a|` with `b` non-empty returns `NUT_OK`, leaves the first list well
formed with `a[0..i) ++ b ++ a[i..)` and the second list empty; with `b`
non-empty and `i ≥ |a|` it returns `NUT_ERR_OUT_OF_RANGE` and changes nothing;
with `b` empty it returns `NUT_OK` and changes nothing, whatever the index. -/
theorem slist_splice_moves_all (pf : Platform) (mem : SMem) (list1 list2 : SList)
    (h1 : list1.WellFormed mem) (h2 : list2.WellFormed mem)
    (hdisj : ∀ p ∈ list1.nodes mem, p ∉ list2.nodes mem)
    (halloc : ∀ p ∈ list1.nodes mem ++ list2.nodes mem, p ≤ mem.brk)
    (hsz : list1.size + list2.size < 2 ^ pf.bits) :
    ((nut_slist_splice pf mem list1 list2).1 = NUT_OK ∧
        (nut_slist_splice pf mem list1 list2).2.2.1.toList (nut_slist_splice pf mem list1 list2).2.1
          = list1.toList mem ++ list2.toList mem ∧
        (nut_slist_splice pf mem list1 list2).2.2.1.size = list1.size + list2.size ∧
        (nut_slist_splice pf mem list1 list2).2.2.1.WellFormed
          (nut_slist_splice pf mem list1 list2).2.1 ∧
        (nut_slist_splice pf mem list1 list2).2.2.2.size = 0 ∧
        (nut_slist_splice pf mem list1 list2).2.2.2.head = 0 ∧
        (nut_slist_splice pf mem list1 list2).2.2.2.tail = 0) ∧
      (∀ i, i < list1.size → list2.size ≠ 0 →
        (nut_slist_splice_at pf mem list1 list2 i).1 = NUT_OK ∧
          (nut_slist_splice_at pf mem list1 list2 i).2.2.1.toList
              (nut_slist_splice_at pf mem list1 list2 i).2.1
            = (list1.toList mem).take i ++ list2.toList mem ++ (list1.toList mem).drop i ∧
          (nut_slist_splice_at pf mem list1 list2 i).2.2.1.size = list1.size + list2.size ∧
          (nut_slist_splice_at pf mem list1 list2 i).2.2.1.WellFormed
            (nut_slist_splice_at pf mem list1 list2 i).2.1 ∧
          (nut_slist_splice_at pf mem list1 list2 i).2.2.2.size = 0 ∧
          (nut_slist_splice_at pf mem list1 list2 i).2.2.2.head = 0 ∧
          (nut_slist_splice_at pf mem list1 list2 i).2.2.2.tail = 0) ∧
      (∀ i, list1.size ≤ i → list2.size ≠ 0 →
        nut_slist_splice_at pf mem list1 list2 i = (NUT_ERR_OUT_OF_RANGE, mem, list1, list2)) ∧
      (∀ i, list2.size = 0 →
        nut_slist_splice_at pf mem list1 list2 i = (NUT_OK, mem, list1, list2)) := by
  obtain ⟨hA, hs1, ht1⟩ := wellFormed_repr h1
  obtain ⟨hB, hs2, ht2⟩ := wellFormed_repr h2
  have hfuel := disjoint_nodes_fuel (chain_nodup hA) (chain_nodup hB) hdisj halloc
  refine ⟨?_, ?_, ?_, ?_⟩
  · by_cases hz : list2.size = 0
    · have hsp : nut_slist_splice pf mem list1 list2 = (NUT_OK, mem, list1, list2) := by
        unfold nut_slist_splice
        rw [if_pos hz]
      have hBnil : list2.nodes mem = [] := List.length_eq_zero.mp (hs2 ▸ hz)
      rw [hsp]
      refine ⟨rfl, ?_, ?_, h1, hz, h2.1.mp hz, h2.2.1.mp hz⟩
      · show list1.toList mem = list1.toList mem ++ list2.toList mem
        unfold SList.toList
        rw [hBnil, List.map_nil, List.append_nil]
      · show list1.size = _
        omega
    · have hBne : list2.nodes mem ≠ [] := by
        intro h
        rw [h] at hs2
        exact hz hs2
      obtain ⟨k1, k2, k3, k4, k5, k6, k7, k8, k9⟩ := splice_spec pf mem list1 list2 _ _ hA hs1 ht1
        hB hs2 ht2 hBne hdisj (by rw [← hs1, ← hs2]; exact hsz)
      obtain ⟨hn, hw⟩ := wellFormed_of_chain k2 k3 k4 (by rw [k6]; exact hfuel)
      refine ⟨k1, ?_, ?_, hw, k7, k8, k9⟩
      · unfold SList.toList
        rw [hn, List.map_append]
        congr 1 <;> exact List.map_congr_left (fun p _ => k5 p)
      · rw [k3, List.length_append, ← hs1, ← hs2]
  · intro i hi hz
    have hBne : list2.nodes mem ≠ [] := by
      intro h
      rw [h] at hs2
      exact hz hs2
    have hA2 : (list1.nodes mem).drop i ≠ [] := by
      intro h
      have := congrArg List.length h
      rw [List.length_drop, ← hs1] at this
      simp at this
      omega
    have hsplit : (list1.nodes mem).take i ++ (list1.nodes mem).drop i = list1.nodes mem :=
      List.take_append_drop i _
    obtain ⟨k2, k3, k4, k5, k6, k7, k8, k9⟩ := splice_between_spec pf mem list1 list2
      ((list1.nodes mem).take i) ((list1.nodes mem).drop i) (list2.nodes mem)
      (by rw [hsplit]; exact hA) (by rw [hsplit]; exact hs1) (by rw [hsplit]; exact ht1)
      hB hs2 ht2 hBne hA2 (by rw [hsplit]; exact hdisj)
      (by rw [hsplit, ← hs1, ← hs2]; exact hsz)
    have hlen : ((list1.nodes mem).take i ++ list2.nodes mem ++ (list1.nodes mem).drop i).length
        = (list1.nodes mem ++ list2.nodes mem).length := by
      have := congrArg List.length hsplit
      simp only [List.length_append] at this ⊢
      omega
    obtain ⟨hn, hw⟩ := wellFormed_of_chain k2 k3 k4 (by rw [k6, hlen]; exact hfuel)
    rw [splice_at_eq pf mem list1 list2 h1 hi hz]
    refine ⟨rfl, ?_, ?_, hw, k7, k8, k9⟩
    · show SList.toList _ _ = _
      unfold SList.toList
      rw [hn, List.map_append, List.map_append, List.map_take, List.map_drop]
      congr 1
      · congr 1
        · congr 1
          exact List.map_congr_left (fun p _ => k5 p)
        · exact List.map_congr_left (fun p _ => k5 p)
      · congr 1
        exact List.map_congr_left (fun p _ => k5 p)
    · show SList.size _ = _
      rw [k3, hlen, List.length_append, ← hs1, ← hs2]
  · intro i hi hz
    unfold nut_slist_splice_at
    rw [if_neg hz, if_pos hi]
  · intro i hz
    unfold nut_slist_splice_at
    rw [if_pos hz]

/-- The amended C33 at the lists 1, 2, 3 and 4, 5 in one memory: splicing
gives 1, 2, 3, 4, 5, splicing at the index 1 gives 1, 4, 5, 2, 3, and the
index 3 is out of range. -/
theorem slist_splice_moves_all_witness :
    slistThree.2.toList slistPair.1 = [1, 2, 3] ∧ slistPair.2.toList slistPair.1 = [4, 5] ∧
      (nut_slist_splice Platform.p64 slistPair.1 slistThree.2 slistPair.2).1 = NUT_OK ∧
      (nut_slist_splice Platform.p64 slistPair.1 slistThree.2 slistPair.2).2.2.1.toList
          (nut_slist_splice Platform.p64 slistPair.1 slistThree.2 slistPair.2).2.1
        = slistThree.2.toList slistPair.1 ++ slistPair.2.toList slistPair.1 ∧
      (nut_slist_splice_at Platform.p64 slistPair.1 slistThree.2 slistPair.2 1).1 = NUT_OK ∧
      (nut_slist_splice_at Platform.p64 slistPair.1 slistThree.2 slistPair.2 1).2.2.1.toList
          (nut_slist_splice_at Platform.p64 slistPair.1 slistThree.2 slistPair.2 1).2.1
        = (slistThree.2.toList slistPair.1).take 1 ++ slistPair.2.toList slistPair.1
          ++ (slistThree.2.toList slistPair.1).drop 1 ∧
      nut_slist_splice_at Platform.p64 slistPair.1 slistThree.2 slistPair.2 3
        = (NUT_ERR_OUT_OF_RANGE, slistPair.1, slistThree.2, slistPair.2) :=
  have h := slist_splice_moves_all Platform.p64 slistPair.1 slistThree.2 slistPair.2
    (by decide) (by decide) (by decide) (by decide) (by decide)
  ⟨by decide, by decide, h.1.1, h.1.2.1, (h.2.1 1 (by decide) (by decide)).1,
    (h.2.1 1 (by decide) (by decide)).2.1, h.2.2.1 3 (by decide) (by decide)⟩

/-- C34: on the zip iterator that `nut_deque_zip_iter_init` sets up over the
deque 1, 2, 3 (capacity 8, allocator working) and a full deque 1,…,8 whose
allocator fails, `nut_deque_zip_iter_add(iter, 11, 21)` returns `NUT_OK` with
11 inserted into the first deque and the second deque unchanged; with the two
deques exchanged it returns `NUT_OK` with 21 inserted into the second deque and
the first unchanged.  The growth of the second deque is attempted in the test
only after the first deque was full and failed to grow, and the status
`NUT_ERR_MALLOC` of the failing `nut_deque_add_at` is dropped. -/
theorem zip_iter_add_inserts_into_one_deque :
    three.WellFormed Platform.p64 ∧ starvedDeque.WellFormed Platform.p64 ∧
      three.toList = [1, 2, 3] ∧ starvedDeque.toList = [1, 2, 3, 4, 5, 6, 7, 8] ∧
      starvedDeque.capacity = starvedDeque.size ∧
      (expand_capacity Platform.p64 starvedDeque).1 = NUT_ERR_MALLOC ∧
      (nut_deque_add_at Platform.p64 starvedDeque 21 0).1 = NUT_ERR_MALLOC ∧
      (nut_deque_zip_iter_add Platform.p64
          (nut_deque_zip_iter_init three starvedDeque) 11 21).1 = NUT_OK ∧
      (nut_deque_zip_iter_add Platform.p64
          (nut_deque_zip_iter_init three starvedDeque) 11 21).2.d1.toList = [11, 1, 2, 3] ∧
      (nut_deque_zip_iter_add Platform.p64
          (nut_deque_zip_iter_init three starvedDeque) 11 21).2.d2.toList
        = [1, 2, 3, 4, 5, 6, 7, 8] ∧
      (nut_deque_zip_iter_add Platform.p64
          (nut_deque_zip_iter_init starvedDeque three) 11 21).1 = NUT_OK ∧
      (nut_deque_zip_iter_add Platform.p64
          (nut_deque_zip_iter_init starvedDeque three) 11 21).2.d1.toList
        = [1, 2, 3, 4, 5, 6, 7, 8] ∧
      (nut_deque_zip_iter_add Platform.p64
          (nut_deque_zip_iter_init starvedDeque three) 11 21).2.d2.toList = [21, 1, 2, 3] :=
  ⟨by decide, by decide, by decide, by decide, by decide, by decide, by decide, by decide,
    by decide, by decide, by decide, by decide, by decide⟩

/-- C35, counterexample: on the deque holding 1, 2, 3 (capacity 8) the call
`nut_deque_add_at(deque, 9, 1)` returns `NUT_OK` and shifts towards the tail:
`first` stays 0, `last` goes from 3 to 4 and `memmove` moves the two elements
2 and 3, although only one element lies before the index:
`min(index, size - index) = 1`. -/
theorem add_at_middle_shifts_longer_side :
    three.WellFormed Platform.p64 ∧ three.toList = [1, 2, 3] ∧ three.size = 3 ∧
      three.first = 0 ∧ three.last = 3 ∧
      (nut_deque_add_at Platform.p64 three 9 1).1 = NUT_OK ∧
      (nut_deque_add_at Platform.p64 three 9 1).2.toList = [1, 9, 2, 3] ∧
      (nut_deque_add_at Platform.p64 three 9 1).2.first = 0 ∧
      (nut_deque_add_at Platform.p64 three 9 1).2.last = 4 ∧
      add_at_moved Platform.p64 three 1 = 2 ∧ min 1 (three.size - 1) = 1 ∧
      add_at_moved Platform.p64 three 1 ≠ min 1 (three.size - 1) :=
  ⟨by decide, by decide, by decide, by decide, by decide, by decide, by decide, by decide,
    by decide, by decide, by decide, by decide⟩

/-- C35, amended: on a well-formed deque with `0 < index < size`, growth
succeeding when the deque is full, `nut_deque_add_at` returns `NUT_OK`.  With
`g` the deque after the growth step (the deque itself when it was not full),
the call decrements `first` modulo the capacity, keeps `last` and moves `index`
slots when `index ≤ size / 2 - 1`; otherwise it increments `last` modulo the
capacity, keeps `first` and moves `size - index` slots.  The number of moved
slots is `min(index, size - index)`, except for an odd size and
`index = (size - 1) / 2`, where it is one more. -/
theorem add_at_shift_side (pf : Platform) (hpf : pf.ok) {d : Deque} (h : d.WellFormed pf)
    (hroom : d.size < d.capacity ∨ (d.capacity < MAX_POW_TWO pf ∧
      (d.mem_calloc (size_shl pf d.capacity 1) (PTR_SIZE pf)).isSome))
    (e : Ptr) {index : Nat} (h0 : 0 < index) (hi : index < d.size) :
    (nut_deque_add_at pf d e index).1 = NUT_OK ∧
      (index + 1 ≤ d.size / 2 →
        (nut_deque_add_at pf d e index).2.first
            = ((add_at_grown pf d).first + ((add_at_grown pf d).capacity - 1))
              % (add_at_grown pf d).capacity ∧
          (nut_deque_add_at pf d e index).2.last = (add_at_grown pf d).last ∧
          add_at_moved pf d index = index) ∧
      (d.size / 2 < index + 1 →
        (nut_deque_add_at pf d e index).2.last
            = ((add_at_grown pf d).last + 1) % (add_at_grown pf d).capacity ∧
          (nut_deque_add_at pf d e index).2.first = (add_at_grown pf d).first ∧
          add_at_moved pf d index = d.size - index) ∧
      (d.size ≠ 2 * index + 1 → add_at_moved pf d index = min index (d.size - index)) ∧
      (d.size = 2 * index + 1 → add_at_moved pf d index = min index (d.size - index) + 1) := by
  have key : ∃ g, add_at_grown pf d = g ∧ g.WellFormed pf ∧ g.size < g.capacity ∧
      g.size = d.size ∧ nut_deque_add_at pf d e index = nut_deque_add_at pf g e index ∧
      add_at_moved pf d index = add_at_moved pf g index := by
    by_cases hfull : d.size = d.capacity
    · rcases hroom with hlt | ⟨hmax, halloc⟩
      · omega
      · obtain ⟨d1, hexp, hm1, hcap1, hsz1, -⟩ :=
          expand_capacity_models pf hpf (models_toList pf h) hfull hmax halloc
        have hpos : 0 < d.capacity := by
          obtain ⟨k, -, -, hpos, -⟩ := h.norm pf hpf
          exact hpos
        have hne1 : ¬ d1.capacity = d1.size := by omega
        have hge : ¬ index ≥ d.size := by omega
        have hge1 : ¬ index ≥ d1.size := by omega
        refine ⟨d1, ?_, hm1.1, by omega, hsz1, ?_, ?_⟩
        · unfold add_at_grown
          rw [if_pos hfull.symm, hexp]
        · unfold nut_deque_add_at
          simp only [if_neg hge, if_neg hge1, if_pos hfull.symm, hexp, if_neg hne1]
        · unfold add_at_moved
          simp only [if_neg hge, if_neg hge1, if_pos hfull.symm, hexp, if_neg hne1]
    · have hlt : d.size < d.capacity := Nat.lt_of_le_of_ne h.2.2.1 hfull
      refine ⟨d, ?_, h, hlt, rfl, rfl, rfl⟩
      unfold add_at_grown
      rw [if_neg (fun hh => hfull hh.symm)]
  obtain ⟨g, hg, hwf, hlt, hsz, hadd, hmoved⟩ := key
  have hi' : index < g.size := by omega
  obtain ⟨hhead, htail⟩ := add_at_shift_of_lt pf hpf hwf hlt e h0 hi'
  rw [hg, hadd, hmoved, ← hsz]
  refine ⟨add_at_ok_of_lt pf hpf hwf hlt e hi', hhead, htail, ?_, ?_⟩
  · intro hodd
    rcases Nat.lt_or_ge (g.size / 2) (index + 1) with hc | hc
    · rw [(htail hc).2.2]
      omega
    · rw [(hhead hc).2.2]
      omega
  · intro hodd
    rw [(htail (by omega)).2.2]
    omega

/-- The amended C35 on the deque holding 1, 2, 3, 4 at index 1, where the
shift towards the head moves one slot. -/
theorem add_at_shift_side_witness :
    (nut_deque_add_at Platform.p64 four 9 1).1 = NUT_OK ∧
      (1 + 1 ≤ four.size / 2 →
        (nut_deque_add_at Platform.p64 four 9 1).2.first
            = ((add_at_grown Platform.p64 four).first
                + ((add_at_grown Platform.p64 four).capacity - 1))
              % (add_at_grown Platform.p64 four).capacity ∧
          (nut_deque_add_at Platform.p64 four 9 1).2.last
            = (add_at_grown Platform.p64 four).last ∧
          add_at_moved Platform.p64 four 1 = 1) ∧
      (four.size / 2 < 1 + 1 →
        (nut_deque_add_at Platform.p64 four 9 1).2.last
            = ((add_at_grown Platform.p64 four).last + 1)
              % (add_at_grown Platform.p64 four).capacity ∧
          (nut_deque_add_at Platform.p64 four 9 1).2.first
            = (add_at_grown Platform.p64 four).first ∧
          add_at_moved Platform.p64 four 1 = four.size - 1) ∧
      (four.size ≠ 2 * 1 + 1 → add_at_moved Platform.p64 four 1 = min 1 (four.size - 1)) ∧
      (four.size = 2 * 1 + 1 →
        add_at_moved Platform.p64 four 1 = min 1 (four.size - 1) + 1) :=
  add_at_shift_side Platform.p64 (by decide) (by decide : four.WellFormed Platform.p64)
    (Or.inl (by decide)) 9 (by decide) (by decide)

/-- C36: under `ARCH_64` (`size_t` of 64 bits, `MAX_POW_TWO = 2 ^ 63`) the
request `2 ^ 32 + 1` lies between 1 and `MAX_POW_TWO`, and `upper_pow_two`
returns `2 ^ 33 - 1` for it, which is not a power of two: the shift-or steps
stop at `n >> 16`. -/
theorem upper_pow_two_arch64_misses_power :
    MAX_POW_TWO Platform.p64 = 2 ^ 63 ∧ Platform.p64.bits = 64 ∧
      1 ≤ 2 ^ 32 + 1 ∧ 2 ^ 32 + 1 ≤ MAX_POW_TWO Platform.p64 ∧
      upper_pow_two Platform.p64 (2 ^ 32 + 1) = 2 ^ 33 - 1 ∧
      ¬ ∃ k, upper_pow_two Platform.p64 (2 ^ 32 + 1) = 2 ^ k := by
  have hcap : upper_pow_two Platform.p64 (2 ^ 32 + 1) = 2 ^ 33 - 1 := by decide
  refine ⟨by decide, rfl, by decide, by decide, hcap, ?_⟩
  rintro ⟨k, hk⟩
  rw [hcap] at hk
  have hk34 : k < 34 := by
    by_contra hge
    have : 2 ^ 34 ≤ 2 ^ k := Nat.pow_le_pow_right (by norm_num) (by omega)
    omega
  interval_cases k <;> omega

/-- C37: on the well-formed deque holding 1, 2, 3, 4 in a buffer of capacity 8,
`nut_deque_trim_capacity` returns `NUT_OK` and leaves capacity 4, size 4,
`first = 0` and `last = 4`: `last` equals the capacity and differs from
`(first + size) & (capacity - 1) = 0`, and the deque is full with
`first ≠ last`. -/
theorem trim_capacity_last_equals_capacity :
    nut_deque_new Platform.p64 heap = (NUT_OK, some freshDeque) ∧
      four.WellFormed Platform.p64 ∧ four.toList = [1, 2, 3, 4] ∧ four.capacity = 8 ∧
      (nut_deque_trim_capacity Platform.p64 four).1 = NUT_OK ∧
      (nut_deque_trim_capacity Platform.p64 four).2.capacity = 4 ∧
      (nut_deque_trim_capacity Platform.p64 four).2.size = 4 ∧
      (nut_deque_trim_capacity Platform.p64 four).2.first = 0 ∧
      (nut_deque_trim_capacity Platform.p64 four).2.last = 4 ∧
      ¬ (nut_deque_trim_capacity Platform.p64 four).2.last
          < (nut_deque_trim_capacity Platform.p64 four).2.capacity ∧
      ((nut_deque_trim_capacity Platform.p64 four).2.first
          + (nut_deque_trim_capacity Platform.p64 four).2.size)
        &&& ((nut_deque_trim_capacity Platform.p64 four).2.capacity - 1) = 0 ∧
      ¬ (nut_deque_trim_capacity Platform.p64 four).2.WellFormed Platform.p64 :=
  ⟨rfl, by decide, by decide, by decide, by decide, by decide, by decide, by decide,
    by decide, by decide, by decide, by decide⟩

/-- C38: for a requested capacity of 5 `nut_deque_new_conf` returns a deque of
capacity 8 over a block of 5 slots; after five `nut_deque_add_last` the sixth
returns `NUT_OK` and writes its element to slot 5, behind the block.  For a
requested capacity of 0 the deque has capacity 2 over a block of no slot, and
the first `nut_deque_add_last` writes slot 0. -/
theorem new_conf_buffer_shorter_than_capacity :
    nut_deque_new_conf Platform.p64 (heapConf 5) = (NUT_OK, some confFive) ∧
      confFive.capacity = 8 ∧ confFive.slots = 5 ∧
      (run Platform.p64 confFive
          [.add_last 1, .add_last 2, .add_last 3, .add_last 4, .add_last 5]).2
        = [(NUT_OK, none), (NUT_OK, none), (NUT_OK, none), (NUT_OK, none), (NUT_OK, none)] ∧
      confFiveFilled.size = 5 ∧ confFiveFilled.capacity = 8 ∧ confFiveFilled.last = 5 ∧
      confFiveFilled.slots = 5 ∧
      (nut_deque_add_last Platform.p64 confFiveFilled 6).1 = NUT_OK ∧
      (nut_deque_add_last Platform.p64 confFiveFilled 6).2.slots = 5 ∧
      confFiveFilled.buffer 5 = 1005 ∧
      (nut_deque_add_last Platform.p64 confFiveFilled 6).2.buffer 5 = 6 ∧
      nut_deque_new_conf Platform.p64 (heapConf 0) = (NUT_OK, some confZero) ∧
      confZero.capacity = 2 ∧ confZero.slots = 0 ∧
      (nut_deque_add_last Platform.p64 confZero 1).1 = NUT_OK ∧
      (nut_deque_add_last Platform.p64 confZero 1).2.slots = 0 ∧
      (nut_deque_add_last Platform.p64 confZero 1).2.buffer 0 = 1 :=
  ⟨rfl, by decide, by decide, by decide, by decide, by decide, by decide, by decide,
    by decide, by decide, by decide, by decide, rfl, by decide, by decide, by decide,
    by decide, by decide⟩

/-- C39: on the queue of `nut_pqueue_new` ordered by `nut_common_cmp_ptr` the
heap property holds for the empty queue and after the pushes of 3, 2 and 1
(buffer 3, 2, 1); the `nut_pqueue_pop` that follows returns 3 and leaves the
buffer 1, 2, where slot 1 has a left child only, and the heap property fails:
`cmp(buffer[0], buffer[1]) = cmp(1, 2) < 0`. -/
theorem pqueue_pop_breaks_heap_property :
    nut_pqueue_new Platform.p64 (fun _ => some zeroed) nut_common_cmp_ptr
        = (NUT_OK, some freshPQueue) ∧
      freshPQueue.IsHeap Platform.p64 ∧
      (runPQueue Platform.p64 freshPQueue [.push 3, .push 2, .push 1]).1.IsHeap Platform.p64 ∧
      (runPQueue Platform.p64 freshPQueue [.push 3, .push 2, .push 1]).1.toList = [3, 2, 1] ∧
      (runPQueue Platform.p64 freshPQueue [.push 3, .push 2, .push 1, .pop]).2
        = [(NUT_OK, none), (NUT_OK, none), (NUT_OK, none), (NUT_OK, some 3)] ∧
      (runPQueue Platform.p64 freshPQueue [.push 3, .push 2, .push 1, .pop]).1.toList
        = [1, 2] ∧
      NUT_PARENT Platform.p64 1 = 0 ∧ nut_common_cmp_ptr 1 2 < 0 ∧
      ¬ (runPQueue Platform.p64 freshPQueue [.push 3, .push 2, .push 1, .pop]).1.IsHeap
          Platform.p64 :=
  ⟨rfl, by decide, by decide, by decide, by decide, by decide, by decide, by decide,
    by decide⟩

/-- C40: on the list holding 1, 2, 3, after `nut_slist_iter_next` returned 1,
`nut_slist_iter_add(iter, 9)` gives the list 1, 9, 2, 3 of size 4; the
following `nut_slist_iter_next` returns 2 and the following
`nut_slist_iter_remove` returns 2, and the list walked from `head` is then
1, 3: the added 9 is lost together with 2, while the size field says 3. -/
theorem slist_iter_add_next_remove_loses_added :
    slistThree.2.toList slistThree.1 = [1, 2, 3] ∧
      slistThree.2.WellFormed slistThree.1 ∧
      (runSListIter Platform.p64 slistThree.1 (nut_slist_iter_init slistThree.2)
          [.next, .add 9, .next, .remove]).2
        = [(NUT_OK, some 1), (NUT_OK, none), (NUT_OK, some 2), (NUT_OK, some 2)] ∧
      (runSListIter Platform.p64 slistThree.1 (nut_slist_iter_init slistThree.2)
          [.next, .add 9]).1.2.list.toList
        (runSListIter Platform.p64 slistThree.1 (nut_slist_iter_init slistThree.2)
          [.next, .add 9]).1.1 = [1, 9, 2, 3] ∧
      (runSListIter Platform.p64 slistThree.1 (nut_slist_iter_init slistThree.2)
          [.next, .add 9]).1.2.list.size = 4 ∧
      (runSListIter Platform.p64 slistThree.1 (nut_slist_iter_init slistThree.2)
          [.next, .add 9, .next, .remove]).1.2.list.toList
        (runSListIter Platform.p64 slistThree.1 (nut_slist_iter_init slistThree.2)
          [.next, .add 9, .next, .remove]).1.1 = [1, 3] ∧
      (runSListIter Platform.p64 slistThree.1 (nut_slist_iter_init slistThree.2)
          [.next, .add 9, .next, .remove]).1.2.list.size = 3 ∧
      9 ∉ (runSListIter Platform.p64 slistThree.1 (nut_slist_iter_init slistThree.2)
          [.next, .add 9, .next, .remove]).1.2.list.toList
        (runSListIter Platform.p64 slistThree.1 (nut_slist_iter_init slistThree.2)
          [.next, .add 9, .next, .remove]).1.1 :=
  ⟨by decide, by decide, by decide, by decide, by decide, by decide, by decide, by decide⟩

end Nut
